import Mathlib

/-!
# microsat: a shallow embedding of `microsat.cpp`

The solver state `struct solver` becomes the structure `solver`; every C
function becomes a Lean function on that state.

Modelling conventions.

* The arrays `model`, `next`, `prev`, `buffer`, `reason`, `falseStack`,
  `fals`, `first` are carved out of the arena by `initCDCL`; here each one is a
  separate total map `Int → Int`, and `DB` is the arena seen through clause
  offsets.  The counters `mem_used`, `mem_fixed`, `mem_max` are kept exactly as
  the code computes them, so clause offsets are the offsets of the program.
* The pointers `forced`, `processed`, `assigned` are indices into `falseStack`.
* Arena cells that were never written read as `0` (the program relies on this
  for `fals[0]`, `reason[0]`, `next[nVars]` and the cell under an empty trail).
* `int` is `Int`; the two moving averages are wrapped to 32 bits.
* A call that does not return is an `Except.error`: `Fault.exit c` for
  `exit (c)`, `Fault.fuel` when a loop of the model used up its fuel.
-/

namespace Microsat

/-! ## Constants and state -/

def END : Int := -9
def UNSAT : Int := 0
def SAT : Int := 1
def MARK : Int := 2
def IMPLIED : Int := 6
def NOT_IMPLIED : Int := 5

/-- Ways in which a call ends without returning to its caller. -/
inductive Fault where
  | exit (code : Int)
  | fuel
  deriving DecidableEq, Repr

/-- The record `struct solver`. -/
structure solver where
  DB : Int → Int
  nVars : Int
  nClauses : Int
  mem_used : Int
  mem_fixed : Int
  mem_max : Int
  maxLemmas : Int
  nLemmas : Int
  buffer : Int → Int
  nConflicts : Int
  model : Int → Int
  reason : Int → Int
  falseStack : Int → Int
  fals : Int → Int
  first : Int → Int
  forced : Int
  processed : Int
  assigned : Int
  next : Int → Int
  prev : Int → Int
  head : Int
  fast : Int
  slow : Int

/-- Array store `a[i] = v`. -/
def upd (a : Int → Int) (i v : Int) : Int → Int :=
  fun j => if j = i then v else a j

/-- The C library function `abs` on `int`. -/
def iabs (x : Int) : Int := if x < 0 then -x else x

/-- Where the literals handed to `addClause` live: `S->buffer`, or `S->DB + off`. -/
inductive Src where
  | buffer
  | db (off : Int)
  deriving DecidableEq, Repr

/-- Read `in[i]` through a source pointer. -/
def rd (S : solver) : Src → Int → Int
  | Src.buffer, i => S.buffer i
  | Src.db off, i => S.DB (off + i)

/-! ## Arena allocator, assignment, watches -/

/-- `getMemory`: returns the old `mem_used` (the offset of `store`), or leaves
through `exit (0)` when the request does not fit. -/
def getMemory (S : solver) (mem_size : Int) : Except Fault (Int × solver) :=
  if S.mem_used + mem_size > S.mem_max then
    Except.error (Fault.exit 0)
  else
    Except.ok (S.mem_used, { S with mem_used := S.mem_used + mem_size })

def unassign (S : solver) (lit : Int) : solver :=
  { S with fals := upd S.fals lit 0 }

/-- `assign`: `reason` is the offset of the reason clause in `DB`. -/
def assign (S : solver) (reason : Int) (forced : Bool) : solver :=
  let lit := S.DB reason
  { S with
    fals := upd S.fals (-lit) (if forced then IMPLIED else 1)
    falseStack := upd S.falseStack S.assigned (-lit)
    assigned := S.assigned + 1
    reason := upd S.reason (iabs lit) reason
    model := upd S.model (iabs lit) (if lit > 0 then 1 else 0) }

/-- The loop of `restart`; it runs at most `assigned - forced` times. -/
def restartLoop : Nat → solver → solver
  | 0, S => S
  | k + 1, S =>
    if S.assigned > S.forced then
      restartLoop k (unassign { S with assigned := S.assigned - 1 } (S.falseStack (S.assigned - 1)))
    else S

def restart (S : solver) : solver :=
  let S1 := restartLoop (S.assigned - S.forced).toNat S
  { S1 with processed := S1.forced }

def addWatch (S : solver) (lit mem : Int) : solver :=
  { S with DB := upd S.DB mem (S.first lit), first := upd S.first lit mem }

/-- The copy loop of `addClause`: `n` more iterations starting at index `i`. -/
def copyLits (src : Src) (clause : Int) : Nat → Int → solver → solver
  | 0, _, S => S
  | n + 1, i, S => copyLits src clause n (i + 1) { S with DB := upd S.DB (clause + i) (rd S src i) }

/-- The tail of `addClause`: `for (i = 0; i < size; i++) clause[i] = in[i]; clause[i] = 0;` -/
def storeLits (src : Src) (clause size : Int) (S : solver) : solver :=
  let S3 := copyLits src clause size.toNat 0 S
  { S3 with DB := upd S3.DB (clause + (size.toNat : Int)) 0 }

/-- `addClause`: returns the offset of the first literal of the stored clause. -/
def addClause (S : solver) (src : Src) (size irr : Int) : Except Fault (Int × solver) :=
  let used := S.mem_used
  match getMemory S (size + 3) with
  | Except.error e => Except.error e
  | Except.ok (store, S1) =>
    let clause := store + 2
    let S2 := if size > 1 then
        let Sa := addWatch S1 (rd S1 src 0) used
        addWatch Sa (rd Sa src 1) (used + 1)
      else S1
    let S4 := storeLits src clause size S2
    let S5 := if irr ≠ 0 then { S4 with mem_fixed := S4.mem_used }
      else { S4 with nLemmas := S4.nLemmas + 1 }
    Except.ok (clause, S5)

/-! ## Learned-clause reduction -/

/-- `while (S->nLemmas > S->maxLemmas) S->maxLemmas += 300;` (at most
`nLemmas - maxLemmas` rounds). -/
def growMaxLemmas : Nat → solver → solver
  | 0, S => S
  | k + 1, S =>
    if S.nLemmas > S.maxLemmas then growMaxLemmas k { S with maxLemmas := S.maxLemmas + 300 }
    else S

/-- `while (*watch >= S->mem_fixed) *watch = S->DB[*watch];` with `watch = &S->first[i]`. -/
def cutWatch : Nat → Int → solver → Except Fault solver
  | 0, i, S => if S.first i ≥ S.mem_fixed then Except.error Fault.fuel else Except.ok S
  | f + 1, i, S =>
    if S.first i ≥ S.mem_fixed then
      cutWatch f i { S with first := upd S.first i (S.DB (S.first i)) }
    else Except.ok S

/-- The loop over `i = -nVars .. nVars` of `reduceDB`; `n` iterations are left. -/
def cutLoop (fuel : Nat) : Nat → Int → solver → Except Fault solver
  | 0, _, S => Except.ok S
  | n + 1, i, S =>
    if i = 0 then cutLoop fuel n (i + 1) S
    else
      match cutWatch fuel i S with
      | Except.error e => Except.error e
      | Except.ok S1 => cutLoop fuel n (i + 1) S1

/-- `while ((lit = S->DB[i++])) if ((lit > 0) == S->model[abs(lit)]) count++;`
returns the final `i` and `count`. -/
def countLits : Nat → solver → Int → Int → Except Fault (Int × Int)
  | 0, _, _, _ => Except.error Fault.fuel
  | f + 1, S, i, count =>
    let lit := S.DB i
    if lit ≠ 0 then
      countLits f S (i + 1) (if (if lit > 0 then 1 else 0) = S.model (iabs lit) then count + 1 else count)
    else Except.ok (i + 1, count)

/-- The replay loop `for (i = mem_fixed + 2; i < old_used; i += 3)` of `reduceDB`. -/
def replay (fuel : Nat) (k old_used : Int) : Nat → Int → solver → Except Fault solver
  | 0, i, S => if i < old_used then Except.error Fault.fuel else Except.ok S
  | n + 1, i, S =>
    if i < old_used then
      let head := i
      match countLits fuel S i 0 with
      | Except.error e => Except.error e
      | Except.ok (i1, count) =>
        if count < k then
          match addClause S (Src.db head) (i1 - head) 0 with
          | Except.error e => Except.error e
          | Except.ok (_, S1) => replay fuel k old_used n (i1 + 3) S1
        else replay fuel k old_used n (i1 + 3) S
    else Except.ok S

def reduceDB (fuel : Nat) (S : solver) (k : Int) : Except Fault solver :=
  let S1 := growMaxLemmas (S.nLemmas - S.maxLemmas).toNat S
  let S2 := { S1 with nLemmas := 0 }
  match cutLoop fuel (2 * S2.nVars + 1).toNat (-S2.nVars) S2 with
  | Except.error e => Except.error e
  | Except.ok S3 =>
    let old_used := S3.mem_used
    let S4 := { S3 with mem_used := S3.mem_fixed }
    replay fuel k old_used fuel (S4.mem_fixed + 2) S4

/-! ## Conflict analysis -/

def bump (S : solver) (lit : Int) : solver :=
  if S.fals lit ≠ IMPLIED then
    let S1 := { S with fals := upd S.fals lit MARK }
    let var := iabs lit
    if var ≠ S1.head then
      let S2 := { S1 with prev := upd S1.prev (S1.next var) (S1.prev var) }
      let S3 := { S2 with next := upd S2.next (S2.prev var) (S2.next var) }
      let S4 := { S3 with next := upd S3.next S3.head var }
      { S4 with prev := upd S4.prev var S4.head, head := var }
    else S1
  else S

mutual
/-- `implied`: the answer and the state with the memoised marks. -/
def implied : Nat → solver → Int → Except Fault (Bool × solver)
  | 0, _, _ => Except.error Fault.fuel
  | f + 1, S, lit =>
    if S.fals lit > MARK then Except.ok (decide (S.fals lit = IMPLIED), S)
    else if S.reason (iabs lit) = 0 then Except.ok (false, S)
    else impliedLoop f S lit (S.reason (iabs lit) + 1)
/-- The loop `while (*(++p))` of `implied`; `p` is the pointer after the increment.
`fals[*p] ^ MARK` is nonzero exactly when `fals[*p]` differs from `MARK`. -/
def impliedLoop : Nat → solver → Int → Int → Except Fault (Bool × solver)
  | 0, _, _, _ => Except.error Fault.fuel
  | f + 1, S, lit, p =>
    if S.DB p ≠ 0 then
      if S.fals (S.DB p) ≠ MARK then
        match implied f S (S.DB p) with
        | Except.error e => Except.error e
        | Except.ok (b, S1) =>
          if b then impliedLoop f S1 lit (p + 1)
          else Except.ok (false, { S1 with fals := upd S1.fals lit NOT_IMPLIED })
      else impliedLoop f S lit (p + 1)
    else Except.ok (true, { S with fals := upd S.fals lit IMPLIED })
end

/-- Wrap to the range of a 32-bit `int`. -/
def wrap32 (x : Int) : Int := (x + 2147483648) % 4294967296 - 2147483648

/-- `while (*clause) bump (S, *(clause++));`  The loop `while (*(++clause)) bump (S, *clause);`
is the same loop started one cell further. -/
def bumpLits : Nat → Int → solver → Except Fault solver
  | 0, _, _ => Except.error Fault.fuel
  | f + 1, clause, S =>
    if S.DB clause ≠ 0 then bumpLits f (clause + 1) (bump S (S.DB clause))
    else Except.ok S

/-- The first-UIP test `while (S->reason[abs(*(--check))]) if (S->fals[*check]==MARK) break;`
returns the final `check`. -/
def checkLoop : Nat → solver → Int → Except Fault Int
  | 0, _, _ => Except.error Fault.fuel
  | f + 1, S, check =>
    let c := check - 1
    if S.reason (iabs (S.falseStack c)) ≠ 0 then
      if S.fals (S.falseStack c) = MARK then Except.ok c else checkLoop f S c
    else Except.ok c

/-- The loop `while (S->reason[abs(*(--S->assigned))])` of `analyze`. -/
def analyzeLoop : Nat → solver → Except Fault solver
  | 0, _ => Except.error Fault.fuel
  | f + 1, S =>
    let S1 := { S with assigned := S.assigned - 1 }
    let top := S1.falseStack S1.assigned
    if S1.reason (iabs top) ≠ 0 then
      if S1.fals top = MARK then
        match checkLoop f S1 S1.assigned with
        | Except.error e => Except.error e
        | Except.ok check =>
          if S1.reason (iabs (S1.falseStack check)) = 0 ∧ S1.fals (S1.falseStack check) ≠ MARK then
            Except.ok S1
          else
            match bumpLits f (S1.reason (iabs top) + 1) S1 with
            | Except.error e => Except.error e
            | Except.ok S2 => analyzeLoop f (unassign S2 (S2.falseStack S2.assigned))
      else analyzeLoop f (unassign S1 top)
    else Except.ok S1

/-- The loop `while (p >= S->forced)` of `analyze`; returns the state, `size` and `lbd`. -/
def buildLoop : Nat → solver → Int → Int → Int → Int → Except Fault (solver × Int × Int)
  | 0, _, _, _, _, _ => Except.error Fault.fuel
  | f + 1, S, p, size, lbd, flag =>
    if p ≥ S.forced then
      let lit := S.falseStack p
      let kept : Except Fault (solver × Int × Int) :=
        if S.fals lit = MARK then
          match implied f S lit with
          | Except.error e => Except.error e
          | Except.ok (b, S1) =>
            if b then Except.ok (S1, size, flag)
            else Except.ok ({ S1 with buffer := upd S1.buffer size lit }, size + 1, 1)
        else Except.ok (S, size, flag)
      match kept with
      | Except.error e => Except.error e
      | Except.ok (S2, size2, flag2) =>
        let S3 := if S2.reason (iabs lit) = 0 ∧ size2 = 1 then { S2 with processed := p } else S2
        let lbd3 := if S2.reason (iabs lit) = 0 then lbd + flag2 else lbd
        let flag3 := if S2.reason (iabs lit) = 0 then 0 else flag2
        buildLoop f { S3 with fals := upd S3.fals lit 1 } (p - 1) size2 lbd3 flag3
    else Except.ok (S, size, lbd)

/-- `while (S->assigned > S->processed) unassign (S, *(S->assigned--));` -/
def backjumpLoop : Nat → solver → solver
  | 0, S => S
  | k + 1, S =>
    if S.assigned > S.processed then
      backjumpLoop k (unassign { S with assigned := S.assigned - 1 } (S.falseStack S.assigned))
    else S

/-- `analyze`: `clause` is the offset of the falsified clause; returns the offset of the lemma. -/
def analyze (fuel : Nat) (S : solver) (clause : Int) : Except Fault (Int × solver) :=
  let S0 := { S with nConflicts := S.nConflicts + 1 }
  match bumpLits fuel clause S0 with
  | Except.error e => Except.error e
  | Except.ok S1 =>
    match analyzeLoop fuel S1 with
    | Except.error e => Except.error e
    | Except.ok S2 =>
      let S3 := { S2 with processed := S2.assigned }
      match buildLoop fuel S3 S3.assigned 0 0 0 with
      | Except.error e => Except.error e
      | Except.ok (S4, size, lbd) =>
        let S5 := { S4 with fast := wrap32 (S4.fast - S4.fast / 32) }
        let S6 := { S5 with fast := wrap32 (S5.fast + wrap32 (lbd * 32768)) }
        let S7 := { S6 with slow := wrap32 (S6.slow - S6.slow / 32768) }
        let S8 := { S7 with slow := wrap32 (S7.slow + wrap32 (lbd * 32)) }
        let S9 := backjumpLoop (S8.assigned - S8.processed).toNat S8
        let S10 := unassign S9 (S9.falseStack S9.assigned)
        let S11 := { S10 with buffer := upd S10.buffer size 0 }
        addClause S11 Src.buffer size 0

/-! ## Propagation -/

/-- The pointer `watch` of `propagate`: `&S->first[lit]` or `S->DB + off`. -/
inductive Watch where
  | first (lit : Int)
  | db (off : Int)
  deriving DecidableEq, Repr

/-- Read `*watch`. -/
def rdW (S : solver) : Watch → Int
  | Watch.first lit => S.first lit
  | Watch.db off => S.DB off

/-- Store `*watch = v`. -/
def wrW (S : solver) (w : Watch) (v : Int) : solver :=
  match w with
  | Watch.first lit => { S with first := upd S.first lit v }
  | Watch.db off => { S with DB := upd S.DB off v }

/-- How the loops of `propagate` end: they run on with the flag `forced`, or
`propagate` has returned `UNSAT`. -/
inductive Flow where
  | go (forced : Bool) (S : solver)
  | ret (S : solver)

/-- The scan `for (i = 2; unit && clause[i]; i++)` of `propagate`; returns `unit`. -/
def scanLoop : Nat → solver → Int → Int → Watch → Int → Except Fault (Bool × solver)
  | 0, _, _, _, _, _ => Except.error Fault.fuel
  | f + 1, S, clause, lit, watch, i =>
    if S.DB (clause + i) ≠ 0 then
      if S.fals (S.DB (clause + i)) = 0 then
        let S1 := { S with DB := upd S.DB (clause + 1) (S.DB (clause + i)) }
        let S2 := { S1 with DB := upd S1.DB (clause + i) lit }
        let store := rdW S2 watch
        let S3 := wrW S2 watch (S2.DB (rdW S2 watch))
        Except.ok (false, addWatch S3 (S3.DB (clause + 1)) store)
      else scanLoop f S clause lit watch (i + 1)
    else Except.ok (true, S)

/-- The loop `while (*watch != END)` of `propagate`. -/
def watchLoop : Nat → solver → Int → Watch → Bool → Except Fault Flow
  | 0, _, _, _, _ => Except.error Fault.fuel
  | f + 1, S, lit, watch, forced =>
    if rdW S watch ≠ END then
      let w := rdW S watch
      let clause := if S.DB (w - 1) = 0 then w + 2 else w + 1
      let S1 := if S.DB clause = lit then { S with DB := upd S.DB clause (S.DB (clause + 1)) } else S
      match scanLoop f S1 clause lit watch 2 with
      | Except.error e => Except.error e
      | Except.ok (unit, S2) =>
        if unit then
          let S3 := { S2 with DB := upd S2.DB (clause + 1) lit }
          let watch1 := Watch.db (rdW S3 watch)
          if S3.fals (-(S3.DB clause)) ≠ 0 then watchLoop f S3 lit watch1 forced
          else if S3.fals (S3.DB clause) = 0 then watchLoop f (assign S3 clause forced) lit watch1 forced
          else if forced then Except.ok (Flow.ret S3)
          else
            match analyze f S3 clause with
            | Except.error e => Except.error e
            | Except.ok (lem, S4) =>
              let forced1 := if S4.DB (lem + 1) = 0 then true else forced
              Except.ok (Flow.go forced1 (assign S4 lem forced1))
        else watchLoop f S2 lit watch forced
    else Except.ok (Flow.go forced S)

/-- The loop `while (S->processed < S->assigned)` of `propagate`. -/
def propLoop : Nat → solver → Bool → Except Fault Flow
  | 0, _, _ => Except.error Fault.fuel
  | f + 1, S, forced =>
    if S.processed < S.assigned then
      let lit := S.falseStack S.processed
      let S1 := { S with processed := S.processed + 1 }
      match watchLoop f S1 lit (Watch.first lit) forced with
      | Except.error e => Except.error e
      | Except.ok (Flow.ret S2) => Except.ok (Flow.ret S2)
      | Except.ok (Flow.go forced1 S2) => propLoop f S2 forced1
    else Except.ok (Flow.go forced S)

def propagate (fuel : Nat) (S : solver) : Except Fault (Int × solver) :=
  let forced := decide (S.reason (iabs (S.falseStack S.processed)) ≠ 0)
  match propLoop fuel S forced with
  | Except.error e => Except.error e
  | Except.ok (Flow.ret S1) => Except.ok (UNSAT, S1)
  | Except.ok (Flow.go forced1 S1) =>
    Except.ok (SAT, if forced1 then { S1 with forced := S1.processed } else S1)

/-! ## Search -/

/-- `while (S->fals[decision] || S->fals[-decision]) decision = S->prev[decision];` -/
def nextDecision : Nat → solver → Int → Except Fault Int
  | 0, _, _ => Except.error Fault.fuel
  | f + 1, S, decision =>
    if S.fals decision ≠ 0 ∨ S.fals (-decision) ≠ 0 then nextDecision f S (S.prev decision)
    else Except.ok decision

/-- The restart and reduction block of `solve`, run when a lemma was learned. -/
def afterConflict (fuel : Nat) (S : solver) : Except Fault solver :=
  if S.fast > (Int.tdiv S.slow 100) * 125 then
    let S1 := { S with fast := (Int.tdiv S.slow 100) * 125 }
    let S2 := restart S1
    if S2.nLemmas > S2.maxLemmas then reduceDB fuel S2 6 else Except.ok S2
  else Except.ok S

/-- The loop `for (;;)` of `solve`. -/
def solveLoop : Nat → solver → Int → Except Fault (Int × solver)
  | 0, _, _ => Except.error Fault.fuel
  | f + 1, S, decision =>
    let old_nLemmas := S.nLemmas
    match propagate f S with
    | Except.error e => Except.error e
    | Except.ok (r, S1) =>
      if r = UNSAT then Except.ok (UNSAT, S1)
      else
        let learned := decide (S1.nLemmas > old_nLemmas)
        match (if learned then afterConflict f S1 else Except.ok S1) with
        | Except.error e => Except.error e
        | Except.ok S2 =>
          match nextDecision f S2 (if learned then S1.head else decision) with
          | Except.error e => Except.error e
          | Except.ok d =>
            if d = 0 then Except.ok (SAT, S2)
            else
              let d1 := if S2.model d ≠ 0 then d else -d
              let S3 := { S2 with fals := upd S2.fals (-d1) 1 }
              let S4 := { S3 with
                falseStack := upd S3.falseStack S3.assigned (-d1)
                assigned := S3.assigned + 1 }
              solveLoop f { S4 with reason := upd S4.reason (iabs d1) 0 } (iabs d1)

def solve (fuel : Nat) (S : solver) : Except Fault (Int × solver) :=
  solveLoop fuel S S.head

/-! ## Initialisation and clause ingestion -/

/-- The loop `for (i = 1; i <= n; i++)` of `initCDCL`; `k` iterations are left. -/
def initLoop : Nat → Int → solver → solver
  | 0, _, S => S
  | k + 1, i, S =>
    let S1 := { S with prev := upd S.prev i (i - 1) }
    let S2 := { S1 with next := upd S1.next (i - 1) i }
    let S3 := { S2 with fals := upd S2.fals i 0 }
    let S4 := { S3 with fals := upd S3.fals (-i) 0 }
    let S5 := { S4 with model := upd S4.model i 0 }
    let S6 := { S5 with first := upd S5.first (-i) END }
    let S7 := { S6 with first := upd S6.first i END }
    initLoop k (i + 1) S7

/-- `initCDCL`.  The argument `S` is the uninitialised record of `main`: the
fields the function does not set (`mem_fixed`) keep whatever they held. -/
def initCDCL (S : solver) (n0 m : Int) : Except Fault solver :=
  let n := if n0 < 1 then 1 else n0
  let Sa : solver :=
    { S with
      nVars := n
      nClauses := m
      mem_max := 1073741824
      mem_used := 0
      nLemmas := 0
      nConflicts := 0
      maxLemmas := 2000
      fast := 16777216
      slow := 16777216
      DB := fun _ => 0 }
  (getMemory Sa (n + 1)).bind fun r1 =>
  (getMemory { r1.2 with model := fun _ => 0 } (n + 1)).bind fun r2 =>
  (getMemory { r2.2 with next := fun _ => 0 } (n + 1)).bind fun r3 =>
  (getMemory { r3.2 with prev := fun _ => 0 } n).bind fun r4 =>
  (getMemory { r4.2 with buffer := fun _ => 0 } (n + 1)).bind fun r5 =>
  (getMemory { r5.2 with reason := fun _ => 0 } (n + 1)).bind fun r6 =>
  (getMemory { r6.2 with falseStack := fun _ => 0, forced := 0, processed := 0, assigned := 0 }
      (2 * n + 1)).bind fun r7 =>
  (getMemory { r7.2 with fals := fun _ => 0 } (2 * n + 1)).bind fun r8 =>
  let Sb : solver := { r8.2 with first := fun _ => 0 }
  let Sc : solver := { Sb with DB := upd Sb.DB Sb.mem_used 0, mem_used := Sb.mem_used + 1 }
  let Sd := initLoop n.toNat 1 Sc
  Except.ok { Sd with head := n }

/-- The parser's `S->buffer[size++] = lit;` for the literals of one clause. -/
def fillBuffer : List Int → Int → solver → solver
  | [], _, S => S
  | l :: ls, size, S => fillBuffer ls (size + 1) { S with buffer := upd S.buffer size l }

/-- The ingestion step of `parse` for one clause, taken at its terminating `0`:
the clause is added as irredundant and the empty / unit checks are made.  The
answer is `UNSAT` when `parse` returns `UNSAT` here and `SAT` when it goes on. -/
def ingestClause (S : solver) (c : List Int) : Except Fault (Int × solver) :=
  let S1 := fillBuffer c 0 S
  let size : Int := c.length
  match addClause S1 Src.buffer size 1 with
  | Except.error e => Except.error e
  | Except.ok (clause, S2) =>
    if size = 0 ∨ (size = 1 ∧ S2.fals (S2.DB clause) ≠ 0) then Except.ok (UNSAT, S2)
    else if size = 1 ∧ S2.fals (-(S2.DB clause)) = 0 then Except.ok (SAT, assign S2 clause true)
    else Except.ok (SAT, S2)

/-- The loop `while (nZeros > 0)` of `parse` over the clauses of the file; when
the file ends early the scan yields literal `0`, that is an empty clause. -/
def ingest : List (List Int) → Int → solver → Except Fault (Int × solver)
  | [], nZeros, S => if nZeros > 0 then ingestClause S [] else Except.ok (SAT, S)
  | c :: cs, nZeros, S =>
    if nZeros > 0 then
      match ingestClause S c with
      | Except.error e => Except.error e
      | Except.ok (r, S1) => if r = UNSAT then Except.ok (UNSAT, S1) else ingest cs (nZeros - 1) S1
    else Except.ok (SAT, S)

/-- `parse` after the header `p cnf nVars nClauses` has been read. -/
def parse (S : solver) (nVars nClauses : Int) (cs : List (List Int)) : Except Fault (Int × solver) :=
  match initCDCL S nVars nClauses with
  | Except.error e => Except.error e
  | Except.ok S1 => ingest cs S1.nClauses S1

/-- The verdict computed by `main`. -/
def main (fuel : Nat) (S : solver) (nVars nClauses : Int) (cs : List (List Int)) :
    Except Fault (Int × solver) :=
  match parse S nVars nClauses cs with
  | Except.error e => Except.error e
  | Except.ok (r, S1) => if r = UNSAT then Except.ok (UNSAT, S1) else solve fuel S1

/-! ## Auxiliary notions used by the statements -/

/-- The record of `main` before `initCDCL` ran, with every field zero. -/
def blank : solver :=
  { DB := fun _ => 0, nVars := 0, nClauses := 0, mem_used := 0, mem_fixed := 0, mem_max := 0,
    maxLemmas := 0, nLemmas := 0, buffer := fun _ => 0, nConflicts := 0, model := fun _ => 0,
    reason := fun _ => 0, falseStack := fun _ => 0, fals := fun _ => 0, first := fun _ => 0,
    forced := 0, processed := 0, assigned := 0, next := fun _ => 0, prev := fun _ => 0,
    head := 0, fast := 0, slow := 0 }

/-- The state carried by a result, `blank` when the call did not return. -/
def stateOf (r : Except Fault (Int × solver)) : solver :=
  match r with
  | Except.ok (_, S) => S
  | Except.error _ => blank

/-- The arena bounds are in order. -/
def memInv (S : solver) : Prop := S.mem_fixed ≤ S.mem_used ∧ S.mem_used ≤ S.mem_max

/-- The state carried by the result of `initCDCL` or `reduceDB`, `blank` when
the call did not return. -/
def outOf (r : Except Fault solver) : solver :=
  match r with
  | Except.ok S => S
  | Except.error _ => blank

/-- The `n` arena cells from offset `a` on. -/
def cells (S : solver) (a : Int) : Nat → List Int
  | 0 => []
  | n + 1 => S.DB a :: cells S (a + 1) n

/-- A lemma is stored the way `analyze` stores it: its literals are put in
`S->buffer` and `addClause` is called with `irr = 0`. -/
def addLemma (S : solver) (c : List Int) : solver :=
  stateOf (addClause (fillBuffer c 0 S) Src.buffer c.length 0)

/-- The state in which `parse` calls `addClause` for the clause `1 1 0` of a
file with header `p cnf 1 1`. -/
def dupInput : solver := fillBuffer [1, 1] 0 (outOf (initCDCL blank 1 1))

/-- The state in which `parse` calls `addClause` for the clause `1 2 0` of a
file with header `p cnf 2 1`. -/
def pairInput : solver := fillBuffer [1, 2] 0 (outOf (initCDCL blank 2 1))

/-- The three arena bounds of a state. -/
def mem3 (S : solver) : Int × Int × Int := (S.mem_used, S.mem_fixed, S.mem_max)

/-- The state a loop of `propagate` ends in. -/
def Flow.state : Flow → solver
  | Flow.go _ S => S
  | Flow.ret S => S

/-- The offsets met when a watch list is followed from `w` through the link
cells of `DB`, up to `END` or for `n` steps. -/
def watchChain (S : solver) : Nat → Int → List Int
  | 0, _ => []
  | n + 1, w => if w = END then [] else w :: watchChain S n (S.DB w)

/-- A state with one original clause `1 2 3` (header `p cnf 3 1`) and the two
lemmas `1 2` and `-1 -2 3` in the learned region. -/
def lemmaState : solver :=
  addLemma (addLemma (stateOf (parse blank 3 1 [[1, 2, 3]])) [1, 2]) [-1, -2, 3]

/-- A state after `propagate` at the root: the file `p cnf 3 2` with clauses
`1 2 3` and `-2`, the lemmas `1 3` and `3 1` in the learned region, and the
unit `-2` propagated, which moved the second watch of `1 2 3` to the front of
the list of literal `3`, before the watches of the two lemmas. -/
def relocState : solver :=
  stateOf (propagate 20
    (addLemma (addLemma (stateOf (parse blank 3 2 [[1, 2, 3], [-2]])) [1, 3]) [3, 1]))

/-- Whether a call of `initCDCL` or `reduceDB` returned. -/
def isOk (r : Except Fault solver) : Bool :=
  match r with
  | Except.ok _ => true
  | Except.error _ => false

/-- The state of a whole run at the point where `solve` would call `reduceDB`:
`main` on the file `p cnf 4 4` with clauses `2 4 -1`, `-1 3 2`, `2 1` and
`-2 4 3` (two conflicts, the lemmas `3 4` and `2 4` are learned, the answer
is `SAT`), followed by `restart`, which `solve` calls right before
`reduceDB`. -/
def solvedState : solver :=
  restart (stateOf (main 50 blank 4 4 [[2, 4, -1], [-1, 3, 2], [2, 1], [-2, 4, 3]]))

/-- The verdict of a call, `none` when it did not return. -/
def verdictOf (r : Except Fault (Int × solver)) : Option Int :=
  match r with
  | Except.ok (v, _) => some v
  | Except.error _ => none

/-- The decision block that ends the loop body of `solve`, for the variable
`d` the decision walk stopped at: the literal is chosen by the saved phase,
made true, pushed on the trail, and given no reason. -/
def pushDecision (S : solver) (d : Int) : solver :=
  let d1 := if S.model d ≠ 0 then d else -d
  let S3 := { S with fals := upd S.fals (-d1) 1 }
  let S4 := { S3 with
    falseStack := upd S3.falseStack S3.assigned (-d1)
    assigned := S3.assigned + 1 }
  { S4 with reason := upd S4.reason (iabs d1) 0 }

/-- The clauses of the run with three variables and seven clauses. -/
def sevenClauses : List (List Int) :=
  [[1, 2, 3], [1, 2, -3], [1, -2, 3], [1, -2, -3], [-1, 2, 3], [-1, 2, -3], [-1, -2, 3]]

/-- The state after ingestion of the file `p cnf 3 2` with clauses `2 3` and
`3 -2`. -/
def staleStart : solver := stateOf (parse blank 3 2 [[2, 3], [3, -2]])

/-- The state at the second return of `propagate` in the run of `solve` on
`staleStart`: the first call finds nothing to do, variable 3 is decided, and
the second call propagates, meets a conflict, learns the unit lemma `3`,
backjumps to the root and returns. -/
def staleState : solver :=
  stateOf (propagate 20 (pushDecision (stateOf (propagate 20 staleStart)) 3))

/-- The fields that conflict analysis reads but never writes before it stores
the lemma. -/
def static (S : solver) :=
  (S.DB, S.nVars, S.nClauses, S.mem_used, S.mem_fixed, S.mem_max, S.maxLemmas, S.nLemmas,
    S.model, S.reason, S.falseStack, S.first, S.forced)

/-- The tail of `analyze` between the loop that builds the lemma and the call
of `addClause`: the two moving averages are updated, the trail is unwound to
`processed`, and the buffer is terminated. -/
def preLemma (S4 : solver) (size lbd : Int) : solver :=
  let S5 : solver := { S4 with fast := wrap32 (S4.fast - S4.fast / 32) }
  let S6 : solver := { S5 with fast := wrap32 (S5.fast + wrap32 (lbd * 32768)) }
  let S7 : solver := { S6 with slow := wrap32 (S6.slow - S6.slow / 32768) }
  let S8 : solver := { S7 with slow := wrap32 (S7.slow + wrap32 (lbd * 32)) }
  let S9 := backjumpLoop (S8.assigned - S8.processed).toNat S8
  let S10 := unassign S9 (S9.falseStack S9.assigned)
  { S10 with buffer := upd S10.buffer size 0 }

/-- The fields `addClause` never writes. -/
def kept (S : solver) :=
  (S.nVars, S.nClauses, S.mem_max, S.maxLemmas, S.buffer, S.nConflicts, S.model, S.reason,
    S.falseStack, S.fals, S.forced, S.processed, S.assigned, S.next, S.prev, S.head, S.fast,
    S.slow)

/-- Following `prev` from `h` meets the variables of `L` in this order and
then reaches 0. -/
def prevChain (prev : Int → Int) : Int → List Int → Prop
  | h, [] => h = 0
  | h, v :: L => h = v ∧ prevChain prev (prev v) L

/-- Whether `prevChain prev h L` holds can be computed. -/
def prevChainDec (prev : Int → Int) : (h : Int) → (L : List Int) → Decidable (prevChain prev h L)
  | h, [] => inferInstanceAs (Decidable (h = 0))
  | h, v :: L => @instDecidableAnd (h = v) (prevChain prev (prev v) L) inferInstance
      (prevChainDec prev (prev v) L)

instance prevChainDecidable (prev : Int → Int) (h : Int) (L : List Int) :
    Decidable (prevChain prev h L) := prevChainDec prev h L

/-- The variables met when following `prev` from `v` until 0 is reached, at
most `k` of them. -/
def walk (prev : Int → Int) : Nat → Int → List Int
  | 0, _ => []
  | k + 1, v => if v = 0 then [] else v :: walk prev k (prev v)

/-- The decision list: the variables in the order in which they are met when
following `prev` from `head`; `nVars + 1` steps are made, so that the list
has more than `nVars` entries when 0 is not reached after `nVars` variables. -/
def vmtfOrder (S : solver) : List Int := walk S.prev (S.nVars.toNat + 1) S.head

/-- The decision list of `S` is `L`: following `prev` from `head` meets the
variables of `L` in this order and then reaches 0, `L` holds each variable
`1 .. nVars` exactly once, and `next` leads back from each variable of the
list to the one met before it. -/
structure VmtfList (S : solver) (L : List Int) : Prop where
  chain : prevChain S.prev S.head L
  nodup : L.Nodup
  mem : ∀ v, v ∈ L ↔ 1 ≤ v ∧ v ≤ S.nVars
  back : ∀ v, v ∈ L → S.prev v ≠ 0 → S.next (S.prev v) = v

/-- The variables `k, k - 1, .., 1`. -/
def descList : Nat → List Int
  | 0 => []
  | k + 1 => ((k : Int) + 1) :: descList k

/-- The fields that stay as they are while literals are bumped or tested for
being implied. -/
def rest (S : solver) :=
  (S.assigned, S.processed, S.buffer, S.nConflicts, S.fast, S.slow)

/-- The invariant of the decision list: `head` is a variable, every `prev`
entry is a variable or 0, and following `prev` from `head` meets each
variable `1 .. nVars` exactly once and then reaches 0 (`VmtfList`). -/
def VmtfInv (S : solver) : Prop :=
  1 ≤ S.head ∧ S.head ≤ S.nVars ∧ (∀ v, 0 ≤ S.prev v ∧ S.prev v ≤ S.nVars) ∧
  ∃ L, VmtfList S L

/-- Trail position `k` holds a literal that has a reason clause. -/
def hasReason (S : solver) (k : Int) : Prop := S.reason (iabs (S.falseStack k)) ≠ 0

/-- At offset `c` a clause of `n` literals is stored: `n` nonzero cells and a 0. -/
def clauseAt (S : solver) (c n : Int) : Prop :=
  1 ≤ n ∧ (∀ m, 0 ≤ m → m < n → S.DB (c + m) ≠ 0) ∧ S.DB (c + n) = 0

/-- The trail and `fals` describe the same assignment: the trail holds
literals of the formula, each once, `fals` is nonzero exactly at the trail
literals, and no variable is false in both polarities. -/
structure TrailInv (S : solver) : Prop where
  nvars : 1 ≤ S.nVars
  forced_nonneg : 0 ≤ S.forced
  forced_le : S.forced ≤ S.assigned
  range : ∀ i, 0 ≤ i → i < S.assigned → S.falseStack i ≠ 0 ∧ iabs (S.falseStack i) ≤ S.nVars
  fals_on : ∀ i, 0 ≤ i → i < S.assigned → S.fals (S.falseStack i) ≠ 0
  on_fals : ∀ l, S.fals l ≠ 0 → ∃ i, 0 ≤ i ∧ i < S.assigned ∧ S.falseStack i = l
  consistent : ∀ l, S.fals l ≠ 0 → S.fals (-l) = 0
  inj : ∀ i j, 0 ≤ i → i < S.assigned → 0 ≤ j → j < S.assigned →
    S.falseStack i = S.falseStack j → i = j

/-- The marks of the trail literals: below position `b` they are `IMPLIED` and
have a reason, from `b` on they are 1, and position `b` holds a decision. -/
structure Levels (S : solver) (b : Int) : Prop where
  root : ∀ i, 0 ≤ i → i < b → S.fals (S.falseStack i) = IMPLIED ∧ hasReason S i
  upper : ∀ i, b ≤ i → i < S.assigned → S.fals (S.falseStack i) = 1
  first_dec : b < S.assigned → ¬ hasReason S b

/-- Every propagated trail literal has a reason clause that forces it: the
clause starts with the literal made true and its other literals are false and
earlier on the trail; from position `b` on one of them belongs to the same
decision level. -/
def ReasonInv (S : solver) (b : Int) : Prop :=
  ∀ i, 0 ≤ i → i < S.assigned → hasReason S i →
    ∃ n, clauseAt S (S.reason (iabs (S.falseStack i))) n ∧
      S.DB (S.reason (iabs (S.falseStack i))) = -(S.falseStack i) ∧
      (∀ m, 1 ≤ m → m < n → ∃ j, 0 ≤ j ∧ j < i ∧
        S.falseStack j = S.DB (S.reason (iabs (S.falseStack i)) + m)) ∧
      (b ≤ i → ∃ m j, 1 ≤ m ∧ m < n ∧ 0 ≤ j ∧ j < i ∧
        S.falseStack j = S.DB (S.reason (iabs (S.falseStack i)) + m) ∧
        ∀ k, j < k → k < i → hasReason S k)

/-- The state in which `propagate` calls `analyze`: a decision is on the trail
and the clause at offset `c` is falsified, with a literal of the current
decision level. -/
structure Conflict (S : solver) (c : Int) : Prop where
  trail : TrailInv S
  levels : Levels S S.forced
  reasons : ReasonInv S S.forced
  vmtf : VmtfInv S
  dec : S.forced < S.assigned
  falsified : ∃ n, clauseAt S c n ∧ (∀ m, 0 ≤ m → m < n → S.fals (S.DB (c + m)) ≠ 0) ∧
    ∃ m j, 0 ≤ m ∧ m < n ∧ 0 ≤ j ∧ j < S.assigned ∧ S.falseStack j = S.DB (c + m) ∧
      ∀ k, j < k → k < S.assigned → hasReason S k

/-- The loop invariant of the first loop of `analyze`, relative to the state
`S0` in which `analyze` was called. -/
structure Ana (S0 S : solver) : Prop where
  st : static S = static S0
  le : S.assigned ≤ S0.assigned
  low : ∀ i, 0 ≤ i → i < S0.forced → S.fals (S0.falseStack i) = IMPLIED
  mid : ∀ i, S0.forced ≤ i → i < S.assigned →
    S.fals (S0.falseStack i) = 1 ∨ S.fals (S0.falseStack i) = MARK
  seen : ∀ l, S.fals l ≠ 0 → ∃ i, 0 ≤ i ∧ i < S.assigned ∧ S0.falseStack i = l
  allr : ∀ k, S.assigned ≤ k → k < S0.assigned → hasReason S0 k
  top : ∃ j, 0 ≤ j ∧ j < S.assigned ∧ S.fals (S0.falseStack j) = MARK ∧
    ∀ k, j < k → k < S0.assigned → hasReason S0 k
  vm : VmtfInv S

/-- What the first loop of `analyze` establishes: the trail top `u` holds the
only marked literal of its decision level, whose decision is at `d`. -/
structure Uip (S0 T : solver) : Prop where
  st : static T = static S0
  lt : T.assigned < S0.assigned
  low : ∀ i, 0 ≤ i → i < S0.forced → T.fals (S0.falseStack i) = IMPLIED
  mid : ∀ i, S0.forced ≤ i → i ≤ T.assigned →
    T.fals (S0.falseStack i) = 1 ∨ T.fals (S0.falseStack i) = MARK
  seen : ∀ l, T.fals l ≠ 0 → ∃ i, 0 ≤ i ∧ i ≤ T.assigned ∧ S0.falseStack i = l
  uip : T.fals (S0.falseStack T.assigned) = MARK
  dec : ∃ d, S0.forced ≤ d ∧ d ≤ T.assigned ∧ ¬ hasReason S0 d ∧
    (∀ k, d < k → k < S0.assigned → hasReason S0 k) ∧
    ∀ k, d ≤ k → k < T.assigned → T.fals (S0.falseStack k) ≠ MARK
  vm : VmtfInv T

/-- A set `W` of literals that is closed under the reasons of the trail: no
root literal is in it, and with a propagated trail literal it holds another
literal of its reason clause.  The literals true under an assignment that
satisfies the reason clauses form such a set. -/
def WClosed (S0 : solver) (W : Int → Prop) : Prop :=
  (∀ i, 0 ≤ i → i < S0.forced → ¬ W (S0.falseStack i)) ∧
  ∀ i, 0 ≤ i → i < S0.assigned → hasReason S0 i → W (S0.falseStack i) →
    ∃ m, 1 ≤ m ∧
      (∀ m1, 0 ≤ m1 → m1 ≤ m → S0.DB (S0.reason (iabs (S0.falseStack i)) + m1) ≠ 0) ∧
      W (S0.DB (S0.reason (iabs (S0.falseStack i)) + m))

/-- The data that stay fixed while the lemma is built: the trail top `u`
holds the first unique implication point and `d` is the decision of its
level. -/
structure BuildCtx (S0 : solver) (u d : Int) : Prop where
  trail : TrailInv S0
  reasons : ReasonInv S0 S0.forced
  rootr : ∀ i, 0 ≤ i → i < S0.forced → hasReason S0 i
  ubound : u < S0.assigned
  dlo : S0.forced ≤ d
  dle : d ≤ u
  ddec : ¬ hasReason S0 d
  dtop : ∀ k, d < k → k < S0.assigned → hasReason S0 k

/-- The marks while the lemma is built. -/
structure Bst (S0 : solver) (u d : Int) (S : solver) : Prop where
  st : static S = static S0
  low : ∀ i, 0 ≤ i → i < S0.forced → S.fals (S0.falseStack i) = IMPLIED
  nz : ∀ i, S0.forced ≤ i → i ≤ u →
    S.fals (S0.falseStack i) = 1 ∨ S.fals (S0.falseStack i) = MARK ∨
    S.fals (S0.falseStack i) = IMPLIED ∨ S.fals (S0.falseStack i) = NOT_IMPLIED
  seen : ∀ l, S.fals l ≠ 0 → ∃ i, 0 ≤ i ∧ i ≤ u ∧ S0.falseStack i = l
  topclean : ∀ k, d ≤ k → k ≤ u → S.fals (S0.falseStack k) ≠ IMPLIED
  topmark : ∀ k, d ≤ k → k < u → S.fals (S0.falseStack k) ≠ MARK

/-- The state `S1` comes from `S` by memo writes of `implied`: only `fals`
changes, and an entry that changes becomes `IMPLIED` or `NOT_IMPLIED` and was
1 at a trail position from `forced` to `i`, or was `MARK` at the literal `x`. -/
def Memo (S0 : solver) (i x : Int) (S S1 : solver) : Prop :=
  S1 = { S with fals := S1.fals } ∧
  ∀ l, S1.fals l ≠ S.fals l →
    (S1.fals l = IMPLIED ∨ S1.fals l = NOT_IMPLIED) ∧
    ((l = x ∧ S.fals l = MARK) ∨
      (S.fals l = 1 ∧ ∃ k, S0.forced ≤ k ∧ k ≤ i ∧ S0.falseStack k = l))

/-- Every literal recorded as implied that lies in `W` has a marked literal
of `W` below it on the trail. -/
def SemInv (S0 : solver) (u : Int) (W : Int → Prop) (S : solver) : Prop :=
  ∀ k, 0 ≤ k → k ≤ u → S.fals (S0.falseStack k) = IMPLIED → W (S0.falseStack k) →
    ∃ j, 0 ≤ j ∧ j < k ∧ S.fals (S0.falseStack j) = MARK ∧ W (S0.falseStack j)

/-- What a call of `implied` on the literal at trail position `i` achieves. -/
structure ImpliedPost (S0 : solver) (u d : Int) (W : Int → Prop) (S : solver) (i : Int)
    (b : Bool) (S1 : solver) : Prop where
  memo : Memo S0 i (S0.falseStack i) S S1
  bst : Bst S0 u d S1
  sem : SemInv S0 u W S1
  top : d ≤ i → b = false
  wit : b = true → W (S0.falseStack i) →
    ∃ j, 0 ≤ j ∧ j < i ∧ S1.fals (S0.falseStack j) = MARK ∧ W (S0.falseStack j)

/-- Position `P` is the lowest decision above `x`, or the trail top `u` when
there is no decision above `x`. -/
def LowestDec (S0 : solver) (u x P : Int) : Prop :=
  P ≤ u ∧ (∀ k, x < k → k < P → hasReason S0 k) ∧
  ((x < P ∧ ¬ hasReason S0 P) ∨ (P = u ∧ ∀ k, x < k → k ≤ u → hasReason S0 k))

/-- The loop invariant of the loop of `analyze` that builds the lemma, at
trail position `p` with `size` literals in the buffer. -/
structure BInv (S0 : solver) (u d : Int) (W : Int → Prop) (S : solver) (p size : Int) :
    Prop where
  bst : Bst S0 u d S
  sem : SemInv S0 u W S
  hi : ∀ k, p < k → k ≤ u → S.fals (S0.falseStack k) = 1
  asg : S.assigned = u
  vm : VmtfInv S
  ple : p ≤ u
  size0 : 0 ≤ size
  szp : p < u → 1 ≤ size
  szu : p = u → size = 0 ∧ S.fals (S0.falseStack u) = MARK
  buf : ∀ k, 0 ≤ k → k < size → ∃ i, p < i ∧ i ≤ u ∧ S.buffer k = S0.falseStack i ∧
    (k = 0 → i = u) ∧ (1 ≤ k → i < d) ∧
    ∀ k1, k < k1 → k1 < size → ∃ i1, p < i1 ∧ i1 < i ∧ S.buffer k1 = S0.falseStack i1
  proc1 : size ≤ 1 → LowestDec S0 u p S.processed
  proc2 : 2 ≤ size → ∃ i1, p < i1 ∧ i1 < d ∧ S.buffer 1 = S0.falseStack i1 ∧
    LowestDec S0 u i1 S.processed

/-- A literal of `W` is marked or already in the buffer. -/
def Wit (W : Int → Prop) (S : solver) (size : Int) : Prop :=
  ∃ x, W x ∧ (S.fals x = MARK ∨ ∃ k, 0 ≤ k ∧ k < size ∧ S.buffer k = x)

/-- The second to last step of `analyze`: the two moving averages are updated. -/
def avgUpdate (S4 : solver) (lbd : Int) : solver :=
  { S4 with
    fast := wrap32 (wrap32 (S4.fast - S4.fast / 32) + wrap32 (lbd * 32768))
    slow := wrap32 (wrap32 (S4.slow - S4.slow / 32768) + wrap32 (lbd * 32)) }

/-- What a call of `analyze` achieves: the lemma of `size` literals stored at
offset `lem` starts with the literal of the first unique implication point
(trail position `u`), its other literals are on the trail below the new top
`P`, and the trail is cut at `P`. -/
structure AnalyzePost (S : solver) (lem : Int) (T : solver) (size u P : Int) : Prop where
  lem_eq : lem = S.mem_used + 2
  mem : T.mem_used = S.mem_used + (size + 3)
  db_old : ∀ j, j < S.mem_used → T.DB j = S.DB j
  db_term : T.DB (lem + size) = 0
  size1 : 1 ≤ size
  first_many : 1 < size →
    T.first = upd (upd S.first (T.DB lem) S.mem_used) (T.DB (lem + 1)) (S.mem_used + 1) ∧
    T.DB S.mem_used = S.first (T.DB lem) ∧
    T.DB (S.mem_used + 1) = upd S.first (T.DB lem) S.mem_used (T.DB (lem + 1))
  first_unit : size ≤ 1 → T.first = S.first
  keep : T.falseStack = S.falseStack ∧ T.reason = S.reason ∧ T.forced = S.forced ∧
    T.nVars = S.nVars ∧ T.model = S.model ∧ T.mem_max = S.mem_max ∧
    T.mem_fixed = S.mem_fixed ∧ T.nLemmas = S.nLemmas + 1 ∧ T.maxLemmas = S.maxLemmas
  up : S.forced ≤ P ∧ P ≤ u ∧ u < S.assigned
  ulev : ∀ k, u < k → k < S.assigned → hasReason S k
  asg : T.assigned = P
  proc : T.processed = P
  pdec : ¬ hasReason S P
  fals_low : ∀ i, 0 ≤ i → i < S.forced → T.fals (S.falseStack i) = IMPLIED
  fals_mid : ∀ i, S.forced ≤ i → i < P → T.fals (S.falseStack i) = 1
  fals_seen : ∀ l, T.fals l ≠ 0 → ∃ i, 0 ≤ i ∧ i < P ∧ S.falseStack i = l
  lits : ∀ k, 0 ≤ k → k < size → ∃ i, S.forced ≤ i ∧ i ≤ u ∧ T.DB (lem + k) = S.falseStack i ∧
    (k = 0 → i = u) ∧ (1 ≤ k → i < P) ∧
    ∀ k1, k < k1 → k1 < size → ∃ i1, S.forced ≤ i1 ∧ i1 < i ∧ T.DB (lem + k1) = S.falseStack i1
  lev : 2 ≤ size → ∃ i1, S.forced ≤ i1 ∧ i1 < P ∧ T.DB (lem + 1) = S.falseStack i1 ∧
    ∀ k, i1 < k → k < P → hasReason S k
  unit : size = 1 → P = S.forced
  vm : VmtfInv T

/-- The value of literal `l` under the total assignment `σ` of the variables. -/
def litTrue (σ : Int → Bool) (l : Int) : Bool := if l > 0 then σ l else !(σ (-l))

/-- The assignment `σ` satisfies the clause of `n` literals stored at offset `c`. -/
def satisfies (σ : Int → Bool) (S : solver) (c n : Int) : Prop :=
  ∃ m, 0 ≤ m ∧ m < n ∧ litTrue σ (S.DB (c + m)) = true

/-- A state in which `propagate` calls `analyze`, for the file `p cnf 4 2`
with clauses `4 3 2` and `4 3 -2`: the literals `4` and `3` are false by
decision, `2` is false by the second clause (stored as `-2 3 4` at offset
56), and the first clause (stored as `2 3 4` at offset 50) is falsified. -/
def conflictState : solver :=
  { DB := fun j => if j = 48 then -9 else if j = 49 then -9 else if j = 50 then 2
      else if j = 51 then 3 else if j = 52 then 4 else if j = 54 then -9 else if j = 55 then 49
      else if j = 56 then -2 else if j = 57 then 3 else if j = 58 then 4 else 0
    nVars := 4, nClauses := 2, mem_used := 60, mem_fixed := 60, mem_max := 1073741824
    maxLemmas := 2000, nLemmas := 0
    buffer := fun j => if j = 0 then 4 else if j = 1 then 3 else if j = 2 then -2 else 0
    nConflicts := 0
    model := fun _ => 0
    reason := fun v => if v = 2 then 56 else 0
    falseStack := fun i => if i = 0 then 4 else if i = 1 then 3 else if i = 2 then 2 else 0
    fals := fun l => if l = 4 then 1 else if l = 3 then 1 else if l = 2 then 1 else 0
    first := fun l => if l = 2 then 48 else if l = 3 then 55 else if l = -2 then 54 else -9
    forced := 0, processed := 2, assigned := 3
    next := fun v => if v = 0 then 1 else if v = 1 then 2 else if v = 2 then 3
      else if v = 3 then 4 else 0
    prev := fun v => if v = 2 then 1 else if v = 3 then 2 else if v = 4 then 3 else 0
    head := 4, fast := 16777216, slow := 16777216 }

/-- The state in which `analyze` returns when called in `conflictState` on the
falsified clause at offset 50: the lemma `3 4` is stored at offset 62. -/
def learnedState : solver := stateOf (analyze 20 conflictState 50)

/-- Trail position `j` belongs to a decision level no higher than that of
position `i`: it is not later, or no decision lies after `i` up to `j`. -/
def levelLE (S : solver) (j i : Int) : Prop := j ≤ i ∨ ∀ k, i < k → k ≤ j → hasReason S k

/-- Following the links of `DB` from the value `h` passes through the header
slots `ws` in this order and then reads the value `e`. -/
def IsSeg (DB : Int → Int) : Int → List Int → Int → Prop
  | h, [], e => h = e
  | h, s :: r, e => h = s ∧ IsSeg DB (DB s) r e

/-- The clause records `cl` (offset of the first literal, number of literals)
tile the clause region of the arena, from the first cell after the arrays of
`initCDCL` up to `mem_used`: each record owns two header cells, its literals
and its terminating 0; the literals are variables of the formula. -/
structure Arena (S : solver) (cl : List (Int × Int)) : Prop where
  used : 10 * S.nVars + 8 ≤ S.mem_used
  lo : ∀ c n, (c, n) ∈ cl → 10 * S.nVars + 8 ≤ c - 2 ∧ 1 ≤ n ∧ c + n < S.mem_used
  sep : ∀ c n c1 n1, (c, n) ∈ cl → (c1, n1) ∈ cl →
    (c = c1 ∧ n = n1) ∨ c + n + 2 < c1 ∨ c1 + n1 + 2 < c
  cover : ∀ j, 10 * S.nVars + 8 ≤ j → j < S.mem_used →
    ∃ c n, (c, n) ∈ cl ∧ c - 2 ≤ j ∧ j ≤ c + n
  cls : ∀ c n, (c, n) ∈ cl → clauseAt S c n
  rng : ∀ c n, (c, n) ∈ cl → ∀ m, 0 ≤ m → m < n → iabs (S.DB (c + m)) ≤ S.nVars
  pre0 : ∀ c n, (c, n) ∈ cl → S.DB (c - 3) = 0
  last0 : S.DB (S.mem_used - 1) = 0

/-- The watch lists: `wl l` is the list of header slots linked from
`first[l]`; every slot in a list is one of the two header slots of a non-unit
clause, no slot occurs twice or in two lists, and the two slots of a clause
are in the lists of the literals at its positions 0 and 1, one each. -/
structure Watches (S : solver) (cl : List (Int × Int)) (wl : Int → List Int) : Prop where
  chain : ∀ l, l ≠ 0 → iabs l ≤ S.nVars → IsSeg S.DB (S.first l) (wl l) END
  slot : ∀ l s, s ∈ wl l → ∃ c n, (c, n) ∈ cl ∧ 2 ≤ n ∧ (s = c - 2 ∨ s = c - 1)
  nodup : ∀ l, (wl l).Nodup
  uniq : ∀ l l1 s, s ∈ wl l → s ∈ wl l1 → l = l1
  own : ∀ c n, (c, n) ∈ cl → 2 ≤ n →
    (c - 2 ∈ wl (S.DB c) ∧ c - 1 ∈ wl (S.DB (c + 1))) ∨
    (c - 2 ∈ wl (S.DB (c + 1)) ∧ c - 1 ∈ wl (S.DB c))

/-- The two-watched-literal invariant, for the watches `D` declares done: when
the literal `a` that owns header slot `s0` of a clause is false at trail
position `p`, the literal `o` that owns the other slot is true and every
non-watched literal of the clause is false, all of them assigned in a
decision level no higher than that of `p`. -/
def TwoWatch (S : solver) (cl : List (Int × Int)) (wl : Int → List Int)
    (D : Int → Int → Prop) : Prop :=
  ∀ c n, (c, n) ∈ cl → 2 ≤ n → ∀ s0 s1 a o,
    ((s0 = c - 2 ∧ s1 = c - 1) ∨ (s0 = c - 1 ∧ s1 = c - 2)) → s0 ∈ wl a → s1 ∈ wl o →
    ∀ p, 0 ≤ p → p < S.assigned → S.falseStack p = a → D p s0 →
      (∃ q, 0 ≤ q ∧ q < S.assigned ∧ S.falseStack q = -o ∧ levelLE S q p) ∧
      ∀ m, 2 ≤ m → m < n →
        ∃ r, 0 ≤ r ∧ r < S.assigned ∧ S.falseStack r = S.DB (c + m) ∧ levelLE S r p

/-- The literal of every unit clause is true at the root. -/
def UnitsTrue (S : solver) (cl : List (Int × Int)) : Prop :=
  ∀ c, (c, 1) ∈ cl → S.fals (-(S.DB c)) = IMPLIED

/-- The reason of every propagated trail literal is a clause record. -/
def ReasonsIn (S : solver) (cl : List (Int × Int)) : Prop :=
  ∀ i, 0 ≤ i → i < S.assigned → hasReason S i →
    ∃ n, (S.reason (iabs (S.falseStack i)), n) ∈ cl

/-- The invariant of the solver state that does not depend on how far
propagation has got: trail, marks (root boundary `b`), reasons, decision list,
clause records and watch lists. -/
structure Core (S : solver) (cl : List (Int × Int)) (wl : Int → List Int) (b : Int) : Prop where
  trail : TrailInv S
  levels : Levels S b
  reasons : ReasonInv S b
  rin : ReasonsIn S cl
  vmtf : VmtfInv S
  arena : Arena S cl
  watches : Watches S cl wl

/-- The invariant of the loop `while (S->processed < S->assigned)` of
`propagate`: the watches of the processed trail literals are done, and the
flag `forced` is set exactly when no decision is on the trail. -/
structure PLInv (S : solver) (cl : List (Int × Int)) (wl : Int → List Int) (b : Int)
    (flag : Bool) : Prop where
  core : Core S cl wl b
  units : UnitsTrue S cl
  proc : 0 ≤ S.processed ∧ S.processed ≤ S.assigned
  tw : TwoWatch S cl wl (fun p _ => p < S.processed)
  allr : ∀ k, S.processed < k → k < S.assigned → hasReason S k
  mode : (flag = true ∧ b = S.assigned) ∨ (flag = false ∧ b = S.forced ∧ S.forced ≤ S.processed)

/-- The invariant of the loop `while (*watch != END)` of `propagate` for the
literal `lit` at trail position `processed - 1`: the watch list of `lit` is
`pre ++ post`, the slots of `pre` have been visited and stay in the list, and
`watch` points at the link that holds the first slot of `post`. -/
structure WLInv (S : solver) (cl : List (Int × Int)) (wl : Int → List Int) (b : Int)
    (flag : Bool) (lit : Int) (watch : Watch) (pre post : List Int) : Prop where
  core : Core S cl wl b
  units : UnitsTrue S cl
  proc : 1 ≤ S.processed ∧ S.processed ≤ S.assigned
  lit_eq : S.falseStack (S.processed - 1) = lit
  split : wl lit = pre ++ post
  cursor : (pre = [] ∧ watch = Watch.first lit) ∨
    ∃ pre1 sl, pre = pre1 ++ [sl] ∧ watch = Watch.db sl
  tw : TwoWatch S cl wl (fun p s0 => p < S.processed - 1 ∨ (p = S.processed - 1 ∧ s0 ∉ post))
  allr : ∀ k, S.processed - 1 < k → k < S.assigned → hasReason S k
  mode : (flag = true ∧ b = S.assigned) ∨
    (flag = false ∧ b = S.forced ∧ S.forced ≤ S.processed - 1)

/-- The state between two calls: propagation is complete and the root
boundary is `forced`. -/
structure Quiet (S : solver) (cl : List (Int × Int)) (wl : Int → List Int) : Prop where
  core : Core S cl wl S.forced
  units : UnitsTrue S cl
  proc : S.processed = S.assigned
  tw : TwoWatch S cl wl (fun p _ => p < S.processed)

/-- The state in which `solve` calls `propagate`: right after ingestion (the
trail holds the units of the formula, none processed), or right after a
decision was pushed on a state with complete propagation. -/
def Ready (S : solver) (cl : List (Int × Int)) (wl : Int → List Int) : Prop :=
  (PLInv S cl wl S.assigned true ∧ S.forced = 0 ∧ S.processed = 0) ∨
  (PLInv S cl wl S.forced false ∧ S.processed + 1 = S.assigned ∧ ¬ hasReason S S.processed)

/-- The statement `if (clause[0]==lit) clause[0]=clause[1];` of `propagate`. -/
def frontOther (S : solver) (clause lit : Int) : solver :=
  if S.DB clause = lit then { S with DB := upd S.DB clause (S.DB (clause + 1)) } else S

/-- The body of the `if` in the scan of `propagate`: the non-false literal at
index `i` is swapped into position 1 and the watch is moved to its list. -/
def moveWatch (S : solver) (clause lit : Int) (watch : Watch) (i : Int) : solver :=
  let S1 := { S with DB := upd S.DB (clause + 1) (S.DB (clause + i)) }
  let S2 := { S1 with DB := upd S1.DB (clause + i) lit }
  let store := rdW S2 watch
  let S3 := wrW S2 watch (S2.DB (rdW S2 watch))
  addWatch S3 (S3.DB (clause + 1)) store

/-- The fields other than `DB` and `first`. -/
def nonDB (S : solver) :=
  (S.nVars, S.mem_used, S.model, S.reason, S.falseStack, S.fals, S.forced, S.processed,
    S.assigned, S.prev, S.head, S.nLemmas, S.mem_fixed, S.mem_max, S.next)

/-- The clause as `propagate` leaves it when the scan found no replacement:
the other watched literal in front, `lit` at position 1. -/
def unitForm (S : solver) (clause lit : Int) : solver :=
  { frontOther S clause lit with DB := upd (frontOther S clause lit).DB (clause + 1) lit }

/-- The watch lists after the slot `s` was moved from the list of `lit`
(`pre ++ s :: post`) to the front of the list of `x`. -/
def wlMove (wl : Int → List Int) (lit x s : Int) (pre post : List Int) : Int → List Int :=
  fun l => if l = x then s :: wl x else if l = lit then pre ++ post else wl l

/-- The watch lists after `addClause` stored a non-unit clause with header
cells `mu` and `mu + 1` and first literals `l0` and `l1`. -/
def wlAdd (wl : Int → List Int) (l0 l1 mu : Int) : Int → List Int :=
  fun l => (if l = l1 then [mu + 1] else []) ++ ((if l = l0 then [mu] else []) ++ wl l)

/-- The clause a watch pointer leads to: `clause = S->DB + *watch`, moved to
the first literal by the test `clause[-1] == 0`. -/
def clauseOf (S : solver) (w : Watch) : Int :=
  if S.DB (rdW S w - 1) = 0 then rdW S w + 2 else rdW S w + 1

/-- No clause record holds a literal twice. -/
def Distinct (S : solver) (cl : List (Int × Int)) : Prop :=
  ∀ c n, (c, n) ∈ cl → ∀ m1 m2, 0 ≤ m1 → m1 < n → 0 ≤ m2 → m2 < n →
    S.DB (c + m1) = S.DB (c + m2) → m1 = m2

/-- The literal the decision block of `solve` pushes on the trail for the
variable `d`: the negation of the literal chosen by the saved phase. -/
def decisionLit (S : solver) (d : Int) : Int := -(if S.model d ≠ 0 then d else -d)

/-- The state in which ingestion leaves the solver between two clauses: the
trail holds the unit clauses read so far, all at the root, nothing is
processed. -/
def Fresh (S : solver) (cl : List (Int × Int)) (wl : Int → List Int) : Prop :=
  PLInv S cl wl S.assigned true ∧ S.forced = 0 ∧ S.processed = 0

/-- A clause of the input file as `parse` expects it: its literals are nonzero
and name variables of the header. -/
def wellFormed (nVars : Int) (c : List Int) : Prop :=
  ∀ l, l ∈ c → l ≠ 0 ∧ iabs l ≤ nVars

/-- The clauses of the file are well formed for `nVars` variables. -/
def wellFormedAll (nVars : Int) (cs : List (List Int)) : Prop :=
  ∀ c, c ∈ cs → wellFormed nVars c

/-- The states `main` is in between two operations of a run on the clauses
`cs` of a file, as long as `reduceDB` has not been called: after ingestion,
after each return of `propagate` with `SAT`, after a restart and after each
decision.  The flag is `true` when `solve` is about to call `propagate`; the
last argument is the value of the variable `decision` of `solve`, which is
reset to `head` when the call of `propagate` learned a lemma.  The test that
makes `solve` restart is not recorded: a restart may follow every return of
`propagate` after which `decision` is `head`, as it is after a lemma was
learned, so the states of `solve` are among these (`solveLoop_reach`). -/
inductive Reach (cs : List (List Int)) : Bool → solver → Int → Prop
  | parsed (S0 : solver) (n m : Int) (T : solver) (hwf : wellFormedAll n cs)
      (h : parse S0 n m cs = Except.ok (SAT, T)) : Reach cs true T T.head
  | propagated (f : Nat) (S : solver) (dec : Int) (T : solver) (hR : Reach cs true S dec)
      (h : propagate f S = Except.ok (SAT, T)) :
      Reach cs false T (if T.nLemmas > S.nLemmas then T.head else dec)
  | restarted (S : solver) (hR : Reach cs false S S.head) :
      Reach cs false (restart { S with fast := (Int.tdiv S.slow 100) * 125 }) S.head
  | decided (f : Nat) (S : solver) (dec d : Int) (hR : Reach cs false S dec)
      (h : nextDecision f S dec = Except.ok d) (hd : d ≠ 0) :
      Reach cs true (pushDecision S d) (iabs (if S.model d ≠ 0 then d else -d))

/-- The variables that are assigned: `fals` is nonzero for one of the two
literals. -/
def assignedVars (S : solver) : Finset Int :=
  (Finset.Icc 1 S.nVars).filter (fun v => S.fals v ≠ 0 ∨ S.fals (-v) ≠ 0)

/-- The decision level of trail position `i`: the number of decisions
(literals without a reason) at positions `0 .. i`. -/
def decisionLevel (S : solver) : Nat → Nat
  | 0 => if S.reason (iabs (S.falseStack 0)) = 0 then 1 else 0
  | i + 1 => decisionLevel S i +
      (if S.reason (iabs (S.falseStack ((i : Int) + 1))) = 0 then 1 else 0)

/-- The trail invariant: `forced <= processed <= assigned`, the trail holds
exactly the literals with a nonzero `fals` entry, no variable is on the trail
twice, and the trail is as long as the number of assigned variables, at most
`nVars`. -/
def TrailOK (S : solver) : Prop :=
  0 ≤ S.forced ∧ S.forced ≤ S.processed ∧ S.processed ≤ S.assigned ∧
  (∀ l, S.fals l ≠ 0 ↔ ∃ i, 0 ≤ i ∧ i < S.assigned ∧ S.falseStack i = l) ∧
  (∀ i j, 0 ≤ i → i < S.assigned → 0 ≤ j → j < S.assigned →
    iabs (S.falseStack i) = iabs (S.falseStack j) → i = j) ∧
  ((assignedVars S).card : Int) = S.assigned ∧ S.assigned ≤ S.nVars

/-- The watch-list invariant in the words of the specification: a non-unit
clause record has different literals at its positions 0 and 1, one of its two
header slots occurs exactly once in the watch list of the literal at position
0 and in no other list, and the other header slot occurs exactly once in the
watch list of the literal at position 1 and in no other list. -/
def OnceEach (S : solver) (cl : List (Int × Int)) (wl : Int → List Int) : Prop :=
  ∀ c n, (c, n) ∈ cl → 2 ≤ n → S.DB c ≠ S.DB (c + 1) ∧
    ∃ s0 s1, ((s0 = c - 2 ∧ s1 = c - 1) ∨ (s0 = c - 1 ∧ s1 = c - 2)) ∧
      (∀ l, (wl l).count s0 = if l = S.DB c then 1 else 0) ∧
      (∀ l, (wl l).count s1 = if l = S.DB (c + 1) then 1 else 0)

/-- The watch-list invariant: the clause records tile the arena, the watch
lists are the linked lists of their header slots, and no record holds a
literal twice. -/
structure WatchInv (S : solver) (cl : List (Int × Int)) (wl : Int → List Int) : Prop where
  arena : Arena S cl
  watches : Watches S cl wl
  distinct : Distinct S cl

/-- The clauses of the file `p cnf 3 2` of `staleStart`. -/
def staleClauses : List (List Int) := [[2, 3], [3, -2]]

/-- The state after the first call of `propagate` in the run on `staleClauses`. -/
def staleRoot : solver := stateOf (propagate 20 staleStart)

/-- The state after the decision on variable 3 in the run on `staleClauses`;
the call of `propagate` that follows meets a conflict and learns the lemma `3`. -/
def staleDecided : solver := pushDecision staleRoot 3

mutual

/-- The function `implied` with a counter: the third component of the result
is the depth of the recursion, the greatest number of calls of `implied` that
are active at the same time, this call included. -/
def impliedD : Nat → solver → Int → Except Fault (Bool × solver × Nat)
  | 0, _, _ => Except.error Fault.fuel
  | f + 1, S, lit =>
    if S.fals lit > MARK then Except.ok (decide (S.fals lit = IMPLIED), S, 1)
    else if S.reason (iabs lit) = 0 then Except.ok (false, S, 1)
    else
      match impliedLoopD f S lit (S.reason (iabs lit) + 1) with
      | Except.error e => Except.error e
      | Except.ok (b, T, d) => Except.ok (b, T, d + 1)

/-- The loop of `implied` with a counter: the third component of the result is
the greatest depth of the calls of `implied` the loop makes. -/
def impliedLoopD : Nat → solver → Int → Int → Except Fault (Bool × solver × Nat)
  | 0, _, _, _ => Except.error Fault.fuel
  | f + 1, S, lit, p =>
    if S.DB p ≠ 0 then
      if S.fals (S.DB p) ≠ MARK then
        match impliedD f S (S.DB p) with
        | Except.error e => Except.error e
        | Except.ok (b, S1, d) =>
          if b then
            match impliedLoopD f S1 lit (p + 1) with
            | Except.error e => Except.error e
            | Except.ok (b2, S2, d2) => Except.ok (b2, S2, max d d2)
          else Except.ok (false, { S1 with fals := upd S1.fals lit NOT_IMPLIED }, d)
      else impliedLoopD f S lit (p + 1)
    else Except.ok (true, { S with fals := upd S.fals lit IMPLIED }, 0)
end

/-- Each trail position below `N` that holds a literal with a reason has a
reason clause that ends with a 0 and whose tail literals (positions 1 and up)
are on the trail at lower positions. -/
def ReasonsEarlier (S : solver) (N : Int) : Prop :=
  ∀ i, 0 ≤ i → i < N → S.reason (iabs (S.falseStack i)) ≠ 0 →
    ∃ n, 1 ≤ n ∧ S.DB (S.reason (iabs (S.falseStack i)) + n) = 0 ∧
      ∀ m, 1 ≤ m → m < n → S.DB (S.reason (iabs (S.falseStack i)) + m) ≠ 0 ∧
        ∃ j, 0 ≤ j ∧ j < i ∧ S.falseStack j = S.DB (S.reason (iabs (S.falseStack i)) + m)

/-- The result of `impliedD` without the counter. -/
def dropDepth (r : Except Fault (Bool × solver × Nat)) : Except Fault (Bool × solver) :=
  match r with
  | Except.error e => Except.error e
  | Except.ok (b, T, _) => Except.ok (b, T)

/-- The state `T` comes from `S` by steps of `propagate`: the number of lemmas
has not gone down, and when it is the same, no lemma was learned in between,
so that the decision list is as it was, every literal that was false is
false, and the two averages are as they were. -/
def Still (S T : solver) : Prop :=
  S.nLemmas ≤ T.nLemmas ∧
  (T.nLemmas = S.nLemmas → T.prev = S.prev ∧ T.next = S.next ∧ T.head = S.head ∧
    T.nVars = S.nVars ∧ T.fast = S.fast ∧ T.slow = S.slow ∧ ∀ l, S.fals l ≠ 0 → T.fals l ≠ 0)

/-- The variable `v` is unassigned: neither of its literals is false. -/
def isFree (S : solver) (v : Int) : Bool := decide (S.fals v = 0 ∧ S.fals (-v) = 0)

/-- The first unassigned variable met when following `prev` from `head`, and
0 when every variable of the decision list is assigned. -/
def firstFree (S : solver) : Int := ((vmtfOrder S).find? (isFree S)).getD 0

/-- The decision pointer `dec` stands in the decision list behind assigned
variables only: the list is `A ++ B` with every variable of `A` assigned, and
following `prev` from `dec` meets the variables of `B`. -/
def Walked (S : solver) (dec : Int) : Prop :=
  ∃ A B, vmtfOrder S = A ++ B ∧ (∀ v, v ∈ A → isFree S v = false) ∧ prevChain S.prev dec B

/-- The clause of the file `p cnf 4 1` of the run in which the decision walk
resumes behind the head of the decision list. -/
def walkClauses : List (List Int) := [[1, 2]]

/-- The run on `walkClauses`, state by state: after ingestion. -/
def walkStart : solver := stateOf (parse blank 4 1 walkClauses)

/-- The state after the first call of `propagate` in the run on `walkClauses`. -/
def walkRoot : solver := stateOf (propagate 20 walkStart)

/-- The state after the decision on variable 4 and the call of `propagate`
that follows it, in the run on `walkClauses`. -/
def walkOne : solver := stateOf (propagate 20 (pushDecision walkRoot 4))

/-- The state after the decision on variable 3 and the call of `propagate`
that follows it, in the run on `walkClauses`: the variables 4 and 3 are
assigned, `head` is 4 and the variable `decision` of `solve` is 3. -/
def walkTwo : solver := stateOf (propagate 20 (pushDecision walkOne 3))

/-- The trail position of the literal `l`: the greatest position below `k`
that holds `l`, and 0 when there is none. -/
def trailPosBelow (S : solver) (l : Int) : Nat → Nat
  | 0 => 0
  | k + 1 => if S.falseStack k = l then k else trailPosBelow S l k

/-- The trail position of the literal `l`. -/
def trailPos (S : solver) (l : Int) : Nat := trailPosBelow S l S.assigned.toNat

/-- The decision levels of the `size` literals of the clause at offset `lem`
of `T`, taken in the trail of `S`. -/
def levelSet (S T : solver) (lem size : Int) : Finset Nat :=
  (Finset.range size.toNat).image
    (fun k : Nat => decisionLevel S (trailPos S (T.DB (lem + (k : Int)))))

/-- The trail literal `S0.falseStack i` is among the first `size` entries of
the buffer of `S`. -/
def InBuffer (S0 S : solver) (size i : Int) : Prop :=
  ∃ k, 0 ≤ k ∧ k < size ∧ S.buffer k = S0.falseStack i

/-- The invariant of the loop of `analyze` that builds the lemma, for the
count `lbd`: the buffer holds trail literals from positions above `p`, the
flag is set when one of them has no decision between `p` and itself, and
`lbd` counts the decisions above `p` that have a literal of the buffer in
their segment of the trail. -/
structure LbdInv (S0 : solver) (u : Int) (S : solver) (p size lbd flag : Int)
    (C : Finset Int) : Prop where
  fs : S.falseStack = S0.falseStack
  re : S.reason = S0.reason
  fo : S.forced = S0.forced
  flag01 : flag = 0 ∨ flag = 1
  buf : ∀ k, 0 ≤ k → k < size → ∃ i, p < i ∧ i ≤ u ∧ S.buffer k = S0.falseStack i
  opn : flag = 1 ↔ ∃ i, p < i ∧ i ≤ u ∧ InBuffer S0 S size i ∧
    ∀ q, p < q → q ≤ i → hasReason S0 q
  cnt : lbd = C.card
  mem : ∀ q, q ∈ C ↔ p < q ∧ q ≤ u ∧ ¬ hasReason S0 q ∧
    ∃ i, q ≤ i ∧ i ≤ u ∧ InBuffer S0 S size i ∧ ∀ r, q < r → r ≤ i → hasReason S0 r

/-- One turn of the loop `for (;;)` of `solve`, from the call of `propagate`
to the decision.  The result is the answer of `solve` when the turn ends the
loop, and otherwise the state and the value of the variable `decision` with
which the next turn starts. -/
def solveTurn (f : Nat) (S : solver) (decision : Int) :
    Except Fault (Sum (Int × solver) (solver × Int)) :=
  match propagate f S with
  | Except.error e => Except.error e
  | Except.ok (r, S1) =>
    if r = UNSAT then Except.ok (Sum.inl (UNSAT, S1))
    else
      let learned := decide (S1.nLemmas > S.nLemmas)
      match (if learned then afterConflict f S1 else Except.ok S1) with
      | Except.error e => Except.error e
      | Except.ok S2 =>
        match nextDecision f S2 (if learned then S1.head else decision) with
        | Except.error e => Except.error e
        | Except.ok d =>
          if d = 0 then Except.ok (Sum.inl (SAT, S2))
          else Except.ok (Sum.inr (pushDecision S2 d, iabs (if S2.model d ≠ 0 then d else -d)))

/-- The first `k` turns of the loop of `solve`. -/
def solveTurns : Nat → Nat → solver → Int → Except Fault (Sum (Int × solver) (solver × Int))
  | 0, _, S, decision => Except.ok (Sum.inr (S, decision))
  | k + 1, f, S, decision =>
    match solveTurn (f + k) S decision with
    | Except.error e => Except.error e
    | Except.ok (Sum.inl r) => Except.ok (Sum.inl r)
    | Except.ok (Sum.inr (S1, d1)) => solveTurns k f S1 d1

/-- The state with which the next turn starts, `blank` when there is none. -/
def turnState (r : Except Fault (Sum (Int × solver) (solver × Int))) : solver :=
  match r with
  | Except.ok (Sum.inr (S, _)) => S
  | _ => blank

/-- The value of `decision` with which the next turn starts, `none` when
there is no next turn. -/
def turnDecision (r : Except Fault (Sum (Int × solver) (solver × Int))) : Option Int :=
  match r with
  | Except.ok (Sum.inr (_, d)) => some d
  | _ => none

/-- The loop `while (*watch != END)` of `propagate`, run up to the first call
of `analyze`: the result is the state and the clause that `analyze` is called
with, or the way the loop ends when it makes no such call. -/
def watchLoopC : Nat → solver → Int → Watch → Bool → Except Fault (Sum Flow (solver × Int))
  | 0, _, _, _, _ => Except.error Fault.fuel
  | f + 1, S, lit, watch, forced =>
    if rdW S watch ≠ END then
      let w := rdW S watch
      let clause := if S.DB (w - 1) = 0 then w + 2 else w + 1
      let S1 := if S.DB clause = lit then { S with DB := upd S.DB clause (S.DB (clause + 1)) } else S
      match scanLoop f S1 clause lit watch 2 with
      | Except.error e => Except.error e
      | Except.ok (unit, S2) =>
        if unit then
          let S3 := { S2 with DB := upd S2.DB (clause + 1) lit }
          let watch1 := Watch.db (rdW S3 watch)
          if S3.fals (-(S3.DB clause)) ≠ 0 then watchLoopC f S3 lit watch1 forced
          else if S3.fals (S3.DB clause) = 0 then
            watchLoopC f (assign S3 clause forced) lit watch1 forced
          else if forced then Except.ok (Sum.inl (Flow.ret S3))
          else Except.ok (Sum.inr (S3, clause))
        else watchLoopC f S2 lit watch forced
    else Except.ok (Sum.inl (Flow.go forced S))

/-- The loop `while (S->processed < S->assigned)` of `propagate`, run up to
the first call of `analyze`. -/
def propLoopC : Nat → solver → Bool → Except Fault (Sum Flow (solver × Int))
  | 0, _, _ => Except.error Fault.fuel
  | f + 1, S, forced =>
    if S.processed < S.assigned then
      let lit := S.falseStack S.processed
      let S1 := { S with processed := S.processed + 1 }
      match watchLoopC f S1 lit (Watch.first lit) forced with
      | Except.error e => Except.error e
      | Except.ok (Sum.inr x) => Except.ok (Sum.inr x)
      | Except.ok (Sum.inl (Flow.ret S2)) => Except.ok (Sum.inl (Flow.ret S2))
      | Except.ok (Sum.inl (Flow.go forced1 S2)) => propLoopC f S2 forced1
    else Except.ok (Sum.inl (Flow.go forced S))

/-- The state and the clause with which a call of `propagate` calls `analyze`
for the first time, `none` when the call makes no call of `analyze`. -/
def conflictOf (fuel : Nat) (S : solver) : Option (solver × Int) :=
  match propLoopC fuel S (decide (S.reason (iabs (S.falseStack S.processed)) ≠ 0)) with
  | Except.ok (Sum.inr x) => some x
  | _ => none

/-- The flag `forced` after a call of `analyze` that returned the lemma at
offset `lem`: `if (!lemma[1]) forced = true;`, where `forced` was false. -/
def unitLemma (S : solver) (lem : Int) : Bool := if S.DB (lem + 1) = 0 then true else false

/-- The literals stored from offset `c` on, up to the terminating 0, at most
`n` of them. -/
def litsAt (S : solver) (c : Int) : Nat → List Int
  | 0 => []
  | n + 1 => if S.DB c = 0 then [] else S.DB c :: litsAt S (c + 1) n

/-- The decision list holds no negative entry: `head` and every entry of
`prev` are at least 0. -/
def NonNeg (S : solver) : Prop := 0 ≤ S.head ∧ ∀ v, 0 ≤ S.prev v

/-- The two fields the decision walk follows. -/
def order (S : solver) : (Int → Int) × Int := (S.prev, S.head)

/-- The variable `v` is assigned: one of its literals is false. -/
def taken (S : solver) (v : Int) : Prop := S.fals v ≠ 0 ∨ S.fals (-v) ≠ 0

/-- The walk along `prev` from `head` comes to `dec` after `k` steps and
meets assigned variables only before it. -/
def walkTo (S : solver) (dec : Int) (k : Nat) : Prop :=
  (S.prev)^[k] S.head = dec ∧ ∀ j, j < k → taken S ((S.prev)^[j] S.head)

/-- What a turn of the loop of `solve` keeps: the decision list holds no
negative entry, and the variable `decision` stands on the walk from `head`
behind assigned variables only. -/
def TurnInv (S : solver) (dec : Int) : Prop := NonNeg S ∧ ∃ k, walkTo S dec k

/-- The state in which the third decision of the run on `walkClauses` is
taken is the one with which the third turn of the loop of `solve` starts. -/
def walkTurn : solver := turnState (solveTurns 2 20 walkStart walkStart.head)

/-- The state after the call of `propagate` of the third turn of the loop of
`solve` in the run on `walkClauses`. -/
def walkNext : solver := stateOf (propagate 20 walkTurn)

/-- The state with which the second turn of the loop of `solve` starts in the
run on `staleClauses`: the decision on variable 3 has been made. -/
def staleTurn : solver := turnState (solveTurns 1 20 staleStart staleStart.head)

/-- The state after the call of `propagate` of that second turn. -/
def staleAfter : solver := stateOf (propagate 20 staleTurn)

theorem ok_outOf (r : Except Fault solver) (h : isOk r = true) : r = Except.ok (outOf r) := by
  cases r with
  | error e => simp [isOk] at h
  | ok S => rfl

@[simp] theorem upd_same (a : Int → Int) (i v : Int) : upd a i v i = v := by
  simp [upd]

@[simp] theorem upd_other (a : Int → Int) {i j : Int} (v : Int) (h : j ≠ i) : upd a i v j = a j := by
  simp [upd, h]

theorem upd_apply (a : Int → Int) (i v j : Int) : upd a i v j = if j = i then v else a j := rfl

theorem getMemory_ok (S : solver) (k : Int) (h : S.mem_used + k ≤ S.mem_max) :
    getMemory S k = Except.ok (S.mem_used, { S with mem_used := S.mem_used + k }) := by
  unfold getMemory
  rw [if_neg (not_lt.mpr h)]

theorem getMemory_exit (S : solver) (k : Int) (h : S.mem_max < S.mem_used + k) :
    getMemory S k = Except.error (Fault.exit 0) := by
  unfold getMemory
  rw [if_pos h]

/-- The copy loop only writes `DB`. -/
theorem copyLits_frame (src : Src) (c : Int) (n : Nat) (i : Int) (S : solver) :
    copyLits src c n i S = { S with DB := (copyLits src c n i S).DB } := by
  induction n generalizing i S with
  | zero => rfl
  | succ n ih =>
    show copyLits src c n (i + 1) _ = _
    rw [ih]
    rfl

@[simp] theorem copyLits_nVars (src : Src) (c : Int) (n : Nat) (i : Int) (S : solver) :
    (copyLits src c n i S).nVars = S.nVars := by
  rw [copyLits_frame]

@[simp] theorem copyLits_nClauses (src : Src) (c : Int) (n : Nat) (i : Int) (S : solver) :
    (copyLits src c n i S).nClauses = S.nClauses := by
  rw [copyLits_frame]

@[simp] theorem copyLits_mem_used (src : Src) (c : Int) (n : Nat) (i : Int) (S : solver) :
    (copyLits src c n i S).mem_used = S.mem_used := by
  rw [copyLits_frame]

@[simp] theorem copyLits_mem_fixed (src : Src) (c : Int) (n : Nat) (i : Int) (S : solver) :
    (copyLits src c n i S).mem_fixed = S.mem_fixed := by
  rw [copyLits_frame]

@[simp] theorem copyLits_mem_max (src : Src) (c : Int) (n : Nat) (i : Int) (S : solver) :
    (copyLits src c n i S).mem_max = S.mem_max := by
  rw [copyLits_frame]

@[simp] theorem copyLits_maxLemmas (src : Src) (c : Int) (n : Nat) (i : Int) (S : solver) :
    (copyLits src c n i S).maxLemmas = S.maxLemmas := by
  rw [copyLits_frame]

@[simp] theorem copyLits_nLemmas (src : Src) (c : Int) (n : Nat) (i : Int) (S : solver) :
    (copyLits src c n i S).nLemmas = S.nLemmas := by
  rw [copyLits_frame]

@[simp] theorem copyLits_buffer (src : Src) (c : Int) (n : Nat) (i : Int) (S : solver) :
    (copyLits src c n i S).buffer = S.buffer := by
  rw [copyLits_frame]

@[simp] theorem copyLits_nConflicts (src : Src) (c : Int) (n : Nat) (i : Int) (S : solver) :
    (copyLits src c n i S).nConflicts = S.nConflicts := by
  rw [copyLits_frame]

@[simp] theorem copyLits_model (src : Src) (c : Int) (n : Nat) (i : Int) (S : solver) :
    (copyLits src c n i S).model = S.model := by
  rw [copyLits_frame]

@[simp] theorem copyLits_reason (src : Src) (c : Int) (n : Nat) (i : Int) (S : solver) :
    (copyLits src c n i S).reason = S.reason := by
  rw [copyLits_frame]

@[simp] theorem copyLits_falseStack (src : Src) (c : Int) (n : Nat) (i : Int) (S : solver) :
    (copyLits src c n i S).falseStack = S.falseStack := by
  rw [copyLits_frame]

@[simp] theorem copyLits_fals (src : Src) (c : Int) (n : Nat) (i : Int) (S : solver) :
    (copyLits src c n i S).fals = S.fals := by
  rw [copyLits_frame]

@[simp] theorem copyLits_first (src : Src) (c : Int) (n : Nat) (i : Int) (S : solver) :
    (copyLits src c n i S).first = S.first := by
  rw [copyLits_frame]

@[simp] theorem copyLits_forced (src : Src) (c : Int) (n : Nat) (i : Int) (S : solver) :
    (copyLits src c n i S).forced = S.forced := by
  rw [copyLits_frame]

@[simp] theorem copyLits_processed (src : Src) (c : Int) (n : Nat) (i : Int) (S : solver) :
    (copyLits src c n i S).processed = S.processed := by
  rw [copyLits_frame]

@[simp] theorem copyLits_assigned (src : Src) (c : Int) (n : Nat) (i : Int) (S : solver) :
    (copyLits src c n i S).assigned = S.assigned := by
  rw [copyLits_frame]

@[simp] theorem copyLits_next (src : Src) (c : Int) (n : Nat) (i : Int) (S : solver) :
    (copyLits src c n i S).next = S.next := by
  rw [copyLits_frame]

@[simp] theorem copyLits_prev (src : Src) (c : Int) (n : Nat) (i : Int) (S : solver) :
    (copyLits src c n i S).prev = S.prev := by
  rw [copyLits_frame]

@[simp] theorem copyLits_head (src : Src) (c : Int) (n : Nat) (i : Int) (S : solver) :
    (copyLits src c n i S).head = S.head := by
  rw [copyLits_frame]

@[simp] theorem copyLits_fast (src : Src) (c : Int) (n : Nat) (i : Int) (S : solver) :
    (copyLits src c n i S).fast = S.fast := by
  rw [copyLits_frame]

@[simp] theorem copyLits_slow (src : Src) (c : Int) (n : Nat) (i : Int) (S : solver) :
    (copyLits src c n i S).slow = S.slow := by
  rw [copyLits_frame]

/-- Copying from `S->buffer`. -/
theorem copyLits_buffer_DB (c : Int) (n : Nat) (i : Int) (S : solver) (j : Int) :
    (copyLits Src.buffer c n i S).DB j =
      if c + i ≤ j ∧ j < c + i + n then S.buffer (j - c) else S.DB j := by
  induction n generalizing i S with
  | zero =>
    have : ¬ (c + i ≤ j ∧ j < c + i) := by omega
    simp [copyLits, this]
  | succ n ih =>
    show (copyLits Src.buffer c n (i + 1) _).DB j = _
    rw [ih]
    simp only [rd, upd_apply]
    by_cases h1 : j = c + i
    · subst h1
      have e1 : ¬ (c + (i + 1) ≤ c + i ∧ c + i < c + (i + 1) + (n : Int)) := by omega
      have e2 : (c + i ≤ c + i ∧ c + i < c + i + ((n + 1 : Nat) : Int)) := by
        constructor <;> push_cast <;> omega
      rw [if_neg e1, if_pos e2]
      simp
    · by_cases h2 : c + (i + 1) ≤ j ∧ j < c + (i + 1) + (n : Int)
      · have e2 : (c + i ≤ j ∧ j < c + i + ((n + 1 : Nat) : Int)) := by
          constructor <;> push_cast <;> omega
        rw [if_pos h2, if_pos e2]
      · have e2 : ¬ (c + i ≤ j ∧ j < c + i + ((n + 1 : Nat) : Int)) := by
          push_cast; omega
        rw [if_neg h2, if_neg e2, if_neg h1]

/-- Copying from `S->DB + h` when the source does not start below the target. -/
theorem copyLits_db_DB (h c : Int) (hc : c ≤ h) (n : Nat) (i : Int) (S : solver) (j : Int) :
    (copyLits (Src.db h) c n i S).DB j =
      if c + i ≤ j ∧ j < c + i + n then S.DB (h + (j - c)) else S.DB j := by
  induction n generalizing i S with
  | zero =>
    have : ¬ (c + i ≤ j ∧ j < c + i) := by omega
    simp [copyLits, this]
  | succ n ih =>
    show (copyLits (Src.db h) c n (i + 1) _).DB j = _
    rw [ih]
    simp only [rd, upd_apply]
    by_cases h1 : j = c + i
    · subst h1
      have e1 : ¬ (c + (i + 1) ≤ c + i ∧ c + i < c + (i + 1) + (n : Int)) := by omega
      have e2 : (c + i ≤ c + i ∧ c + i < c + i + ((n + 1 : Nat) : Int)) := by
        constructor <;> push_cast <;> omega
      rw [if_neg e1, if_pos e2]
      simp
    · by_cases h2 : c + (i + 1) ≤ j ∧ j < c + (i + 1) + (n : Int)
      · have e2 : (c + i ≤ j ∧ j < c + i + ((n + 1 : Nat) : Int)) := by
          constructor <;> push_cast <;> omega
        have e3 : h + (j - c) ≠ c + i := by omega
        rw [if_pos h2, if_pos e2, if_neg e3]
      · have e2 : ¬ (c + i ≤ j ∧ j < c + i + ((n + 1 : Nat) : Int)) := by
          push_cast; omega
        rw [if_neg h2, if_neg e2, if_neg h1]

/-! ## The allocator (C7) -/

/-- C7, what `getMemory` does: a request that fits returns the old `mem_used`
and advances `mem_used` by exactly the request; a request that does not fit
never returns, the run ends through `exit (0)`, so the status it reports is
zero (the initial arena of one variable asked for `1 << 30` cells shows it). -/
theorem getMemory_contract (S : solver) (k : Int) :
    (S.mem_used + k ≤ S.mem_max →
      getMemory S k = Except.ok (S.mem_used, { S with mem_used := S.mem_used + k })) ∧
    (S.mem_max < S.mem_used + k → getMemory S k = Except.error (Fault.exit 0)) ∧
    ((∃ r, getMemory S k = Except.ok r) ↔ S.mem_used + k ≤ S.mem_max) ∧
    getMemory (outOf (initCDCL blank 1 1)) 1073741824 = Except.error (Fault.exit 0) := by
  refine ⟨getMemory_ok S k, getMemory_exit S k, ?_, rfl⟩
  constructor
  · rintro ⟨r, hr⟩
    by_contra hlt
    rw [getMemory_exit S k (not_le.mp hlt)] at hr
    cases hr
  · intro h
    exact ⟨_, getMemory_ok S k h⟩

/-! ## Clause insertion (C4) -/

@[simp] theorem storeLits_nVars (src : Src) (c size : Int) (S : solver) :
    (storeLits src c size S).nVars = S.nVars := by
  simp [storeLits]

@[simp] theorem storeLits_nClauses (src : Src) (c size : Int) (S : solver) :
    (storeLits src c size S).nClauses = S.nClauses := by
  simp [storeLits]

@[simp] theorem storeLits_mem_used (src : Src) (c size : Int) (S : solver) :
    (storeLits src c size S).mem_used = S.mem_used := by
  simp [storeLits]

@[simp] theorem storeLits_mem_fixed (src : Src) (c size : Int) (S : solver) :
    (storeLits src c size S).mem_fixed = S.mem_fixed := by
  simp [storeLits]

@[simp] theorem storeLits_mem_max (src : Src) (c size : Int) (S : solver) :
    (storeLits src c size S).mem_max = S.mem_max := by
  simp [storeLits]

@[simp] theorem storeLits_maxLemmas (src : Src) (c size : Int) (S : solver) :
    (storeLits src c size S).maxLemmas = S.maxLemmas := by
  simp [storeLits]

@[simp] theorem storeLits_nLemmas (src : Src) (c size : Int) (S : solver) :
    (storeLits src c size S).nLemmas = S.nLemmas := by
  simp [storeLits]

@[simp] theorem storeLits_buffer (src : Src) (c size : Int) (S : solver) :
    (storeLits src c size S).buffer = S.buffer := by
  simp [storeLits]

@[simp] theorem storeLits_nConflicts (src : Src) (c size : Int) (S : solver) :
    (storeLits src c size S).nConflicts = S.nConflicts := by
  simp [storeLits]

@[simp] theorem storeLits_model (src : Src) (c size : Int) (S : solver) :
    (storeLits src c size S).model = S.model := by
  simp [storeLits]

@[simp] theorem storeLits_reason (src : Src) (c size : Int) (S : solver) :
    (storeLits src c size S).reason = S.reason := by
  simp [storeLits]

@[simp] theorem storeLits_falseStack (src : Src) (c size : Int) (S : solver) :
    (storeLits src c size S).falseStack = S.falseStack := by
  simp [storeLits]

@[simp] theorem storeLits_fals (src : Src) (c size : Int) (S : solver) :
    (storeLits src c size S).fals = S.fals := by
  simp [storeLits]

@[simp] theorem storeLits_first (src : Src) (c size : Int) (S : solver) :
    (storeLits src c size S).first = S.first := by
  simp [storeLits]

@[simp] theorem storeLits_forced (src : Src) (c size : Int) (S : solver) :
    (storeLits src c size S).forced = S.forced := by
  simp [storeLits]

@[simp] theorem storeLits_processed (src : Src) (c size : Int) (S : solver) :
    (storeLits src c size S).processed = S.processed := by
  simp [storeLits]

@[simp] theorem storeLits_assigned (src : Src) (c size : Int) (S : solver) :
    (storeLits src c size S).assigned = S.assigned := by
  simp [storeLits]

@[simp] theorem storeLits_next (src : Src) (c size : Int) (S : solver) :
    (storeLits src c size S).next = S.next := by
  simp [storeLits]

@[simp] theorem storeLits_prev (src : Src) (c size : Int) (S : solver) :
    (storeLits src c size S).prev = S.prev := by
  simp [storeLits]

@[simp] theorem storeLits_head (src : Src) (c size : Int) (S : solver) :
    (storeLits src c size S).head = S.head := by
  simp [storeLits]

@[simp] theorem storeLits_fast (src : Src) (c size : Int) (S : solver) :
    (storeLits src c size S).fast = S.fast := by
  simp [storeLits]

@[simp] theorem storeLits_slow (src : Src) (c size : Int) (S : solver) :
    (storeLits src c size S).slow = S.slow := by
  simp [storeLits]

/-- The cells written by the tail of `addClause`, literals taken from `S->buffer`. -/
theorem storeLits_buffer_DB (c size : Int) (h0 : 0 ≤ size) (S : solver) (j : Int) :
    (storeLits Src.buffer c size S).DB j =
      if j = c + size then 0 else if c ≤ j ∧ j < c + size then S.buffer (j - c) else S.DB j := by
  have hsz : ((size.toNat : Nat) : Int) = size := Int.toNat_of_nonneg h0
  unfold storeLits
  simp only [upd_apply, copyLits_buffer_DB, hsz, add_zero]

/-- The cells written by the tail of `addClause`, literals taken from `S->DB + h`
with `h` not below the target. -/
theorem storeLits_db_DB (h c size : Int) (hc : c ≤ h) (h0 : 0 ≤ size) (S : solver) (j : Int) :
    (storeLits (Src.db h) c size S).DB j =
      if j = c + size then 0 else if c ≤ j ∧ j < c + size then S.DB (h + (j - c)) else S.DB j := by
  have hsz : ((size.toNat : Nat) : Int) = size := Int.toNat_of_nonneg h0
  unfold storeLits
  simp only [upd_apply, copyLits_db_DB h c hc, hsz, add_zero]

/-- The arena bounds after `addClause`, whatever the source of the literals. -/
theorem addClause_mem (S : solver) (src : Src) (size irr : Int) (r : Int × solver)
    (h : addClause S src size irr = Except.ok r) :
    S.mem_used + (size + 3) ≤ S.mem_max ∧ r.1 = S.mem_used + 2 ∧
    r.2.mem_used = S.mem_used + (size + 3) ∧ r.2.mem_max = S.mem_max ∧
    r.2.mem_fixed = (if irr ≠ 0 then S.mem_used + (size + 3) else S.mem_fixed) ∧
    r.2.nLemmas = (if irr ≠ 0 then S.nLemmas else S.nLemmas + 1) ∧
    r.2.nVars = S.nVars ∧ r.2.maxLemmas = S.maxLemmas := by
  unfold addClause at h
  by_cases hm : S.mem_used + (size + 3) ≤ S.mem_max
  · rw [getMemory_ok S _ hm] at h
    simp only [Except.ok.injEq] at h
    subst h
    by_cases hs : size > 1 <;> by_cases hi : irr = 0 <;> simp [hs, hi, hm, addWatch]
  · rw [getMemory_exit S _ (not_le.mp hm)] at h
    cases h

/-- The state `addClause` returns when the literals come from `S->buffer`. -/
theorem addClause_buffer_eq (S : solver) (size irr : Int)
    (hm : S.mem_used + (size + 3) ≤ S.mem_max) :
    addClause S Src.buffer size irr =
      Except.ok (S.mem_used + 2,
        let S1 : solver := { S with mem_used := S.mem_used + (size + 3) }
        let S2 := if size > 1 then
            addWatch (addWatch S1 (S.buffer 0) S.mem_used) (S.buffer 1) (S.mem_used + 1)
          else S1
        let S4 := storeLits Src.buffer (S.mem_used + 2) size S2
        if irr ≠ 0 then { S4 with mem_fixed := S4.mem_used }
        else { S4 with nLemmas := S4.nLemmas + 1 }) := by
  unfold addClause
  rw [getMemory_ok S _ hm]
  rfl

/-- The facts about `addClause` on `S->buffer` that the later proofs use. -/
theorem addClause_buffer (S : solver) (size irr : Int) (h0 : 0 ≤ size)
    (hm : S.mem_used + (size + 3) ≤ S.mem_max) :
    ∃ S1, addClause S Src.buffer size irr = Except.ok (S.mem_used + 2, S1) ∧
      S1.mem_used = S.mem_used + (size + 3) ∧
      (∀ i, 0 ≤ i → i < size → S1.DB (S.mem_used + 2 + i) = S.buffer i) ∧
      S1.DB (S.mem_used + 2 + size) = 0 ∧
      (∀ j, j < S.mem_used → S1.DB j = S.DB j) ∧
      (1 < size → S1.first = upd (upd S.first (S.buffer 0) S.mem_used) (S.buffer 1) (S.mem_used + 1)) ∧
      (1 < size → S1.DB S.mem_used = S.first (S.buffer 0)) ∧
      (1 < size → S1.DB (S.mem_used + 1) = upd S.first (S.buffer 0) S.mem_used (S.buffer 1)) ∧
      (size ≤ 1 → S1.first = S.first) ∧
      (irr ≠ 0 → S1.mem_fixed = S1.mem_used ∧ S1.nLemmas = S.nLemmas) ∧
      (irr = 0 → S1.nLemmas = S.nLemmas + 1 ∧ S1.mem_fixed = S.mem_fixed) ∧
      S1.fals = S.fals ∧ S1.buffer = S.buffer ∧ S1.falseStack = S.falseStack ∧
      S1.assigned = S.assigned ∧ S1.reason = S.reason ∧ S1.model = S.model ∧
      S1.mem_max = S.mem_max := by
  rw [addClause_buffer_eq S size irr hm]
  refine ⟨_, rfl, ?_, ?_, ?_, ?_, ?_, ?_, ?_, ?_, ?_, ?_, ?_, ?_, ?_, ?_, ?_, ?_, ?_⟩
  · by_cases hs : size > 1 <;> by_cases hi : irr = 0 <;> simp [hs, hi, addWatch]
  · intro i hi0 hi1
    have e1 : S.mem_used + 2 + i ≠ S.mem_used + 2 + size := by omega
    have e2 : S.mem_used + 2 ≤ S.mem_used + 2 + i ∧ S.mem_used + 2 + i < S.mem_used + 2 + size := by
      omega
    have e3 : S.mem_used + 2 + i - (S.mem_used + 2) = i := by omega
    by_cases hs : size > 1 <;> by_cases hir : irr = 0 <;>
      simp only [hs, hir, if_true, if_false, ne_eq, not_true_eq_false, not_false_eq_true,
        storeLits_buffer_DB _ _ h0, if_neg e1, if_pos e2, e3, addWatch]
  · by_cases hs : size > 1 <;> by_cases hir : irr = 0 <;>
      simp only [hs, hir, if_true, if_false, ne_eq, not_true_eq_false, not_false_eq_true,
        storeLits_buffer_DB _ _ h0]
  · intro j hj
    have e1 : j ≠ S.mem_used + 2 + size := by omega
    have e2 : ¬ (S.mem_used + 2 ≤ j ∧ j < S.mem_used + 2 + size) := by omega
    have e3 : j ≠ S.mem_used := by omega
    have e4 : j ≠ S.mem_used + 1 := by omega
    by_cases hs : size > 1 <;> by_cases hir : irr = 0 <;>
      simp only [hs, hir, if_true, if_false, ne_eq, not_true_eq_false, not_false_eq_true,
        storeLits_buffer_DB _ _ h0, if_neg e1, if_neg e2, addWatch, upd_apply, if_neg e3, if_neg e4]
  · intro hs
    have hs' : size > 1 := hs
    by_cases hir : irr = 0 <;>
      simp only [hs', hir, if_true, if_false, ne_eq, not_true_eq_false, not_false_eq_true,
        storeLits_first, addWatch]
  · intro hs
    have hs' : size > 1 := hs
    have e1 : S.mem_used ≠ S.mem_used + 2 + size := by omega
    have e2 : ¬ (S.mem_used + 2 ≤ S.mem_used ∧ S.mem_used < S.mem_used + 2 + size) := by omega
    have e3 : S.mem_used ≠ S.mem_used + 1 := by omega
    by_cases hir : irr = 0 <;>
      simp only [hs', hir, if_true, if_false, ne_eq, not_true_eq_false, not_false_eq_true,
        storeLits_buffer_DB _ _ h0, if_neg e1, if_neg e2, addWatch, upd_apply, if_neg e3]
  · intro hs
    have hs' : size > 1 := hs
    have e1 : S.mem_used + 1 ≠ S.mem_used + 2 + size := by omega
    have e2 : ¬ (S.mem_used + 2 ≤ S.mem_used + 1 ∧ S.mem_used + 1 < S.mem_used + 2 + size) := by
      omega
    by_cases hir : irr = 0 <;>
      simp only [hs', hir, if_true, if_false, ne_eq, not_true_eq_false, not_false_eq_true,
        storeLits_buffer_DB _ _ h0, if_neg e1, if_neg e2, addWatch, upd_apply]
  · intro hs
    have hs' : ¬ size > 1 := by omega
    by_cases hir : irr = 0 <;>
      simp only [hs', hir, if_true, if_false, ne_eq, not_true_eq_false, not_false_eq_true,
        storeLits_first]
  · intro hir
    by_cases hs : size > 1 <;> simp [hs, hir, addWatch]
  · intro hir
    by_cases hs : size > 1 <;> simp [hs, hir, addWatch]
  all_goals (by_cases hs : size > 1 <;> by_cases hir : irr = 0 <;> simp [hs, hir, addWatch])

/-- C4 as stated fails when the first two literals of the buffer are equal:
for the clause `1 1 0` the request fits, both watches are prepended to the
list of literal `1`, so `first[in[0]]` is `u + 1` (19), not `u` (18), and
`DB[u + 1]` is `u`, not the old `first[in[1]]` (`END`). -/
theorem addClause_equal_heads_counterexample :
    dupInput.mem_used = 18 ∧ dupInput.mem_used + 2 + 3 ≤ dupInput.mem_max ∧
    dupInput.buffer 0 = 1 ∧ dupInput.buffer 1 = 1 ∧ dupInput.first 1 = END ∧
    (∃ S1, addClause dupInput Src.buffer 2 1 = Except.ok (dupInput.mem_used + 2, S1) ∧
      S1.first (dupInput.buffer 0) ≠ dupInput.mem_used ∧ S1.first (dupInput.buffer 0) = 19 ∧
      S1.DB (dupInput.mem_used + 1) ≠ dupInput.first (dupInput.buffer 1)) := by
  refine ⟨by decide, by decide, by decide, by decide, by decide, _, rfl, by decide, by decide,
    by decide⟩

/-- C4, amended: when the request fits, `addClause` returns `u + 2` for the old
`mem_used = u`, sets `mem_used = u + size + 3`, stores the literals at
`u + 2 ..` and a `0` after them, and leaves the cells below `u` alone.  For
`size > 1` with `in[0] ≠ in[1]` the clause is prepended to both watch lists
through its two header slots and no other `first[]` entry changes; with
`in[0] = in[1]` both header slots are prepended to the one list
(`first[in[0]] = u + 1`, `DB[u + 1] = u`, `DB[u] =` the old `first[in[0]]`).
For `size ≤ 1` no `first[]` entry changes.  With `irr` set `mem_fixed` becomes
the new `mem_used` and `nLemmas` is unchanged, otherwise `nLemmas` grows by one
and `mem_fixed` is unchanged. -/
theorem addClause_contract (S : solver) (size irr : Int) (h0 : 0 ≤ size)
    (hm : S.mem_used + size + 3 ≤ S.mem_max) :
    ∃ S1, addClause S Src.buffer size irr = Except.ok (S.mem_used + 2, S1) ∧
      S1.mem_used = S.mem_used + size + 3 ∧
      (∀ i, 0 ≤ i → i < size → S1.DB (S.mem_used + 2 + i) = S.buffer i) ∧
      S1.DB (S.mem_used + 2 + size) = 0 ∧
      (∀ j, j < S.mem_used → S1.DB j = S.DB j) ∧
      (1 < size → S.buffer 0 ≠ S.buffer 1 →
        S1.first (S.buffer 0) = S.mem_used ∧ S1.DB S.mem_used = S.first (S.buffer 0) ∧
        S1.first (S.buffer 1) = S.mem_used + 1 ∧ S1.DB (S.mem_used + 1) = S.first (S.buffer 1) ∧
        ∀ l, l ≠ S.buffer 0 → l ≠ S.buffer 1 → S1.first l = S.first l) ∧
      (1 < size → S.buffer 0 = S.buffer 1 →
        S1.first (S.buffer 0) = S.mem_used + 1 ∧ S1.DB S.mem_used = S.first (S.buffer 0) ∧
        S1.DB (S.mem_used + 1) = S.mem_used ∧
        ∀ l, l ≠ S.buffer 0 → S1.first l = S.first l) ∧
      (size ≤ 1 → ∀ l, S1.first l = S.first l) ∧
      (irr ≠ 0 → S1.mem_fixed = S1.mem_used ∧ S1.nLemmas = S.nLemmas) ∧
      (irr = 0 → S1.nLemmas = S.nLemmas + 1 ∧ S1.mem_fixed = S.mem_fixed) := by
  have hm' : S.mem_used + (size + 3) ≤ S.mem_max := by omega
  obtain ⟨S1, hret, hused, hlits, hzero, hlow, hfirst, hd0, hd1, hsmall, hirr, hlem, -⟩ :=
    addClause_buffer S size irr h0 hm'
  refine ⟨S1, hret, by omega, hlits, hzero, hlow, ?_, ?_, ?_, hirr, hlem⟩
  · intro hs hne
    rw [hfirst hs, hd0 hs, hd1 hs]
    refine ⟨?_, rfl, ?_, ?_, ?_⟩
    · rw [upd_other _ _ hne, upd_same]
    · rw [upd_same]
    · rw [upd_other _ _ (Ne.symm hne)]
    · intro l h1 h2
      rw [upd_other _ _ h2, upd_other _ _ h1]
  · intro hs heq
    rw [hfirst hs, hd0 hs, hd1 hs, ← heq]
    refine ⟨by rw [upd_same], rfl, by rw [upd_same], ?_⟩
    intro l h1
    rw [upd_other _ _ h1, upd_other _ _ h1]
  · intro hs l
    rw [hsmall hs]

/-- The amended C4 at the clause `1 2 0` of a two-variable file. -/
theorem addClause_contract_witness :
    ∃ S1, addClause pairInput Src.buffer 2 1 = Except.ok (pairInput.mem_used + 2, S1) ∧
      S1.mem_used = pairInput.mem_used + 2 + 3 ∧ S1.first (pairInput.buffer 0) = pairInput.mem_used ∧
      S1.first (pairInput.buffer 1) = pairInput.mem_used + 1 := by
  obtain ⟨S1, h1, h2, -, -, -, h6, -⟩ :=
    addClause_contract pairInput 2 1 (by decide) (by decide)
  have h := h6 (by decide) (by decide)
  exact ⟨S1, h1, h2, h.1, h.2.2.1⟩

/-! ## Ingestion of one clause (C5) -/

/-- Filling the buffer only writes `buffer`. -/
theorem fillBuffer_frame (c : List Int) (i : Int) (S : solver) :
    fillBuffer c i S = { S with buffer := (fillBuffer c i S).buffer } := by
  induction c generalizing i S with
  | nil => rfl
  | cons l ls ih =>
    show fillBuffer ls (i + 1) _ = _
    rw [ih]
    rfl

@[simp] theorem fillBuffer_DB (c : List Int) (i : Int) (S : solver) :
    (fillBuffer c i S).DB = S.DB := by
  rw [fillBuffer_frame]

@[simp] theorem fillBuffer_nVars (c : List Int) (i : Int) (S : solver) :
    (fillBuffer c i S).nVars = S.nVars := by
  rw [fillBuffer_frame]

@[simp] theorem fillBuffer_nClauses (c : List Int) (i : Int) (S : solver) :
    (fillBuffer c i S).nClauses = S.nClauses := by
  rw [fillBuffer_frame]

@[simp] theorem fillBuffer_mem_used (c : List Int) (i : Int) (S : solver) :
    (fillBuffer c i S).mem_used = S.mem_used := by
  rw [fillBuffer_frame]

@[simp] theorem fillBuffer_mem_fixed (c : List Int) (i : Int) (S : solver) :
    (fillBuffer c i S).mem_fixed = S.mem_fixed := by
  rw [fillBuffer_frame]

@[simp] theorem fillBuffer_mem_max (c : List Int) (i : Int) (S : solver) :
    (fillBuffer c i S).mem_max = S.mem_max := by
  rw [fillBuffer_frame]

@[simp] theorem fillBuffer_maxLemmas (c : List Int) (i : Int) (S : solver) :
    (fillBuffer c i S).maxLemmas = S.maxLemmas := by
  rw [fillBuffer_frame]

@[simp] theorem fillBuffer_nLemmas (c : List Int) (i : Int) (S : solver) :
    (fillBuffer c i S).nLemmas = S.nLemmas := by
  rw [fillBuffer_frame]

@[simp] theorem fillBuffer_nConflicts (c : List Int) (i : Int) (S : solver) :
    (fillBuffer c i S).nConflicts = S.nConflicts := by
  rw [fillBuffer_frame]

@[simp] theorem fillBuffer_model (c : List Int) (i : Int) (S : solver) :
    (fillBuffer c i S).model = S.model := by
  rw [fillBuffer_frame]

@[simp] theorem fillBuffer_reason (c : List Int) (i : Int) (S : solver) :
    (fillBuffer c i S).reason = S.reason := by
  rw [fillBuffer_frame]

@[simp] theorem fillBuffer_falseStack (c : List Int) (i : Int) (S : solver) :
    (fillBuffer c i S).falseStack = S.falseStack := by
  rw [fillBuffer_frame]

@[simp] theorem fillBuffer_fals (c : List Int) (i : Int) (S : solver) :
    (fillBuffer c i S).fals = S.fals := by
  rw [fillBuffer_frame]

@[simp] theorem fillBuffer_first (c : List Int) (i : Int) (S : solver) :
    (fillBuffer c i S).first = S.first := by
  rw [fillBuffer_frame]

@[simp] theorem fillBuffer_forced (c : List Int) (i : Int) (S : solver) :
    (fillBuffer c i S).forced = S.forced := by
  rw [fillBuffer_frame]

@[simp] theorem fillBuffer_processed (c : List Int) (i : Int) (S : solver) :
    (fillBuffer c i S).processed = S.processed := by
  rw [fillBuffer_frame]

@[simp] theorem fillBuffer_assigned (c : List Int) (i : Int) (S : solver) :
    (fillBuffer c i S).assigned = S.assigned := by
  rw [fillBuffer_frame]

@[simp] theorem fillBuffer_next (c : List Int) (i : Int) (S : solver) :
    (fillBuffer c i S).next = S.next := by
  rw [fillBuffer_frame]

@[simp] theorem fillBuffer_prev (c : List Int) (i : Int) (S : solver) :
    (fillBuffer c i S).prev = S.prev := by
  rw [fillBuffer_frame]

@[simp] theorem fillBuffer_head (c : List Int) (i : Int) (S : solver) :
    (fillBuffer c i S).head = S.head := by
  rw [fillBuffer_frame]

@[simp] theorem fillBuffer_fast (c : List Int) (i : Int) (S : solver) :
    (fillBuffer c i S).fast = S.fast := by
  rw [fillBuffer_frame]

@[simp] theorem fillBuffer_slow (c : List Int) (i : Int) (S : solver) :
    (fillBuffer c i S).slow = S.slow := by
  rw [fillBuffer_frame]

/-- The two outcomes of the ingestion step, given that the clause fits. -/
theorem ingestClause_cases (S : solver) (c : List Int)
    (hm : S.mem_used + c.length + 3 ≤ S.mem_max) :
    ∃ S2, S2.fals = S.fals ∧ S2.mem_max = S.mem_max ∧
      S2.mem_used = S.mem_used + (c.length + 3) ∧ S2.mem_fixed = S2.mem_used ∧
      (∀ l, c = [l] → S2.DB (S.mem_used + 2) = l) ∧
      ingestClause S c =
        if (c.length : Int) = 0 ∨ ((c.length : Int) = 1 ∧ S2.fals (S2.DB (S.mem_used + 2)) ≠ 0) then
          Except.ok (UNSAT, S2)
        else if (c.length : Int) = 1 ∧ S2.fals (-(S2.DB (S.mem_used + 2))) = 0 then
          Except.ok (SAT, assign S2 (S.mem_used + 2) true)
        else Except.ok (SAT, S2) := by
  have hm' : (fillBuffer c 0 S).mem_used + ((c.length : Int) + 3) ≤ (fillBuffer c 0 S).mem_max := by
    simp only [fillBuffer_mem_used, fillBuffer_mem_max]; omega
  obtain ⟨S2, hret, hused, hlits, -, -, -, -, -, -, hirr, -, hfals, -, -, -, -, -, hmax⟩ :=
    addClause_buffer (fillBuffer c 0 S) c.length 1 (by omega) hm'
  simp only [fillBuffer_mem_used, fillBuffer_fals, fillBuffer_mem_max] at hret hused hlits hfals hmax
  refine ⟨S2, hfals, hmax, hused, (hirr (by decide)).1, ?_, ?_⟩
  · intro l hl
    subst hl
    have := hlits 0 (le_refl 0) (by simp)
    simpa [fillBuffer] using this
  · unfold ingestClause
    simp only [hret]

/-- The ingestion step reports `UNSAT` exactly for the empty clause and for a
unit clause whose literal is already false. -/
theorem ingestClause_unsat_iff (S : solver) (c : List Int)
    (hm : S.mem_used + c.length + 3 ≤ S.mem_max) :
    (∃ S2, ingestClause S c = Except.ok (UNSAT, S2)) ↔ (c = [] ∨ ∃ l, c = [l] ∧ S.fals l ≠ 0) := by
  obtain ⟨S2, hfals, -, -, -, hlit, heq⟩ := ingestClause_cases S c hm
  rw [heq, hfals]
  constructor
  · rintro ⟨T, hT⟩
    split_ifs at hT with h1 h2
    · rcases h1 with h1 | ⟨h1, h3⟩
      · left
        exact List.length_eq_zero.mp (by exact_mod_cast h1)
      · right
        obtain ⟨l, hl⟩ := List.length_eq_one.mp (by exact_mod_cast h1)
        rw [hlit l hl] at h3
        exact ⟨l, hl, h3⟩
    · simp [SAT, UNSAT] at hT
    · simp [SAT, UNSAT] at hT
  · rintro (h | ⟨l, hl, hf⟩)
    · subst h
      exact ⟨S2, by simp⟩
    · have h1 : ((c.length : Int) = 1) := by subst hl; rfl
      rw [hlit l hl, if_pos (Or.inr ⟨h1, hf⟩)]
      exact ⟨S2, rfl⟩

/-- When the step does not report `UNSAT` it goes on; a unit literal is then true. -/
theorem ingestClause_sat (S : solver) (c : List Int)
    (hm : S.mem_used + c.length + 3 ≤ S.mem_max)
    (hc : ¬ (c = [] ∨ ∃ l, c = [l] ∧ S.fals l ≠ 0)) :
    ∃ S1, ingestClause S c = Except.ok (SAT, S1) ∧ S1.mem_max = S.mem_max ∧
      S1.mem_used = S.mem_used + (c.length + 3) ∧ (∀ x, c = [x] → S1.fals (-x) ≠ 0) := by
  obtain ⟨S2, hfals, hmax, hused, -, hlit, heq⟩ := ingestClause_cases S c hm
  rw [heq, hfals]
  have hne : ¬ ((c.length : Int) = 0 ∨ ((c.length : Int) = 1 ∧ S.fals (S2.DB (S.mem_used + 2)) ≠ 0)) := by
    rintro (h1 | ⟨h1, h3⟩)
    · exact hc (Or.inl (List.length_eq_zero.mp (by exact_mod_cast h1)))
    · obtain ⟨l, hl⟩ := List.length_eq_one.mp (by exact_mod_cast h1)
      rw [hlit l hl] at h3
      exact hc (Or.inr ⟨l, hl, h3⟩)
  rw [if_neg hne]
  split_ifs with h2
  · refine ⟨_, rfl, by simpa [assign] using hmax, by simpa [assign] using hused, ?_⟩
    intro x hx
    have hv : (assign S2 (S.mem_used + 2) true).fals (-x) = IMPLIED := by
      simp [assign, hlit x hx]
    rw [hv]
    decide
  · refine ⟨_, rfl, hmax, hused, ?_⟩
    intro x hx
    have h1 : ((c.length : Int) = 1) := by subst hx; rfl
    rw [hlit x hx] at h2
    rw [hfals]
    intro h0
    exact h2 ⟨h1, h0⟩

/-- C5: provided the clause fits in the arena, the ingestion step (`addClause`
with `irr = 1`, then the empty / unit checks) reports `UNSAT` if and only if
the clause is empty or is a unit clause whose literal is already false; in
every other case ingestion goes on; and when `{x}` was ingested without
`UNSAT`, ingesting `{-x}` next reports `UNSAT`. -/
theorem ingestClause_contract (S : solver) (c : List Int)
    (hm : S.mem_used + c.length + 3 ≤ S.mem_max) :
    ((∃ S1, ingestClause S c = Except.ok (UNSAT, S1)) ↔
        (c = [] ∨ ∃ l, c = [l] ∧ S.fals l ≠ 0)) ∧
    (¬ (c = [] ∨ ∃ l, c = [l] ∧ S.fals l ≠ 0) → ∃ S1, ingestClause S c = Except.ok (SAT, S1)) ∧
    (∀ x S1, c = [x] → ingestClause S c = Except.ok (SAT, S1) →
        S1.mem_used + 4 ≤ S1.mem_max → ∃ S2, ingestClause S1 [-x] = Except.ok (UNSAT, S2)) := by
  refine ⟨ingestClause_unsat_iff S c hm, ?_, ?_⟩
  · intro hc
    obtain ⟨S1, h1, -⟩ := ingestClause_sat S c hm hc
    exact ⟨S1, h1⟩
  · intro x S1 hx hS1 hmem
    have hc : ¬ (c = [] ∨ ∃ l, c = [l] ∧ S.fals l ≠ 0) := by
      intro h
      obtain ⟨T, hT⟩ := (ingestClause_unsat_iff S c hm).mpr h
      rw [hS1] at hT
      simp [SAT, UNSAT] at hT
    obtain ⟨T, hT, -, -, hx'⟩ := ingestClause_sat S c hm hc
    rw [hS1] at hT
    simp only [Except.ok.injEq, Prod.mk.injEq, true_and] at hT
    subst hT
    have hm2 : S1.mem_used + (([-x] : List Int).length : Int) + 3 ≤ S1.mem_max := by
      simp only [List.length_singleton, Nat.cast_one]; omega
    exact (ingestClause_unsat_iff S1 [-x] hm2).mpr (Or.inr ⟨-x, rfl, hx' x hx⟩)

/-- C5 at the files `p cnf 1 2` with clauses `1 0` and `-1 0`: the first unit
is ingested, the second reports `UNSAT`. -/
theorem ingestClause_contract_witness :
    (∃ S1, ingestClause (outOf (initCDCL blank 1 2)) [1] = Except.ok (SAT, S1)) ∧
    (∃ S2, ingestClause (stateOf (ingestClause (outOf (initCDCL blank 1 2)) [1])) [-1] =
      Except.ok (UNSAT, S2)) := by
  have h := ingestClause_contract (outOf (initCDCL blank 1 2)) [1] (by decide)
  refine ⟨h.2.1 ?_, ?_⟩
  · rintro (h0 | ⟨l, hl, hf⟩)
    · exact absurd h0 (by simp)
    · have hl1 : l = 1 := by simpa using hl.symm
      subst hl1
      exact hf (by decide)
  · exact h.2.2 1 _ rfl rfl (by decide)

/-- The first half of C6: ingesting a fresh unit clause `{l}` that fits assigns
`l` as forced: `fals[-l] = IMPLIED`, `-l` is pushed on the trail, `reason[|l|]`
is the offset of the clause and `model[|l|]` is `l > 0`. -/
theorem ingest_fresh_unit (S : solver) (l : Int) (hm : S.mem_used + 4 ≤ S.mem_max)
    (h1 : S.fals l = 0) (h2 : S.fals (-l) = 0) :
    ∃ S1, ingestClause S [l] = Except.ok (SAT, S1) ∧ S1.fals (-l) = IMPLIED ∧
      S1.falseStack S.assigned = -l ∧ S1.assigned = S.assigned + 1 ∧
      S1.reason (iabs l) = S.mem_used + 2 ∧ S1.model (iabs l) = (if l > 0 then 1 else 0) := by
  have hm' : (fillBuffer [l] 0 S).mem_used + ((([l] : List Int).length : Int) + 3) ≤
      (fillBuffer [l] 0 S).mem_max := by
    simp only [fillBuffer_mem_used, fillBuffer_mem_max, List.length_singleton, Nat.cast_one]
    omega
  obtain ⟨S2, hret, -, hlits, -, -, -, -, -, -, -, -, hfals, -, hstack, hasg, -, -, -⟩ :=
    addClause_buffer (fillBuffer [l] 0 S) ([l] : List Int).length 1 (by simp) hm'
  simp only [fillBuffer_mem_used, fillBuffer_fals, fillBuffer_falseStack, fillBuffer_assigned]
    at hret hlits hfals hstack hasg
  have hl : S2.DB (S.mem_used + 2) = l := by
    have := hlits 0 (le_refl 0) (by simp)
    simpa [fillBuffer] using this
  refine ⟨assign S2 (S.mem_used + 2) true, ?_, ?_, ?_, ?_, ?_, ?_⟩
  · unfold ingestClause
    simp only [hret, hl, hfals, h1, h2]
    simp
  · simp [assign, hl]
  · simp [assign, hl, hasg]
  · simp [assign, hasg]
  · simp [assign, hl]
  · simp [assign, hl]

/-! ## The arena bounds (C10) -/

theorem memInv_of_mem3 {S T : solver} (h : mem3 T = mem3 S) (hS : memInv S) : memInv T := by
  simp only [mem3, Prod.mk.injEq] at h
  obtain ⟨h1, h2, h3⟩ := h
  unfold memInv at *
  omega

@[simp] theorem mem3_unassign (S : solver) (l : Int) : mem3 (unassign S l) = mem3 S := rfl
@[simp] theorem mem3_assign (S : solver) (c : Int) (b : Bool) : mem3 (assign S c b) = mem3 S := rfl
@[simp] theorem mem3_addWatch (S : solver) (l m : Int) : mem3 (addWatch S l m) = mem3 S := rfl
@[simp] theorem mem3_wrW (S : solver) (w : Watch) (v : Int) : mem3 (wrW S w v) = mem3 S := by
  cases w <;> rfl
@[simp] theorem mem3_bump (S : solver) (l : Int) : mem3 (bump S l) = mem3 S := by
  unfold bump
  by_cases h1 : S.fals l = IMPLIED <;> by_cases h2 : iabs l = S.head <;> simp [h1, h2, mem3]

theorem mem3_restartLoop (k : Nat) (S : solver) : mem3 (restartLoop k S) = mem3 S := by
  induction k generalizing S with
  | zero => rfl
  | succ k ih =>
    unfold restartLoop
    split_ifs
    · rw [ih]; rfl
    · rfl

theorem mem3_implied_both (f : Nat) :
    (∀ S lit r, implied f S lit = Except.ok r → mem3 r.2 = mem3 S) ∧
    (∀ S lit p r, impliedLoop f S lit p = Except.ok r → mem3 r.2 = mem3 S) := by
  induction f with
  | zero =>
    constructor
    · intro S lit r h; simp [implied] at h
    · intro S lit p r h; simp [impliedLoop] at h
  | succ f ih =>
    constructor
    · intro S lit r h
      rw [implied] at h
      split_ifs at h with h1 h2
      · cases h; rfl
      · cases h; rfl
      · exact ih.2 _ _ _ _ h
    · intro S lit p r h
      rw [impliedLoop] at h
      split_ifs at h with h1 h2
      · cases hi : implied f S (S.DB p) with
        | error e => rw [hi] at h; cases h
        | ok q =>
          obtain ⟨b, S1⟩ := q
          rw [hi] at h
          have h3 := ih.1 _ _ _ hi
          simp only at h
          split_ifs at h
          · rw [ih.2 _ _ _ _ h]; exact h3
          · cases h; exact h3
      · exact ih.2 _ _ _ _ h
      · cases h; rfl

theorem mem3_bumpLits (f : Nat) (c : Int) (S T : solver) (h : bumpLits f c S = Except.ok T) :
    mem3 T = mem3 S := by
  induction f generalizing c S with
  | zero => simp [bumpLits] at h
  | succ f ih =>
    rw [bumpLits] at h
    split_ifs at h
    · rw [ih _ _ h, mem3_bump]
    · cases h; rfl

theorem mem3_analyzeLoop (f : Nat) (S T : solver) (h : analyzeLoop f S = Except.ok T) :
    mem3 T = mem3 S := by
  induction f generalizing S with
  | zero => simp [analyzeLoop] at h
  | succ f ih =>
    rw [analyzeLoop] at h
    simp only at h
    split_ifs at h with h1 h2
    · cases hc : checkLoop f { S with assigned := S.assigned - 1 } (S.assigned - 1) with
      | error e => rw [hc] at h; cases h
      | ok check =>
        rw [hc] at h
        simp only at h
        split_ifs at h with h3
        · cases h; rfl
        · cases hb : bumpLits f (S.reason (iabs (S.falseStack (S.assigned - 1))) + 1)
              { S with assigned := S.assigned - 1 } with
          | error e => rw [hb] at h; cases h
          | ok S2 =>
            rw [hb] at h
            simp only at h
            rw [ih _ h, mem3_unassign, mem3_bumpLits _ _ _ _ hb]
            rfl
    · rw [ih _ h, mem3_unassign]; rfl
    · cases h; rfl

theorem mem3_buildLoop (f : Nat) (S : solver) (p size lbd flag : Int) (r : solver × Int × Int)
    (h : buildLoop f S p size lbd flag = Except.ok r) :
    mem3 r.1 = mem3 S ∧ size ≤ r.2.1 := by
  induction f generalizing S p size lbd flag with
  | zero => simp [buildLoop] at h
  | succ f ih =>
    rw [buildLoop] at h
    split_ifs at h with h1
    · simp only at h
      by_cases hm : S.fals (S.falseStack p) = MARK
      · simp only [hm, if_true] at h
        cases hi : implied f S (S.falseStack p) with
        | error e => rw [hi] at h; cases h
        | ok q =>
          obtain ⟨b, S1⟩ := q
          have h3 : mem3 S1 = mem3 S := (mem3_implied_both f).1 _ _ _ hi
          rw [hi] at h
          simp only at h
          cases b with
          | true =>
            simp only [if_true] at h
            obtain ⟨e1, e2⟩ := ih _ _ _ _ _ h
            refine ⟨?_, e2⟩
            rw [e1, ← h3]
            split_ifs <;> rfl
          | false =>
            simp only [Bool.false_eq_true, if_false] at h
            obtain ⟨e1, e2⟩ := ih _ _ _ _ _ h
            refine ⟨?_, by omega⟩
            rw [e1, ← h3]
            split_ifs <;> rfl
      · simp only [hm, if_false] at h
        obtain ⟨e1, e2⟩ := ih _ _ _ _ _ h
        refine ⟨?_, e2⟩
        rw [e1]
        split_ifs <;> rfl
    · cases h
      exact ⟨rfl, le_refl _⟩

theorem mem3_backjumpLoop (k : Nat) (S : solver) : mem3 (backjumpLoop k S) = mem3 S := by
  induction k generalizing S with
  | zero => rfl
  | succ k ih =>
    unfold backjumpLoop
    split_ifs
    · rw [ih]; rfl
    · rfl

@[simp] theorem backjumpLoop_mem_used (k : Nat) (S : solver) :
    (backjumpLoop k S).mem_used = S.mem_used := by
  have h := mem3_backjumpLoop k S
  simp only [mem3, Prod.mk.injEq] at h
  exact h.1

@[simp] theorem backjumpLoop_mem_fixed (k : Nat) (S : solver) :
    (backjumpLoop k S).mem_fixed = S.mem_fixed := by
  have h := mem3_backjumpLoop k S
  simp only [mem3, Prod.mk.injEq] at h
  exact h.2.1

@[simp] theorem backjumpLoop_mem_max (k : Nat) (S : solver) :
    (backjumpLoop k S).mem_max = S.mem_max := by
  have h := mem3_backjumpLoop k S
  simp only [mem3, Prod.mk.injEq] at h
  exact h.2.2

theorem memInv_analyze (fuel : Nat) (S : solver) (clause : Int) (r : Int × solver)
    (hS : memInv S) (h : analyze fuel S clause = Except.ok r) : memInv r.2 := by
  unfold analyze at h
  simp only at h
  cases h1 : bumpLits fuel clause { S with nConflicts := S.nConflicts + 1 } with
  | error e => rw [h1] at h; cases h
  | ok S1 =>
    rw [h1] at h
    simp only at h
    cases h2 : analyzeLoop fuel S1 with
    | error e => rw [h2] at h; cases h
    | ok S2 =>
      rw [h2] at h
      simp only at h
      cases h3 : buildLoop fuel { S2 with processed := S2.assigned } S2.assigned 0 0 0 with
      | error e => rw [h3] at h; cases h
      | ok q =>
        obtain ⟨S4, size, lbd⟩ := q
        rw [h3] at h
        simp only at h
        obtain ⟨e3, hsize⟩ := mem3_buildLoop _ _ _ _ _ _ _ h3
        have e1 := mem3_bumpLits _ _ _ _ h1
        have e2 := mem3_analyzeLoop _ _ _ h2
        obtain ⟨-, -, hu, hmx, hfx, -⟩ := addClause_mem _ _ _ _ _ h
        obtain ⟨hm, -, -⟩ := addClause_mem _ _ _ _ _ h
        simp only [ne_eq, not_true_eq_false, if_false] at hfx
        have e4 : mem3 S4 = mem3 S := by
          rw [e3]
          show mem3 S2 = mem3 S
          rw [e2, e1]
          rfl
        simp only [mem3, Prod.mk.injEq] at e4
        obtain ⟨a1, a2, a3⟩ := e4
        unfold memInv at *
        simp only [unassign, backjumpLoop_mem_used, backjumpLoop_mem_fixed,
          backjumpLoop_mem_max] at hu hmx hfx hm
        have hsize' : 0 ≤ size := hsize
        omega


theorem mem3_scanLoop (f : Nat) (S : solver) (clause lit : Int) (w : Watch) (i : Int)
    (r : Bool × solver) (h : scanLoop f S clause lit w i = Except.ok r) : mem3 r.2 = mem3 S := by
  induction f generalizing i with
  | zero => simp [scanLoop] at h
  | succ f ih =>
    rw [scanLoop] at h
    split_ifs at h with h1 h2
    · cases h
      simp only [mem3_addWatch, mem3_wrW]
      rfl
    · exact ih _ h
    · cases h; rfl

theorem memInv_watchLoop (f : Nat) (S : solver) (lit : Int) (w : Watch) (forced : Bool)
    (fl : Flow) (hS : memInv S) (h : watchLoop f S lit w forced = Except.ok fl) :
    memInv fl.state := by
  induction f generalizing S w forced with
  | zero => simp [watchLoop] at h
  | succ f ih =>
    rw [watchLoop] at h
    by_cases h1 : rdW S w ≠ END
    · rw [if_pos h1] at h
      simp only at h
      generalize (if S.DB (rdW S w - 1) = 0 then rdW S w + 2 else rdW S w + 1) = clause at h
      have hS1m : mem3 (if S.DB clause = lit then
          ({ S with DB := upd S.DB clause (S.DB (clause + 1)) } : solver) else S) = mem3 S := by
        split_ifs <;> rfl
      generalize (if S.DB clause = lit then
          ({ S with DB := upd S.DB clause (S.DB (clause + 1)) } : solver) else S) = S1 at h hS1m
      cases hsc : scanLoop f S1 clause lit w 2 with
      | error e => rw [hsc] at h; cases h
      | ok q =>
        obtain ⟨unit, S2⟩ := q
        rw [hsc] at h
        have hS2m : mem3 S2 = mem3 S := by
          rw [mem3_scanLoop _ _ _ _ _ _ _ hsc]; exact hS1m
        have hS2 : memInv S2 := memInv_of_mem3 hS2m hS
        simp only at h
        cases unit with
        | false =>
          simp only [Bool.false_eq_true, if_false] at h
          exact ih _ _ _ hS2 h
        | true =>
          simp only [if_true] at h
          have hS3 : memInv ({ S2 with DB := upd S2.DB (clause + 1) lit } : solver) := hS2
          by_cases h2 : S2.fals (-upd S2.DB (clause + 1) lit clause) ≠ 0
          · rw [if_pos h2] at h
            exact ih _ _ _ hS3 h
          · rw [if_neg h2] at h
            by_cases h3 : S2.fals (upd S2.DB (clause + 1) lit clause) = 0
            · rw [if_pos h3] at h
              exact ih _ _ _ (memInv_of_mem3 (mem3_assign _ _ _) hS3) h
            · rw [if_neg h3] at h
              cases forced with
              | true =>
                simp only [if_true] at h
                cases h
                exact hS3
              | false =>
                simp only [Bool.false_eq_true, if_false] at h
                cases ha : analyze f { S2 with DB := upd S2.DB (clause + 1) lit } clause with
                | error e => rw [ha] at h; cases h
                | ok q =>
                  obtain ⟨lem, S4⟩ := q
                  rw [ha] at h
                  simp only at h
                  cases h
                  exact memInv_of_mem3 (mem3_assign _ _ _) (memInv_analyze _ _ _ _ hS3 ha)
    · rw [if_neg h1] at h
      cases h
      exact hS

theorem memInv_propLoop (f : Nat) (S : solver) (forced : Bool) (fl : Flow) (hS : memInv S)
    (h : propLoop f S forced = Except.ok fl) : memInv fl.state := by
  induction f generalizing S forced with
  | zero => simp [propLoop] at h
  | succ f ih =>
    rw [propLoop] at h
    by_cases h1 : S.processed < S.assigned
    · rw [if_pos h1] at h
      simp only at h
      cases hw : watchLoop f { S with processed := S.processed + 1 } (S.falseStack S.processed)
          (Watch.first (S.falseStack S.processed)) forced with
      | error e => rw [hw] at h; cases h
      | ok fl1 =>
        rw [hw] at h
        have h2 := memInv_watchLoop _ _ _ _ _ _ (show memInv { S with processed := S.processed + 1 } from hS) hw
        cases fl1 with
        | ret S2 => simp only at h; cases h; exact h2
        | go b S2 => simp only at h; exact ih _ _ h2 h
    · rw [if_neg h1] at h
      cases h; exact hS

theorem memInv_propagate (fuel : Nat) (S : solver) (r : Int × solver) (hS : memInv S)
    (h : propagate fuel S = Except.ok r) : memInv r.2 := by
  unfold propagate at h
  simp only at h
  cases hp : propLoop fuel S (decide (S.reason (iabs (S.falseStack S.processed)) ≠ 0)) with
  | error e => rw [hp] at h; cases h
  | ok fl =>
    rw [hp] at h
    have h2 := memInv_propLoop _ _ _ _ hS hp
    cases fl with
    | ret S1 => simp only at h; cases h; exact h2
    | go b S1 =>
      simp only at h
      cases h
      cases b <;> exact h2

theorem mem3_growMaxLemmas (k : Nat) (S : solver) : mem3 (growMaxLemmas k S) = mem3 S := by
  induction k generalizing S with
  | zero => rfl
  | succ k ih =>
    unfold growMaxLemmas
    split_ifs
    · rw [ih]; rfl
    · rfl

theorem mem3_cutWatch (f : Nat) (i : Int) (S T : solver) (h : cutWatch f i S = Except.ok T) :
    mem3 T = mem3 S := by
  induction f generalizing S with
  | zero =>
    rw [cutWatch] at h
    split_ifs at h
    cases h; rfl
  | succ f ih =>
    rw [cutWatch] at h
    split_ifs at h
    · rw [ih _ h]; rfl
    · cases h; rfl

theorem mem3_cutLoop (fuel n : Nat) (i : Int) (S T : solver)
    (h : cutLoop fuel n i S = Except.ok T) : mem3 T = mem3 S := by
  induction n generalizing i S with
  | zero => rw [cutLoop] at h; cases h; rfl
  | succ n ih =>
    rw [cutLoop] at h
    by_cases h0 : i = 0
    · rw [if_pos h0] at h
      exact ih _ _ h
    · rw [if_neg h0] at h
      cases hc : cutWatch fuel i S with
      | error e => rw [hc] at h; cases h
      | ok S1 =>
        rw [hc] at h
        simp only at h
        rw [ih _ _ h, mem3_cutWatch _ _ _ _ hc]

theorem countLits_gt (f : Nat) (S : solver) (i count : Int) (r : Int × Int)
    (h : countLits f S i count = Except.ok r) : i < r.1 := by
  induction f generalizing i count with
  | zero => simp [countLits] at h
  | succ f ih =>
    rw [countLits] at h
    by_cases h0 : S.DB i ≠ 0
    · simp only [h0, ne_eq, not_false_eq_true, if_true] at h
      have := ih _ _ h
      omega
    · simp only [h0, if_false] at h
      cases h
      show i < i + 1
      omega

theorem memInv_replay (fuel : Nat) (k old_used : Int) (n : Nat) (i : Int) (S T : solver)
    (hS : memInv S) (h : replay fuel k old_used n i S = Except.ok T) : memInv T := by
  induction n generalizing i S with
  | zero =>
    rw [replay] at h
    split_ifs at h
    cases h; exact hS
  | succ n ih =>
    rw [replay] at h
    by_cases h0 : i < old_used
    · rw [if_pos h0] at h
      simp only at h
      cases hc : countLits fuel S i 0 with
      | error e => rw [hc] at h; cases h
      | ok q =>
        obtain ⟨i1, count⟩ := q
        rw [hc] at h
        simp only at h
        have hgt : i < i1 := countLits_gt _ _ _ _ _ hc
        by_cases hk : count < k
        · rw [if_pos hk] at h
          cases ha : addClause S (Src.db i) (i1 - i) 0 with
          | error e => rw [ha] at h; cases h
          | ok q =>
            obtain ⟨c, S1⟩ := q
            rw [ha] at h
            simp only at h
            obtain ⟨hm, -, hu, hmx, hfx, -⟩ := addClause_mem _ _ _ _ _ ha
            simp only [ne_eq, not_true_eq_false, if_false] at hfx
            refine ih _ _ ?_ h
            have hu' : S1.mem_used = S.mem_used + (i1 - i + 3) := hu
            have hmx' : S1.mem_max = S.mem_max := hmx
            have hfx' : S1.mem_fixed = S.mem_fixed := hfx
            unfold memInv at *
            omega
        · rw [if_neg hk] at h
          exact ih _ _ hS h
    · rw [if_neg h0] at h
      cases h; exact hS

theorem memInv_reduceDB (fuel : Nat) (S : solver) (k : Int) (T : solver) (hS : memInv S)
    (h : reduceDB fuel S k = Except.ok T) : memInv T := by
  unfold reduceDB at h
  simp only at h
  cases hc : cutLoop fuel (2 * (growMaxLemmas (S.nLemmas - S.maxLemmas).toNat S).nVars + 1).toNat
      (-(growMaxLemmas (S.nLemmas - S.maxLemmas).toNat S).nVars)
      { growMaxLemmas (S.nLemmas - S.maxLemmas).toNat S with nLemmas := 0 } with
  | error e => rw [hc] at h; cases h
  | ok S3 =>
    rw [hc] at h
    simp only at h
    have e1 : mem3 S3 = mem3 S := by
      rw [mem3_cutLoop _ _ _ _ _ hc]
      show mem3 (growMaxLemmas (S.nLemmas - S.maxLemmas).toNat S) = mem3 S
      exact mem3_growMaxLemmas _ _
    refine memInv_replay _ _ _ _ _ _ _ ?_ h
    simp only [mem3, Prod.mk.injEq] at e1
    unfold memInv at *
    simp only
    omega

theorem mem3_restart (S : solver) : mem3 (restart S) = mem3 S := by
  unfold restart
  simp only
  show mem3 (restartLoop _ S) = mem3 S
  exact mem3_restartLoop _ _

theorem memInv_afterConflict (fuel : Nat) (S T : solver) (hS : memInv S)
    (h : afterConflict fuel S = Except.ok T) : memInv T := by
  unfold afterConflict at h
  by_cases h1 : S.fast > (Int.tdiv S.slow 100) * 125
  · rw [if_pos h1] at h
    simp only at h
    have hS1 : memInv (restart { S with fast := (Int.tdiv S.slow 100) * 125 }) :=
      memInv_of_mem3 (mem3_restart _) hS
    split_ifs at h
    · exact memInv_reduceDB _ _ _ _ hS1 h
    · cases h
      exact hS1
  · rw [if_neg h1] at h
    cases h; exact hS

theorem memInv_solveLoop (f : Nat) (S : solver) (d : Int) (r : Int × solver) (hS : memInv S)
    (h : solveLoop f S d = Except.ok r) : memInv r.2 := by
  induction f generalizing S d with
  | zero => simp [solveLoop] at h
  | succ f ih =>
    rw [solveLoop] at h
    simp only at h
    cases hp : propagate f S with
    | error e => rw [hp] at h; cases h
    | ok q =>
      obtain ⟨v, S1⟩ := q
      rw [hp] at h
      simp only at h
      have hS1 : memInv S1 := memInv_propagate _ _ _ hS hp
      by_cases hv : v = UNSAT
      · rw [if_pos hv] at h
        cases h; exact hS1
      · rw [if_neg hv] at h
        generalize hac : (if decide (S1.nLemmas > S.nLemmas) = true then afterConflict f S1
            else Except.ok S1) = ac at h
        cases ac with
        | error e => cases h
        | ok S2 =>
          simp only at h
          have hS2 : memInv S2 := by
            split_ifs at hac
            · exact memInv_afterConflict _ _ _ hS1 hac
            · cases hac; exact hS1
          cases hn : nextDecision f S2 (if decide (S1.nLemmas > S.nLemmas) = true then S1.head else d) with
          | error e => rw [hn] at h; cases h
          | ok d1 =>
            rw [hn] at h
            simp only at h
            by_cases hd : d1 = 0
            · rw [if_pos hd] at h
              cases h; exact hS2
            · rw [if_neg hd] at h
              refine ih _ _ ?_ h
              exact hS2

theorem memInv_solve (fuel : Nat) (S : solver) (r : Int × solver) (hS : memInv S)
    (h : solve fuel S = Except.ok r) : memInv r.2 :=
  memInv_solveLoop _ _ _ _ hS h

theorem memInv_ingestClause (S : solver) (c : List Int) (r : Int × solver)
    (h : ingestClause S c = Except.ok r) : memInv r.2 := by
  unfold ingestClause at h
  simp only at h
  cases ha : addClause (fillBuffer c 0 S) Src.buffer (c.length : Int) 1 with
  | error e => rw [ha] at h; cases h
  | ok q =>
    obtain ⟨cl, S2⟩ := q
    rw [ha] at h
    simp only at h
    obtain ⟨hm, -, hu, hmx, hfx, -⟩ := addClause_mem _ _ _ _ _ ha
    simp only [ne_eq, one_ne_zero, not_false_eq_true, if_true] at hfx
    have hS2 : memInv S2 := by
      unfold memInv
      simp only at hu hmx hfx
      omega
    split_ifs at h
    · cases h; exact hS2
    · cases h; exact memInv_of_mem3 (mem3_assign _ _ _) hS2
    · cases h; exact hS2

theorem memInv_ingest (cs : List (List Int)) (nZeros : Int) (S : solver) (r : Int × solver)
    (hS : memInv S ∨ 0 < nZeros) (h : ingest cs nZeros S = Except.ok r) : memInv r.2 := by
  induction cs generalizing nZeros S with
  | nil =>
    rw [ingest] at h
    split_ifs at h with h0
    · exact memInv_ingestClause _ _ _ h
    · cases h
      rcases hS with hS | hS
      · exact hS
      · exact absurd hS h0
  | cons c cs ih =>
    rw [ingest] at h
    by_cases h0 : nZeros > 0
    · rw [if_pos h0] at h
      cases hi : ingestClause S c with
      | error e => rw [hi] at h; cases h
      | ok q =>
        obtain ⟨v, S1⟩ := q
        rw [hi] at h
        simp only at h
        have hS1 : memInv S1 := memInv_ingestClause _ _ _ hi
        split_ifs at h
        · cases h; exact hS1
        · exact ih _ _ (Or.inl hS1) h
    · rw [if_neg h0] at h
      cases h
      rcases hS with hS | hS
      · exact hS
      · exact absurd hS h0

theorem initLoop_nClauses (k : Nat) (i : Int) (S : solver) :
    (initLoop k i S).nClauses = S.nClauses := by
  induction k generalizing i S with
  | zero => rfl
  | succ k ih =>
    unfold initLoop
    simp only
    rw [ih]

theorem bind_ok {α β : Type} (x : Except Fault α) (g : α → Except Fault β) (b : β)
    (h : x.bind g = Except.ok b) : ∃ a, x = Except.ok a ∧ g a = Except.ok b := by
  cases x with
  | error e => cases h
  | ok a => exact ⟨a, rfl, h⟩

theorem getMemory_nClauses (S : solver) (k : Int) (r : Int × solver)
    (h : getMemory S k = Except.ok r) : r.2.nClauses = S.nClauses := by
  unfold getMemory at h
  split_ifs at h
  cases h
  rfl

theorem initCDCL_nClauses (S : solver) (n m : Int) (T : solver)
    (h : initCDCL S n m = Except.ok T) : T.nClauses = m := by
  unfold initCDCL at h
  simp only at h
  obtain ⟨r1, h1, h⟩ := bind_ok _ _ _ h
  obtain ⟨r2, h2, h⟩ := bind_ok _ _ _ h
  obtain ⟨r3, h3, h⟩ := bind_ok _ _ _ h
  obtain ⟨r4, h4, h⟩ := bind_ok _ _ _ h
  obtain ⟨r5, h5, h⟩ := bind_ok _ _ _ h
  obtain ⟨r6, h6, h⟩ := bind_ok _ _ _ h
  obtain ⟨r7, h7, h⟩ := bind_ok _ _ _ h
  obtain ⟨r8, h8, h⟩ := bind_ok _ _ _ h
  cases h
  simp only [initLoop_nClauses]
  rw [getMemory_nClauses _ _ _ h8]
  simp only
  rw [getMemory_nClauses _ _ _ h7]
  simp only
  rw [getMemory_nClauses _ _ _ h6]
  simp only
  rw [getMemory_nClauses _ _ _ h5]
  simp only
  rw [getMemory_nClauses _ _ _ h4]
  simp only
  rw [getMemory_nClauses _ _ _ h3]
  simp only
  rw [getMemory_nClauses _ _ _ h2]
  simp only
  rw [getMemory_nClauses _ _ _ h1]

theorem memInv_parse (S : solver) (n m : Int) (cs : List (List Int)) (r : Int × solver)
    (hm : 0 < m) (h : parse S n m cs = Except.ok r) : memInv r.2 := by
  unfold parse at h
  cases hi : initCDCL S n m with
  | error e => rw [hi] at h; cases h
  | ok S1 =>
    rw [hi] at h
    simp only at h
    refine memInv_ingest _ _ _ _ (Or.inr ?_) h
    rw [initCDCL_nClauses _ _ _ _ hi]
    exact hm

theorem memInv_main (fuel : Nat) (S : solver) (n m : Int) (cs : List (List Int))
    (r : Int × solver) (hm : 0 < m) (h : main fuel S n m cs = Except.ok r) : memInv r.2 := by
  unfold main at h
  cases hp : parse S n m cs with
  | error e => rw [hp] at h; cases h
  | ok q =>
    obtain ⟨v, S1⟩ := q
    rw [hp] at h
    simp only at h
    have hS1 : memInv S1 := memInv_parse _ _ _ _ _ hm hp
    split_ifs at h
    · cases h; exact hS1
    · exact memInv_solve _ _ _ hS1 h

theorem memInv_getMemory (S : solver) (k : Int) (r : Int × solver) (hS : memInv S) (hk : 0 ≤ k)
    (h : getMemory S k = Except.ok r) : memInv r.2 := by
  unfold getMemory at h
  split_ifs at h with h1
  cases h
  unfold memInv at *
  simp only
  omega

theorem memInv_addClause (S : solver) (src : Src) (size irr : Int) (r : Int × solver)
    (hS : memInv S) (hsz : 0 ≤ size) (h : addClause S src size irr = Except.ok r) :
    memInv r.2 := by
  obtain ⟨hm, -, hu, hmx, hfx, -⟩ := addClause_mem _ _ _ _ _ h
  unfold memInv at *
  split_ifs at hfx <;> omega

/-- C10: `mem_fixed ≤ mem_used ≤ mem_max` holds once `parse` has ingested at
least one clause (it holds after every ingestion step), and every operation
that returns keeps it: `getMemory` and `addClause` (for the non-negative sizes
they are called with, either value of `irr`), `analyze` with its lemma
insertion, `reduceDB`, and with them `propagate`, `solve` and the whole run. -/
theorem mem_bounds_invariant :
    (∀ S n m cs r, 0 < m → parse S n m cs = Except.ok r → memInv r.2) ∧
    (∀ S c r, ingestClause S c = Except.ok r → memInv r.2) ∧
    (∀ S k r, memInv S → 0 ≤ k → getMemory S k = Except.ok r → memInv r.2) ∧
    (∀ S src size irr r, memInv S → 0 ≤ size → addClause S src size irr = Except.ok r →
      memInv r.2) ∧
    (∀ fuel S clause r, memInv S → analyze fuel S clause = Except.ok r → memInv r.2) ∧
    (∀ fuel S k T, memInv S → reduceDB fuel S k = Except.ok T → memInv T) ∧
    (∀ fuel S r, memInv S → propagate fuel S = Except.ok r → memInv r.2) ∧
    (∀ fuel S r, memInv S → solve fuel S = Except.ok r → memInv r.2) ∧
    (∀ fuel S n m cs r, 0 < m → main fuel S n m cs = Except.ok r → memInv r.2) :=
  ⟨fun S n m cs r hm h => memInv_parse S n m cs r hm h,
   fun S c r h => memInv_ingestClause S c r h,
   fun S k r hS hk h => memInv_getMemory S k r hS hk h,
   fun S src size irr r hS hsz h => memInv_addClause S src size irr r hS hsz h,
   fun fuel S clause r hS h => memInv_analyze fuel S clause r hS h,
   fun fuel S k T hS h => memInv_reduceDB fuel S k T hS h,
   fun fuel S r hS h => memInv_propagate fuel S r hS h,
   fun fuel S r hS h => memInv_solve fuel S r hS h,
   fun fuel S n m cs r hm h => memInv_main fuel S n m cs r hm h⟩

/-- C10 on the run for the file `p cnf 2 3` with clauses `1 0`, `2 0`, `-1 -2 0`. -/
theorem mem_bounds_invariant_witness :
    memInv (stateOf (main 50 blank 2 3 [[1], [2], [-1, -2]])) :=
  mem_bounds_invariant.2.2.2.2.2.2.2.2 50 blank 2 3 [[1], [2], [-1, -2]]
    (UNSAT, stateOf (main 50 blank 2 3 [[1], [2], [-1, -2]])) (by decide) rfl

/-! ## Reduction of the learned region (C8, C9) -/

/-- C8 fails on the code.  First state: with the lemmas `1 2` and `-1 -2 3` in
the learned region (cells 44..54, both with fewer than 6 literals agreeing
with the model cache), `reduceDB (6)` re-adds the first with `size + 1`
literals (its terminator is copied as a literal and a second `0` is written)
and reads the second from its second literal on: the region then holds
`1 2 0 0` and `-2 3 0 0`, `mem_used` has grown from 55 to 56 and no clause
watches `-1`.  Second state: `solvedState`, reached by a whole run, holds the
learned lemmas `3 4` and `2 4` (cells 71..80, one agreeing literal each);
`reduceDB (6)` leaves `3 4 0 0` and `4 0 0`: the literal `2` of the second
lemma is gone and `mem_used` has grown from 81 to 82. -/
theorem reduceDB_replay_off_by_one :
    (lemmaState.mem_fixed = 44 ∧ lemmaState.mem_used = 55 ∧ lemmaState.nLemmas = 2 ∧
      cells lemmaState 44 11 = [38, 39, 1, 2, 0, -9, -9, -1, -2, 3, 0] ∧
      lemmaState.model 1 = 0 ∧ lemmaState.model 2 = 0 ∧ lemmaState.model 3 = 0 ∧
      (∃ T, reduceDB 20 lemmaState 6 = Except.ok T ∧
        T.mem_fixed = 44 ∧ T.mem_used = 56 ∧ T.nLemmas = 2 ∧
        cells T 44 12 = [38, 39, 1, 2, 0, 0, -9, -9, -2, 3, 0, 0] ∧
        T.first (-1) = END ∧ T.first (-2) = 50 ∧ T.first 3 = 51)) ∧
    (solvedState.mem_fixed = 71 ∧ solvedState.mem_used = 81 ∧ solvedState.nLemmas = 2 ∧
      cells solvedState 71 10 = [66, -9, 3, 4, 0, 60, 72, 2, 4, 0] ∧
      solvedState.model 2 = 1 ∧ solvedState.model 3 = 1 ∧ solvedState.model 4 = 0 ∧
      (∃ T, reduceDB 30 solvedState 6 = Except.ok T ∧
        T.mem_fixed = 71 ∧ T.mem_used = 82 ∧ T.nLemmas = 2 ∧
        cells T 71 11 = [66, -9, 3, 4, 0, 0, 72, 0, 4, 0, 0])) := by
  refine ⟨⟨by decide, by decide, by decide, by decide, by decide, by decide, by decide,
    outOf (reduceDB 20 lemmaState 6), rfl, by decide, by decide, by decide, by decide,
    by decide, by decide, by decide⟩,
    by decide!, by decide!, by decide!, by decide!, by decide!, by decide!, by decide!,
    outOf (reduceDB 30 solvedState 6), ok_outOf _ (by decide!), by decide!, by decide!,
    by decide!, by decide!⟩

/-- C9 fails on the code.  First state: in `relocState` the list of literal
`3` is `39, 53, 49` (the original clause first, then the two lemmas; the
learned region is 48..57).  `reduceDB (6)` stops at the original watch 39 and
cuts nothing, so after the replay, whose clauses have their header slots at
48, 49 and 54, 55, the list of literal `3` still runs through the old offset
53, now the cell after a re-added clause, and from there to offset 0 without
reaching `END`.  Second state: in `solvedState`, reached by a whole run, the
list of literal `2` is `54, 76, 60, 48` (learned region 71..80, the watch 54
of an original clause in front of the lemma watch 76); after `reduceDB (6)`,
whose re-added clauses have their header slots at 71, 72 and 77, 78, that
list is `54, 76, 0, 0, ...`: it holds the old offset 76, has lost the
original watches 60 and 48 and never reaches `END`.  `mem_used ≥ mem_fixed`
does hold in both. -/
theorem reduceDB_leaves_stale_watch :
    (relocState.mem_fixed = 48 ∧ relocState.mem_used = 58 ∧
      watchChain relocState 5 (relocState.first 3) = [39, 53, 49] ∧
      (∃ T, reduceDB 20 relocState 6 = Except.ok T ∧
        T.mem_fixed = 48 ∧ T.mem_used = 59 ∧ T.mem_fixed ≤ T.mem_used ∧
        cells T 48 11 = [38, 39, 1, 3, 0, 0, 48, 0, 1, 0, 0] ∧
        watchChain T 6 (T.first 3) = [49, 39, 53, 0, 0, 0] ∧
        watchChain T 6 (T.first 1) = [54, 48, 38] ∧
        watchChain T 3 (T.first 0) = [55, 0, 0])) ∧
    (solvedState.mem_fixed = 71 ∧ solvedState.mem_used = 81 ∧
      watchChain solvedState 6 (solvedState.first 2) = [54, 76, 60, 48] ∧
      (∃ T, reduceDB 30 solvedState 6 = Except.ok T ∧
        T.mem_fixed = 71 ∧ T.mem_used = 82 ∧ T.mem_fixed ≤ T.mem_used ∧
        cells T 71 11 = [66, -9, 3, 4, 0, 0, 72, 0, 4, 0, 0] ∧
        watchChain T 6 (T.first 2) = [54, 76, 0, 0, 0, 0] ∧
        watchChain T 6 (T.first 3) = [71, 66, 55] ∧
        watchChain T 6 (T.first 4) = [77, 72] ∧
        watchChain T 3 (T.first 0) = [78, 0, 0])) := by
  refine ⟨⟨by decide, by decide, by decide,
    outOf (reduceDB 20 relocState 6), rfl, by decide, by decide, by decide, by decide,
    by decide, by decide, by decide⟩,
    by decide!, by decide!, by decide!,
    outOf (reduceDB 30 solvedState 6), ok_outOf _ (by decide!), by decide!, by decide!,
    by decide!, by decide!, by decide!, by decide!, by decide!, by decide!⟩

/-! ## Two concrete runs (C11, C12) -/

theorem ok_stateOf (r : Except Fault (Int × solver)) (v : Int) (h : verdictOf r = some v) :
    r = Except.ok (v, stateOf r) := by
  cases r with
  | error e => simp [verdictOf] at h
  | ok p =>
    obtain ⟨v1, S⟩ := p
    simp only [verdictOf, Option.some.injEq] at h
    subst h
    rfl

theorem solveLoop_unsat (f : Nat) (S : solver) (d : Int) (S1 : solver)
    (h : propagate f S = Except.ok (UNSAT, S1)) :
    solveLoop (f + 1) S d = Except.ok (UNSAT, S1) := by
  rw [solveLoop]
  simp only [h]
  rfl

/-- C11: for the file `p cnf 3 7` with the seven clauses of `sevenClauses`
ingestion ends without a conflict, `solve` returns `SAT`, and in the final
state the three variables are true: `fals[-1]`, `fals[-2]`, `fals[-3]` are
nonzero and `fals[1]`, `fals[2]`, `fals[3]` are zero. -/
theorem seven_clauses_sat :
    ∃ S0 S, parse blank 3 7 sevenClauses = Except.ok (SAT, S0) ∧
      solve 50 S0 = Except.ok (SAT, S) ∧
      main 50 blank 3 7 sevenClauses = Except.ok (SAT, S) ∧
      S.fals (-1) ≠ 0 ∧ S.fals (-2) ≠ 0 ∧ S.fals (-3) ≠ 0 ∧
      S.fals 1 = 0 ∧ S.fals 2 = 0 ∧ S.fals 3 = 0 := by
  have h0 : parse blank 3 7 sevenClauses
      = Except.ok (SAT, stateOf (parse blank 3 7 sevenClauses)) :=
    ok_stateOf _ _ (by decide!)
  have h1 : solve 50 (stateOf (parse blank 3 7 sevenClauses))
      = Except.ok (SAT, stateOf (solve 50 (stateOf (parse blank 3 7 sevenClauses)))) :=
    ok_stateOf _ _ (by decide!)
  refine ⟨stateOf (parse blank 3 7 sevenClauses),
    stateOf (solve 50 (stateOf (parse blank 3 7 sevenClauses))), h0, h1, ?_,
    by decide!, by decide!, by decide!, by decide!, by decide!, by decide!⟩
  unfold main
  rw [h0]
  simpa [SAT, UNSAT] using h1

/-- C12: for the file `p cnf 2 3` with clauses `1`, `2` and `-1 -2` ingestion
ends without a conflict with both units assigned as forced, and `solve`
returns `UNSAT` from its first call of `propagate`, with no decision on the
trail (both trail literals have a reason) and without a call of `analyze`. -/
theorem two_units_unsat :
    ∃ S0 S, parse blank 2 3 [[1], [2], [-1, -2]] = Except.ok (SAT, S0) ∧
      S0.fals (-1) = IMPLIED ∧ S0.fals (-2) = IMPLIED ∧
      S0.assigned = 2 ∧ S0.falseStack 0 = -1 ∧ S0.falseStack 1 = -2 ∧
      propagate 49 S0 = Except.ok (UNSAT, S) ∧
      solve 50 S0 = Except.ok (UNSAT, S) ∧
      S.assigned = 2 ∧ S.reason (iabs (S.falseStack 0)) ≠ 0 ∧
      S.reason (iabs (S.falseStack 1)) ≠ 0 ∧ S.nConflicts = 0 := by
  have h0 : parse blank 2 3 [[1], [2], [-1, -2]]
      = Except.ok (SAT, stateOf (parse blank 2 3 [[1], [2], [-1, -2]])) :=
    ok_stateOf _ _ (by decide!)
  have h1 : propagate 49 (stateOf (parse blank 2 3 [[1], [2], [-1, -2]]))
      = Except.ok (UNSAT, stateOf (propagate 49 (stateOf (parse blank 2 3 [[1], [2], [-1, -2]])))) :=
    ok_stateOf _ _ (by decide!)
  refine ⟨stateOf (parse blank 2 3 [[1], [2], [-1, -2]]),
    stateOf (propagate 49 (stateOf (parse blank 2 3 [[1], [2], [-1, -2]]))), h0,
    by decide!, by decide!, by decide!, by decide!, by decide!, h1, ?_,
    by decide!, by decide!, by decide!, by decide!⟩
  exact solveLoop_unsat 49 _ _ _ h1

/-! ## What conflict analysis leaves alone -/

theorem static_unassign (S : solver) (l : Int) : static (unassign S l) = static S := rfl

theorem static_bump (S : solver) (l : Int) : static (bump S l) = static S := by
  unfold bump
  by_cases h1 : S.fals l = IMPLIED <;> by_cases h2 : iabs l = S.head <;> simp [h1, h2, static]

theorem static_implied_both (f : Nat) :
    (∀ S lit r, implied f S lit = Except.ok r → static r.2 = static S) ∧
    (∀ S lit p r, impliedLoop f S lit p = Except.ok r → static r.2 = static S) := by
  induction f with
  | zero =>
    constructor
    · intro S lit r h; simp [implied] at h
    · intro S lit p r h; simp [impliedLoop] at h
  | succ f ih =>
    constructor
    · intro S lit r h
      rw [implied] at h
      split_ifs at h with h1 h2
      · cases h; rfl
      · cases h; rfl
      · exact ih.2 _ _ _ _ h
    · intro S lit p r h
      rw [impliedLoop] at h
      split_ifs at h with h1 h2
      · cases hi : implied f S (S.DB p) with
        | error e => rw [hi] at h; cases h
        | ok q =>
          obtain ⟨b, S1⟩ := q
          rw [hi] at h
          have h3 := ih.1 _ _ _ hi
          simp only at h
          split_ifs at h
          · rw [ih.2 _ _ _ _ h]; exact h3
          · cases h; exact h3
      · exact ih.2 _ _ _ _ h
      · cases h; rfl

theorem static_bumpLits (f : Nat) (c : Int) (S T : solver) (h : bumpLits f c S = Except.ok T) :
    static T = static S := by
  induction f generalizing c S with
  | zero => simp [bumpLits] at h
  | succ f ih =>
    rw [bumpLits] at h
    split_ifs at h
    · rw [ih _ _ h, static_bump]
    · cases h; rfl

theorem static_analyzeLoop (f : Nat) (S T : solver) (h : analyzeLoop f S = Except.ok T) :
    static T = static S := by
  induction f generalizing S with
  | zero => simp [analyzeLoop] at h
  | succ f ih =>
    rw [analyzeLoop] at h
    simp only at h
    split_ifs at h with h1 h2
    · cases hc : checkLoop f { S with assigned := S.assigned - 1 } (S.assigned - 1) with
      | error e => rw [hc] at h; cases h
      | ok check =>
        rw [hc] at h
        simp only at h
        split_ifs at h with h3
        · cases h; rfl
        · cases hb : bumpLits f (S.reason (iabs (S.falseStack (S.assigned - 1))) + 1)
              { S with assigned := S.assigned - 1 } with
          | error e => rw [hb] at h; cases h
          | ok S2 =>
            rw [hb] at h
            simp only at h
            rw [ih _ h, static_unassign, static_bumpLits _ _ _ _ hb]
            rfl
    · rw [ih _ h, static_unassign]; rfl
    · cases h; rfl

theorem static_buildLoop (f : Nat) (S : solver) (p size lbd flag : Int) (r : solver × Int × Int)
    (h : buildLoop f S p size lbd flag = Except.ok r) : static r.1 = static S := by
  induction f generalizing S p size lbd flag with
  | zero => simp [buildLoop] at h
  | succ f ih =>
    rw [buildLoop] at h
    split_ifs at h with h1
    · simp only at h
      by_cases hm : S.fals (S.falseStack p) = MARK
      · simp only [hm, if_true] at h
        cases hi : implied f S (S.falseStack p) with
        | error e => rw [hi] at h; cases h
        | ok q =>
          obtain ⟨b, S1⟩ := q
          have h3 : static S1 = static S := (static_implied_both f).1 _ _ _ hi
          rw [hi] at h
          simp only at h
          cases b with
          | true =>
            simp only [if_true] at h
            rw [ih _ _ _ _ _ h, ← h3]
            split_ifs <;> rfl
          | false =>
            simp only [Bool.false_eq_true, if_false] at h
            rw [ih _ _ _ _ _ h, ← h3]
            split_ifs <;> rfl
      · simp only [hm, if_false] at h
        rw [ih _ _ _ _ _ h]
        split_ifs <;> rfl
    · cases h
      rfl

theorem static_backjumpLoop (k : Nat) (S : solver) : static (backjumpLoop k S) = static S := by
  induction k generalizing S with
  | zero => rfl
  | succ k ih =>
    unfold backjumpLoop
    split_ifs
    · rw [ih]; rfl
    · rfl

theorem static_restartLoop (k : Nat) (S : solver) : static (restartLoop k S) = static S := by
  induction k generalizing S with
  | zero => rfl
  | succ k ih =>
    unfold restartLoop
    split_ifs
    · rw [ih]; rfl
    · rfl

theorem static_reason {S T : solver} (h : static T = static S) : T.reason = S.reason := by
  simp only [static, Prod.mk.injEq] at h
  exact h.2.2.2.2.2.2.2.2.2.1

/-- The steps of a call of `analyze` that returns. -/
theorem analyze_eq (fuel : Nat) (S : solver) (clause : Int) (r : Int × solver)
    (h : analyze fuel S clause = Except.ok r) :
    ∃ S1 S2 S4 size lbd,
      bumpLits fuel clause { S with nConflicts := S.nConflicts + 1 } = Except.ok S1 ∧
      analyzeLoop fuel S1 = Except.ok S2 ∧
      buildLoop fuel { S2 with processed := S2.assigned } S2.assigned 0 0 0
        = Except.ok (S4, size, lbd) ∧
      addClause (preLemma S4 size lbd) Src.buffer size 0 = Except.ok r := by
  unfold analyze at h
  simp only at h
  cases h1 : bumpLits fuel clause { S with nConflicts := S.nConflicts + 1 } with
  | error e => rw [h1] at h; cases h
  | ok S1 =>
    rw [h1] at h
    simp only at h
    cases h2 : analyzeLoop fuel S1 with
    | error e => rw [h2] at h; cases h
    | ok S2 =>
      rw [h2] at h
      simp only at h
      cases h3 : buildLoop fuel { S2 with processed := S2.assigned } S2.assigned 0 0 0 with
      | error e => rw [h3] at h; cases h
      | ok q =>
        obtain ⟨S4, size, lbd⟩ := q
        rw [h3] at h
        simp only at h
        exact ⟨S1, S2, S4, size, lbd, rfl, h2, h3, h⟩

@[simp] theorem backjumpLoop_DB (k : Nat) (S : solver) :
    (backjumpLoop k S).DB = S.DB := by
  have h := static_backjumpLoop k S
  simp only [static, Prod.mk.injEq] at h
  exact h.1

@[simp] theorem backjumpLoop_nVars (k : Nat) (S : solver) :
    (backjumpLoop k S).nVars = S.nVars := by
  have h := static_backjumpLoop k S
  simp only [static, Prod.mk.injEq] at h
  exact h.2.1

@[simp] theorem backjumpLoop_nClauses (k : Nat) (S : solver) :
    (backjumpLoop k S).nClauses = S.nClauses := by
  have h := static_backjumpLoop k S
  simp only [static, Prod.mk.injEq] at h
  exact h.2.2.1

@[simp] theorem backjumpLoop_maxLemmas (k : Nat) (S : solver) :
    (backjumpLoop k S).maxLemmas = S.maxLemmas := by
  have h := static_backjumpLoop k S
  simp only [static, Prod.mk.injEq] at h
  exact h.2.2.2.2.2.2.1

@[simp] theorem backjumpLoop_nLemmas (k : Nat) (S : solver) :
    (backjumpLoop k S).nLemmas = S.nLemmas := by
  have h := static_backjumpLoop k S
  simp only [static, Prod.mk.injEq] at h
  exact h.2.2.2.2.2.2.2.1

@[simp] theorem backjumpLoop_model (k : Nat) (S : solver) :
    (backjumpLoop k S).model = S.model := by
  have h := static_backjumpLoop k S
  simp only [static, Prod.mk.injEq] at h
  exact h.2.2.2.2.2.2.2.2.1

@[simp] theorem backjumpLoop_reason (k : Nat) (S : solver) :
    (backjumpLoop k S).reason = S.reason := by
  have h := static_backjumpLoop k S
  simp only [static, Prod.mk.injEq] at h
  exact h.2.2.2.2.2.2.2.2.2.1

@[simp] theorem backjumpLoop_falseStack (k : Nat) (S : solver) :
    (backjumpLoop k S).falseStack = S.falseStack := by
  have h := static_backjumpLoop k S
  simp only [static, Prod.mk.injEq] at h
  exact h.2.2.2.2.2.2.2.2.2.2.1

@[simp] theorem backjumpLoop_first (k : Nat) (S : solver) :
    (backjumpLoop k S).first = S.first := by
  have h := static_backjumpLoop k S
  simp only [static, Prod.mk.injEq] at h
  exact h.2.2.2.2.2.2.2.2.2.2.2.1

@[simp] theorem backjumpLoop_forced (k : Nat) (S : solver) :
    (backjumpLoop k S).forced = S.forced := by
  have h := static_backjumpLoop k S
  simp only [static, Prod.mk.injEq] at h
  exact h.2.2.2.2.2.2.2.2.2.2.2.2

theorem static_preLemma (S4 : solver) (size lbd : Int) :
    static (preLemma S4 size lbd) = static S4 := by
  simp [static, preLemma, unassign]

theorem kept_addClause (S : solver) (src : Src) (size irr : Int) (r : Int × solver)
    (h : addClause S src size irr = Except.ok r) : kept r.2 = kept S := by
  unfold addClause at h
  by_cases hm : S.mem_used + (size + 3) ≤ S.mem_max
  · rw [getMemory_ok S _ hm] at h
    simp only [Except.ok.injEq] at h
    subst h
    by_cases hs : size > 1 <;> by_cases hi : irr = 0 <;> simp [hs, hi, addWatch, kept]
  · rw [getMemory_exit S _ (not_le.mp hm)] at h
    cases h

theorem kept_reason {S T : solver} (h : kept T = kept S) : T.reason = S.reason := by
  simp only [kept, Prod.mk.injEq] at h
  exact h.2.2.2.2.2.2.2.1

/-! ## Where `reason[]` is written -/

/-- Where `reason[]` is written: only when a variable is assigned.
`assign` stores the offset of the reason clause at the variable of its first
literal, the decision block of `solve` stores 0 at the decided variable, and
neither changes any other entry; `unassign`, `restart` and `analyze` (with its
backjump) leave the whole array as it is, so an unassigned variable keeps
the reason of its last assignment. -/
theorem reason_written_on_assignment_only :
    (∀ S c forced, (assign S c forced).reason (iabs (S.DB c)) = c ∧
      ∀ v, v ≠ iabs (S.DB c) → (assign S c forced).reason v = S.reason v) ∧
    (∀ S d, (pushDecision S d).reason (iabs d) = 0 ∧
      ∀ v, v ≠ iabs d → (pushDecision S d).reason v = S.reason v) ∧
    (∀ S lit, (unassign S lit).reason = S.reason) ∧
    (∀ S, (restart S).reason = S.reason) ∧
    (∀ fuel S clause r, analyze fuel S clause = Except.ok r → r.2.reason = S.reason) := by
  refine ⟨?_, ?_, fun _ _ => rfl, ?_, ?_⟩
  · intro S c forced
    constructor
    · simp [assign]
    · intro v hv
      simp [assign, upd, hv]
  · intro S d
    have habs : ∀ x : Int, iabs (-x) = iabs x := by
      intro x
      unfold iabs
      split_ifs <;> omega
    constructor
    · unfold pushDecision
      by_cases hm : S.model d ≠ 0
      · simp [hm]
      · simp [hm, habs]
    · intro v hv
      unfold pushDecision
      by_cases hm : S.model d ≠ 0
      · simp [hm, upd, hv]
      · simp [hm, upd, hv, habs]
  · intro S
    unfold restart
    exact static_reason (static_restartLoop _ S)
  · intro fuel S clause r h
    obtain ⟨S1, S2, S4, size, lbd, h1, h2, h3, h4⟩ := analyze_eq fuel S clause r h
    rw [kept_reason (kept_addClause _ _ _ _ _ h4), static_reason (static_preLemma _ _ _),
      static_reason (static_buildLoop _ _ _ _ _ _ _ h3)]
    show S2.reason = S.reason
    rw [static_reason (static_analyzeLoop _ _ _ h2), static_reason (static_bumpLits _ _ _ _ h1)]

theorem prevChain_congr {p q : Int → Int} : ∀ (L : List Int) (h : Int),
    (∀ v, v ∈ L → q v = p v) → prevChain p h L → prevChain q h L := by
  intro L
  induction L with
  | nil => intro h _ hc; exact hc
  | cons a L ih =>
    intro h hq hc
    refine ⟨hc.1, ?_⟩
    rw [hq a (List.mem_cons_self _ _)]
    exact ih _ (fun v hv => hq v (List.mem_cons_of_mem _ hv)) hc.2

theorem prevChain_head {p : Int → Int} {h a : Int} {L : List Int}
    (hc : prevChain p h (a :: L)) : h = a := hc.1

/-- The entry `prev v` of a variable of the list is 0 or a later variable of
the list. -/
theorem prevChain_prev_mem {p : Int → Int} : ∀ (L : List Int) (h a v : Int),
    prevChain p h (a :: L) → v ∈ a :: L → p v = 0 ∨ p v ∈ L := by
  intro L
  induction L with
  | nil =>
    intro h a v hc hv
    have : v = a := by simpa using hv
    subst this
    exact Or.inl hc.2
  | cons b L ih =>
    intro h a v hc hv
    rcases List.mem_cons.1 hv with e | hv2
    · subst e
      exact Or.inr (by rw [hc.2.1]; exact List.mem_cons_self _ _)
    · rcases ih _ _ _ hc.2 hv2 with e | e
      · exact Or.inl e
      · exact Or.inr (List.mem_cons_of_mem _ e)

theorem prevChain_link {p : Int → Int} {u var : Int} {B : List Int} : ∀ (A : List Int) (h : Int),
    prevChain p h (A ++ u :: var :: B) → p u = var := by
  intro A
  induction A with
  | nil => intro h hc; exact hc.2.1
  | cons a A ih => intro h hc; exact ih _ hc.2

/-- Taking `var` out of the list: the variable before it is linked to the
one after it. -/
theorem prevChain_splice {p : Int → Int} {x u var : Int} {B : List Int} :
    ∀ (A : List Int) (h : Int), (A ++ u :: var :: B).Nodup →
      prevChain p h (A ++ u :: var :: B) →
      prevChain (upd (upd p u (p var)) var x) h (A ++ u :: B) := by
  intro A
  induction A with
  | nil =>
    intro h hn hc
    have hn1 : u ≠ var ∧ u ∉ B ∧ var ∉ B := by
      simp only [List.nil_append, List.nodup_cons, List.mem_cons, not_or] at hn
      exact ⟨hn.1.1, hn.1.2, hn.2.1⟩
    refine ⟨hc.1, ?_⟩
    rw [upd_other _ _ hn1.1, upd_same]
    refine prevChain_congr B _ ?_ hc.2.2
    intro v hv
    rw [upd_other _ _ (fun e => hn1.2.2 (by rw [← e]; exact hv)),
      upd_other _ _ (fun e => hn1.2.1 (by rw [← e]; exact hv))]
  | cons a A ih =>
    intro h hn hc
    have hn1 : a ≠ u ∧ a ≠ var := by
      simp only [List.cons_append, List.nodup_cons, List.mem_append, List.mem_cons, not_or] at hn
      exact ⟨hn.1.2.1, hn.1.2.2.1⟩
    refine ⟨hc.1, ?_⟩
    rw [upd_other _ _ hn1.2, upd_other _ _ hn1.1]
    exact ih _ (List.nodup_cons.1 hn).2 hc.2

theorem walk_of_chain {p : Int → Int} : ∀ (L : List Int) (h : Int) (k : Nat),
    prevChain p h L → (∀ v, v ∈ L → v ≠ 0) → L.length < k → walk p k h = L := by
  intro L
  induction L with
  | nil =>
    intro h k hc _ hk
    obtain ⟨k, rfl⟩ : ∃ j, k = j + 1 := ⟨k - 1, by simp at hk; omega⟩
    have h0 : h = 0 := hc
    rw [walk, if_pos h0]
  | cons a L ih =>
    intro h k hc hz hk
    obtain ⟨k, rfl⟩ : ∃ j, k = j + 1 := ⟨k - 1, by simp at hk; omega⟩
    have ha : h = a := hc.1
    rw [walk, if_neg (by rw [ha]; exact hz a (List.mem_cons_self _ _)), ha,
      ih _ k hc.2 (fun v hv => hz v (List.mem_cons_of_mem _ hv))
        (by simp only [List.length_cons] at hk; omega)]

theorem VmtfList_length_le {S : solver} {L : List Int} (h : VmtfList S L) :
    (L.length : Int) ≤ S.nVars ∨ L = [] := by
  by_cases hL : L = []
  · exact Or.inr hL
  · left
    have hsub : L.toFinset ⊆ Finset.Icc 1 S.nVars := by
      intro v hv
      rw [List.mem_toFinset] at hv
      rw [Finset.mem_Icc]
      exact (h.mem v).1 hv
    have hc := Finset.card_le_card hsub
    rw [List.toFinset_card_of_nodup h.nodup, Int.card_Icc] at hc
    obtain ⟨v, hv⟩ := List.exists_mem_of_ne_nil L hL
    have := (h.mem v).1 hv
    omega

/-- The executable decision list is the list of the invariant. -/
theorem VmtfList_order_eq {S : solver} {L : List Int} (h : VmtfList S L) : vmtfOrder S = L := by
  unfold vmtfOrder
  refine walk_of_chain L _ _ h.chain (fun v hv => ?_) ?_
  · have := (h.mem v).1 hv
    omega
  · rcases VmtfList_length_le h with e | e
    · omega
    · rw [e]; simp

theorem VmtfList_unique {S : solver} {L M : List Int} (h : VmtfList S L) (g : VmtfList S M) :
    L = M := by
  rw [← VmtfList_order_eq h, VmtfList_order_eq g]

theorem VmtfList_frame {S T : solver} {L : List Int} (h : VmtfList S L) (hp : T.prev = S.prev)
    (hn : T.next = S.next) (hh : T.head = S.head) (hv : T.nVars = S.nVars) : VmtfList T L := by
  refine ⟨?_, h.nodup, ?_, ?_⟩
  · rw [hp, hh]; exact h.chain
  · rw [hv]; exact h.mem
  · rw [hp, hn]; exact h.back

theorem VmtfList_head_eq {S : solver} {L : List Int} (h : VmtfList S L) (h1 : 1 ≤ S.nVars) :
    ∃ M, L = S.head :: M := by
  cases L with
  | nil =>
    have := (h.mem 1).2 ⟨le_refl _, h1⟩
    simp at this
  | cons a M =>
    have := h.chain.1
    exact ⟨M, by rw [this]⟩

theorem bump_next_head (S : solver) (l : Int) (h1 : S.fals l ≠ IMPLIED)
    (h2 : iabs l ≠ S.head) :
    (bump S l).prev = upd (upd S.prev (S.next (iabs l)) (S.prev (iabs l))) (iabs l) S.head ∧
    (bump S l).next = upd (upd S.next
        (upd S.prev (S.next (iabs l)) (S.prev (iabs l)) (iabs l)) (S.next (iabs l)))
        S.head (iabs l) ∧
    (bump S l).head = iabs l ∧ (bump S l).nVars = S.nVars := by
  unfold bump
  simp [h1, h2]

theorem bump_same_head (S : solver) (l : Int) (h2 : iabs l = S.head) :
    (bump S l).prev = S.prev ∧ (bump S l).next = S.next ∧ (bump S l).head = S.head ∧
    (bump S l).nVars = S.nVars := by
  unfold bump
  by_cases h1 : S.fals l = IMPLIED <;> simp [h1, h2]

theorem bump_implied (S : solver) (l : Int) (h1 : S.fals l = IMPLIED) : bump S l = S := by
  unfold bump
  simp [h1]

/-- The call `bump (lit)` for a literal that is not `IMPLIED` moves its
variable to the front of the decision list and leaves the order of the other
variables. -/
theorem VmtfList_move_front {S : solver} {L : List Int} (h : VmtfList S L) (lit : Int)
    (h1 : 1 ≤ iabs lit) (h2 : iabs lit ≤ S.nVars) (hi : S.fals lit ≠ IMPLIED) :
    VmtfList (bump S lit) (iabs lit :: L.erase (iabs lit)) := by
  have hmem : iabs lit ∈ L := (h.mem _).2 ⟨h1, h2⟩
  obtain ⟨M, hM⟩ := VmtfList_head_eq h (by omega)
  by_cases hh : iabs lit = S.head
  · obtain ⟨e1, e2, e3, e4⟩ := bump_same_head S lit hh
    have : iabs lit :: L.erase (iabs lit) = L := by
      rw [hM, hh, List.erase_cons_head]
    rw [this]
    exact VmtfList_frame h e1 e2 e3 e4
  · obtain ⟨e1, e2, e3, e4⟩ := bump_next_head S lit hi hh
    obtain ⟨A, B, hAB⟩ := List.append_of_mem hmem
    have hA : A ≠ [] := by
      intro hA
      rw [hA, List.nil_append, hM] at hAB
      exact hh (List.cons.inj hAB).1.symm
    obtain ⟨A0, u, hA0⟩ : ∃ A0 u, A = A0 ++ [u] :=
      ⟨A.dropLast, A.getLast hA, (List.dropLast_append_getLast hA).symm⟩
    have hL : L = A0 ++ u :: iabs lit :: B := by
      rw [hAB, hA0, List.append_assoc]
      rfl
    have hnd := h.nodup
    rw [hL] at hnd
    have hchain := h.chain
    rw [hL] at hchain
    have hu : S.prev u = iabs lit := prevChain_link A0 _ hchain
    have huL : u ∈ L := by rw [hL]; simp
    have hnext : S.next (iabs lit) = u := by
      have := h.back u huL (by rw [hu]; omega)
      rw [hu] at this
      exact this
    have hune : u ≠ iabs lit := by
      intro e
      rw [e] at hnd
      have := (List.nodup_append.1 hnd).2.1
      simp at this
    have hnotA : iabs lit ∉ A0 := by
      intro hc
      exact (List.nodup_append.1 hnd).2.2 hc (by simp : iabs lit ∈ u :: iabs lit :: B)
    have herase : L.erase (iabs lit) = A0 ++ u :: B := by
      rw [hL, List.erase_append_right _ hnotA, List.erase_cons_tail (by simpa using hune),
        List.erase_cons_head]
    have hhead0 : ∀ v, v ∈ L → S.prev v ≠ 0 → S.prev v ≠ S.head := by
      intro v hv hv0 e
      have hc := h.chain
      rw [hM] at hc hv
      rcases prevChain_prev_mem M _ _ v hc hv with e0 | e0
      · exact hv0 e0
      · have hn := h.nodup
        rw [hM] at hn
        exact (List.nodup_cons.1 hn).1 (e ▸ e0)
    have hinj : ∀ v w, v ∈ L → w ∈ L → S.prev v ≠ 0 → S.prev v = S.prev w → v = w := by
      intro v w hv hw hv0 e
      have a := h.back v hv hv0
      have b := h.back w hw (by rw [← e]; exact hv0)
      rw [← a, ← b, e]
    have hhd0 : S.head ≠ 0 := by
      have := (h.mem S.head).1 (by rw [hM]; exact List.mem_cons_self _ _)
      omega
    have hp : (bump S lit).prev = upd (upd S.prev u (S.prev (iabs lit))) (iabs lit) S.head := by
      rw [e1, hnext]
    have hn : (bump S lit).next = upd (upd S.next (S.prev (iabs lit)) u) S.head (iabs lit) := by
      rw [e2, hnext, upd_other _ _ (fun e => hune e.symm)]
    refine ⟨?_, ?_, ?_, ?_⟩
    · rw [herase, hp, e3]
      refine ⟨rfl, ?_⟩
      rw [upd_same]
      exact prevChain_splice A0 _ hnd hchain
    · exact List.nodup_cons.2 ⟨h.nodup.not_mem_erase, h.nodup.erase _⟩
    · intro v
      rw [e4, ← h.mem v, List.mem_cons]
      constructor
      · rintro (e | e)
        · rw [e]; exact hmem
        · exact List.mem_of_mem_erase e
      · intro hv
        by_cases e : v = iabs lit
        · exact Or.inl e
        · exact Or.inr ((List.mem_erase_of_ne e).2 hv)
    · intro v hv hv0
      rw [hp] at hv0 ⊢
      rw [hn]
      by_cases ev : v = iabs lit
      · rw [ev, upd_same, upd_same]
      · have hvL : v ∈ L := by
          rcases List.mem_cons.1 hv with e | e
          · exact absurd e ev
          · exact List.mem_of_mem_erase e
        rw [upd_other _ _ ev] at hv0 ⊢
        by_cases eu : v = u
        · rw [eu, upd_same] at hv0 ⊢
          rw [upd_other _ _ (hhead0 _ hmem hv0), upd_same]
        · rw [upd_other _ _ eu] at hv0 ⊢
          rw [upd_other _ _ (hhead0 _ hvL hv0),
            upd_other _ _ (fun e => ev (hinj _ _ hvL hmem hv0 e))]
          exact h.back v hvL hv0

theorem prevChain_desc {p : Int → Int} : ∀ k : Nat,
    (∀ i : Int, 1 ≤ i → i ≤ k → p i = i - 1) → prevChain p k (descList k) := by
  intro k
  induction k with
  | zero => intro _; rfl
  | succ k ih =>
    intro hp
    refine ⟨by push_cast; rfl, ?_⟩
    rw [hp _ (by omega) (by push_cast; omega)]
    have : ((k : Int) + 1 - 1) = k := by omega
    rw [this]
    exact ih (fun i i0 i1 => hp i i0 (by push_cast; omega))

theorem mem_descList (k : Nat) (v : Int) : v ∈ descList k ↔ 1 ≤ v ∧ v ≤ k := by
  induction k with
  | zero => simp [descList]; omega
  | succ k ih =>
    rw [descList, List.mem_cons, ih]
    push_cast
    omega

theorem nodup_descList (k : Nat) : (descList k).Nodup := by
  induction k with
  | zero => simp [descList]
  | succ k ih =>
    rw [descList, List.nodup_cons]
    refine ⟨?_, ih⟩
    rw [mem_descList]
    omega

theorem iabs_nonneg (x : Int) : 0 ≤ iabs x := by
  unfold iabs; split_ifs <;> omega

theorem iabs_neg (x : Int) : iabs (-x) = iabs x := by
  unfold iabs; split_ifs <;> omega

theorem iabs_pos {x : Int} (h : x ≠ 0) : 1 ≤ iabs x := by
  unfold iabs; split_ifs <;> omega

theorem iabs_eq_zero {x : Int} (h : iabs x = 0) : x = 0 := by
  unfold iabs at h; split_ifs at h <;> omega

theorem iabs_eq_iff {x y : Int} : iabs x = iabs y ↔ x = y ∨ x = -y := by
  unfold iabs; split_ifs <;> omega

theorem rest_bump (S : solver) (l : Int) : rest (bump S l) = rest S := by
  unfold bump
  by_cases h1 : S.fals l = IMPLIED <;> by_cases h2 : iabs l = S.head <;> simp [h1, h2, rest]

theorem bump_fals (S : solver) (l : Int) :
    (bump S l).fals = if S.fals l ≠ IMPLIED then upd S.fals l MARK else S.fals := by
  unfold bump
  by_cases h1 : S.fals l = IMPLIED <;> by_cases h2 : iabs l = S.head <;> simp [h1, h2]

theorem bump_nVars (S : solver) (l : Int) : (bump S l).nVars = S.nVars := by
  unfold bump
  by_cases h1 : S.fals l = IMPLIED <;> by_cases h2 : iabs l = S.head <;> simp [h1, h2]

theorem VmtfInv_frame {S T : solver} (hV : VmtfInv S) (hp : T.prev = S.prev)
    (hn : T.next = S.next) (hh : T.head = S.head) (hv : T.nVars = S.nVars) : VmtfInv T := by
  obtain ⟨a, b, c, L, hL⟩ := hV
  refine ⟨by rw [hh]; exact a, by rw [hh, hv]; exact b, by rw [hp, hv]; exact c, L,
    VmtfList_frame hL hp hn hh hv⟩

theorem VmtfInv_bump (S : solver) (l : Int) (hS : VmtfInv S) (h1 : 1 ≤ iabs l)
    (h2 : iabs l ≤ S.nVars) : VmtfInv (bump S l) := by
  obtain ⟨a, b, c, L, hL⟩ := hS
  by_cases e1 : S.fals l = IMPLIED
  · rw [bump_implied S l e1]
    exact ⟨a, b, c, L, hL⟩
  · refine ⟨?_, ?_, ?_, _, VmtfList_move_front hL l h1 h2 e1⟩
    · by_cases e2 : iabs l = S.head
      · rw [(bump_same_head S l e2).2.2.1]; exact a
      · rw [(bump_next_head S l e1 e2).2.2.1]; exact h1
    · rw [bump_nVars]
      by_cases e2 : iabs l = S.head
      · rw [(bump_same_head S l e2).2.2.1]; exact b
      · rw [(bump_next_head S l e1 e2).2.2.1]; exact h2
    · intro v
      rw [bump_nVars]
      by_cases e2 : iabs l = S.head
      · rw [(bump_same_head S l e2).1]; exact c v
      · rw [(bump_next_head S l e1 e2).1]
        simp only [upd]
        split_ifs
        · omega
        · exact c _
        · exact c _

theorem bumpLits_spec (f : Nat) (a : Int) (S T : solver) (n : Int) (hn : 0 ≤ n)
    (hl : ∀ m, 0 ≤ m → m < n → S.DB (a + m) ≠ 0) (ht : S.DB (a + n) = 0)
    (h : bumpLits f a S = Except.ok T) :
    static T = static S ∧ rest T = rest S ∧
    (∀ x, (∃ m, 0 ≤ m ∧ m < n ∧ S.DB (a + m) = x) → S.fals x ≠ IMPLIED → T.fals x = MARK) ∧
    (∀ x, (∃ m, 0 ≤ m ∧ m < n ∧ S.DB (a + m) = x) → S.fals x = IMPLIED → T.fals x = IMPLIED) ∧
    (∀ x, (¬ ∃ m, 0 ≤ m ∧ m < n ∧ S.DB (a + m) = x) → T.fals x = S.fals x) := by
  induction f generalizing a S n with
  | zero => simp [bumpLits] at h
  | succ f ih =>
    rw [bumpLits] at h
    by_cases h0 : S.DB a ≠ 0
    · rw [if_pos h0] at h
      have hn1 : 0 < n := by
        by_contra hc
        have : n = 0 := by omega
        subst this
        simp at ht
        exact h0 ht
      have hst := static_bump S (S.DB a)
      have hDB : (bump S (S.DB a)).DB = S.DB := by
        simp only [static, Prod.mk.injEq] at hst
        exact hst.1
      have := ih (a + 1) (bump S (S.DB a)) (n - 1) (by omega)
        (by intro m hm0 hm1; rw [hDB]; have := hl (m + 1) (by omega) (by omega)
            rwa [show a + (m + 1) = a + 1 + m by ring] at this)
        (by rw [hDB]; rwa [show a + 1 + (n - 1) = a + n by ring]) h
      obtain ⟨s1, s2, s3, s4, s5⟩ := this
      rw [hDB] at s3 s4 s5
      have e3 : ∀ x, x ≠ S.DB a → ((∃ m, 0 ≤ m ∧ m < n - 1 ∧ S.DB (a + 1 + m) = x) ↔
            (∃ m, 0 ≤ m ∧ m < n ∧ S.DB (a + m) = x)) := by
        intro x hx
        constructor
        · rintro ⟨m, m0, m1, m2⟩
          exact ⟨m + 1, by omega, by omega, by rwa [show a + (m + 1) = a + 1 + m by ring]⟩
        · rintro ⟨m, m0, m1, m2⟩
          have hm : m ≠ 0 := by
            rintro rfl
            simp at m2
            exact hx m2.symm
          exact ⟨m - 1, by omega, by omega, by rwa [show a + 1 + (m - 1) = a + m by ring]⟩
      have e4 : ∀ x, x ≠ S.DB a → (bump S (S.DB a)).fals x = S.fals x := by
        intro x hx
        rw [bump_fals]
        split_ifs
        · exact upd_other _ _ hx
        · rfl
      have e5 : S.fals (S.DB a) ≠ IMPLIED → (bump S (S.DB a)).fals (S.DB a) = MARK := by
        intro hne
        rw [bump_fals, if_pos hne, upd_same]
      have e6 : S.fals (S.DB a) = IMPLIED → (bump S (S.DB a)).fals (S.DB a) = IMPLIED := by
        intro he
        rw [bump_fals, if_neg (not_not.mpr he), he]
      refine ⟨s1.trans hst, s2.trans (rest_bump _ _), ?_, ?_, ?_⟩
      · intro x hx hne
        by_cases hxa : x = S.DB a
        · subst hxa
          by_cases hin : ∃ m, 0 ≤ m ∧ m < n - 1 ∧ S.DB (a + 1 + m) = S.DB a
          · exact s3 _ hin (by rw [e5 hne]; decide)
          · rw [s5 _ hin, e5 hne]
        · exact s3 x ((e3 x hxa).mpr hx) (by rwa [e4 x hxa])
      · intro x hx he
        by_cases hxa : x = S.DB a
        · subst hxa
          by_cases hin : ∃ m, 0 ≤ m ∧ m < n - 1 ∧ S.DB (a + 1 + m) = S.DB a
          · exact s4 _ hin (e6 he)
          · rw [s5 _ hin, e6 he]
        · exact s4 x ((e3 x hxa).mpr hx) (by rwa [e4 x hxa])
      · intro x hx
        have hxa : x ≠ S.DB a := by
          rintro rfl
          exact hx ⟨0, le_refl _, hn1, by simp⟩
        rw [s5 x (fun hc => hx ((e3 x hxa).mp hc)), e4 x hxa]
    · rw [if_neg h0] at h
      cases h
      have hn0 : n = 0 := by
        by_contra hc
        exact hl 0 (le_refl _) (by omega) (by simpa using not_not.mp h0)
      subst hn0
      refine ⟨rfl, rfl, ?_, ?_, ?_⟩
      · rintro x ⟨m, m0, m1, -⟩; omega
      · rintro x ⟨m, m0, m1, -⟩; omega
      · intro x _; rfl

theorem static_DB {S T : solver} (h : static T = static S) : T.DB = S.DB := by
  simp only [static, Prod.mk.injEq] at h; exact h.1

theorem static_nVars {S T : solver} (h : static T = static S) : T.nVars = S.nVars := by
  simp only [static, Prod.mk.injEq] at h; exact h.2.1

theorem static_falseStack {S T : solver} (h : static T = static S) :
    T.falseStack = S.falseStack := by
  simp only [static, Prod.mk.injEq] at h; exact h.2.2.2.2.2.2.2.2.2.2.1

theorem static_forced {S T : solver} (h : static T = static S) : T.forced = S.forced := by
  simp only [static, Prod.mk.injEq] at h; exact h.2.2.2.2.2.2.2.2.2.2.2.2

theorem static_hasReason {S T : solver} (h : static T = static S) (k : Int) :
    hasReason T k ↔ hasReason S k := by
  unfold hasReason
  rw [static_reason h, static_falseStack h]

theorem checkLoop_spec (f : Nat) (S : solver) (c r : Int) (h : checkLoop f S c = Except.ok r) :
    r < c ∧ (¬ hasReason S r ∨ S.fals (S.falseStack r) = MARK) ∧
    ∀ k, r < k → k < c → hasReason S k ∧ S.fals (S.falseStack k) ≠ MARK := by
  induction f generalizing c with
  | zero => simp [checkLoop] at h
  | succ f ih =>
    rw [checkLoop] at h
    by_cases h1 : S.reason (iabs (S.falseStack (c - 1))) ≠ 0
    · rw [if_pos h1] at h
      by_cases h2 : S.fals (S.falseStack (c - 1)) = MARK
      · rw [if_pos h2] at h
        cases h
        exact ⟨by omega, Or.inr h2, fun k k1 k2 => by omega⟩
      · rw [if_neg h2] at h
        obtain ⟨a1, a2, a3⟩ := ih _ h
        refine ⟨by omega, a2, ?_⟩
        intro k k1 k2
        by_cases hk : k = c - 1
        · subst hk
          exact ⟨h1, h2⟩
        · exact a3 k k1 (by omega)
    · rw [if_neg h1] at h
      cases h
      exact ⟨by omega, Or.inl h1, fun k k1 k2 => by omega⟩

theorem VmtfInv_bumpLits (f : Nat) (a : Int) (S T : solver) (n : Int) (hn : 0 ≤ n)
    (hl : ∀ m, 0 ≤ m → m < n → S.DB (a + m) ≠ 0 ∧ iabs (S.DB (a + m)) ≤ S.nVars)
    (ht : S.DB (a + n) = 0) (hV : VmtfInv S)
    (h : bumpLits f a S = Except.ok T) : VmtfInv T := by
  induction f generalizing a S n with
  | zero => simp [bumpLits] at h
  | succ f ih =>
    rw [bumpLits] at h
    by_cases h0 : S.DB a ≠ 0
    · rw [if_pos h0] at h
      have hn1 : 0 < n := by
        by_contra hc
        have : n = 0 := by omega
        subst this
        simp at ht
        exact h0 ht
      have hst := static_bump S (S.DB a)
      have hDB : (bump S (S.DB a)).DB = S.DB := static_DB hst
      have hnv : (bump S (S.DB a)).nVars = S.nVars := static_nVars hst
      have h00 := hl 0 (le_refl _) hn1
      simp only [add_zero] at h00
      refine ih (a + 1) (bump S (S.DB a)) (n - 1) (by omega) ?_ ?_
        (VmtfInv_bump S _ hV (iabs_pos h0) h00.2) h
      · intro m hm0 hm1
        rw [hDB, hnv]
        have := hl (m + 1) (by omega) (by omega)
        rwa [show a + (m + 1) = a + 1 + m by ring] at this
      · rw [hDB]; rwa [show a + 1 + (n - 1) = a + n by ring]
    · rw [if_neg h0] at h
      cases h
      exact hV

theorem TrailInv.no_compl {S : solver} (hT : TrailInv S) (i j : Int) (hi0 : 0 ≤ i)
    (hi : i < S.assigned) (hj0 : 0 ≤ j) (hj : j < S.assigned) :
    S.falseStack i ≠ -(S.falseStack j) := by
  intro h
  have h1 := hT.fals_on i hi0 hi
  have h2 := hT.consistent _ (hT.fals_on j hj0 hj)
  rw [h] at h1
  exact h1 h2

theorem Conflict.forced_le_top {S : solver} {c : Int} (hC : Conflict S c) (j : Int)
    (htop : ∀ k, j < k → k < S.assigned → hasReason S k) :
    S.forced ≤ j := by
  by_contra hlt
  exact hC.levels.first_dec hC.dec (htop _ (by omega) hC.dec)

theorem ana_init (f : Nat) (S : solver) (c : Int) (S1 : solver) (hC : Conflict S c)
    (h : bumpLits f c { S with nConflicts := S.nConflicts + 1 } = Except.ok S1) : Ana S S1 := by
  obtain ⟨n, ⟨hn, hl, ht⟩, hf, m0, j0, hm0, hm1, hj0, hj1, hjm, htop⟩ := hC.falsified
  obtain ⟨s1, s2, s3, s4, s5⟩ := bumpLits_spec f c { S with nConflicts := S.nConflicts + 1 } S1 n (by omega) hl ht h
  have hT := hC.trail
  have hass : S1.assigned = S.assigned := by
    simp only [rest, Prod.mk.injEq] at s2
    exact s2.1
  have hrange : ∀ m, 0 ≤ m → m < n → S.DB (c + m) ≠ 0 ∧ iabs (S.DB (c + m)) ≤ S.nVars := by
    intro m a b
    obtain ⟨i, i0, i1, i2⟩ := hT.on_fals _ (hf m a b)
    rw [← i2]
    exact hT.range i i0 i1
  refine ⟨s1, le_of_eq hass, ?_, ?_, ?_, ?_, ?_, ?_⟩
  · intro i i0 i1
    have := (hC.levels.root i i0 i1).1
    by_cases hin : ∃ m, 0 ≤ m ∧ m < n ∧ S.DB (c + m) = S.falseStack i
    · exact s4 _ hin this
    · rw [s5 _ hin]; exact this
  · intro i i0 i1
    rw [hass] at i1
    have := hC.levels.upper i i0 i1
    by_cases hin : ∃ m, 0 ≤ m ∧ m < n ∧ S.DB (c + m) = S.falseStack i
    · right
      exact s3 _ hin (by show S.fals _ ≠ IMPLIED; rw [this]; decide)
    · left
      rw [s5 _ hin]; exact this
  · intro l hl0
    rw [hass]
    by_cases hin : ∃ m, 0 ≤ m ∧ m < n ∧ S.DB (c + m) = l
    · obtain ⟨m, a, b, e⟩ := hin
      rw [← e]
      exact hT.on_fals _ (hf m a b)
    · rw [s5 _ hin] at hl0
      exact hT.on_fals _ hl0
  · intro k k0 k1
    omega
  · refine ⟨j0, hj0, by omega, ?_, htop⟩
    have hfj := hC.forced_le_top j0 htop
    have := hC.levels.upper j0 hfj hj1
    exact s3 _ ⟨m0, hm0, hm1, hjm.symm⟩ (by show S.fals _ ≠ IMPLIED; rw [this]; decide)
  · exact VmtfInv_bumpLits f c { S with nConflicts := S.nConflicts + 1 } S1 n (by omega) hrange ht
      (VmtfInv_frame hC.vmtf rfl rfl rfl rfl) h

theorem Ana.forced_lt {S0 S : solver} (hA : Ana S0 S) : S0.forced < S.assigned := by
  obtain ⟨j, j0, j1, j2, -⟩ := hA.top
  by_contra hc
  have := hA.low j j0 (by omega)
  rw [this] at j2
  exact absurd j2 (by decide)

theorem Ana.pos {S0 S : solver} (hA : Ana S0 S) : 0 < S.assigned := by
  obtain ⟨j, j0, j1, -, -⟩ := hA.top
  omega

/-- A trail literal without mark is popped. -/
theorem ana_skip {S0 S : solver} (W : Int → Prop) (hT : TrailInv S0) (hA : Ana S0 S)
    (hr : hasReason S0 (S.assigned - 1))
    (hm : S.fals (S0.falseStack (S.assigned - 1)) ≠ MARK) :
    Ana S0 (unassign { S with assigned := S.assigned - 1 } (S0.falseStack (S.assigned - 1))) ∧
    ((∃ x, W x ∧ S.fals x = MARK) →
      ∃ x, W x ∧ (unassign { S with assigned := S.assigned - 1 }
        (S0.falseStack (S.assigned - 1))).fals x = MARK) := by
  have hp := hA.pos
  have hf := hA.forced_lt
  have hle := hA.le
  have hne : ∀ i, 0 ≤ i → i < S.assigned - 1 →
      S0.falseStack i ≠ S0.falseStack (S.assigned - 1) := by
    intro i i0 i1 e
    have := hT.inj i (S.assigned - 1) i0 (by omega) (by omega) (by omega) e
    omega
  refine ⟨⟨hA.st, by show S.assigned - 1 ≤ _; omega, ?_, ?_, ?_, ?_, ?_, VmtfInv_frame hA.vm rfl rfl rfl rfl⟩, ?_⟩
  rotate_right
  · rintro ⟨x, hx, hx2⟩
    refine ⟨x, hx, ?_⟩
    show upd S.fals _ 0 _ = _
    rw [upd_other _ _ (by rintro rfl; exact hm hx2)]
    exact hx2
  · intro i i0 i1
    show upd S.fals _ 0 _ = _
    rw [upd_other _ _ (hne i i0 (by omega))]
    exact hA.low i i0 i1
  · intro i i0 i1
    have i1' : i < S.assigned - 1 := i1
    show upd S.fals _ 0 _ = _ ∨ upd S.fals _ 0 _ = _
    rw [upd_other _ _ (hne i (by have := hT.forced_nonneg; omega) i1')]
    exact hA.mid i i0 (by omega)
  · intro l hl
    have hl' : upd S.fals (S0.falseStack (S.assigned - 1)) 0 l ≠ 0 := hl
    have hne' : l ≠ S0.falseStack (S.assigned - 1) := by
      rintro rfl
      rw [upd_same] at hl'
      exact hl' rfl
    rw [upd_other _ _ hne'] at hl'
    obtain ⟨i, i0, i1, i2⟩ := hA.seen l hl'
    refine ⟨i, i0, ?_, i2⟩
    show i < S.assigned - 1
    by_contra hc
    have : i = S.assigned - 1 := by omega
    rw [this] at i2
    exact hne' i2.symm
  · intro k k0 k1
    have k0' : S.assigned - 1 ≤ k := k0
    by_cases hk : k = S.assigned - 1
    · rw [hk]; exact hr
    · exact hA.allr k (by omega) k1
  · obtain ⟨j, j0, j1, j2, j3⟩ := hA.top
    have hj : j ≠ S.assigned - 1 := by
      rintro rfl
      exact hm j2
    refine ⟨j, j0, by show j < S.assigned - 1; omega, ?_, j3⟩
    show upd S.fals _ 0 _ = _
    rw [upd_other _ _ (hne j j0 (by omega))]
    exact j2

/-- The first loop of `analyze` ends at a decision. -/
theorem ana_exit_dec {S0 S : solver} (hA : Ana S0 S)
    (hr : ¬ hasReason S0 (S.assigned - 1)) :
    Uip S0 { S with assigned := S.assigned - 1 } := by
  have hp := hA.pos
  have hf := hA.forced_lt
  have hle := hA.le
  obtain ⟨j, j0, j1, j2, j3⟩ := hA.top
  have hj : j = S.assigned - 1 := by
    by_contra hc
    exact hr (j3 _ (by omega) (by omega))
  refine ⟨hA.st, by show S.assigned - 1 < _; omega, hA.low, ?_, ?_, ?_, ?_, VmtfInv_frame hA.vm rfl rfl rfl rfl⟩
  · intro i i0 i1
    have i1' : i ≤ S.assigned - 1 := i1
    exact hA.mid i i0 (by omega)
  · intro l hl
    obtain ⟨i, i0, i1, i2⟩ := hA.seen l hl
    exact ⟨i, i0, by show i ≤ S.assigned - 1; omega, i2⟩
  · show S.fals (S0.falseStack (S.assigned - 1)) = MARK
    rw [← hj]; exact j2
  · refine ⟨S.assigned - 1, by omega, le_refl _, hr, ?_, ?_⟩
    · intro k k0 k1
      exact hA.allr k (by omega) k1
    · intro k k0 k1
      have k1' : k < S.assigned - 1 := k1
      omega

/-- The first loop of `analyze` ends at the first unique implication point. -/
theorem ana_exit_uip {S0 S : solver} (hL : Levels S0 S0.forced) (hdec : S0.forced < S0.assigned)
    (hA : Ana S0 S) (chk : Int)
    (hr : hasReason S0 (S.assigned - 1))
    (hm : S.fals (S0.falseStack (S.assigned - 1)) = MARK)
    (c1 : chk < S.assigned - 1)
    (c3 : ∀ k, chk < k → k < S.assigned - 1 →
      hasReason S0 k ∧ S.fals (S0.falseStack k) ≠ MARK)
    (c4 : ¬ hasReason S0 chk) (c5 : S.fals (S0.falseStack chk) ≠ MARK) :
    Uip S0 { S with assigned := S.assigned - 1 } := by
  have hp := hA.pos
  have hf := hA.forced_lt
  have hle := hA.le
  have hfd := hL.first_dec hdec
  have hchk : S0.forced ≤ chk := by
    by_contra hc
    have h1 : S0.forced ≠ S.assigned - 1 := by
      intro e
      rw [e] at hfd
      exact hfd hr
    exact hfd (c3 _ (by omega) (by omega)).1
  refine ⟨hA.st, by show S.assigned - 1 < _; omega, hA.low, ?_, ?_, hm, ?_, VmtfInv_frame hA.vm rfl rfl rfl rfl⟩
  · intro i i0 i1
    have i1' : i ≤ S.assigned - 1 := i1
    exact hA.mid i i0 (by omega)
  · intro l hl
    obtain ⟨i, i0, i1, i2⟩ := hA.seen l hl
    exact ⟨i, i0, by show i ≤ S.assigned - 1; omega, i2⟩
  · refine ⟨chk, hchk, by show chk ≤ S.assigned - 1; omega, c4, ?_, ?_⟩
    · intro k k0 k1
      by_cases hk : k < S.assigned - 1
      · exact (c3 k k0 hk).1
      · by_cases hk2 : k = S.assigned - 1
        · rw [hk2]; exact hr
        · exact hA.allr k (by omega) k1
    · intro k k0 k1
      have k1' : k < S.assigned - 1 := k1
      by_cases hk : k = chk
      · rw [hk]; exact c5
      · exact (c3 k (by omega) k1').2

theorem rest_assigned {S T : solver} (h : rest T = rest S) : T.assigned = S.assigned := by
  simp only [rest, Prod.mk.injEq] at h; exact h.1

/-- The marked literal on top of the trail is resolved with its reason. -/
theorem ana_resolve {S0 S : solver} (W : Int → Prop) (hW : WClosed S0 W) (f : Nat)
    (S2 : solver) (hT : TrailInv S0)
    (hL : Levels S0 S0.forced) (hR : ReasonInv S0 S0.forced) (hdec : S0.forced < S0.assigned)
    (hA : Ana S0 S) (chk : Int)
    (hr : hasReason S0 (S.assigned - 1))
    (c1 : chk < S.assigned - 1)
    (c2 : S.fals (S0.falseStack chk) = MARK)
    (c3 : ∀ k, chk < k → k < S.assigned - 1 →
      hasReason S0 k ∧ S.fals (S0.falseStack k) ≠ MARK)
    (hb : bumpLits f (S0.reason (iabs (S0.falseStack (S.assigned - 1))) + 1)
      { S with assigned := S.assigned - 1 } = Except.ok S2) :
    Ana S0 (unassign S2 (S0.falseStack (S.assigned - 1))) ∧
    ((∃ x, W x ∧ S.fals x = MARK) →
      ∃ x, W x ∧ (unassign S2 (S0.falseStack (S.assigned - 1))).fals x = MARK) := by
  have hp := hA.pos
  have hf := hA.forced_lt
  have hle := hA.le
  have hfd := hL.first_dec hdec
  have hf0 := hT.forced_nonneg
  have hchk : S0.forced ≤ chk := by
    by_contra hc
    have h1 : S0.forced ≠ S.assigned - 1 := by
      intro e
      rw [e] at hfd
      exact hfd hr
    exact hfd (c3 _ (by omega) (by omega)).1
  have hne : ∀ i, 0 ≤ i → i < S.assigned - 1 →
      S0.falseStack i ≠ S0.falseStack (S.assigned - 1) := by
    intro i i0 i1 e
    have := hT.inj i (S.assigned - 1) i0 (by omega) (by omega) (by omega) e
    omega
  obtain ⟨n, ⟨hn, hl, ht⟩, -, hoth, -⟩ := hR (S.assigned - 1) (by omega) (by omega) hr
  have hR1 := hR (S.assigned - 1) (by omega) (by omega) hr
  have hDB : ({ S with assigned := S.assigned - 1 } : solver).DB = S0.DB := static_DB hA.st
  have hspec := bumpLits_spec f (S0.reason (iabs (S0.falseStack (S.assigned - 1))) + 1)
    { S with assigned := S.assigned - 1 } S2 (n - 1) (by omega)
    (by intro m m0 m1; rw [hDB]
        have := hl (m + 1) (by omega) (by omega)
        rwa [show ∀ r : Int, r + (m + 1) = r + 1 + m by intro r; ring] at this)
    (by rw [hDB]; rwa [show ∀ r : Int, r + 1 + (n - 1) = r + n by intro r; ring]) hb
  obtain ⟨s1, s2, s3, s4, s5⟩ := hspec
  rw [hDB] at s3 s4 s5
  have hass : S2.assigned = S.assigned - 1 := rest_assigned s2
  have hfals : ({ S with assigned := S.assigned - 1 } : solver).fals = S.fals := rfl
  rw [hfals] at s3 s4 s5
  have hlits : ∀ x, (∃ m, 0 ≤ m ∧ m < n - 1 ∧
      S0.DB (S0.reason (iabs (S0.falseStack (S.assigned - 1))) + 1 + m) = x) →
      ∃ j, 0 ≤ j ∧ j < S.assigned - 1 ∧ S0.falseStack j = x := by
    rintro x ⟨m, m0, m1, rfl⟩
    have := hoth (m + 1) (by omega) (by omega)
    rwa [show ∀ r : Int, r + (m + 1) = r + 1 + m by intro r; ring] at this
  have hkeep : ∀ x, S.fals x = MARK → S2.fals x = MARK := by
    intro x hx
    by_cases hin : ∃ m, 0 ≤ m ∧ m < n - 1 ∧
      S0.DB (S0.reason (iabs (S0.falseStack (S.assigned - 1))) + 1 + m) = x
    · exact s3 x hin (by rw [hx]; decide)
    · rw [s5 x hin]; exact hx
  refine ⟨⟨?_, ?_, ?_, ?_, ?_, ?_, ?_, ?_⟩, ?_⟩
  rotate_right
  · rintro ⟨x, hx, hx2⟩
    by_cases hxt : x = S0.falseStack (S.assigned - 1)
    · subst hxt
      obtain ⟨m, m1, m2, m3⟩ := hW.2 (S.assigned - 1) (by omega) (by omega) hr hx
      have hmn : m < n := by
        by_contra hc
        exact m2 n (by omega) (by omega) ht
      have hin : ∃ m', 0 ≤ m' ∧ m' < n - 1 ∧
          S0.DB (S0.reason (iabs (S0.falseStack (S.assigned - 1))) + 1 + m')
            = S0.DB (S0.reason (iabs (S0.falseStack (S.assigned - 1))) + m) :=
        ⟨m - 1, by omega, by omega, by
          rw [show ∀ r : Int, r + 1 + (m - 1) = r + m by intro r; ring]⟩
      obtain ⟨j, j0, j1, j2⟩ := hlits _ hin
      have hjf : S0.forced ≤ j := by
        by_contra hc
        exact hW.1 j j0 (by omega) (by rw [j2]; exact m3)
      refine ⟨_, m3, ?_⟩
      show upd S2.fals _ 0 _ = _
      rw [← j2, upd_other _ _ (hne j j0 j1)]
      rw [j2]
      refine s3 _ hin ?_
      rw [← j2]
      rcases hA.mid j hjf (by omega) with e | e <;> rw [e] <;> decide
    · refine ⟨x, hx, ?_⟩
      show upd S2.fals _ 0 _ = _
      rw [upd_other _ _ hxt]
      exact hkeep x hx2
  · exact (s1.trans (show static ({ S with assigned := S.assigned - 1 } : solver) = static S
      from rfl)).trans hA.st
  · show S2.assigned ≤ _
    omega
  · intro i i0 i1
    show upd S2.fals _ 0 _ = _
    rw [upd_other _ _ (hne i i0 (by omega))]
    have := hA.low i i0 i1
    by_cases hin : ∃ m, 0 ≤ m ∧ m < n - 1 ∧
      S0.DB (S0.reason (iabs (S0.falseStack (S.assigned - 1))) + 1 + m) = S0.falseStack i
    · exact s4 _ hin this
    · rw [s5 _ hin]; exact this
  · intro i i0 i1
    have i1' : i < S.assigned - 1 := by
      have : i < S2.assigned := i1
      omega
    show upd S2.fals _ 0 _ = _ ∨ upd S2.fals _ 0 _ = _
    rw [upd_other _ _ (hne i (by omega) i1')]
    have := hA.mid i i0 (by omega)
    by_cases hin : ∃ m, 0 ≤ m ∧ m < n - 1 ∧
      S0.DB (S0.reason (iabs (S0.falseStack (S.assigned - 1))) + 1 + m) = S0.falseStack i
    · right
      refine s3 _ hin ?_
      rcases this with e | e <;> rw [e] <;> decide
    · rw [s5 _ hin]; exact this
  · intro l hl0
    have hl' : upd S2.fals (S0.falseStack (S.assigned - 1)) 0 l ≠ 0 := hl0
    have hne' : l ≠ S0.falseStack (S.assigned - 1) := by
      rintro rfl
      rw [upd_same] at hl'
      exact hl' rfl
    rw [upd_other _ _ hne'] at hl'
    show ∃ i, 0 ≤ i ∧ i < S2.assigned ∧ _
    rw [hass]
    by_cases hin : ∃ m, 0 ≤ m ∧ m < n - 1 ∧
      S0.DB (S0.reason (iabs (S0.falseStack (S.assigned - 1))) + 1 + m) = l
    · exact hlits l hin
    · rw [s5 _ hin] at hl'
      obtain ⟨i, i0, i1, i2⟩ := hA.seen l hl'
      refine ⟨i, i0, ?_, i2⟩
      by_contra hc
      have : i = S.assigned - 1 := by omega
      rw [this] at i2
      exact hne' i2.symm
  · intro k k0 k1
    have k0' : S.assigned - 1 ≤ k := by
      have : S2.assigned ≤ k := k0
      omega
    by_cases hk : k = S.assigned - 1
    · rw [hk]; exact hr
    · exact hA.allr k (by omega) k1
  · refine ⟨chk, by omega, by show chk < S2.assigned; omega, ?_, ?_⟩
    · show upd S2.fals _ 0 _ = _
      rw [upd_other _ _ (hne chk (by omega) c1)]
      exact hkeep _ c2
    · intro k k0 k1
      by_cases hk : k < S.assigned - 1
      · exact (c3 k k0 hk).1
      · by_cases hk2 : k = S.assigned - 1
        · rw [hk2]; exact hr
        · exact hA.allr k (by omega) k1
  · have hv : VmtfInv S2 := by
      refine VmtfInv_bumpLits f (S0.reason (iabs (S0.falseStack (S.assigned - 1))) + 1)
        { S with assigned := S.assigned - 1 } S2 (n - 1) (by omega) ?_ ?_
        (VmtfInv_frame hA.vm rfl rfl rfl rfl) hb
      · intro m m0 m1
        rw [hDB]
        obtain ⟨j, j0, j1, j2⟩ := hlits _ ⟨m, m0, m1, rfl⟩
        rw [← j2, show ({ S with assigned := S.assigned - 1 } : solver).nVars = S0.nVars
          from static_nVars hA.st]
        exact hT.range j j0 (by omega)
      · rw [hDB]; rwa [show ∀ r : Int, r + 1 + (n - 1) = r + n by intro r; ring]
    exact VmtfInv_frame hv rfl rfl rfl rfl

theorem rest_bumpLits (f : Nat) (c : Int) (S T : solver) (h : bumpLits f c S = Except.ok T) :
    rest T = rest S := by
  induction f generalizing c S with
  | zero => simp [bumpLits] at h
  | succ f ih =>
    rw [bumpLits] at h
    split_ifs at h
    · rw [ih _ _ h, rest_bump]
    · cases h; rfl

/-- The first loop of `analyze` stops with the first unique implication point
on top of the trail. -/
theorem analyzeLoop_spec (W : Int → Prop) (f : Nat) (S0 S T : solver) (hW : WClosed S0 W)
    (hT : TrailInv S0)
    (hL : Levels S0 S0.forced) (hR : ReasonInv S0 S0.forced) (hdec : S0.forced < S0.assigned)
    (hA : Ana S0 S) (h : analyzeLoop f S = Except.ok T) :
    Uip S0 T ∧ ((∃ x, W x ∧ S.fals x = MARK) → ∃ x, W x ∧ T.fals x = MARK) := by
  induction f generalizing S with
  | zero => simp [analyzeLoop] at h
  | succ f ih =>
    rw [analyzeLoop] at h
    simp only at h
    have efs : S.falseStack = S0.falseStack := static_falseStack hA.st
    have ers : S.reason = S0.reason := static_reason hA.st
    by_cases h1 : S.reason (iabs (S.falseStack (S.assigned - 1))) ≠ 0
    · rw [if_pos h1] at h
      have hr0 : hasReason S0 (S.assigned - 1) := by
        unfold hasReason; rw [← efs, ← ers]; exact h1
      by_cases h2 : S.fals (S.falseStack (S.assigned - 1)) = MARK
      · rw [if_pos h2] at h
        have hm0 : S.fals (S0.falseStack (S.assigned - 1)) = MARK := by rw [← efs]; exact h2
        cases hc : checkLoop f { S with assigned := S.assigned - 1 } (S.assigned - 1) with
        | error e => rw [hc] at h; cases h
        | ok chk =>
          rw [hc] at h
          simp only at h
          obtain ⟨c1, c2, c3⟩ := checkLoop_spec _ _ _ _ hc
          have hst1 : static ({ S with assigned := S.assigned - 1 } : solver) = static S0 := hA.st
          have c3' : ∀ k, chk < k → k < S.assigned - 1 →
              hasReason S0 k ∧ S.fals (S0.falseStack k) ≠ MARK := by
            intro k k0 k1
            have := c3 k k0 k1
            rw [static_hasReason hst1] at this
            rw [← efs]
            exact this
          by_cases h3 : S.reason (iabs (S.falseStack chk)) = 0 ∧
              S.fals (S.falseStack chk) ≠ MARK
          · rw [if_pos h3] at h
            cases h
            refine ⟨ana_exit_uip hL hdec hA chk hr0 hm0 c1 c3' ?_ ?_, fun hw => hw⟩
            · unfold hasReason; rw [← efs, ← ers]; exact not_not.mpr h3.1
            · rw [← efs]; exact h3.2
          · rw [if_neg h3] at h
            have c2' : S.fals (S0.falseStack chk) = MARK := by
              rw [← efs]
              rcases c2 with c | c
              · by_contra hc2
                exact h3 ⟨not_not.mp c, hc2⟩
              · exact c
            cases hb : bumpLits f (S.reason (iabs (S.falseStack (S.assigned - 1))) + 1)
                { S with assigned := S.assigned - 1 } with
            | error e => rw [hb] at h; cases h
            | ok S2 =>
              rw [hb] at h
              simp only at h
              have hb' : bumpLits f (S0.reason (iabs (S0.falseStack (S.assigned - 1))) + 1)
                  { S with assigned := S.assigned - 1 } = Except.ok S2 := by
                rw [← efs, ← ers]; exact hb
              obtain ⟨hA2, hw2⟩ := ana_resolve W hW f S2 hT hL hR hdec hA chk hr0 c1 c2' c3' hb'
              have e1 : S2.falseStack = S0.falseStack :=
                static_falseStack ((static_bumpLits f _ _ _ hb).trans hst1)
              have e2 : S2.assigned = S.assigned - 1 := rest_assigned (rest_bumpLits f _ _ _ hb)
              rw [e1, e2] at h
              obtain ⟨r1, r2⟩ := ih _ hA2 h
              exact ⟨r1, fun hw => r2 (hw2 hw)⟩
      · rw [if_neg h2] at h
        have hm0 : S.fals (S0.falseStack (S.assigned - 1)) ≠ MARK := by rw [← efs]; exact h2
        have etop : S.falseStack (S.assigned - 1) = S0.falseStack (S.assigned - 1) := by rw [efs]
        rw [etop] at h
        obtain ⟨hA2, hw2⟩ := ana_skip W hT hA hr0 hm0
        obtain ⟨r1, r2⟩ := ih _ hA2 h
        exact ⟨r1, fun hw => r2 (hw2 hw)⟩
    · rw [if_neg h1] at h
      cases h
      refine ⟨ana_exit_dec hA ?_, fun hw => hw⟩
      unfold hasReason; rw [← efs, ← ers]; exact h1

theorem Memo.refl (S0 : solver) (i x : Int) (S : solver) : Memo S0 i x S S :=
  ⟨rfl, fun _ h => absurd rfl h⟩

theorem Memo.static_eq {S0 : solver} {i x : Int} {S S1 : solver} (h : Memo S0 i x S S1) :
    static S1 = static S := by
  rw [h.1]; rfl

theorem Memo.rest_eq {S0 : solver} {i x : Int} {S S1 : solver} (h : Memo S0 i x S S1) :
    rest S1 = rest S := by
  rw [h.1]; rfl

theorem Memo.trans {S0 : solver} {i x : Int} {S S1 S2 : solver} (h1 : Memo S0 i x S S1)
    (h2 : Memo S0 i x S1 S2) : Memo S0 i x S S2 := by
  refine ⟨?_, ?_⟩
  · have e1 := h1.1
    have e2 := h2.1
    rw [e2, e1]
  · intro l hl
    by_cases c1 : S1.fals l = S.fals l
    · have c2 : S2.fals l ≠ S1.fals l := by rw [c1]; exact hl
      obtain ⟨a, b⟩ := h2.2 l c2
      rw [c1] at b
      exact ⟨a, b⟩
    · obtain ⟨a, b⟩ := h1.2 l c1
      by_cases c2 : S2.fals l = S1.fals l
      · rw [c2]; exact ⟨a, b⟩
      · obtain ⟨a2, b2⟩ := h2.2 l c2
        exfalso
        rcases b2 with ⟨-, e⟩ | ⟨e, -⟩ <;> rcases a with a | a <;> rw [a] at e <;>
          exact absurd e (by decide)

theorem Memo.mono {S0 : solver} {i j x y : Int} {S S1 : solver} (h : Memo S0 j y S S1)
    (hij : j ≤ i) (hy : S.fals y ≠ MARK) : Memo S0 i x S S1 := by
  refine ⟨h.1, ?_⟩
  intro l hl
  obtain ⟨a, b⟩ := h.2 l hl
  refine ⟨a, Or.inr ?_⟩
  rcases b with ⟨rfl, e⟩ | ⟨e, k, k0, k1, k2⟩
  · exact absurd e hy
  · exact ⟨e, k, k0, by omega, k2⟩

theorem Memo.keep_mark {S0 : solver} {i x : Int} {S S1 : solver} (h : Memo S0 i x S S1)
    (l : Int) (hl : l ≠ x) (hm : S.fals l = MARK) : S1.fals l = MARK := by
  by_contra hc
  have : S1.fals l ≠ S.fals l := by rw [hm]; exact hc
  obtain ⟨-, b⟩ := h.2 l this
  rcases b with ⟨e, -⟩ | ⟨e, -⟩
  · exact hl e
  · rw [hm] at e
    exact absurd e (by decide)

theorem Memo.keep_memo {S0 : solver} {i x : Int} {S S1 : solver} (h : Memo S0 i x S S1)
    (l : Int) (hm : S.fals l = IMPLIED ∨ S.fals l = NOT_IMPLIED) : S1.fals l = S.fals l := by
  by_contra hc
  obtain ⟨-, b⟩ := h.2 l hc
  rcases b with ⟨-, e⟩ | ⟨e, -⟩ <;> rcases hm with a | a <;> rw [a] at e <;>
    exact absurd e (by decide)

/-- Memo writes keep the marks well formed, apart from the claim that no
literal of the top level is recorded as implied. -/
theorem Memo.bst {S0 : solver} {u d i x : Int} {S S1 : solver} (h : Memo S0 i x S S1)
    (hB : Bst S0 u d S)
    (htc : ∀ k, d ≤ k → k ≤ u → S1.fals (S0.falseStack k) ≠ IMPLIED) : Bst S0 u d S1 := by
  refine ⟨h.static_eq.trans hB.st, ?_, ?_, ?_, htc, ?_⟩
  · intro k k0 k1
    have := hB.low k k0 k1
    rw [h.keep_memo _ (Or.inl this)]
    exact this
  · intro k k0 k1
    by_cases c : S1.fals (S0.falseStack k) = S.fals (S0.falseStack k)
    · rw [c]; exact hB.nz k k0 k1
    · rcases (h.2 _ c).1 with a | a
      · exact Or.inr (Or.inr (Or.inl a))
      · exact Or.inr (Or.inr (Or.inr a))
  · intro l hl
    by_cases c : S1.fals l = S.fals l
    · rw [c] at hl; exact hB.seen l hl
    · refine hB.seen l ?_
      rcases (h.2 _ c).2 with ⟨-, e⟩ | ⟨e, -⟩ <;> rw [e] <;> decide
  · intro k k0 k1
    by_cases c : S1.fals (S0.falseStack k) = S.fals (S0.falseStack k)
    · rw [c]; exact hB.topmark k k0 k1
    · rcases (h.2 _ c).1 with a | a <;> rw [a] <;> decide

theorem BuildCtx.ne {S0 : solver} {u d : Int} (hC : BuildCtx S0 u d) {i j : Int}
    (i0 : 0 ≤ i) (i1 : i ≤ u) (j0 : 0 ≤ j) (j1 : j ≤ u) (hij : i ≠ j) :
    S0.falseStack i ≠ S0.falseStack j := by
  intro e
  have := hC.ubound
  exact hij (hC.trail.inj i j i0 (by omega) j0 (by omega) e)

theorem Bst.forced_le {S0 : solver} {u d : Int} {S : solver} (hB : Bst S0 u d S) {i : Int}
    (i0 : 0 ≤ i) (h : S.fals (S0.falseStack i) ≠ IMPLIED) : S0.forced ≤ i := by
  by_contra hc
  exact h (hB.low i i0 (by omega))

/-- Writing the memo value of `x`. -/
theorem memo_write {S0 : solver} {u d : Int} {S : solver} (hB : Bst S0 u d S) (i : Int)
    (i0 : 0 ≤ i) (v : Int) (hv : v = IMPLIED ∨ v = NOT_IMPLIED)
    (hx : S.fals (S0.falseStack i) = 1 ∨ S.fals (S0.falseStack i) = MARK) :
    Memo S0 i (S0.falseStack i) S { S with fals := upd S.fals (S0.falseStack i) v } := by
  refine ⟨rfl, ?_⟩
  intro l hl
  have hl' : upd S.fals (S0.falseStack i) v l ≠ S.fals l := hl
  have e : l = S0.falseStack i := by
    by_contra hc
    rw [upd_other _ _ hc] at hl'
    exact hl' rfl
  subst e
  refine ⟨by show upd S.fals _ v _ = _ ∨ upd S.fals _ v _ = _; rw [upd_same]; exact hv, ?_⟩
  rcases hx with h1 | h1
  · right
    refine ⟨h1, i, ?_, le_refl _, rfl⟩
    exact hB.forced_le i0 (by rw [h1]; decide)
  · left
    exact ⟨rfl, h1⟩

/-- Memo writes for a literal at position `j` leave the entries above `j`. -/
theorem Memo.above {S0 : solver} {u d j y : Int} {S S1 : solver} (hC : BuildCtx S0 u d)
    (h : Memo S0 j y S S1) (hy : S.fals y ≠ MARK) (k : Int) (k0 : j < k) (k1 : k ≤ u)
    (j0 : 0 ≤ j) : S1.fals (S0.falseStack k) = S.fals (S0.falseStack k) := by
  by_contra hc
  obtain ⟨-, b⟩ := h.2 _ hc
  rcases b with ⟨rfl, e⟩ | ⟨-, k2, a, b, c⟩
  · exact hy e
  · have hf := hC.trail.forced_nonneg
    exact hC.ne (by omega) (by omega) (by omega) k1 (by omega) c

theorem Bst.cases {S0 : solver} {u d : Int} {S : solver} (hB : Bst S0 u d S) (i : Int)
    (i0 : 0 ≤ i) (i1 : i ≤ u) :
    S.fals (S0.falseStack i) = 1 ∨ S.fals (S0.falseStack i) = MARK ∨
    S.fals (S0.falseStack i) = IMPLIED ∨ S.fals (S0.falseStack i) = NOT_IMPLIED := by
  by_cases h : i < S0.forced
  · exact Or.inr (Or.inr (Or.inl (hB.low i i0 h)))
  · exact hB.nz i (by omega) i1

/-- The state after the final memo write of `impliedLoop`. -/
theorem implied_finish {S0 : solver} {u d : Int} {W : Int → Prop} (hC : BuildCtx S0 u d)
    {S : solver} (hB : Bst S0 u d S) (hS : SemInv S0 u W S) (i : Int) (i0 : 0 ≤ i) (i1 : i ≤ u)
    (hx : S.fals (S0.falseStack i) = 1 ∨ S.fals (S0.falseStack i) = MARK)
    (hmc : S.fals (S0.falseStack i) = MARK →
      ∀ k, i < k → k ≤ u → S.fals (S0.falseStack k) ≠ IMPLIED)
    (v : Int) (hv : v = IMPLIED ∨ v = NOT_IMPLIED) (hvd : d ≤ i → v ≠ IMPLIED)
    (hnew : v = IMPLIED → W (S0.falseStack i) →
      ∃ j, 0 ≤ j ∧ j < i ∧ S.fals (S0.falseStack j) = MARK ∧ W (S0.falseStack j)) :
    Memo S0 i (S0.falseStack i) S { S with fals := upd S.fals (S0.falseStack i) v } ∧
    Bst S0 u d { S with fals := upd S.fals (S0.falseStack i) v } ∧
    SemInv S0 u W { S with fals := upd S.fals (S0.falseStack i) v } := by
  have hm := memo_write hB i i0 v hv hx
  have htc : ∀ k, d ≤ k → k ≤ u →
      ({ S with fals := upd S.fals (S0.falseStack i) v } : solver).fals (S0.falseStack k)
        ≠ IMPLIED := by
    intro k k0 k1
    show upd S.fals _ v _ ≠ _
    by_cases hk : k = i
    · subst hk
      rw [upd_same]
      exact hvd k0
    · have hd := hC.dlo
      have hf := hC.trail.forced_nonneg
      rw [upd_other _ _ (hC.ne (by omega) k1 i0 i1 hk)]
      exact hB.topclean k k0 k1
  refine ⟨hm, hm.bst hB htc, ?_⟩
  intro k k0 k1 hk hw
  have hk' : upd S.fals (S0.falseStack i) v (S0.falseStack k) = IMPLIED := hk
  have key : ∀ j, 0 ≤ j → j < i → S.fals (S0.falseStack j) = MARK →
      ({ S with fals := upd S.fals (S0.falseStack i) v } : solver).fals (S0.falseStack j)
        = MARK := by
    intro j j0 j1 hj
    show upd S.fals _ v _ = _
    rw [upd_other _ _ (hC.ne j0 (by omega) i0 i1 (by omega))]
    exact hj
  by_cases hki : k = i
  · subst hki
    rw [upd_same] at hk'
    obtain ⟨j, j0, j1, j2, j3⟩ := hnew hk' hw
    exact ⟨j, j0, j1, key j j0 j1 j2, j3⟩
  · rw [upd_other _ _ (hC.ne k0 k1 i0 i1 hki)] at hk'
    obtain ⟨j, j0, j1, j2, j3⟩ := hS k k0 k1 hk' hw
    refine ⟨j, j0, j1, ?_, j3⟩
    show upd S.fals _ v _ = _
    by_cases hji : j = i
    · subst hji
      exact absurd hk' (hmc j2 k j1 k1)
    · rw [upd_other _ _ (hC.ne j0 (by omega) i0 i1 hji)]
      exact j2

theorem implied_spec {S0 : solver} {u d : Int} {W : Int → Prop} (hC : BuildCtx S0 u d)
    (hW : WClosed S0 W) (f : Nat) :
    (∀ S i b S1, Bst S0 u d S → SemInv S0 u W S → 0 ≤ i → i ≤ u →
      (S.fals (S0.falseStack i) = MARK →
        ∀ k, i < k → k ≤ u → S.fals (S0.falseStack k) ≠ IMPLIED) →
      implied f S (S0.falseStack i) = Except.ok (b, S1) → ImpliedPost S0 u d W S i b S1) ∧
    (∀ S i m n b S1, Bst S0 u d S → SemInv S0 u W S → 0 ≤ i → i ≤ u → hasReason S0 i →
      clauseAt S0 (S0.reason (iabs (S0.falseStack i))) n →
      (∀ m1, 1 ≤ m1 → m1 < n → ∃ j, 0 ≤ j ∧ j < i ∧
        S0.falseStack j = S0.DB (S0.reason (iabs (S0.falseStack i)) + m1)) →
      1 ≤ m → m ≤ n →
      (S.fals (S0.falseStack i) = 1 ∨ S.fals (S0.falseStack i) = MARK) →
      (S.fals (S0.falseStack i) = MARK →
        ∀ k, i < k → k ≤ u → S.fals (S0.falseStack k) ≠ IMPLIED) →
      (d ≤ i → ∃ my j, m ≤ my ∧ my < n ∧ d ≤ j ∧ j < i ∧
        S0.falseStack j = S0.DB (S0.reason (iabs (S0.falseStack i)) + my)) →
      (∀ m1, 1 ≤ m1 → m1 < m → W (S0.DB (S0.reason (iabs (S0.falseStack i)) + m1)) →
        ∃ j, 0 ≤ j ∧ j < i ∧ S.fals (S0.falseStack j) = MARK ∧ W (S0.falseStack j)) →
      impliedLoop f S (S0.falseStack i) (S0.reason (iabs (S0.falseStack i)) + m)
        = Except.ok (b, S1) →
      ImpliedPost S0 u d W S i b S1) := by
  have hub := hC.ubound
  have hf0 := hC.trail.forced_nonneg
  have hdlo := hC.dlo
  induction f with
  | zero =>
    constructor
    · intro S i b S1 _ _ _ _ _ h; simp [implied] at h
    · intro S i m n b S1 _ _ _ _ _ _ _ _ _ _ _ _ _ h; simp [impliedLoop] at h
  | succ f ih =>
    obtain ⟨ihI, ihL⟩ := ih
    constructor
    · intro S i b S1 hB hS i0 i1 hmc h
      have ers : S.reason (iabs (S0.falseStack i)) = S0.reason (iabs (S0.falseStack i)) := by
        rw [static_reason hB.st]
      rw [implied, ers] at h
      by_cases hgt : S.fals (S0.falseStack i) > MARK
      · rw [if_pos hgt] at h
        simp only [Except.ok.injEq, Prod.mk.injEq] at h
        obtain ⟨hb, rfl⟩ := h
        refine ⟨Memo.refl _ _ _ _, hB, hS, ?_, ?_⟩
        · intro hd
          rw [← hb]
          exact decide_eq_false (hB.topclean i hd i1)
        · intro hbt hw
          rw [← hb] at hbt
          exact hS i i0 i1 (of_decide_eq_true hbt) hw
      · rw [if_neg hgt] at h
        have hx : S.fals (S0.falseStack i) = 1 ∨ S.fals (S0.falseStack i) = MARK := by
          rcases hB.cases i i0 i1 with e | e | e | e
          · exact Or.inl e
          · exact Or.inr e
          · exact absurd (by rw [e]; decide) hgt
          · exact absurd (by rw [e]; decide) hgt
        by_cases hr : S0.reason (iabs (S0.falseStack i)) = 0
        · rw [if_pos hr] at h
          simp only [Except.ok.injEq, Prod.mk.injEq] at h
          obtain ⟨hb, rfl⟩ := h
          exact ⟨Memo.refl _ _ _ _, hB, hS, fun _ => hb.symm,
            fun hbt => absurd hbt (by rw [← hb]; decide)⟩
        · rw [if_neg hr] at h
          have hfi : S0.forced ≤ i := hB.forced_le i0 (by rcases hx with e | e <;> rw [e] <;> decide)
          obtain ⟨n, hcl, -, hoth, hlev⟩ := hC.reasons i i0 (by omega) hr
          refine ihL S i 1 n b S1 hB hS i0 i1 hr hcl hoth (le_refl _) hcl.1 hx hmc ?_ ?_ h
          · intro hd
            obtain ⟨my, j, a1, a2, a3, a4, a5, a6⟩ := hlev hfi
            refine ⟨my, j, a1, a2, ?_, a4, a5⟩
            by_contra hc
            have hdi : d ≠ i := by
              rintro rfl
              exact hC.ddec hr
            exact hC.ddec (a6 d (by omega) (by omega))
          · intro m1 a b
            omega
    · intro S i m n b S1 hB hS i0 i1 hri hcl hoth hm1 hmn hx hmc hmy hpass h
      have eDB : S.DB (S0.reason (iabs (S0.falseStack i)) + m)
          = S0.DB (S0.reason (iabs (S0.falseStack i)) + m) := by rw [static_DB hB.st]
      rw [impliedLoop, eDB] at h
      obtain ⟨hn1, hlits, hterm⟩ := hcl
      by_cases hcell : S0.DB (S0.reason (iabs (S0.falseStack i)) + m) ≠ 0
      · rw [if_pos hcell] at h
        have hmlt : m < n := by
          by_contra hc
          have : m = n := by omega
          rw [this] at hcell
          exact hcell hterm
        obtain ⟨j, j0, j1, j2⟩ := hoth m hm1 hmlt
        rw [← j2] at h
        have hji : S0.falseStack j ≠ S0.falseStack i := hC.ne j0 (by omega) i0 i1 (by omega)
        by_cases hmk : S.fals (S0.falseStack j) ≠ MARK
        · rw [if_pos hmk] at h
          cases hcall : implied f S (S0.falseStack j) with
          | error e => rw [hcall] at h; cases h
          | ok q =>
            obtain ⟨b1, S2⟩ := q
            rw [hcall] at h
            simp only at h
            have hP := ihI S j b1 S2 hB hS j0 (by omega) (fun e => absurd e hmk) hcall
            have hmemo : Memo S0 i (S0.falseStack i) S S2 := hP.memo.mono (by omega) hmk
            have hxi : S2.fals (S0.falseStack i) = S.fals (S0.falseStack i) :=
              hP.memo.above hC hmk i j1 i1 j0
            have hx2 : S2.fals (S0.falseStack i) = 1 ∨ S2.fals (S0.falseStack i) = MARK := by
              rw [hxi]; exact hx
            have hmc2 : S2.fals (S0.falseStack i) = MARK →
                ∀ k, i < k → k ≤ u → S2.fals (S0.falseStack k) ≠ IMPLIED := by
              intro e k k0 k1
              rw [hP.memo.above hC hmk k (by omega) k1 j0]
              rw [hxi] at e
              exact hmc e k k0 k1
            cases b1 with
            | true =>
              simp only [if_true] at h
              rw [show S0.reason (iabs (S0.falseStack i)) + m + 1
                = S0.reason (iabs (S0.falseStack i)) + (m + 1) by ring] at h
              have hP2 := ihL S2 i (m + 1) n b S1 hP.bst hP.sem i0 i1 hri ⟨hn1, hlits, hterm⟩ hoth
                (by omega) (by omega) hx2 hmc2 ?_ ?_ h
              · exact ⟨hmemo.trans hP2.memo, hP2.bst, hP2.sem, hP2.top, hP2.wit⟩
              · intro hd
                obtain ⟨my, j', a1, a2, a3, a4, a5⟩ := hmy hd
                refine ⟨my, j', ?_, a2, a3, a4, a5⟩
                by_contra hc
                have : my = m := by omega
                subst this
                have hjj : j' = j := by
                  by_contra hne
                  exact hC.ne (by omega) (by omega) j0 (by omega) hne (a5.trans j2.symm)
                subst hjj
                exact absurd (hP.top a3) (by decide)
              · intro m1 a b hw
                by_cases hm1m : m1 = m
                · subst hm1m
                  rw [← j2] at hw
                  obtain ⟨j', b0, b1, b2, b3⟩ := hP.wit rfl hw
                  exact ⟨j', b0, by omega, b2, b3⟩
                · obtain ⟨j', b0, b1, b2, b3⟩ := hpass m1 a (by omega) hw
                  refine ⟨j', b0, b1, ?_, b3⟩
                  refine hP.memo.keep_mark _ ?_ b2
                  rintro e
                  rw [e] at b2
                  exact hmk b2
            | false =>
              simp only [Bool.false_eq_true, if_false, Except.ok.injEq, Prod.mk.injEq] at h
              obtain ⟨hb, rfl⟩ := h
              obtain ⟨e1, e2, e3⟩ := implied_finish hC hP.bst hP.sem i i0 i1 hx2 hmc2 NOT_IMPLIED
                (Or.inr rfl) (fun _ => by decide) (fun e => absurd e (by decide))
              exact ⟨hmemo.trans e1, e2, e3, fun _ => hb.symm,
                fun hbt => absurd hbt (by rw [← hb]; decide)⟩
        · rw [if_neg hmk] at h
          have hmk' : S.fals (S0.falseStack j) = MARK := not_not.mp hmk
          rw [show S0.reason (iabs (S0.falseStack i)) + m + 1
            = S0.reason (iabs (S0.falseStack i)) + (m + 1) by ring] at h
          refine ihL S i (m + 1) n b S1 hB hS i0 i1 hri ⟨hn1, hlits, hterm⟩ hoth
            (by omega) (by omega) hx hmc ?_ ?_ h
          · intro hd
            obtain ⟨my, j', a1, a2, a3, a4, a5⟩ := hmy hd
            refine ⟨my, j', ?_, a2, a3, a4, a5⟩
            by_contra hc
            have : my = m := by omega
            subst this
            have hjj : j' = j := by
              by_contra hne
              exact hC.ne (by omega) (by omega) j0 (by omega) hne (a5.trans j2.symm)
            subst hjj
            exact hB.topmark j' a3 (by omega) hmk'
          · intro m1 a b hw
            by_cases hm1m : m1 = m
            · subst hm1m
              rw [← j2] at hw
              exact ⟨j, j0, j1, hmk', hw⟩
            · exact hpass m1 a (by omega) hw
      · rw [if_neg hcell] at h
        simp only [Except.ok.injEq, Prod.mk.injEq] at h
        obtain ⟨hb, rfl⟩ := h
        have hmn' : m = n := by
          by_contra hc
          exact hcell (hlits m (by omega) (by omega))
        subst hmn'
        have hdi : ¬ d ≤ i := by
          intro hd
          obtain ⟨my, j', a1, a2, -⟩ := hmy hd
          omega
        have hnew : W (S0.falseStack i) →
            ∃ j, 0 ≤ j ∧ j < i ∧ S.fals (S0.falseStack j) = MARK ∧ W (S0.falseStack j) := by
          intro hw
          obtain ⟨m1, a1, a2, a3⟩ := hW.2 i i0 (by omega) hri hw
          have hm1 : m1 < m := by
            by_contra hc
            exact a2 m (by omega) (by omega) hterm
          exact hpass m1 a1 hm1 a3
        obtain ⟨e1, e2, e3⟩ := implied_finish hC hB hS i i0 i1 hx hmc IMPLIED
          (Or.inl rfl) (fun hd => absurd hd hdi) (fun _ => hnew)
        refine ⟨e1, e2, e3, fun hd => absurd hd hdi, ?_⟩
        intro _ hw
        obtain ⟨j, j0, j1, j2, j3⟩ := hnew hw
        refine ⟨j, j0, j1, ?_, j3⟩
        show upd S.fals _ IMPLIED _ = _
        rw [upd_other _ _ (hC.ne j0 (by omega) i0 i1 (by omega))]
        exact j2

theorem Memo.vmtf {S0 : solver} {i x : Int} {S S1 : solver} (h : Memo S0 i x S S1)
    (hv : VmtfInv S) : VmtfInv S1 := by
  rw [h.1]; exact VmtfInv_frame hv rfl rfl rfl rfl

theorem Memo.buffer_eq {S0 : solver} {i x : Int} {S S1 : solver} (h : Memo S0 i x S S1) :
    S1.buffer = S.buffer := by
  rw [h.1]

theorem Memo.processed_eq {S0 : solver} {i x : Int} {S S1 : solver} (h : Memo S0 i x S S1) :
    S1.processed = S.processed := by
  rw [h.1]

theorem Memo.assigned_eq {S0 : solver} {i x : Int} {S S1 : solver} (h : Memo S0 i x S S1) :
    S1.assigned = S.assigned := by
  rw [h.1]

/-- Memo writes for the literal at position `p` leave all entries above `p`. -/
theorem Memo.above_top {S0 : solver} {u d p : Int} {S S1 : solver} (hC : BuildCtx S0 u d)
    (h : Memo S0 p (S0.falseStack p) S S1) (p0 : 0 ≤ p) (p1 : p ≤ u) (k : Int) (k0 : p < k)
    (k1 : k ≤ u) : S1.fals (S0.falseStack k) = S.fals (S0.falseStack k) := by
  by_contra hc
  obtain ⟨-, b⟩ := h.2 _ hc
  have hf := hC.trail.forced_nonneg
  rcases b with ⟨e, -⟩ | ⟨-, k2, a, b, c⟩
  · exact hC.ne (by omega) k1 p0 p1 (by omega) e
  · exact hC.ne (by omega) (by omega) (by omega) k1 (by omega) c

/-- Resetting the mark of the literal at position `p` after it was examined. -/
theorem bst_reset {S0 : solver} {u d : Int} {S : solver} (hC : BuildCtx S0 u d)
    (hB : Bst S0 u d S) (p : Int) (p0 : S0.forced ≤ p) (p1 : p ≤ u) (T : solver)
    (hst : static T = static S) (hf : T.fals = upd S.fals (S0.falseStack p) 1) :
    Bst S0 u d T := by
  have hf0 := hC.trail.forced_nonneg
  refine ⟨hst.trans hB.st, ?_, ?_, ?_, ?_, ?_⟩
  · intro k k0 k1
    rw [hf, upd_other _ _ (hC.ne k0 (by omega) (by omega) p1 (by omega))]
    exact hB.low k k0 k1
  · intro k k0 k1
    rw [hf]
    by_cases hk : k = p
    · subst hk; rw [upd_same]; exact Or.inl rfl
    · rw [upd_other _ _ (hC.ne (by omega) k1 (by omega) p1 hk)]
      exact hB.nz k k0 k1
  · intro l hl
    rw [hf] at hl
    by_cases hk : l = S0.falseStack p
    · exact ⟨p, by omega, p1, hk.symm⟩
    · rw [upd_other _ _ hk] at hl
      exact hB.seen l hl
  · intro k k0 k1
    rw [hf]
    by_cases hk : k = p
    · subst hk; rw [upd_same]; decide
    · have := hC.dlo
      rw [upd_other _ _ (hC.ne (by omega) k1 (by omega) p1 hk)]
      exact hB.topclean k k0 k1
  · intro k k0 k1
    rw [hf]
    by_cases hk : k = p
    · subst hk; rw [upd_same]; decide
    · have := hC.dlo
      rw [upd_other _ _ (hC.ne (by omega) (by omega) (by omega) p1 hk)]
      exact hB.topmark k k0 k1

theorem sem_reset {S0 : solver} {u d : Int} {W : Int → Prop} {S : solver}
    (hC : BuildCtx S0 u d) (hS : SemInv S0 u W S) (p : Int) (p0 : 0 ≤ p) (p1 : p ≤ u)
    (hi : ∀ k, p < k → k ≤ u → S.fals (S0.falseStack k) = 1)
    (T : solver) (hf : T.fals = upd S.fals (S0.falseStack p) 1) : SemInv S0 u W T := by
  intro k k0 k1 hk hw
  rw [hf] at hk
  have hkp : k ≠ p := by
    rintro rfl
    rw [upd_same] at hk
    exact absurd hk (by decide)
  rw [upd_other _ _ (hC.ne k0 k1 p0 p1 hkp)] at hk
  obtain ⟨j, j0, j1, j2, j3⟩ := hS k k0 k1 hk hw
  refine ⟨j, j0, j1, ?_, j3⟩
  have hjp : j ≠ p := by
    rintro rfl
    have := hi k j1 k1
    rw [this] at hk
    exact absurd hk (by decide)
  rw [hf, upd_other _ _ (hC.ne j0 (by omega) p0 p1 hjp)]
  exact j2

theorem lowestDec_step {S0 : solver} {u p P : Int} (h : LowestDec S0 u p P)
    (hr : hasReason S0 p) : LowestDec S0 u (p - 1) P := by
  obtain ⟨a, b, c⟩ := h
  refine ⟨a, ?_, ?_⟩
  · intro k k0 k1
    by_cases hk : k = p
    · rw [hk]; exact hr
    · exact b k (by omega) k1
  · rcases c with ⟨c1, c2⟩ | ⟨c1, c2⟩
    · exact Or.inl ⟨by omega, c2⟩
    · right
      refine ⟨c1, ?_⟩
      intro k k0 k1
      by_cases hk : k = p
      · rw [hk]; exact hr
      · exact c2 k (by omega) k1

/-- One round of the loop that builds the lemma, from the state `S2` reached
after the literal at position `p` was examined. -/
theorem binv_step {S0 : solver} {u d : Int} {W : Int → Prop} (hC : BuildCtx S0 u d)
    {S : solver} {p size : Int} (hI : BInv S0 u d W S p size) (hp : S0.forced ≤ p)
    (S2 : solver) (size2 : Int) (T : solver)
    (m_bst : Bst S0 u d S2) (m_sem : SemInv S0 u W S2)
    (m_hi : ∀ k, p < k → k ≤ u → S2.fals (S0.falseStack k) = 1)
    (m_asg : S2.assigned = u) (m_proc : S2.processed = S.processed)
    (m_size : (size2 = size ∧ S2.buffer = S.buffer ∧ p < u) ∨
      (size2 = size + 1 ∧ S2.buffer = upd S.buffer size (S0.falseStack p) ∧ (1 ≤ size → p < d)))
    (t_st : static T = static S2) (t_fals : T.fals = upd S2.fals (S0.falseStack p) 1)
    (t_buf : T.buffer = S2.buffer) (t_asg : T.assigned = S2.assigned) (t_vm : VmtfInv T)
    (t_proc1 : ¬ hasReason S0 p ∧ size2 = 1 → T.processed = p)
    (t_proc2 : ¬ (¬ hasReason S0 p ∧ size2 = 1) → T.processed = S2.processed) :
    BInv S0 u d W T (p - 1) size2 := by
  have hf0 := hC.trail.forced_nonneg
  have hple := hI.ple
  have hs0 := hI.size0
  have hbuf : ∀ k, 0 ≤ k → k < size → T.buffer k = S.buffer k := by
    intro k k0 k1
    rw [t_buf]
    rcases m_size with ⟨-, e, -⟩ | ⟨-, e, -⟩
    · rw [e]
    · rw [e, upd_other _ _ (by omega)]
  refine ⟨bst_reset hC m_bst p hp hple T t_st t_fals,
    sem_reset hC m_sem p (by omega) hple m_hi T t_fals, ?_, by rw [t_asg, m_asg], t_vm,
    by omega, by rcases m_size with ⟨e, -⟩ | ⟨e, -⟩ <;> omega, ?_, ?_, ?_, ?_, ?_⟩
  · intro k k0 k1
    rw [t_fals]
    by_cases hk : k = p
    · subst hk; rw [upd_same]
    · rw [upd_other _ _ (hC.ne (by omega) k1 (by omega) hple hk)]
      exact m_hi k (by omega) k1
  · intro _
    rcases m_size with ⟨e, -, h⟩ | ⟨e, -, -⟩
    · have := hI.szp h; omega
    · omega
  · intro h; omega
  · intro k k0 k1
    rcases m_size with ⟨e, -, -⟩ | ⟨e, eb, hd⟩
    · rw [e] at k1
      obtain ⟨i, a1, a2, a3, a4, a5, a6⟩ := hI.buf k k0 k1
      refine ⟨i, by omega, a2, by rw [hbuf k k0 k1]; exact a3, a4, a5, ?_⟩
      intro k2 b1 b2
      rw [e] at b2
      obtain ⟨i2, c1, c2, c3⟩ := a6 k2 b1 b2
      exact ⟨i2, by omega, c2, by rw [hbuf k2 (by omega) b2]; exact c3⟩
    · by_cases hk : k = size
      · subst hk
        refine ⟨p, by omega, hple, by rw [t_buf, eb, upd_same], ?_, ?_, ?_⟩
        · intro h0
          by_contra hne
          have := hI.szp (by omega)
          omega
        · intro h1
          exact hd h1
        · intro k2 b1 b2
          omega
      · have k1' : k < size := by omega
        obtain ⟨i, a1, a2, a3, a4, a5, a6⟩ := hI.buf k k0 k1'
        refine ⟨i, by omega, a2, by rw [hbuf k k0 k1']; exact a3, a4, a5, ?_⟩
        intro k2 b1 b2
        by_cases hk2 : k2 = size
        · subst hk2
          exact ⟨p, by omega, a1, by rw [t_buf, eb, upd_same]⟩
        · obtain ⟨i2, c1, c2, c3⟩ := a6 k2 b1 (by omega)
          exact ⟨i2, by omega, c2, by rw [hbuf k2 (by omega) (by omega)]; exact c3⟩
  · intro hs
    have hsz : size ≤ 1 := by rcases m_size with ⟨e, -⟩ | ⟨e, -⟩ <;> omega
    have hold := hI.proc1 hsz
    by_cases hdec : ¬ hasReason S0 p ∧ size2 = 1
    · rw [t_proc1 hdec]
      refine ⟨hple, ?_, Or.inl ⟨by omega, hdec.1⟩⟩
      intro k k0 k1
      omega
    · rw [t_proc2 hdec, m_proc]
      have hs2 : size2 = 1 := by
        rcases m_size with ⟨e, -, h⟩ | ⟨e, -, -⟩
        · have := hI.szp h; omega
        · omega
      have hr : hasReason S0 p := by
        by_contra hc
        exact hdec ⟨hc, hs2⟩
      exact lowestDec_step hold hr
  · intro hs
    have hnd : ¬ (¬ hasReason S0 p ∧ size2 = 1) := by
      rintro ⟨-, e⟩; omega
    rw [t_proc2 hnd, m_proc]
    by_cases hsz : 2 ≤ size
    · obtain ⟨i1, a1, a0, a2, a3⟩ := hI.proc2 hsz
      exact ⟨i1, by omega, a0, by rw [hbuf 1 (by omega) (by omega)]; exact a2, a3⟩
    · rcases m_size with ⟨e, -, -⟩ | ⟨e, eb, hd⟩
      · omega
      · have hs1 : size = 1 := by omega
        refine ⟨p, by omega, hd (by omega), ?_, hI.proc1 (by omega)⟩
        rw [t_buf, eb, hs1, upd_same]

theorem static_of_fals_buffer_processed (S : solver) (f : Int → Int) (b : Int → Int)
    (p : Int) : static { S with fals := f, buffer := b, processed := p } = static S := rfl

theorem Bst.congr_fields {S0 : solver} {u d : Int} {S T : solver} (hB : Bst S0 u d S)
    (hst : static T = static S) (hf : T.fals = S.fals) : Bst S0 u d T := by
  refine ⟨hst.trans hB.st, ?_, ?_, ?_, ?_, ?_⟩
  · rw [hf]; exact hB.low
  · rw [hf]; exact hB.nz
  · rw [hf]; exact hB.seen
  · rw [hf]; exact hB.topclean
  · rw [hf]; exact hB.topmark

theorem SemInv.congr_fals {S0 : solver} {u : Int} {W : Int → Prop} {S T : solver}
    (hS : SemInv S0 u W S) (hf : T.fals = S.fals) : SemInv S0 u W T := by
  unfold SemInv
  rw [hf]
  exact hS

/-- The loop of `analyze` that builds the lemma. -/
theorem buildLoop_spec {S0 : solver} {u d : Int} {W : Int → Prop} (hC : BuildCtx S0 u d)
    (hW : WClosed S0 W) (f : Nat) :
    ∀ S p size lbd flag T size1 lbd1, BInv S0 u d W S p size → S0.forced - 1 ≤ p →
      buildLoop f S p size lbd flag = Except.ok (T, size1, lbd1) →
      BInv S0 u d W T (S0.forced - 1) size1 ∧ (Wit W S size → Wit W T size1) := by
  have hf0 := hC.trail.forced_nonneg
  induction f with
  | zero => intro S p size lbd flag T size1 lbd1 _ _ h; simp [buildLoop] at h
  | succ f ih =>
    intro S p size lbd flag T size1 lbd1 hI hp h
    have efo : S.forced = S0.forced := static_forced hI.bst.st
    have efs : S.falseStack p = S0.falseStack p := by rw [static_falseStack hI.bst.st]
    have hple := hI.ple
    rw [buildLoop, efo] at h
    by_cases hge : p ≥ S0.forced
    · rw [if_pos hge] at h
      simp only at h
      rw [efs] at h
      by_cases hm : S.fals (S0.falseStack p) = MARK
      · simp only [hm, if_true] at h
        cases hcall : implied f S (S0.falseStack p) with
        | error e => rw [hcall] at h; cases h
        | ok q =>
          obtain ⟨b, S1⟩ := q
          rw [hcall] at h
          simp only at h
          have hP := (implied_spec hC hW f).1 S p b S1 hI.bst hI.sem (by omega) hple
            (fun _ k k0 k1 => by rw [hI.hi k k0 k1]; decide) hcall
          have ers : S1.reason (iabs (S0.falseStack p)) = S0.reason (iabs (S0.falseStack p)) := by
            rw [static_reason hP.bst.st]
          have m_hi : ∀ k, p < k → k ≤ u → S1.fals (S0.falseStack k) = 1 := by
            intro k k0 k1
            rw [hP.memo.above_top hC (by omega) hple k k0 k1]
            exact hI.hi k k0 k1
          have hpu : p ≠ u → p < d := by
            intro hne
            by_contra hc
            exact hI.bst.topmark p (by omega) (by omega) hm
          cases b with
          | true =>
            simp only [if_true] at h
            have hpd : p < d := by
              by_contra hc
              exact absurd (hP.top (by omega)) (by decide)
            have hdu := hC.dle
            rw [ers] at h
            obtain ⟨r1, r2⟩ := ih _ _ _ _ _ _ _ _
              (binv_step hC hI hge S1 size _ hP.bst hP.sem m_hi
                (by rw [hP.memo.assigned_eq]; exact hI.asg) hP.memo.processed_eq
                (Or.inl ⟨rfl, hP.memo.buffer_eq, by omega⟩)
                (by split_ifs <;> rfl) (by split_ifs <;> rfl) (by split_ifs <;> rfl)
                (by split_ifs <;> rfl)
                (by split_ifs <;> exact VmtfInv_frame (hP.memo.vmtf hI.vm) rfl rfl rfl rfl)
                (by intro hc
                    rw [if_pos (show S0.reason (iabs (S0.falseStack p)) = 0 ∧ size = 1 from
                      ⟨not_not.mp hc.1, hc.2⟩)])
                (by intro hc
                    rw [if_neg (show ¬ (S0.reason (iabs (S0.falseStack p)) = 0 ∧ size = 1) from
                      fun e => hc ⟨not_not.mpr e.1, e.2⟩)]))
              (by omega) h
            refine ⟨r1, fun hw => r2 ?_⟩
            obtain ⟨x, hx, hx2⟩ := hw
            rcases hx2 with hx2 | ⟨k, k0, k1, k2⟩
            · by_cases hxl : x = S0.falseStack p
              · subst hxl
                obtain ⟨j, j0, j1, j2, j3⟩ := hP.wit rfl hx
                refine ⟨_, j3, Or.inl ?_⟩
                split_ifs <;>
                  (show upd S1.fals _ 1 _ = _
                   rw [upd_other _ _ (hC.ne j0 (by omega) (by omega) hple (by omega))]
                   exact j2)
              · refine ⟨x, hx, Or.inl ?_⟩
                have := hP.memo.keep_mark x hxl hx2
                split_ifs <;>
                  (show upd S1.fals _ 1 _ = _
                   rw [upd_other _ _ hxl]
                   exact this)
            · refine ⟨x, hx, Or.inr ⟨k, k0, k1, ?_⟩⟩
              rw [← k2, ← hP.memo.buffer_eq]
              split_ifs <;> rfl
          | false =>
            simp only [Bool.false_eq_true, if_false] at h
            rw [ers] at h
            obtain ⟨r1, r2⟩ := ih _ _ _ _ _ _ _ _
              (binv_step hC hI hge { S1 with buffer := upd S1.buffer size (S0.falseStack p) }
                (size + 1) _ (hP.bst.congr_fields rfl rfl) (hP.sem.congr_fals rfl) m_hi
                (by show S1.assigned = u; rw [hP.memo.assigned_eq]; exact hI.asg)
                hP.memo.processed_eq
                (Or.inr ⟨rfl, by show upd S1.buffer _ _ = _; rw [hP.memo.buffer_eq],
                  fun h1 => hpu (fun e => by have := (hI.szu e).1; omega)⟩)
                (by split_ifs <;> rfl) (by split_ifs <;> rfl) (by split_ifs <;> rfl)
                (by split_ifs <;> rfl)
                (by split_ifs <;> exact VmtfInv_frame (hP.memo.vmtf hI.vm) rfl rfl rfl rfl)
                (by intro hc
                    rw [if_pos (show S0.reason (iabs (S0.falseStack p)) = 0 ∧ size + 1 = 1 from
                      ⟨not_not.mp hc.1, hc.2⟩)])
                (by intro hc
                    rw [if_neg (show ¬ (S0.reason (iabs (S0.falseStack p)) = 0 ∧ size + 1 = 1)
                      from fun e => hc ⟨not_not.mpr e.1, e.2⟩)]))
              (by omega) h
            refine ⟨r1, fun hw => r2 ?_⟩
            obtain ⟨x, hx, hx2⟩ := hw
            rcases hx2 with hx2 | ⟨k, k0, k1, k2⟩
            · by_cases hxl : x = S0.falseStack p
              · refine ⟨x, hx, Or.inr ⟨size, hI.size0, by omega, ?_⟩⟩
                rw [hxl]
                split_ifs <;> (show upd S1.buffer _ _ _ = _; rw [upd_same])
              · refine ⟨x, hx, Or.inl ?_⟩
                have := hP.memo.keep_mark x hxl hx2
                split_ifs <;>
                  (show upd S1.fals _ 1 _ = _
                   rw [upd_other _ _ hxl]
                   exact this)
            · refine ⟨x, hx, Or.inr ⟨k, k0, by omega, ?_⟩⟩
              rw [← k2, ← hP.memo.buffer_eq]
              split_ifs <;> (show upd S1.buffer _ _ _ = _; rw [upd_other _ _ (by omega)])
      · simp only [hm, if_false] at h
        have ers : S.reason (iabs (S0.falseStack p)) = S0.reason (iabs (S0.falseStack p)) := by
          rw [static_reason hI.bst.st]
        rw [ers] at h
        have hpu : p < u := by
          by_contra hc
          have : p = u := by omega
          rw [this] at hm
          exact hm (hI.szu this).2
        obtain ⟨r1, r2⟩ := ih _ _ _ _ _ _ _ _
          (binv_step hC hI hge S size _ hI.bst hI.sem hI.hi hI.asg rfl
            (Or.inl ⟨rfl, rfl, hpu⟩)
            (by split_ifs <;> rfl) (by split_ifs <;> rfl) (by split_ifs <;> rfl)
            (by split_ifs <;> rfl)
            (by split_ifs <;> exact VmtfInv_frame hI.vm rfl rfl rfl rfl)
            (by intro hc
                rw [if_pos (show S0.reason (iabs (S0.falseStack p)) = 0 ∧ size = 1 from
                  ⟨not_not.mp hc.1, hc.2⟩)])
            (by intro hc
                rw [if_neg (show ¬ (S0.reason (iabs (S0.falseStack p)) = 0 ∧ size = 1) from
                  fun e => hc ⟨not_not.mpr e.1, e.2⟩)]))
          (by omega) h
        refine ⟨r1, fun hw => r2 ?_⟩
        obtain ⟨x, hx, hx2⟩ := hw
        rcases hx2 with hx2 | ⟨k, k0, k1, k2⟩
        · have hxl : x ≠ S0.falseStack p := by
            rintro rfl
            exact hm hx2
          refine ⟨x, hx, Or.inl ?_⟩
          split_ifs <;>
            (show upd S.fals _ 1 _ = _
             rw [upd_other _ _ hxl]
             exact hx2)
        · refine ⟨x, hx, Or.inr ⟨k, k0, k1, ?_⟩⟩
          rw [← k2]
          split_ifs <;> rfl
    · rw [if_neg hge] at h
      simp only [Except.ok.injEq, Prod.mk.injEq] at h
      obtain ⟨rfl, rfl, -⟩ := h
      have : p = S0.forced - 1 := by omega
      subst this
      exact ⟨hI, fun hw => hw⟩

theorem backjumpLoop_only (k : Nat) (S : solver) :
    backjumpLoop k S =
      { S with assigned := (backjumpLoop k S).assigned, fals := (backjumpLoop k S).fals } := by
  induction k generalizing S with
  | zero => rfl
  | succ k ih =>
    rw [backjumpLoop]
    by_cases hgt : S.assigned > S.processed
    · rw [if_pos hgt]
      rw [ih]
      rfl
    · rw [if_neg hgt]

theorem backjumpLoop_spec (k : Nat) (S : solver) (h1 : S.processed ≤ S.assigned)
    (h2 : S.assigned - S.processed ≤ k) :
    (backjumpLoop k S).assigned = S.processed ∧
    (∀ i, S.processed < i → i ≤ S.assigned → (backjumpLoop k S).fals (S.falseStack i) = 0) ∧
    (∀ l, (∀ i, S.processed < i → i ≤ S.assigned → S.falseStack i ≠ l) →
      (backjumpLoop k S).fals l = S.fals l) := by
  induction k generalizing S with
  | zero =>
    have : S.assigned = S.processed := by omega
    refine ⟨this, ?_, ?_⟩
    · intro i i0 i1; omega
    · intro l _; rfl
  | succ k ih =>
    rw [backjumpLoop]
    by_cases hgt : S.assigned > S.processed
    · rw [if_pos hgt]
      obtain ⟨a1, a5, a6⟩ :=
        ih (unassign { S with assigned := S.assigned - 1 } (S.falseStack S.assigned))
          (by show S.processed ≤ S.assigned - 1; omega)
          (by show S.assigned - 1 - S.processed ≤ k; omega)
      have a5' : ∀ i, S.processed < i → i ≤ S.assigned - 1 →
          (backjumpLoop k (unassign { S with assigned := S.assigned - 1 }
            (S.falseStack S.assigned))).fals (S.falseStack i) = 0 := a5
      have a6' : ∀ l, (∀ i, S.processed < i → i ≤ S.assigned - 1 → S.falseStack i ≠ l) →
          (backjumpLoop k (unassign { S with assigned := S.assigned - 1 }
            (S.falseStack S.assigned))).fals l = upd S.fals (S.falseStack S.assigned) 0 l := a6
      refine ⟨a1, ?_, ?_⟩
      · intro i i0 i1
        by_cases hi : i = S.assigned
        · rw [hi]
          by_cases hex : ∃ j, S.processed < j ∧ j ≤ S.assigned - 1 ∧
              S.falseStack j = S.falseStack S.assigned
          · obtain ⟨j, j0, j1, j2⟩ := hex
            have := a5' j j0 j1
            rw [j2] at this
            exact this
          · rw [a6' _ (fun j j0 j1 e => hex ⟨j, j0, j1, e⟩), upd_same]
        · exact a5' i i0 (by omega)
      · intro l hl
        rw [a6' l (fun j j0 j1 => hl j j0 (by omega))]
        rw [upd_other _ _ (fun e => hl S.assigned hgt (le_refl _) e.symm)]
    · rw [if_neg hgt]
      have : S.assigned = S.processed := by omega
      refine ⟨this, ?_, ?_⟩
      · intro i i0 i1; omega
      · intro l _; rfl

theorem preLemma_eq (S4 : solver) (size lbd : Int) :
    preLemma S4 size lbd =
      { (avgUpdate S4 lbd) with
        assigned := (backjumpLoop (S4.assigned - S4.processed).toNat (avgUpdate S4 lbd)).assigned
        fals := upd (backjumpLoop (S4.assigned - S4.processed).toNat (avgUpdate S4 lbd)).fals
          (S4.falseStack
            (backjumpLoop (S4.assigned - S4.processed).toNat (avgUpdate S4 lbd)).assigned) 0
        buffer := upd S4.buffer size 0 } := by
  unfold preLemma
  simp only
  rw [backjumpLoop_only]
  rfl

/-- The state in which `analyze` calls `addClause`: the trail is cut at
`processed`, the literals from there to the old top are unassigned. -/
theorem preLemma_spec (S4 : solver) (size lbd : Int) (h1 : S4.processed ≤ S4.assigned) :
    static (preLemma S4 size lbd) = static S4 ∧
    (preLemma S4 size lbd).assigned = S4.processed ∧
    (preLemma S4 size lbd).processed = S4.processed ∧
    (preLemma S4 size lbd).buffer = upd S4.buffer size 0 ∧
    (VmtfInv S4 → VmtfInv (preLemma S4 size lbd)) ∧
    (∀ i, S4.processed ≤ i → i ≤ S4.assigned →
      (preLemma S4 size lbd).fals (S4.falseStack i) = 0) ∧
    (∀ l, (∀ i, S4.processed ≤ i → i ≤ S4.assigned → S4.falseStack i ≠ l) →
      (preLemma S4 size lbd).fals l = S4.fals l) := by
  obtain ⟨a1, a5, a6⟩ := backjumpLoop_spec (S4.assigned - S4.processed).toNat
    (avgUpdate S4 lbd) h1 (by show S4.assigned - S4.processed ≤ _; omega)
  have a1' : (backjumpLoop (S4.assigned - S4.processed).toNat (avgUpdate S4 lbd)).assigned
      = S4.processed := a1
  have a5' : ∀ i, S4.processed < i → i ≤ S4.assigned →
      (backjumpLoop (S4.assigned - S4.processed).toNat (avgUpdate S4 lbd)).fals
        (S4.falseStack i) = 0 := a5
  have a6' : ∀ l, (∀ i, S4.processed < i → i ≤ S4.assigned → S4.falseStack i ≠ l) →
      (backjumpLoop (S4.assigned - S4.processed).toNat (avgUpdate S4 lbd)).fals l
        = S4.fals l := a6
  rw [preLemma_eq]
  refine ⟨rfl, a1', rfl, rfl, fun h => VmtfInv_frame h rfl rfl rfl rfl, ?_, ?_⟩
  · intro i i0 i1
    show upd _ _ 0 _ = 0
    rw [a1']
    by_cases he : S4.falseStack i = S4.falseStack S4.processed
    · rw [he, upd_same]
    · rw [upd_other _ _ he]
      refine a5' i ?_ i1
      by_contra hc
      have : i = S4.processed := by omega
      rw [this] at he
      exact he rfl
  · intro l hl
    show upd _ _ 0 _ = _
    rw [a1']
    rw [upd_other _ _ (fun e => hl S4.processed (le_refl _) h1 e.symm)]
    exact a6' l (fun i i0 i1 => hl i (by omega) i1)

theorem kept_fields {S T : solver} (h : kept T = kept S) :
    T.nVars = S.nVars ∧ T.buffer = S.buffer ∧ T.model = S.model ∧ T.reason = S.reason ∧
    T.falseStack = S.falseStack ∧ T.fals = S.fals ∧ T.forced = S.forced ∧
    T.processed = S.processed ∧ T.assigned = S.assigned ∧ T.prev = S.prev ∧ T.head = S.head ∧
    T.maxLemmas = S.maxLemmas := by
  simp only [kept, Prod.mk.injEq] at h
  obtain ⟨a1, a2, a3, a4, a5, a6, a7, a8, a9, a10, a11, a12, a13, a14, a15, a16, a17, a18⟩ := h
  exact ⟨a1, a5, a7, a8, a9, a10, a11, a12, a13, a15, a16, a4⟩

theorem kept_next {S T : solver} (h : kept T = kept S) : T.next = S.next := by
  simp only [kept, Prod.mk.injEq] at h
  exact h.2.2.2.2.2.2.2.2.2.2.2.2.2.1

theorem static_fields {S T : solver} (h : static T = static S) :
    T.DB = S.DB ∧ T.nVars = S.nVars ∧ T.mem_used = S.mem_used ∧ T.mem_fixed = S.mem_fixed ∧
    T.mem_max = S.mem_max ∧ T.maxLemmas = S.maxLemmas ∧ T.nLemmas = S.nLemmas ∧
    T.model = S.model ∧ T.reason = S.reason ∧ T.falseStack = S.falseStack ∧
    T.first = S.first ∧ T.forced = S.forced := by
  simp only [static, Prod.mk.injEq] at h
  obtain ⟨a1, a2, a3, a4, a5, a6, a7, a8, a9, a10, a11, a12, a13⟩ := h
  exact ⟨a1, a2, a4, a5, a6, a7, a8, a9, a10, a11, a12, a13⟩

/-- The state in which the lemma is built satisfies the loop invariant. -/
theorem binv_init {S0 S2 : solver} {d : Int} (W : Int → Prop) (hW : WClosed S0 W)
    (hU : Uip S0 S2) (hT : TrailInv S0)
    (hd : S0.forced ≤ d ∧ d ≤ S2.assigned ∧ ¬ hasReason S0 d ∧
      (∀ k, d < k → k < S0.assigned → hasReason S0 k) ∧
      ∀ k, d ≤ k → k < S2.assigned → S2.fals (S0.falseStack k) ≠ MARK) :
    BInv S0 S2.assigned d W { S2 with processed := S2.assigned } S2.assigned 0 := by
  obtain ⟨d1, d2, d3, d4, d5⟩ := hd
  have hf0 := hT.forced_nonneg
  have hmid : ∀ i, S0.forced ≤ i → i ≤ S2.assigned →
      S2.fals (S0.falseStack i) = 1 ∨ S2.fals (S0.falseStack i) = MARK := hU.mid
  refine ⟨⟨hU.st, hU.low, ?_, hU.seen, ?_, d5⟩, ?_, ?_, rfl, VmtfInv_frame hU.vm rfl rfl rfl rfl, le_refl _, le_refl _,
    fun h => absurd h (lt_irrefl _), fun _ => ⟨rfl, hU.uip⟩, ?_, ?_, ?_⟩
  · intro i i0 i1
    rcases hmid i i0 i1 with e | e
    · exact Or.inl e
    · exact Or.inr (Or.inl e)
  · intro k k0 k1
    show S2.fals _ ≠ _
    rcases hmid k (by omega) k1 with e | e <;> rw [e] <;> decide
  · intro k k0 k1 hk hw
    exfalso
    by_cases hkf : k < S0.forced
    · exact hW.1 k k0 hkf hw
    · have hk' : S2.fals (S0.falseStack k) = IMPLIED := hk
      rcases hmid k (by omega) k1 with e | e <;> rw [e] at hk' <;> exact absurd hk' (by decide)
  · intro k k0 k1
    omega
  · intro k k0 k1
    omega
  · intro _
    exact ⟨le_refl _, fun k k0 k1 => by
      have : k < S2.assigned := k1
      omega, Or.inr ⟨rfl, fun k k0 k1 => by omega⟩⟩
  · intro h
    omega

/-- The contract of `analyze` on a state in which a clause is falsified while
a decision is on the trail. -/
theorem analyze_spec (W : Int → Prop) (f : Nat) (S : solver) (c lem : Int) (T : solver)
    (hW : WClosed S W) (hC : Conflict S c) (h : analyze f S c = Except.ok (lem, T)) :
    ∃ size u P, AnalyzePost S lem T size u P ∧
      ((∃ n m, clauseAt S c n ∧ 0 ≤ m ∧ m < n ∧ W (S.DB (c + m))) →
        ∃ k, 0 ≤ k ∧ k < size ∧ W (T.DB (lem + k))) := by
  obtain ⟨S1, S2, S4, size, lbd, h1, h2, h3, h4⟩ := analyze_eq f S c _ h
  have hT := hC.trail
  have hf0 := hT.forced_nonneg
  have hA := ana_init f S c S1 hC h1
  obtain ⟨hU, hw2⟩ := analyzeLoop_spec W f S S1 S2 hW hT hC.levels hC.reasons hC.dec hA h2
  obtain ⟨d, d1, d2, d3, d4, d5⟩ := hU.dec
  have hCtx : BuildCtx S S2.assigned d :=
    ⟨hT, hC.reasons, fun i i0 i1 => (hC.levels.root i i0 i1).2, hU.lt, d1, d2, d3, d4⟩
  have hI0 := binv_init W hW hU hT ⟨d1, d2, d3, d4, d5⟩
  obtain ⟨hI, hw3⟩ := buildLoop_spec hCtx hW f _ _ _ _ _ _ _ _ hI0 (by omega) h3
  have hult := hU.lt
  have hsz1 : 1 ≤ size := hI.szp (by omega)
  have hfd : ¬ hasReason S S.forced := hC.levels.first_dec hC.dec
  -- the new trail top
  have hP : S.forced ≤ S4.processed ∧ S4.processed ≤ S2.assigned ∧ ¬ hasReason S S4.processed ∧
      (size = 1 → S4.processed = S.forced) ∧
      (2 ≤ size → ∃ i1, S.forced ≤ i1 ∧ i1 < S4.processed ∧ S4.buffer 1 = S.falseStack i1 ∧
        ∀ k, i1 < k → k < S4.processed → hasReason S k) := by
    by_cases hs : size ≤ 1
    · obtain ⟨a1, a2, a3⟩ := hI.proc1 hs
      rcases a3 with ⟨b1, b2⟩ | ⟨b1, b2⟩
      · have hPf : S4.processed = S.forced := by
          by_contra hne
          exact hfd (a2 S.forced (by omega) (by omega))
        exact ⟨by omega, a1, b2, fun _ => hPf, fun h => by omega⟩
      · exact absurd (b2 S.forced (by omega) (by omega)) hfd
    · obtain ⟨i1, a0, ad, ab, a1, a2, a3⟩ := hI.proc2 (by omega)
      rcases a3 with ⟨b1, b2⟩ | ⟨b1, b2⟩
      · exact ⟨by omega, a1, b2, fun h => by omega,
          fun _ => ⟨i1, by omega, b1, ab, a2⟩⟩
      · exact absurd (b2 d ad d2) d3
  obtain ⟨hP1, hP2, hP3, hP4, hP5⟩ := hP
  have hasg4 : S4.assigned = S2.assigned := hI.asg
  obtain ⟨p1, p2, p3, p4, p5, p6, p7⟩ := preLemma_spec S4 size lbd (by rw [hasg4]; exact hP2)
  obtain ⟨m1, m2, m3, m4, m5, m6, m7, m8⟩ := addClause_mem _ _ _ _ _ h4
  obtain ⟨T1, q0, q1, q2, q3, q4, q5, q6, q7, q8, q9, q10, q11, q12, q13, q14, q15, q16, q17⟩ :=
    addClause_buffer (preLemma S4 size lbd) size 0 (by omega) m1
  rw [q0] at h4
  simp only [Except.ok.injEq, Prod.mk.injEq] at h4
  obtain ⟨hlem, rfl⟩ := h4
  have est4 : static S4 = static S := hI.bst.st
  obtain ⟨s1, s2, s3, s4, s5, s6, s7, s8, s9, s10, s11, s12⟩ := static_fields (p1.trans est4)
  have efs4 : S4.falseStack = S.falseStack := static_falseStack est4
  rw [efs4, hasg4] at p6 p7
  have hbufk : ∀ k, 0 ≤ k → k < size → T1.DB (lem + k) = S4.buffer k := by
    intro k k0 k1
    rw [← hlem, q2 k k0 k1, p4, upd_other _ _ (by omega)]
  -- positions of the lemma literals
  have hpos : ∀ k, 1 ≤ k → k < size → ∀ i, 0 ≤ i → i ≤ S2.assigned →
      S4.buffer k = S.falseStack i → i < S4.processed := by
    intro k k0 k1 i i0 i1 e
    obtain ⟨i1', a1, a2, a3, a4⟩ := hP5 (by omega)
    by_cases hk : k = 1
    · subst hk
      have : i = i1' := by
        by_contra hne
        exact hCtx.ne i0 i1 (by omega) (by omega) hne (e.symm.trans a3)
      omega
    · obtain ⟨j, c1, c2, c3, c4, c5, c6⟩ := hI.buf 1 (by omega) (by omega)
      have hj : j = i1' := by
        by_contra hne
        exact hCtx.ne (by omega) c2 (by omega) (by omega) hne (c3.symm.trans a3)
      obtain ⟨j2, e1, e2, e3⟩ := c6 k (by omega) k1
      have : i = j2 := by
        by_contra hne
        exact hCtx.ne i0 i1 (by omega) (by omega) hne (e.symm.trans e3)
      omega
  have hfalsT : T1.fals = (preLemma S4 size lbd).fals := q11
  obtain ⟨k1, k2, k3, k4, k5, k6, k7, k8, k9, k10, k11, k12⟩ :=
    kept_fields (kept_addClause _ _ _ _ _ q0)
  have hkeepfals : ∀ i, 0 ≤ i → i < S4.processed →
      T1.fals (S.falseStack i) = S4.fals (S.falseStack i) := by
    intro i i0 i1
    rw [hfalsT]
    exact p7 _ (fun j j0 j1 => hCtx.ne (by omega) j1 i0 (by omega) (by omega))
  have hlem' : lem = S.mem_used + 2 := by rw [← hlem, s3]
  have hb0 : S4.buffer 0 = S.falseStack S2.assigned := by
    obtain ⟨i, c1, c2, c3, c4, -⟩ := hI.buf 0 (le_refl _) (by omega)
    rw [c3, c4 rfl]
  refine ⟨size, S2.assigned, S4.processed, ?_, ?_⟩
  · refine ⟨hlem', by rw [q1, s3], ?_, ?_, hsz1, ?_, ?_, ?_, ⟨hP1, hP2, hult⟩, fun k k0 k1 => d4 k (by omega) k1,
      by rw [q14, p2], by rw [k8, p3], hP3, ?_, ?_, ?_, ?_, ?_, hP4, ?_⟩
    · intro j hj
      rw [q4 j (by rw [s3]; exact hj), s1]
    · rw [← hlem]; exact q3
    · intro hs
      have e0 : T1.DB lem = (preLemma S4 size lbd).buffer 0 := by
        have := q2 0 (le_refl _) (by omega)
        rw [add_zero, hlem] at this
        exact this
      have e1 : T1.DB (lem + 1) = (preLemma S4 size lbd).buffer 1 := by
        have := q2 1 (by omega) (by omega)
        rw [hlem] at this
        exact this
      rw [e0, e1]
      have h5 := q5 hs
      have h6 := q6 hs
      have h7 := q7 hs
      rw [s11, s3] at h5 h7
      rw [s11, s3] at h6
      exact ⟨h5, h6, h7⟩
    · intro hs
      rw [q8 hs, s11]
    · refine ⟨by rw [q13, s10], by rw [q15, s9], by rw [k7, s12], by rw [k1, s2],
        by rw [q16, s8], by rw [q17, s5], ?_, ?_, by rw [k12, s6]⟩
      · rw [(q10 rfl).2, s4]
      · rw [(q10 rfl).1, s7]
    · intro i i0 i1
      rw [hkeepfals i i0 (by omega)]
      exact hI.bst.low i i0 i1
    · intro i i0 i1
      rw [hkeepfals i (by omega) i1]
      exact hI.hi i (by omega) (by omega)
    · intro l hl
      rw [hfalsT] at hl
      by_cases hex : ∃ j, S4.processed ≤ j ∧ j ≤ S2.assigned ∧ S.falseStack j = l
      · obtain ⟨j, j0, j1, j2⟩ := hex
        rw [← j2] at hl
        exact absurd (p6 j j0 j1) hl
      · rw [p7 l (fun j j0 j1 e => hex ⟨j, j0, j1, e⟩)] at hl
        obtain ⟨i, i0, i1, i2⟩ := hI.bst.seen l hl
        refine ⟨i, i0, ?_, i2⟩
        by_contra hc
        exact hex ⟨i, by omega, i1, i2⟩
    · intro k k0 k1
      obtain ⟨i, c1, c2, c3, c4, c5, c6⟩ := hI.buf k k0 k1
      refine ⟨i, by omega, c2, by rw [hbufk k k0 k1]; exact c3, c4, ?_, ?_⟩
      · intro hk
        exact hpos k hk k1 i (by omega) c2 c3
      · intro k2 e1 e2
        obtain ⟨i2, f1, f2, f3⟩ := c6 k2 e1 e2
        exact ⟨i2, by omega, f2, by rw [hbufk k2 (by omega) e2]; exact f3⟩
    · intro hs
      obtain ⟨i1, a1, a2, a3, a4⟩ := hP5 hs
      exact ⟨i1, a1, a2, by rw [hbufk 1 (by omega) (by omega)]; exact a3, a4⟩
    · have hv : VmtfInv (preLemma S4 size lbd) := p5 hI.vm
      exact VmtfInv_frame hv k10 (kept_next (kept_addClause _ _ _ _ _ q0)) k11 k1
  · rintro ⟨n, m, ⟨hn, hl, ht⟩, hm0, hm1, hwm⟩
    have hfalse : S.fals (S.DB (c + m)) ≠ 0 := by
      obtain ⟨n2, ⟨g1, g2, g3⟩, g4, -⟩ := hC.falsified
      have hn2 : n2 = n := by
        by_contra hne
        rcases lt_or_gt_of_ne hne with hlt | hgt
        · exact hl n2 (by omega) hlt g3
        · exact g2 n (by omega) hgt ht
      subst hn2
      exact g4 m hm0 hm1
    obtain ⟨j, j0, j1, j2⟩ := hT.on_fals _ hfalse
    have hjf : S.forced ≤ j := by
      by_contra hc
      exact hW.1 j j0 (by omega) (by rw [j2]; exact hwm)
    obtain ⟨t1, t2, t3, t4, t5⟩ := bumpLits_spec f c { S with nConflicts := S.nConflicts + 1 } S1 n
      (by omega) hl ht h1
    have hmark : S1.fals (S.DB (c + m)) = MARK := by
      refine t3 _ ⟨m, hm0, hm1, rfl⟩ ?_
      show S.fals _ ≠ IMPLIED
      rw [← j2, hC.levels.upper j hjf j1]
      decide
    obtain ⟨x, hx, hx2⟩ := hw3 (by
      obtain ⟨x, hx, hx2⟩ := hw2 ⟨_, hwm, hmark⟩
      exact ⟨x, hx, Or.inl hx2⟩)
    rcases hx2 with hx2 | ⟨k, k0, k1, k2⟩
    · exfalso
      obtain ⟨i, i0, i1, i2⟩ := hI.bst.seen x (by rw [hx2]; decide)
      rw [← i2] at hx2
      by_cases hif : i < S.forced
      · rw [hI.bst.low i i0 hif] at hx2
        exact absurd hx2 (by decide)
      · rw [hI.hi i (by omega) i1] at hx2
        exact absurd hx2 (by decide)
    · exact ⟨k, k0, k1, by rw [hbufk k k0 k1, k2]; exact hx⟩

theorem conflictState_trail : TrailInv conflictState := by
  refine ⟨by decide, by decide, by decide, ?_, ?_, ?_, ?_, ?_⟩
  · intro i i0 i1
    have i1' : i < 3 := i1
    interval_cases i <;> decide
  · intro i i0 i1
    have i1' : i < 3 := i1
    interval_cases i <;> decide
  · intro l hl
    simp only [conflictState] at hl ⊢
    split_ifs at hl with h1 h2 h3
    · exact ⟨0, by decide, by decide, by rw [h1]; rfl⟩
    · exact ⟨1, by decide, by decide, by rw [h2]; rfl⟩
    · exact ⟨2, by decide, by decide, by rw [h3]; rfl⟩
    · exact absurd rfl hl
  · intro l hl
    simp only [conflictState] at hl ⊢
    split_ifs at hl with h1 h2 h3
    · subst h1; rfl
    · subst h2; rfl
    · subst h3; rfl
    · exact absurd rfl hl
  · intro i j i0 i1 j0 j1 e
    have i1' : i < 3 := i1
    have j1' : j < 3 := j1
    interval_cases i <;> interval_cases j <;> first | rfl | (exact absurd e (by decide))

theorem conflictState_vmtfList : VmtfList conflictState [4, 3, 2, 1] := by
  refine ⟨by decide, by decide, ?_, ?_⟩
  · intro v
    simp only [List.mem_cons, List.mem_singleton, List.not_mem_nil, or_false]
    show _ ↔ 1 ≤ v ∧ v ≤ 4
    omega
  · intro v hv
    simp only [List.mem_cons, List.mem_singleton, List.not_mem_nil, or_false] at hv
    rcases hv with e | e | e | e <;> subst e <;> decide

theorem conflictState_conflict : Conflict conflictState 50 := by
  refine ⟨conflictState_trail, ⟨?_, ?_, ?_⟩, ?_, ?_, by decide, ?_⟩
  · intro i i0 i1
    have : i < 0 := i1
    omega
  · intro i i0 i1
    have i0' : 0 ≤ i := i0
    have i1' : i < 3 := i1
    interval_cases i <;> rfl
  · intro _
    unfold hasReason
    decide
  · intro i i0 i1 hr
    have i1' : i < 3 := i1
    interval_cases i
    · exact absurd hr (by unfold hasReason; decide)
    · exact absurd hr (by unfold hasReason; decide)
    · refine ⟨3, ⟨by decide, ?_, by decide⟩, by decide, ?_, ?_⟩
      · intro m m0 m1
        interval_cases m <;> decide
      · intro m m0 m1
        interval_cases m
        · exact ⟨1, by decide, by decide, by decide⟩
        · exact ⟨0, by decide, by decide, by decide⟩
      · intro _
        refine ⟨1, 1, by decide, by decide, by decide, by decide, by decide, ?_⟩
        intro k k0 k1
        omega
  · refine ⟨by decide, by decide, ?_, [4, 3, 2, 1], conflictState_vmtfList⟩
    intro v
    simp only [conflictState]
    split_ifs <;> decide
  · refine ⟨3, ⟨by decide, ?_, by decide⟩, ?_, 0, 2, by decide, by decide, by decide, by decide,
      by decide, ?_⟩
    · intro m m0 m1
      interval_cases m <;> decide
    · intro m m0 m1
      interval_cases m <;> decide
    · intro k k0 k1
      have : k < 3 := k1
      omega

theorem analyze_conflictState :
    analyze 20 conflictState 50 = Except.ok (62, stateOf (analyze 20 conflictState 50)) :=
  ok_stateOf _ _ (by decide!)

theorem litTrue_neg (σ : Int → Bool) {l : Int} (hl : l ≠ 0) :
    litTrue σ (-l) = !(litTrue σ l) := by
  unfold litTrue
  by_cases h : l > 0
  · have h2 : ¬ (-l > 0) := by omega
    rw [if_pos h, if_neg h2, neg_neg]
  · have h2 : -l > 0 := by omega
    rw [if_pos h2, if_neg h, Bool.not_not]

/-- The literals true under an assignment that satisfies the reason clauses
are closed under the reasons of the trail. -/
theorem wclosed_of_model {S : solver} {c : Int} (hC : Conflict S c) (σ : Int → Bool)
    (hσ : ∀ i, 0 ≤ i → i < S.assigned → hasReason S i →
      ∀ n, clauseAt S (S.reason (iabs (S.falseStack i))) n →
        satisfies σ S (S.reason (iabs (S.falseStack i))) n) :
    WClosed S (fun l => litTrue σ l = true) := by
  have hT := hC.trail
  have key : ∀ i, 0 ≤ i → i < S.assigned → hasReason S i → litTrue σ (S.falseStack i) = true →
      ∃ m, 1 ≤ m ∧
        (∀ m1, 0 ≤ m1 → m1 ≤ m → S.DB (S.reason (iabs (S.falseStack i)) + m1) ≠ 0) ∧
        litTrue σ (S.DB (S.reason (iabs (S.falseStack i)) + m)) = true ∧
        ∃ j, 0 ≤ j ∧ j < i ∧ S.falseStack j = S.DB (S.reason (iabs (S.falseStack i)) + m) := by
    intro i i0 i1 hr hw
    obtain ⟨n, hcl, h0, hoth, -⟩ := hC.reasons i i0 i1 hr
    obtain ⟨m, m0, m1, hm⟩ := hσ i i0 i1 hr n hcl
    have hne : S.falseStack i ≠ 0 := (hT.range i i0 i1).1
    have hm1 : 1 ≤ m := by
      by_contra hc
      have : m = 0 := by omega
      subst this
      rw [add_zero, h0, litTrue_neg σ hne, hw] at hm
      exact absurd hm (by decide)
    refine ⟨m, hm1, ?_, hm, hoth m hm1 m1⟩
    intro m2 a b
    exact hcl.2.1 m2 a (by omega)
  refine ⟨?_, ?_⟩
  · have ind : ∀ k : Nat, ∀ i, 0 ≤ i → i < (k : Int) → i < S.forced →
        ¬ litTrue σ (S.falseStack i) = true := by
      intro k
      induction k with
      | zero => intro i i0 i1; simp at i1; omega
      | succ k ih =>
        intro i i0 i1 i2 hw
        have hr := (hC.levels.root i i0 i2).2
        obtain ⟨m, -, -, hm, j, j0, j1, j2⟩ := key i i0 (by have := hT.forced_le; omega) hr hw
        rw [← j2] at hm
        exact ih j j0 (by push_cast at i1; omega) (by omega) hm
    intro i i0 i1
    exact ind (i.toNat + 1) i i0 (by push_cast; omega) i1
  · intro i i0 i1 hr hw
    obtain ⟨m, a, b, c, -⟩ := key i i0 i1 hr hw
    exact ⟨m, a, b, c⟩

/-- The stored lemma is a clause of `size` literals. -/
theorem AnalyzePost.clause {S T : solver} {lem size u P : Int} (hT : TrailInv S)
    (h : AnalyzePost S lem T size u P) : clauseAt T lem size := by
  refine ⟨h.size1, ?_, h.db_term⟩
  intro m m0 m1
  obtain ⟨i, a, b, c, -⟩ := h.lits m m0 m1
  rw [c]
  exact (hT.range i (by have := hT.forced_nonneg; omega) (by have := h.up; omega)).1

/-- After `analyze` a literal removed from the trail is unassigned in both
polarities. -/
theorem AnalyzePost.removed {S T : solver} {lem size u P : Int} (hT : TrailInv S)
    (h : AnalyzePost S lem T size u P) (i : Int) (hi : P ≤ i) (hi2 : i < S.assigned) :
    T.fals (S.falseStack i) = 0 ∧ T.fals (-(S.falseStack i)) = 0 := by
  have hf0 := hT.forced_nonneg
  have hup := h.up
  constructor
  · by_contra hc
    obtain ⟨j, j0, j1, j2⟩ := h.fals_seen _ hc
    have := hT.inj j i j0 (by omega) (by omega) hi2 j2
    omega
  · by_contra hc
    obtain ⟨j, j0, j1, j2⟩ := h.fals_seen _ hc
    exact hT.no_compl j i j0 (by omega) (by omega) hi2 j2

/-- What `analyze` returns as long as `reduceDB` has not run: in a state in
which `propagate` calls `analyze` (`Conflict`: a clause is falsified while a
decision is on the trail, and the trail, the levels and the reasons are in
order), the lemma `analyze` returns starts with the
literal of the first unique implication point, a trail literal `u` of the
last decision level, which is now unassigned in both polarities; every other
literal of the lemma is false and on the trail below the new
`processed = assigned`; the `assign` that follows in `propagate` makes the
first literal true with the lemma as its reason, marked `IMPLIED` exactly
when the lemma is unit. -/
theorem lemma_is_asserting (f : Nat) (S : solver) (c lem : Int) (T : solver)
    (hC : Conflict S c) (h : analyze f S c = Except.ok (lem, T)) :
    ∃ size u, clauseAt T lem size ∧
      T.assigned ≤ u ∧ u < S.assigned ∧ T.DB lem = S.falseStack u ∧
      (∀ k, u < k → k < S.assigned → hasReason S k) ∧
      T.processed = T.assigned ∧ T.falseStack = S.falseStack ∧
      T.fals (T.DB lem) = 0 ∧ T.fals (-(T.DB lem)) = 0 ∧
      (∀ k, 1 ≤ k → k < size → T.fals (T.DB (lem + k)) ≠ 0 ∧
        ∃ i, 0 ≤ i ∧ i < T.assigned ∧ T.falseStack i = T.DB (lem + k)) ∧
      (T.DB (lem + 1) = 0 ↔ size = 1) ∧
      (assign T lem (if T.DB (lem + 1) = 0 then true else false)).fals (-(T.DB lem)) =
        (if size = 1 then IMPLIED else 1) ∧
      (assign T lem (if T.DB (lem + 1) = 0 then true else false)).reason (iabs (T.DB lem)) = lem ∧
      (assign T lem (if T.DB (lem + 1) = 0 then true else false)).falseStack T.assigned =
        -(T.DB lem) ∧
      (assign T lem (if T.DB (lem + 1) = 0 then true else false)).assigned = T.assigned + 1 := by
  obtain ⟨size, u, P, hP, -⟩ := analyze_spec (fun _ => False) f S c lem T
    ⟨fun _ _ _ hf => hf, fun _ _ _ _ hf => hf.elim⟩ hC h
  have hT := hC.trail
  have hf0 := hT.forced_nonneg
  obtain ⟨u1, u2, u3⟩ := hP.up
  obtain ⟨i0, e1, e2, e3, e4, -⟩ := hP.lits 0 (le_refl _) (by have := hP.size1; omega)
  have hi0 : i0 = u := e4 rfl
  subst hi0
  rw [add_zero] at e3
  have hrem := hP.removed hT i0 u2 u3
  have hunit : T.DB (lem + 1) = 0 ↔ size = 1 := by
    constructor
    · intro hz
      by_contra hne
      have hs := hP.size1
      have := (hP.clause hT).2.1 1 (by omega) (by omega)
      exact this hz
    · intro hs
      have := hP.db_term
      rw [hs] at this
      exact this
  refine ⟨size, i0, hP.clause hT, by rw [hP.asg]; exact u2, u3, e3, hP.ulev,
    by rw [hP.proc, hP.asg], hP.keep.1, by rw [e3]; exact hrem.1, by rw [e3]; exact hrem.2,
    ?_, hunit, ?_, ?_, ?_, rfl⟩
  · intro k k0 k1
    obtain ⟨i, a1, a2, a3, a4, a5, -⟩ := hP.lits k (by omega) k1
    have hi := a5 k0
    constructor
    · rw [a3, hP.fals_mid i a1 hi]
      decide
    · exact ⟨i, by omega, by rw [hP.asg]; exact hi, by rw [hP.keep.1, a3]⟩
  · unfold assign
    simp only [upd, if_true]
    by_cases hs : size = 1
    · rw [if_pos (hunit.2 hs), if_pos hs]; rfl
    · rw [if_neg (fun hz => hs (hunit.1 hz)), if_neg hs]; rfl
  · unfold assign
    simp only [upd, if_true]
  · unfold assign
    simp only [upd, if_true]

theorem lemma_is_asserting_witness :
    Conflict conflictState 50 ∧ analyze 20 conflictState 50 = Except.ok (62, learnedState) ∧
    ∃ size u, clauseAt learnedState 62 size ∧
      learnedState.assigned ≤ u ∧ u < conflictState.assigned ∧
      learnedState.DB 62 = conflictState.falseStack u ∧
      (∀ k, u < k → k < conflictState.assigned → hasReason conflictState k) ∧
      learnedState.processed = learnedState.assigned ∧
      learnedState.falseStack = conflictState.falseStack ∧
      learnedState.fals (learnedState.DB 62) = 0 ∧ learnedState.fals (-(learnedState.DB 62)) = 0 ∧
      (∀ k, 1 ≤ k → k < size → learnedState.fals (learnedState.DB (62 + k)) ≠ 0 ∧
        ∃ i, 0 ≤ i ∧ i < learnedState.assigned ∧
          learnedState.falseStack i = learnedState.DB (62 + k)) ∧
      (learnedState.DB (62 + 1) = 0 ↔ size = 1) ∧
      (assign learnedState 62 (if learnedState.DB (62 + 1) = 0 then true else false)).fals
          (-(learnedState.DB 62)) = (if size = 1 then IMPLIED else 1) ∧
      (assign learnedState 62 (if learnedState.DB (62 + 1) = 0 then true else false)).reason
          (iabs (learnedState.DB 62)) = 62 ∧
      (assign learnedState 62 (if learnedState.DB (62 + 1) = 0 then true else false)).falseStack
          learnedState.assigned = -(learnedState.DB 62) ∧
      (assign learnedState 62 (if learnedState.DB (62 + 1) = 0 then true else false)).assigned =
        learnedState.assigned + 1 :=
  ⟨conflictState_conflict, analyze_conflictState,
    lemma_is_asserting 20 conflictState 50 62 learnedState conflictState_conflict
      analyze_conflictState⟩

/-- The marks as long as `reduceDB` has not run: when `analyze` returns from a
state in which `propagate` calls it (`Conflict`), no
entry of `fals` holds `MARK` or `NOT_IMPLIED`; the literals still on the trail
from `forced` on have `fals = 1`; every literal removed from the trail (above
the first unique implication point or unwound by the backjump) has
`fals = 0`; `IMPLIED` is held only by the literals of the forced prefix, and
their entries are unchanged. -/
theorem analyze_resets_marks (f : Nat) (S : solver) (c lem : Int) (T : solver)
    (hC : Conflict S c) (h : analyze f S c = Except.ok (lem, T)) :
    (∀ l, T.fals l ≠ MARK ∧ T.fals l ≠ NOT_IMPLIED) ∧
    (∀ l, T.fals l = 0 ∨ T.fals l = 1 ∨ T.fals l = IMPLIED) ∧
    T.falseStack = S.falseStack ∧ T.forced = S.forced ∧ T.forced ≤ T.assigned ∧
    T.assigned < S.assigned ∧
    (∀ i, T.forced ≤ i → i < T.assigned → T.fals (T.falseStack i) = 1) ∧
    (∀ i, T.assigned ≤ i → i < S.assigned → T.fals (S.falseStack i) = 0) ∧
    (∀ l, T.fals l = IMPLIED → ∃ i, 0 ≤ i ∧ i < T.forced ∧ T.falseStack i = l) ∧
    (∀ i, 0 ≤ i → i < T.forced →
      T.fals (T.falseStack i) = IMPLIED ∧ S.fals (S.falseStack i) = IMPLIED) := by
  obtain ⟨size, u, P, hP, -⟩ := analyze_spec (fun _ => False) f S c lem T
    ⟨fun _ _ _ hf => hf, fun _ _ _ _ hf => hf.elim⟩ hC h
  have hT := hC.trail
  have hf0 := hT.forced_nonneg
  obtain ⟨u1, u2, u3⟩ := hP.up
  obtain ⟨k1, k2, k3, -⟩ := hP.keep
  have hval : ∀ l, T.fals l = 0 ∨ T.fals l = 1 ∨ T.fals l = IMPLIED := by
    intro l
    by_cases hl : T.fals l = 0
    · exact Or.inl hl
    · obtain ⟨i, i0, i1, i2⟩ := hP.fals_seen l hl
      rw [← i2]
      by_cases hi : i < S.forced
      · exact Or.inr (Or.inr (hP.fals_low i i0 hi))
      · exact Or.inr (Or.inl (hP.fals_mid i (by omega) i1))
  refine ⟨?_, hval, k1, k3, by rw [k3, hP.asg]; exact u1, by rw [hP.asg]; omega, ?_, ?_, ?_, ?_⟩
  · intro l
    rcases hval l with e | e | e <;> rw [e] <;> decide
  · intro i i0 i1
    rw [k1]
    exact hP.fals_mid i (by rw [← k3]; exact i0) (by rw [← hP.asg]; exact i1)
  · intro i i0 i1
    exact (hP.removed hT i (by rw [← hP.asg]; exact i0) i1).1
  · intro l hl
    obtain ⟨i, i0, i1, i2⟩ := hP.fals_seen l (by rw [hl]; decide)
    refine ⟨i, i0, ?_, by rw [k1]; exact i2⟩
    by_contra hc
    rw [← i2, hP.fals_mid i (by rw [k3] at hc; omega) i1] at hl
    exact absurd hl (by decide)
  · intro i i0 i1
    rw [k3] at i1
    rw [k1]
    exact ⟨hP.fals_low i i0 i1, (hC.levels.root i i0 i1).1⟩

theorem analyze_resets_marks_witness :
    Conflict conflictState 50 ∧ analyze 20 conflictState 50 = Except.ok (62, learnedState) ∧
    (∀ l, learnedState.fals l ≠ MARK ∧ learnedState.fals l ≠ NOT_IMPLIED) ∧
    (∀ l, learnedState.fals l = 0 ∨ learnedState.fals l = 1 ∨ learnedState.fals l = IMPLIED) ∧
    learnedState.falseStack = conflictState.falseStack ∧
    learnedState.forced = conflictState.forced ∧ learnedState.forced ≤ learnedState.assigned ∧
    learnedState.assigned < conflictState.assigned ∧
    (∀ i, learnedState.forced ≤ i → i < learnedState.assigned →
      learnedState.fals (learnedState.falseStack i) = 1) ∧
    (∀ i, learnedState.assigned ≤ i → i < conflictState.assigned →
      learnedState.fals (conflictState.falseStack i) = 0) ∧
    (∀ l, learnedState.fals l = IMPLIED →
      ∃ i, 0 ≤ i ∧ i < learnedState.forced ∧ learnedState.falseStack i = l) ∧
    (∀ i, 0 ≤ i → i < learnedState.forced →
      learnedState.fals (learnedState.falseStack i) = IMPLIED ∧
        conflictState.fals (conflictState.falseStack i) = IMPLIED) :=
  ⟨conflictState_conflict, analyze_conflictState,
    analyze_resets_marks 20 conflictState 50 62 learnedState conflictState_conflict
      analyze_conflictState⟩

/-- Entailment of the lemma as long as `reduceDB` has not run: in a state in
which `propagate` calls `analyze` (`Conflict`; every propagated
trail literal has its reason clause stored in the DB and forcing it), the
clause `analyze` returns is entailed by the clauses of the DB at the time of
the call: every total assignment that satisfies the falsified clause and the
reason clauses of the trail satisfies the lemma. -/
theorem lemma_is_entailed (f : Nat) (S : solver) (c lem : Int) (T : solver)
    (hC : Conflict S c) (h : analyze f S c = Except.ok (lem, T)) :
    ∃ size, clauseAt T lem size ∧ ∀ σ : Int → Bool,
      (∀ n, clauseAt S c n → satisfies σ S c n) →
      (∀ i, 0 ≤ i → i < S.assigned → hasReason S i →
        ∀ n, clauseAt S (S.reason (iabs (S.falseStack i))) n →
          satisfies σ S (S.reason (iabs (S.falseStack i))) n) →
      satisfies σ T lem size := by
  obtain ⟨size, u, P, hP, -⟩ := analyze_spec (fun _ => False) f S c lem T
    ⟨fun _ _ _ hf => hf, fun _ _ _ _ hf => hf.elim⟩ hC h
  refine ⟨size, hP.clause hC.trail, ?_⟩
  intro σ hc hr
  obtain ⟨size2, u2, P2, hP2, hw⟩ := analyze_spec (fun l => litTrue σ l = true) f S c lem T
    (wclosed_of_model hC σ hr) hC h
  have hsz : size2 = size := by
    have c1 := hP.clause hC.trail
    have c2 := hP2.clause hC.trail
    by_contra hne
    rcases lt_or_gt_of_ne hne with hlt | hgt
    · exact c1.2.1 size2 (by have := c2.1; omega) hlt c2.2.2
    · exact c2.2.1 size (by have := c1.1; omega) hgt c1.2.2
  subst hsz
  obtain ⟨n, hn, -⟩ := hC.falsified
  obtain ⟨m, m0, m1, hm⟩ := hc n hn
  exact hw ⟨n, m, hn, m0, m1, hm⟩

theorem lemma_is_entailed_witness :
    Conflict conflictState 50 ∧ analyze 20 conflictState 50 = Except.ok (62, learnedState) ∧
    ∃ size, clauseAt learnedState 62 size ∧ ∀ σ : Int → Bool,
      (∀ n, clauseAt conflictState 50 n → satisfies σ conflictState 50 n) →
      (∀ i, 0 ≤ i → i < conflictState.assigned → hasReason conflictState i →
        ∀ n, clauseAt conflictState (conflictState.reason (iabs (conflictState.falseStack i))) n →
          satisfies σ conflictState (conflictState.reason (iabs (conflictState.falseStack i))) n) →
      satisfies σ learnedState 62 size :=
  ⟨conflictState_conflict, analyze_conflictState,
    lemma_is_entailed 20 conflictState 50 62 learnedState conflictState_conflict
      analyze_conflictState⟩

theorem levelLE_refl (S : solver) (i : Int) : levelLE S i i := Or.inl (le_refl _)

theorem IsSeg_append (DB : Int → Int) (pre post : List Int) (h e : Int) :
    IsSeg DB h (pre ++ post) e ↔ ∃ m, IsSeg DB h pre m ∧ IsSeg DB m post e := by
  induction pre generalizing h with
  | nil =>
    simp only [List.nil_append, IsSeg]
    constructor
    · intro hh; exact ⟨h, rfl, hh⟩
    · rintro ⟨m, rfl, hh⟩; exact hh
  | cons s r ih =>
    simp only [List.cons_append, IsSeg]
    constructor
    · rintro ⟨h1, h2⟩
      obtain ⟨m, a, b⟩ := (ih _).1 h2
      exact ⟨m, ⟨h1, a⟩, b⟩
    · rintro ⟨m, ⟨h1, a⟩, b⟩
      exact ⟨h1, (ih _).2 ⟨m, a, b⟩⟩

theorem IsSeg_congr {DB DB1 : Int → Int} (ws : List Int) (h e : Int)
    (hd : ∀ s, s ∈ ws → DB1 s = DB s) : IsSeg DB1 h ws e ↔ IsSeg DB h ws e := by
  induction ws generalizing h with
  | nil => simp only [IsSeg]
  | cons s r ih =>
    simp only [IsSeg]
    rw [hd s (List.mem_cons_self _ _), ih _ (fun t ht => hd t (List.mem_cons_of_mem _ ht))]

theorem IsSeg_snoc (DB : Int → Int) (pre : List Int) (sl h e : Int) :
    IsSeg DB h (pre ++ [sl]) e ↔ IsSeg DB h pre sl ∧ DB sl = e := by
  rw [IsSeg_append]
  simp only [IsSeg]
  constructor
  · rintro ⟨m, a, rfl, b⟩; exact ⟨a, b⟩
  · rintro ⟨a, b⟩; exact ⟨sl, a, rfl, b⟩

/-- The scan of the non-watched literals stops at the first literal that is not
false, where it moves the watch, or at the terminator. -/
theorem scanLoop_spec (f : Nat) (S : solver) (c lit : Int) (watch : Watch) (i : Int) (u : Bool)
    (T : solver) (h : scanLoop f S c lit watch i = Except.ok (u, T)) :
    ∃ j, i ≤ j ∧ (∀ m, i ≤ m → m < j → S.DB (c + m) ≠ 0 ∧ S.fals (S.DB (c + m)) ≠ 0) ∧
      ((u = true ∧ T = S ∧ S.DB (c + j) = 0) ∨
       (u = false ∧ S.DB (c + j) ≠ 0 ∧ S.fals (S.DB (c + j)) = 0 ∧
         T = moveWatch S c lit watch j)) := by
  induction f generalizing i with
  | zero => simp [scanLoop] at h
  | succ f ih =>
    rw [scanLoop] at h
    by_cases h1 : S.DB (c + i) ≠ 0
    · rw [if_pos h1] at h
      by_cases h2 : S.fals (S.DB (c + i)) = 0
      · rw [if_pos h2] at h
        simp only [Except.ok.injEq, Prod.mk.injEq] at h
        obtain ⟨hu, hT⟩ := h
        exact ⟨i, le_refl _, fun m a b => by omega, Or.inr ⟨hu.symm, h1, h2, hT.symm⟩⟩
      · rw [if_neg h2] at h
        obtain ⟨j, j0, j1, j2⟩ := ih _ h
        refine ⟨j, by omega, ?_, j2⟩
        intro m m0 m1
        by_cases hm : m = i
        · subst hm; exact ⟨h1, h2⟩
        · exact j1 m (by omega) m1
    · rw [if_neg h1] at h
      simp only [Except.ok.injEq, Prod.mk.injEq] at h
      obtain ⟨hu, hT⟩ := h
      exact ⟨i, le_refl _, fun m a b => by omega, Or.inl ⟨hu.symm, hT.symm, not_not.1 h1⟩⟩

/-- Distinct cells: a literal or terminator cell of one record is no header
cell of any record. -/
theorem Arena.lit_ne_slot {S : solver} {cl : List (Int × Int)} (hA : Arena S cl)
    {c n c1 n1 : Int} (h : (c, n) ∈ cl) (h1 : (c1, n1) ∈ cl) (m : Int) (m0 : 0 ≤ m)
    (m1 : m ≤ n) : c + m ≠ c1 - 2 ∧ c + m ≠ c1 - 1 ∧ (m < n → c + m ≠ c1 - 3) := by
  have := hA.lo c n h
  have := hA.lo c1 n1 h1
  rcases hA.sep c n c1 n1 h h1 with ⟨e1, e2⟩ | e | e <;> omega

/-- Distinct cells: the cells of two different records differ. -/
theorem Arena.lit_ne_lit {S : solver} {cl : List (Int × Int)} (hA : Arena S cl)
    {c n c1 n1 : Int} (h : (c, n) ∈ cl) (h1 : (c1, n1) ∈ cl) (hne : c ≠ c1) (m : Int)
    (m0 : 0 ≤ m) (m1 : m ≤ n) (k : Int) (k0 : -2 ≤ k) (k1 : k ≤ n1) : c + m ≠ c1 + k := by
  have := hA.lo c n h
  have := hA.lo c1 n1 h1
  rcases hA.sep c n c1 n1 h h1 with ⟨e1, e2⟩ | e | e <;> omega

/-- A record is determined by its offset. -/
theorem Arena.size_eq {S : solver} {cl : List (Int × Int)} (hA : Arena S cl)
    {c n n1 : Int} (h : (c, n) ∈ cl) (h1 : (c, n1) ∈ cl) : n = n1 := by
  have := hA.lo c n h
  have := hA.lo c n1 h1
  rcases hA.sep c n c n1 h h1 with ⟨e1, e2⟩ | e | e <;> omega

/-- A header slot determines its record. -/
theorem Arena.slot_eq {S : solver} {cl : List (Int × Int)} (hA : Arena S cl)
    {c n c1 n1 : Int} (h : (c, n) ∈ cl) (h1 : (c1, n1) ∈ cl) (k k1 : Int) (hk : k = 1 ∨ k = 2)
    (hk1 : k1 = 1 ∨ k1 = 2) (e : c - k = c1 - k1) : c = c1 ∧ n = n1 ∧ k = k1 := by
  have := hA.lo c n h
  have := hA.lo c1 n1 h1
  rcases hA.sep c n c1 n1 h h1 with ⟨e1, e2⟩ | e3 | e3 <;> omega

theorem IsSeg_mem_next {DB : Int → Int} {ws : List Int} {h e s : Int} (hs : IsSeg DB h ws e)
    (hm : s ∈ ws) : DB s = e ∨ DB s ∈ ws := by
  induction ws generalizing h with
  | nil => cases hm
  | cons t r ih =>
    obtain ⟨h1, h2⟩ := hs
    rcases List.mem_cons.1 hm with e1 | e1
    · subst e1
      cases r with
      | nil => exact Or.inl h2
      | cons t2 r2 =>
        obtain ⟨h3, -⟩ := h2
        exact Or.inr (List.mem_cons_of_mem _ (by rw [h3]; exact List.mem_cons_self _ _))
    · rcases ih h2 e1 with a | a
      · exact Or.inl a
      · exact Or.inr (List.mem_cons_of_mem _ a)

/-- A slot of a watch list is a positive offset below `mem_used`. -/
theorem Watches.slot_pos {S : solver} {cl : List (Int × Int)} {wl : Int → List Int}
    (hW : Watches S cl wl) (hA : Arena S cl) (hn : 1 ≤ S.nVars) {l s : Int} (hs : s ∈ wl l) :
    18 ≤ s ∧ s < S.mem_used := by
  obtain ⟨c, n, hc, hn2, hs2⟩ := hW.slot l s hs
  have := hA.lo c n hc
  rcases hs2 with e | e <;> omega

/-- The link cell of a slot in a watch list is not 0. -/
theorem Watches.link_ne_zero {S : solver} {cl : List (Int × Int)} {wl : Int → List Int}
    (hW : Watches S cl wl) (hA : Arena S cl) (hn : 1 ≤ S.nVars) {l s : Int} (hl : l ≠ 0)
    (hl2 : iabs l ≤ S.nVars) (hs : s ∈ wl l) : S.DB s ≠ 0 := by
  rcases IsSeg_mem_next (hW.chain l hl hl2) hs with e | e
  · rw [e]; decide
  · have := (hW.slot_pos hA hn e).1
    omega

/-- The literals at the two watched positions of a non-unit clause. -/
theorem Arena.watched_lits {S : solver} {cl : List (Int × Int)} (hA : Arena S cl) {c n : Int}
    (hc : (c, n) ∈ cl) (hn : 2 ≤ n) :
    S.DB c ≠ 0 ∧ iabs (S.DB c) ≤ S.nVars ∧ S.DB (c + 1) ≠ 0 ∧ iabs (S.DB (c + 1)) ≤ S.nVars := by
  have h0 := (hA.cls c n hc).2.1 0 (le_refl _) (by omega)
  have h1 := (hA.cls c n hc).2.1 1 (by omega) (by omega)
  have r0 := hA.rng c n hc 0 (le_refl _) (by omega)
  have r1 := hA.rng c n hc 1 (by omega) (by omega)
  rw [add_zero] at h0 r0
  exact ⟨h0, r0, h1, r1⟩

/-- What the loop `while (*watch != END)` finds at the head of the rest of the
list: a header slot `s` of a clause record `(c, n)`, from which the test
`clause[-1] == 0` recovers `c`; the slot belongs to `lit`, the other slot `s1`
of the record to the literal `o`, and positions 0 and 1 hold `lit` and `o`. -/
theorem visit_head {S : solver} {cl : List (Int × Int)} {wl : Int → List Int} {b : Int}
    {flag : Bool} {lit : Int} {watch : Watch} {pre post : List Int} {s : Int}
    (hI : WLInv S cl wl b flag lit watch pre (s :: post)) :
    rdW S watch = s ∧ s ≠ END ∧ lit ≠ 0 ∧ iabs lit ≤ S.nVars ∧
    ∃ c n s1 o, (c, n) ∈ cl ∧ 2 ≤ n ∧ ((s = c - 2 ∧ s1 = c - 1) ∨ (s = c - 1 ∧ s1 = c - 2)) ∧
      (if S.DB (s - 1) = 0 then s + 2 else s + 1) = c ∧ s1 ∈ wl o ∧
      ((S.DB c = lit ∧ S.DB (c + 1) = o) ∨ (S.DB c = o ∧ S.DB (c + 1) = lit)) := by
  have hC := hI.core
  have hT := hC.trail
  have hA := hC.arena
  have hW := hC.watches
  obtain ⟨p1, p2⟩ := hI.proc
  obtain ⟨hl0, hl1⟩ := hT.range (S.processed - 1) (by omega) (by omega)
  rw [hI.lit_eq] at hl0 hl1
  have hch := hW.chain lit hl0 hl1
  rw [hI.split] at hch
  have hs_mem : s ∈ wl lit := by rw [hI.split]; simp
  have hrd : rdW S watch = s := by
    rcases hI.cursor with ⟨e1, e2⟩ | ⟨pre1, sl, e1, e2⟩
    · subst e1 e2
      exact hch.1
    · subst e1 e2
      obtain ⟨m, a1, a2⟩ := (IsSeg_append _ _ _ _ _).1 hch
      rw [IsSeg_snoc] at a1
      show S.DB sl = s
      rw [a1.2]
      exact a2.1
  have hsp := hW.slot_pos hA hT.nvars hs_mem
  obtain ⟨c, n, hc, hn, hs⟩ := hW.slot lit s hs_mem
  refine ⟨hrd, by unfold END; omega, hl0, hl1, ?_⟩
  obtain ⟨w0, w1, w2, w3⟩ := hA.watched_lits hc hn
  have hclause : (if S.DB (s - 1) = 0 then s + 2 else s + 1) = c := by
    rcases hs with e | e
    · have : S.DB (s - 1) = 0 := by
        have := hA.pre0 c n hc
        rw [e]
        have e3 : c - 2 - 1 = c - 3 := by omega
        rw [e3]; exact this
      rw [if_pos this]; omega
    · have : S.DB (s - 1) ≠ 0 := by
        have e3 : s - 1 = c - 2 := by omega
        rw [e3]
        rcases hW.own c n hc hn with ⟨a, -⟩ | ⟨a, -⟩
        · exact hW.link_ne_zero hA hT.nvars w0 w1 a
        · exact hW.link_ne_zero hA hT.nvars w2 w3 a
      rw [if_neg this]; omega
  rcases hW.own c n hc hn with ⟨a1, a2⟩ | ⟨a1, a2⟩
  · rcases hs with e | e
    · have hl : lit = S.DB c := hW.uniq _ _ s hs_mem (by rw [e]; exact a1)
      exact ⟨c, n, c - 1, S.DB (c + 1), hc, hn, Or.inl ⟨e, rfl⟩, hclause, a2,
        Or.inl ⟨hl.symm, rfl⟩⟩
    · have hl : lit = S.DB (c + 1) := hW.uniq _ _ s hs_mem (by rw [e]; exact a2)
      exact ⟨c, n, c - 2, S.DB c, hc, hn, Or.inr ⟨e, rfl⟩, hclause, a1,
        Or.inr ⟨rfl, hl.symm⟩⟩
  · rcases hs with e | e
    · have hl : lit = S.DB (c + 1) := hW.uniq _ _ s hs_mem (by rw [e]; exact a1)
      exact ⟨c, n, c - 1, S.DB c, hc, hn, Or.inl ⟨e, rfl⟩, hclause, a2,
        Or.inr ⟨rfl, hl.symm⟩⟩
    · have hl : lit = S.DB c := hW.uniq _ _ s hs_mem (by rw [e]; exact a2)
      exact ⟨c, n, c - 2, S.DB (c + 1), hc, hn, Or.inr ⟨e, rfl⟩, hclause, a1,
        Or.inl ⟨hl.symm, rfl⟩⟩

theorem nonDB_fields {S T : solver} (h : nonDB T = nonDB S) :
    T.nVars = S.nVars ∧ T.mem_used = S.mem_used ∧ T.reason = S.reason ∧
    T.falseStack = S.falseStack ∧ T.fals = S.fals ∧ T.forced = S.forced ∧
    T.processed = S.processed ∧ T.assigned = S.assigned ∧ T.prev = S.prev ∧ T.head = S.head := by
  simp only [nonDB, Prod.mk.injEq] at h
  obtain ⟨a1, a2, a3, a4, a5, a6, a7, a8, a9, a10, a11, a12, a13, a14⟩ := h
  exact ⟨a1, a2, a4, a5, a6, a7, a8, a9, a10, a11⟩

theorem nonDB_next {S T : solver} (h : nonDB T = nonDB S) : T.next = S.next := by
  simp only [nonDB, Prod.mk.injEq] at h
  exact h.2.2.2.2.2.2.2.2.2.2.2.2.2.2

theorem hasReason_nonDB {S T : solver} (h : nonDB T = nonDB S) (k : Int) :
    hasReason T k ↔ hasReason S k := by
  obtain ⟨a1, a2, a3, a4, a5, a6, a7, a8, a9, a10⟩ := nonDB_fields h
  unfold hasReason
  rw [a3, a4]

theorem levelLE_nonDB {S T : solver} (h : nonDB T = nonDB S) (j i : Int) :
    levelLE T j i ↔ levelLE S j i := by
  unfold levelLE
  constructor
  · rintro (a | a)
    · exact Or.inl a
    · exact Or.inr (fun k k0 k1 => (hasReason_nonDB h k).1 (a k k0 k1))
  · rintro (a | a)
    · exact Or.inl a
    · exact Or.inr (fun k k0 k1 => (hasReason_nonDB h k).2 (a k k0 k1))

theorem TrailInv_nonDB {S T : solver} (h : nonDB T = nonDB S) (hT : TrailInv S) : TrailInv T := by
  obtain ⟨a1, a2, a3, a4, a5, a6, a7, a8, a9, a10⟩ := nonDB_fields h
  obtain ⟨t1, t2, t3, t4, t5, t6, t7, t8⟩ := hT
  refine ⟨?_, ?_, ?_, ?_, ?_, ?_, ?_, ?_⟩
  · rw [a1]; exact t1
  · rw [a6]; exact t2
  · rw [a6, a8]; exact t3
  · rw [a4, a8, a1]; exact t4
  · rw [a4, a8, a5]; exact t5
  · rw [a4, a8, a5]; exact t6
  · rw [a5]; exact t7
  · rw [a4, a8]; exact t8

theorem Levels_nonDB {S T : solver} (h : nonDB T = nonDB S) {b : Int} (hL : Levels S b) :
    Levels T b := by
  obtain ⟨a1, a2, a3, a4, a5, a6, a7, a8, a9, a10⟩ := nonDB_fields h
  obtain ⟨l1, l2, l3⟩ := hL
  refine ⟨?_, ?_, ?_⟩
  · intro i i0 i1
    rw [a4, a5, hasReason_nonDB h]
    exact l1 i i0 i1
  · intro i i0 i1
    rw [a4, a5]
    exact l2 i i0 (by rw [← a8]; exact i1)
  · intro hb
    rw [hasReason_nonDB h]
    exact l3 (by rw [← a8]; exact hb)

theorem VmtfInv_nonDB {S T : solver} (h : nonDB T = nonDB S) (hV : VmtfInv S) : VmtfInv T := by
  obtain ⟨a1, a2, a3, a4, a5, a6, a7, a8, a9, a10⟩ := nonDB_fields h
  exact VmtfInv_frame hV a9 (nonDB_next h) a10 a1

theorem ReasonsIn_nonDB {S T : solver} (h : nonDB T = nonDB S) {cl : List (Int × Int)}
    (hR : ReasonsIn S cl) : ReasonsIn T cl := by
  obtain ⟨a1, a2, a3, a4, a5, a6, a7, a8, a9, a10⟩ := nonDB_fields h
  intro i i0 i1 hr
  rw [a3, a4]
  exact hR i i0 (by rw [← a8]; exact i1) ((hasReason_nonDB h i).1 hr)

theorem clauseAt_size {S : solver} {c n n1 : Int} (h : clauseAt S c n) (h1 : clauseAt S c n1) :
    n = n1 := by
  by_contra hne
  rcases lt_or_gt_of_ne hne with hlt | hgt
  · exact h1.2.1 n (by have := h.1; omega) hlt h.2.2
  · exact h.2.1 n1 (by have := h1.1; omega) hgt h1.2.2

/-- The reasons stay valid when the cells of the reason clauses of the trail
keep their values. -/
theorem ReasonInv_frame {S T : solver} (h : nonDB T = nonDB S) {cl : List (Int × Int)} {b : Int}
    (hA : Arena S cl) (hRi : ReasonsIn S cl) (hR : ReasonInv S b)
    (hfr : ∀ i, 0 ≤ i → i < S.assigned → hasReason S i →
      ∀ n, (S.reason (iabs (S.falseStack i)), n) ∈ cl → ∀ m, 0 ≤ m → m ≤ n →
        T.DB (S.reason (iabs (S.falseStack i)) + m) = S.DB (S.reason (iabs (S.falseStack i)) + m)) :
    ReasonInv T b := by
  obtain ⟨a1, a2, a3, a4, a5, a6, a7, a8, a9, a10⟩ := nonDB_fields h
  intro i i0 i1 hr
  rw [a8] at i1
  rw [hasReason_nonDB h] at hr
  obtain ⟨n, r1, r2, r3, r4⟩ := hR i i0 i1 hr
  obtain ⟨n1, hn1⟩ := hRi i i0 i1 hr
  have hnn : n = n1 := clauseAt_size r1 (hA.cls _ _ hn1)
  subst hnn
  have hcell := hfr i i0 i1 hr n hn1
  rw [a3, a4]
  refine ⟨n, ⟨r1.1, ?_, ?_⟩, ?_, ?_, ?_⟩
  · intro m m0 m1
    rw [hcell m m0 (by omega)]
    exact r1.2.1 m m0 m1
  · rw [hcell n (by have := r1.1; omega) (le_refl _)]
    exact r1.2.2
  · have := hcell 0 (le_refl _) (by have := r1.1; omega)
    rw [add_zero] at this
    rw [this]; exact r2
  · intro m m0 m1
    rw [hcell m (by omega) (by omega)]
    exact r3 m m0 m1
  · intro hb
    obtain ⟨m, j, m0, m1, j0, j1, e, hk⟩ := r4 hb
    refine ⟨m, j, m0, m1, j0, j1, by rw [hcell m (by omega) (by omega)]; exact e, ?_⟩
    intro k k0 k1
    rw [hasReason_nonDB h]
    exact hk k k0 k1

/-- The clause records stay in place when only header cells and literal cells
are overwritten, literal cells with literals of the formula. -/
theorem Arena_frame {S T : solver} (h : nonDB T = nonDB S) {cl : List (Int × Int)}
    (hA : Arena S cl)
    (hw : ∀ j, T.DB j = S.DB j ∨ (∃ c n, (c, n) ∈ cl ∧ (j = c - 2 ∨ j = c - 1)) ∨
      ∃ c n m, (c, n) ∈ cl ∧ 0 ≤ m ∧ m < n ∧ j = c + m ∧ T.DB j ≠ 0 ∧
        iabs (T.DB j) ≤ S.nVars) : Arena T cl := by
  obtain ⟨a1, a2, a3, a4, a5, a6, a7, a8, a9, a10⟩ := nonDB_fields h
  have hlit : ∀ c n, (c, n) ∈ cl → ∀ m, 0 ≤ m → m < n →
      T.DB (c + m) ≠ 0 ∧ iabs (T.DB (c + m)) ≤ S.nVars := by
    intro c n hc m m0 m1
    rcases hw (c + m) with e | ⟨c1, n1, hc1, e⟩ | ⟨c1, n1, m2, hc1, -, -, -, e1, e2⟩
    · rw [e]
      exact ⟨(hA.cls c n hc).2.1 m m0 m1, hA.rng c n hc m m0 m1⟩
    · have := hA.lit_ne_slot hc hc1 m m0 (by omega)
      omega
    · exact ⟨e1, e2⟩
  have hzero : ∀ j, S.DB j = 0 → (∀ c n, (c, n) ∈ cl → j ≠ c - 2 ∧ j ≠ c - 1) →
      (∀ c n m, (c, n) ∈ cl → 0 ≤ m → m < n → j ≠ c + m) → T.DB j = 0 := by
    intro j hj h1 h2
    rcases hw j with e | ⟨c1, n1, hc1, e⟩ | ⟨c1, n1, m2, hc1, m20, m21, e0, -, -⟩
    · rw [e]; exact hj
    · have := h1 c1 n1 hc1
      omega
    · exact absurd e0 (h2 c1 n1 m2 hc1 m20 m21)
  refine ⟨by rw [a1, a2]; exact hA.used, ?_, hA.sep, ?_, ?_, ?_, ?_, ?_⟩
  · intro c n hc
    rw [a1, a2]; exact hA.lo c n hc
  · intro j j0 j1
    rw [a1] at j0
    rw [a2] at j1
    exact hA.cover j j0 j1
  · intro c n hc
    refine ⟨(hA.cls c n hc).1, fun m m0 m1 => (hlit c n hc m m0 m1).1, ?_⟩
    apply hzero _ (hA.cls c n hc).2.2
    · intro c1 n1 hc1
      have := hA.lit_ne_slot hc hc1 n (by have := hA.lo c n hc; omega) (le_refl _)
      exact ⟨this.1, this.2.1⟩
    · intro c1 n1 m hc1 m0 m1 e
      by_cases hcc : c = c1
      · subst hcc
        have := hA.size_eq hc hc1
        omega
      · exact hA.lit_ne_lit hc hc1 hcc n (by have := hA.lo c n hc; omega) (le_refl _) m
          (by omega) (by omega) e
  · intro c n hc m m0 m1
    rw [a1]
    exact (hlit c n hc m m0 m1).2
  · intro c n hc
    apply hzero _ (hA.pre0 c n hc)
    · intro c1 n1 hc1
      have := hA.lo c n hc
      have := hA.lo c1 n1 hc1
      rcases hA.sep c n c1 n1 hc hc1 with ⟨e1, e2⟩ | e | e <;> omega
    · intro c1 n1 m hc1 m0 m1 e
      exact (hA.lit_ne_slot hc1 hc m m0 (by omega)).2.2 m1 e.symm
  · rw [a2]
    apply hzero _ hA.last0
    · intro c1 n1 hc1
      have := hA.lo c1 n1 hc1
      omega
    · intro c1 n1 m hc1 m0 m1
      have := hA.lo c1 n1 hc1
      omega

theorem UnitsTrue_frame {S T : solver} (h : nonDB T = nonDB S) {cl : List (Int × Int)}
    (hU : UnitsTrue S cl) (hfr : ∀ c, (c, 1) ∈ cl → T.DB c = S.DB c) : UnitsTrue T cl := by
  obtain ⟨a1, a2, a3, a4, a5, a6, a7, a8, a9, a10⟩ := nonDB_fields h
  intro c hc
  rw [a5, hfr c hc]
  exact hU c hc

theorem nonDB_frontOther (S : solver) (c lit : Int) : nonDB (frontOther S c lit) = nonDB S := by
  unfold frontOther
  split_ifs <;> rfl

theorem first_frontOther (S : solver) (c lit : Int) : (frontOther S c lit).first = S.first := by
  unfold frontOther
  split_ifs <;> rfl

theorem frontOther_DB (S : solver) (c lit o : Int)
    (hv : (S.DB c = lit ∧ S.DB (c + 1) = o) ∨ (S.DB c = o ∧ S.DB (c + 1) = lit)) (j : Int) :
    (frontOther S c lit).DB j = if j = c then o else S.DB j := by
  unfold frontOther
  by_cases h : S.DB c = lit
  · rw [if_pos h]
    show upd S.DB c (S.DB (c + 1)) j = _
    unfold upd
    by_cases hj : j = c
    · rw [if_pos hj, if_pos hj]
      rcases hv with ⟨-, b⟩ | ⟨a, b⟩
      · exact b
      · rw [b, ← a, h]
    · rw [if_neg hj, if_neg hj]
  · rw [if_neg h]
    by_cases hj : j = c
    · rw [if_pos hj, hj]
      rcases hv with ⟨a, -⟩ | ⟨a, -⟩
      · exact absurd a h
      · exact a
    · rw [if_neg hj]

theorem nonDB_unitForm (S : solver) (c lit : Int) : nonDB (unitForm S c lit) = nonDB S := by
  have := nonDB_frontOther S c lit
  unfold unitForm
  exact this

theorem first_unitForm (S : solver) (c lit : Int) : (unitForm S c lit).first = S.first :=
  first_frontOther S c lit

theorem unitForm_DB (S : solver) (c lit o : Int)
    (hv : (S.DB c = lit ∧ S.DB (c + 1) = o) ∨ (S.DB c = o ∧ S.DB (c + 1) = lit)) (j : Int) :
    (unitForm S c lit).DB j = if j = c + 1 then lit else if j = c then o else S.DB j := by
  show upd (frontOther S c lit).DB (c + 1) lit j = _
  unfold upd
  by_cases hj : j = c + 1
  · rw [if_pos hj, if_pos hj]
  · rw [if_neg hj, if_neg hj]
    exact frontOther_DB S c lit o hv j

/-- The watch lists stay as they are when the link cells keep their values. -/
theorem Watches_frame {S T : solver} (h : nonDB T = nonDB S) {cl : List (Int × Int)}
    {wl : Int → List Int} (hW : Watches S cl wl) (hf : T.first = S.first)
    (hl : ∀ l s, s ∈ wl l → T.DB s = S.DB s)
    (hown : ∀ c n, (c, n) ∈ cl → 2 ≤ n →
      (c - 2 ∈ wl (T.DB c) ∧ c - 1 ∈ wl (T.DB (c + 1))) ∨
      (c - 2 ∈ wl (T.DB (c + 1)) ∧ c - 1 ∈ wl (T.DB c))) : Watches T cl wl := by
  obtain ⟨a1, a2, a3, a4, a5, a6, a7, a8, a9, a10⟩ := nonDB_fields h
  refine ⟨?_, hW.slot, hW.nodup, hW.uniq, hown⟩
  intro l l0 l1
  rw [hf, IsSeg_congr (wl l) _ _ (hl l)]
  exact hW.chain l l0 (by rw [← a1]; exact l1)

theorem TwoWatch_frame {S T : solver} (h : nonDB T = nonDB S) {cl : List (Int × Int)}
    {wl : Int → List Int} {D : Int → Int → Prop} (hT : TwoWatch S cl wl D)
    (hl : ∀ c n, (c, n) ∈ cl → ∀ m, 2 ≤ m → m < n → T.DB (c + m) = S.DB (c + m)) :
    TwoWatch T cl wl D := by
  obtain ⟨a1, a2, a3, a4, a5, a6, a7, a8, a9, a10⟩ := nonDB_fields h
  intro c n hc hn s0 s1 a o hs h0 h1 p p0 p1 hp hD
  rw [a8] at p1
  rw [a4] at hp
  obtain ⟨⟨q, q0, q1, q2, q3⟩, hnw⟩ := hT c n hc hn s0 s1 a o hs h0 h1 p p0 p1 hp hD
  refine ⟨⟨q, q0, by rw [a8]; exact q1, by rw [a4]; exact q2, (levelLE_nonDB h q p).2 q3⟩, ?_⟩
  intro m m0 m1
  obtain ⟨r, r0, r1, r2, r3⟩ := hnw m m0 m1
  exact ⟨r, r0, by rw [a8]; exact r1, by rw [a4, hl c n hc m m0 m1]; exact r2,
    (levelLE_nonDB h r p).2 r3⟩

/-- The visited clause in unit form: the invariant is kept. -/
theorem unitForm_core {S : solver} {cl : List (Int × Int)} {wl : Int → List Int} {b : Int}
    {lit c n s s1 o : Int} (hC : Core S cl wl b) (hc : (c, n) ∈ cl) (hn : 2 ≤ n)
    (hlit : lit ≠ 0 ∧ iabs lit ≤ S.nVars) (hfl : S.fals lit ≠ 0)
    (hs : (s = c - 2 ∧ s1 = c - 1) ∨ (s = c - 1 ∧ s1 = c - 2)) (hsl : s ∈ wl lit)
    (hso : s1 ∈ wl o)
    (hv : (S.DB c = lit ∧ S.DB (c + 1) = o) ∨ (S.DB c = o ∧ S.DB (c + 1) = lit)) :
    Core (unitForm S c lit) cl wl b := by
  have hA := hC.arena
  have hT := hC.trail
  have hnd := nonDB_unitForm S c lit
  have hDB := unitForm_DB S c lit o hv
  obtain ⟨w0, w1, w2, w3⟩ := hA.watched_lits hc hn
  have ho : o ≠ 0 ∧ iabs o ≤ S.nVars := by
    rcases hv with ⟨a, b⟩ | ⟨a, b⟩
    · rw [← b]; exact ⟨w2, w3⟩
    · rw [← a]; exact ⟨w0, w1⟩
  have hother : ∀ c1 n1, (c1, n1) ∈ cl → c1 ≠ c → ∀ m, -2 ≤ m → m ≤ n1 →
      (unitForm S c lit).DB (c1 + m) = S.DB (c1 + m) := by
    intro c1 n1 hc1 hne m m0 m1
    rw [hDB]
    have e1 := hA.lit_ne_lit hc hc1 (Ne.symm hne) 1 (by omega) (by omega) m m0 m1
    have e0 := hA.lit_ne_lit hc hc1 (Ne.symm hne) 0 (by omega) (by omega) m m0 m1
    rw [if_neg (by omega), if_neg (by omega)]
  have hslot : ∀ l t, t ∈ wl l → (unitForm S c lit).DB t = S.DB t := by
    intro l t ht
    obtain ⟨c1, n1, hc1, hn1, e⟩ := hC.watches.slot l t ht
    rw [hDB]
    have e1 := hA.lit_ne_slot hc hc1 1 (by omega) (by omega)
    have e0 := hA.lit_ne_slot hc hc1 0 (by omega) (by omega)
    rw [if_neg (by omega), if_neg (by omega)]
  refine ⟨TrailInv_nonDB hnd hT, Levels_nonDB hnd hC.levels, ?_, ReasonsIn_nonDB hnd hC.rin,
    VmtfInv_nonDB hnd hC.vmtf, ?_, ?_⟩
  · apply ReasonInv_frame hnd hA hC.rin hC.reasons
    intro i i0 i1 hr n1 hn1 m m0 m1
    by_cases hrc : S.reason (iabs (S.falseStack i)) = c
    · obtain ⟨n2, r1, r2, r3, r4⟩ := hC.reasons i i0 i1 hr
      rw [hrc] at r2 ⊢
      have hne : S.DB c ≠ lit := by
        intro e
        rw [e] at r2
        have h1 := hT.consistent _ (hT.fals_on i i0 i1)
        rw [r2] at hfl
        exact hfl h1
      rcases hv with ⟨a, -⟩ | ⟨a, a2⟩
      · exact absurd a hne
      · rw [hDB]
        by_cases h1 : c + m = c + 1
        · rw [if_pos h1, h1, a2]
        · rw [if_neg h1]
          by_cases h0 : c + m = c
          · rw [if_pos h0, h0, a]
          · rw [if_neg h0]
    · exact hother _ n1 hn1 hrc m (by omega) m1
  · apply Arena_frame hnd hA
    intro j
    by_cases h1 : j = c + 1
    · refine Or.inr (Or.inr ⟨c, n, 1, hc, by omega, by omega, h1, ?_, ?_⟩)
      · rw [hDB, if_pos h1]; exact hlit.1
      · rw [hDB, if_pos h1]; exact hlit.2
    · by_cases h0 : j = c
      · refine Or.inr (Or.inr ⟨c, n, 0, hc, by omega, by omega, by omega, ?_, ?_⟩)
        · rw [hDB, if_neg h1, if_pos h0]; exact ho.1
        · rw [hDB, if_neg h1, if_pos h0]; exact ho.2
      · exact Or.inl (by rw [hDB, if_neg h1, if_neg h0])
  · apply Watches_frame hnd hC.watches (first_unitForm S c lit) hslot
    intro c1 n1 hc1 hn1
    by_cases hcc : c1 = c
    · subst hcc
      have e0 : (unitForm S c1 lit).DB c1 = o := by
        rw [hDB, if_neg (by omega), if_pos rfl]
      have e1 : (unitForm S c1 lit).DB (c1 + 1) = lit := by
        rw [hDB, if_pos rfl]
      rw [e0, e1]
      rcases hs with ⟨a, b⟩ | ⟨a, b⟩
      · subst a b; exact Or.inr ⟨hsl, hso⟩
      · subst a b; exact Or.inl ⟨hso, hsl⟩
    · have e0 := hother c1 n1 hc1 hcc 0 (by omega) (by omega)
      have e1 := hother c1 n1 hc1 hcc 1 (by omega) (by omega)
      rw [add_zero] at e0
      rw [e0, e1]
      exact hC.watches.own c1 n1 hc1 hn1

theorem unitForm_units {S : solver} {cl : List (Int × Int)} {lit c n o : Int} (hA : Arena S cl)
    (hU : UnitsTrue S cl) (hc : (c, n) ∈ cl) (hn : 2 ≤ n)
    (hv : (S.DB c = lit ∧ S.DB (c + 1) = o) ∨ (S.DB c = o ∧ S.DB (c + 1) = lit)) :
    UnitsTrue (unitForm S c lit) cl := by
  apply UnitsTrue_frame (nonDB_unitForm S c lit) hU
  intro c1 hc1
  have hne : c1 ≠ c := by
    intro e
    subst e
    have := hA.size_eq hc hc1
    omega
  rw [unitForm_DB S c lit o hv]
  have e1 := hA.lit_ne_lit hc hc1 (Ne.symm hne) 1 (by omega) (by omega) 0 (by omega) (by omega)
  have e0 := hA.lit_ne_lit hc hc1 (Ne.symm hne) 0 (by omega) (by omega) 0 (by omega) (by omega)
  rw [if_neg (by omega), if_neg (by omega)]

/-- The visited clause in unit form: the non-watched literals are untouched. -/
theorem unitForm_rest {S : solver} {cl : List (Int × Int)} {lit c n o : Int} (hA : Arena S cl)
    (hc : (c, n) ∈ cl)
    (hv : (S.DB c = lit ∧ S.DB (c + 1) = o) ∨ (S.DB c = o ∧ S.DB (c + 1) = lit)) :
    ∀ c1 n1, (c1, n1) ∈ cl → ∀ m, 2 ≤ m → m ≤ n1 →
      (unitForm S c lit).DB (c1 + m) = S.DB (c1 + m) := by
  intro c1 n1 hc1 m m0 m1
  rw [unitForm_DB S c lit o hv]
  by_cases hcc : c1 = c
  · subst hcc
    rw [if_neg (by omega), if_neg (by omega)]
  · have e1 := hA.lit_ne_lit hc hc1 (Ne.symm hcc) 1 (by omega)
      (by have := hA.lo c n hc; omega) m (by omega) m1
    have e0 := hA.lit_ne_lit hc hc1 (Ne.symm hcc) 0 (by omega)
      (by have := hA.lo c n hc; omega) m (by omega) m1
    rw [if_neg (by omega), if_neg (by omega)]

theorem TwoWatch_mono {S : solver} {cl : List (Int × Int)} {wl : Int → List Int}
    {D D1 : Int → Int → Prop} (h : TwoWatch S cl wl D) (hD : ∀ p s0, D1 p s0 → D p s0) :
    TwoWatch S cl wl D1 :=
  fun c n hc hn s0 s1 a o hs h0 h1 p p0 p1 hp hd =>
    h c n hc hn s0 s1 a o hs h0 h1 p p0 p1 hp (hD p s0 hd)

theorem TwoWatch_or {S : solver} {cl : List (Int × Int)} {wl : Int → List Int}
    {D D1 : Int → Int → Prop} (h : TwoWatch S cl wl D) (h1 : TwoWatch S cl wl D1) :
    TwoWatch S cl wl (fun p s0 => D p s0 ∨ D1 p s0) := by
  intro c n hc hn s0 s1 a o hs h0 h2 p p0 p1 hp hd
  rcases hd with hd | hd
  · exact h c n hc hn s0 s1 a o hs h0 h2 p p0 p1 hp hd
  · exact h1 c n hc hn s0 s1 a o hs h0 h2 p p0 p1 hp hd

/-- The variable of an unassigned literal is not on the trail. -/
theorem TrailInv.var_ne {S : solver} (hT : TrailInv S) {o : Int} (h1 : S.fals o = 0)
    (h2 : S.fals (-o) = 0) (k : Int) (k0 : 0 ≤ k) (k1 : k < S.assigned) :
    S.falseStack k ≠ o ∧ S.falseStack k ≠ -o ∧ iabs (S.falseStack k) ≠ iabs o := by
  have hk := hT.fals_on k k0 k1
  have a1 : S.falseStack k ≠ o := fun e => hk (by rw [e]; exact h1)
  have a2 : S.falseStack k ≠ -o := fun e => hk (by rw [e]; exact h2)
  refine ⟨a1, a2, ?_⟩
  intro e
  rcases iabs_eq_iff.1 e with e | e
  · exact a1 e
  · exact a2 e

theorem hasReason_assign {S : solver} (hT : TrailInv S) {c : Int} (f : Bool)
    (h1 : S.fals (S.DB c) = 0) (h2 : S.fals (-(S.DB c)) = 0) (k : Int) (k0 : 0 ≤ k)
    (k1 : k < S.assigned) : hasReason (assign S c f) k ↔ hasReason S k := by
  obtain ⟨a1, a2, a3⟩ := hT.var_ne h1 h2 k k0 k1
  unfold hasReason
  show upd S.reason (iabs (S.DB c)) c (iabs (upd S.falseStack S.assigned (-(S.DB c)) k)) ≠ 0 ↔ _
  rw [upd_other _ _ (by omega : k ≠ S.assigned), upd_other _ _ a3]

theorem hasReason_assign_top {S : solver} {c : Int} (f : Bool) (hc : c ≠ 0) :
    hasReason (assign S c f) S.assigned := by
  unfold hasReason
  show upd S.reason (iabs (S.DB c)) c (iabs (upd S.falseStack S.assigned (-(S.DB c)) S.assigned))
    ≠ 0
  rw [upd_same, iabs_neg, upd_same]
  exact hc

theorem levelLE_assign {S : solver} (hT : TrailInv S) {c : Int} (f : Bool)
    (h1 : S.fals (S.DB c) = 0) (h2 : S.fals (-(S.DB c)) = 0) (j i : Int) (j1 : j < S.assigned)
    (hl : levelLE S j i) (i0 : 0 ≤ i) : levelLE (assign S c f) j i := by
  rcases hl with a | a
  · exact Or.inl a
  · exact Or.inr (fun k k0 k1 =>
      (hasReason_assign hT f h1 h2 k (by omega) (by omega)).2 (a k k0 k1))

theorem TrailInv_assign {S : solver} (hT : TrailInv S) {c : Int} (f : Bool)
    (h0 : S.DB c ≠ 0) (hr : iabs (S.DB c) ≤ S.nVars)
    (h1 : S.fals (S.DB c) = 0) (h2 : S.fals (-(S.DB c)) = 0) : TrailInv (assign S c f) := by
  have hval : (if f = true then IMPLIED else (1 : Int)) ≠ 0 := by
    cases f <;> decide
  have hfs : ∀ i, i < S.assigned → (assign S c f).falseStack i = S.falseStack i := by
    intro i hi
    show upd S.falseStack S.assigned (-(S.DB c)) i = _
    rw [upd_other _ _ (by omega)]
  have htop : (assign S c f).falseStack S.assigned = -(S.DB c) := by
    show upd S.falseStack S.assigned (-(S.DB c)) S.assigned = _
    rw [upd_same]
  have hfals : ∀ l, (assign S c f).fals l =
      if l = -(S.DB c) then (if f = true then IMPLIED else 1) else S.fals l := fun l => rfl
  have hasg : (assign S c f).assigned = S.assigned + 1 := rfl
  have hf0 := hT.forced_nonneg
  have hfl := hT.forced_le
  refine ⟨hT.nvars, hT.forced_nonneg, ?_, ?_, ?_, ?_, ?_, ?_⟩
  · show S.forced ≤ S.assigned + 1
    omega
  · intro i i0 i1
    rw [hasg] at i1
    by_cases hi : i = S.assigned
    · rw [hi, htop, iabs_neg]
      exact ⟨by omega, hr⟩
    · rw [hfs i (by omega)]
      exact hT.range i i0 (by omega)
  · intro i i0 i1
    rw [hasg] at i1
    rw [hfals]
    by_cases hi : i = S.assigned
    · rw [hi, htop, if_pos rfl]
      exact hval
    · rw [hfs i (by omega)]
      by_cases hl : S.falseStack i = -(S.DB c)
      · rw [if_pos hl]; exact hval
      · rw [if_neg hl]; exact hT.fals_on i i0 (by omega)
  · intro l hl
    rw [hfals] at hl
    by_cases hlo : l = -(S.DB c)
    · exact ⟨S.assigned, by omega, by rw [hasg]; omega, by rw [htop, hlo]⟩
    · rw [if_neg hlo] at hl
      obtain ⟨i, i0, i1, i2⟩ := hT.on_fals l hl
      exact ⟨i, i0, by rw [hasg]; omega, by rw [hfs i i1]; exact i2⟩
  · intro l hl
    rw [hfals] at hl ⊢
    by_cases hlo : l = -(S.DB c)
    · rw [hlo, neg_neg, if_neg (by omega)]
      exact h1
    · rw [if_neg hlo] at hl
      have hne : -l ≠ -(S.DB c) := by
        intro e
        have : l = S.DB c := by omega
        rw [this] at hl
        exact hl h1
      rw [if_neg hne]
      exact hT.consistent l hl
  · intro i j i0 i1 j0 j1 e
    rw [hasg] at i1 j1
    by_cases hi : i = S.assigned
    · by_cases hj : j = S.assigned
      · omega
      · rw [hi, htop, hfs j (by omega)] at e
        exact absurd e.symm (hT.var_ne h1 h2 j j0 (by omega)).2.1
    · by_cases hj : j = S.assigned
      · rw [hj, htop, hfs i (by omega)] at e
        exact absurd e (hT.var_ne h1 h2 i i0 (by omega)).2.1
      · rw [hfs i (by omega), hfs j (by omega)] at e
        exact hT.inj i j i0 (by omega) j0 (by omega) e

theorem Arena_same {S T : solver} {cl : List (Int × Int)} (hA : Arena S cl) (h1 : T.DB = S.DB)
    (h2 : T.mem_used = S.mem_used) (h3 : T.nVars = S.nVars) : Arena T cl := by
  obtain ⟨a1, a2, a3, a4, a5, a6, a7, a8⟩ := hA
  refine ⟨by rw [h2, h3]; exact a1, by rw [h2, h3]; exact a2, a3, by rw [h2, h3]; exact a4, ?_,
    by rw [h1, h3]; exact a6, by rw [h1]; exact a7, by rw [h1, h2]; exact a8⟩
  intro c n hc
  have := a5 c n hc
  unfold clauseAt at this ⊢
  rw [h1]
  exact this

theorem Watches_same {S T : solver} {cl : List (Int × Int)} {wl : Int → List Int}
    (hW : Watches S cl wl) (h1 : T.DB = S.DB) (h2 : T.first = S.first) (h3 : T.nVars = S.nVars) :
    Watches T cl wl := by
  obtain ⟨a1, a2, a3, a4, a5⟩ := hW
  exact ⟨by rw [h1, h2, h3]; exact a1, a2, a3, a4, by rw [h1]; exact a5⟩

/-- Assigning the first literal of a clause whose other literals are false
keeps the invariant; in forced mode the root boundary moves with the trail. -/
theorem assign_core {S : solver} {cl : List (Int × Int)} {wl : Int → List Int} {b c n : Int}
    (f : Bool) (hC : Core S cl wl b) (hc : (c, n) ∈ cl) (hb0 : 0 ≤ b)
    (h1 : S.fals (S.DB c) = 0) (h2 : S.fals (-(S.DB c)) = 0)
    (hoth : ∀ m, 1 ≤ m → m < n → S.fals (S.DB (c + m)) ≠ 0)
    (hmode : (f = true ∧ b = S.assigned) ∨
      (f = false ∧ b < S.assigned ∧ ∃ m j, 1 ≤ m ∧ m < n ∧ 0 ≤ j ∧ j < S.assigned ∧
        S.falseStack j = S.DB (c + m) ∧ ∀ k, j < k → k < S.assigned → hasReason S k)) :
    Core (assign S c f) cl wl (if f = true then S.assigned + 1 else b) := by
  have hT := hC.trail
  have hA := hC.arena
  have hlo := hA.lo c n hc
  have hcl := hA.cls c n hc
  have h0 : S.DB c ≠ 0 := by
    have := hcl.2.1 0 (le_refl _) (by omega)
    rw [add_zero] at this
    exact this
  have hr : iabs (S.DB c) ≤ S.nVars := by
    have := hA.rng c n hc 0 (le_refl _) (by omega)
    rw [add_zero] at this
    exact this
  have hnv := hT.nvars
  have hf0 := hT.forced_nonneg
  have hcne : c ≠ 0 := by omega
  have hfs : ∀ i, i < S.assigned → (assign S c f).falseStack i = S.falseStack i := by
    intro i hi
    show upd S.falseStack S.assigned (-(S.DB c)) i = _
    rw [upd_other _ _ (by omega)]
  have htop : (assign S c f).falseStack S.assigned = -(S.DB c) := by
    show upd S.falseStack S.assigned (-(S.DB c)) S.assigned = _
    rw [upd_same]
  have hfals : ∀ l, (assign S c f).fals l =
      if l = -(S.DB c) then (if f = true then IMPLIED else 1) else S.fals l := fun l => rfl
  have hfold : ∀ i, 0 ≤ i → i < S.assigned →
      (assign S c f).fals ((assign S c f).falseStack i) = S.fals (S.falseStack i) := by
    intro i i0 i1
    rw [hfs i i1, hfals, if_neg (hT.var_ne h1 h2 i i0 i1).2.1]
  have hftop : (assign S c f).fals ((assign S c f).falseStack S.assigned) =
      if f = true then IMPLIED else 1 := by
    rw [htop, hfals, if_pos rfl]
  have hasg : (assign S c f).assigned = S.assigned + 1 := rfl
  have hreas : ∀ i, 0 ≤ i → i < S.assigned →
      (assign S c f).reason (iabs ((assign S c f).falseStack i)) =
        S.reason (iabs (S.falseStack i)) := by
    intro i i0 i1
    rw [hfs i i1]
    show upd S.reason (iabs (S.DB c)) c _ = _
    rw [upd_other _ _ (hT.var_ne h1 h2 i i0 i1).2.2]
  have hrtop : (assign S c f).reason (iabs ((assign S c f).falseStack S.assigned)) = c := by
    rw [htop, iabs_neg]
    show upd S.reason (iabs (S.DB c)) c _ = _
    rw [upd_same]
  have hhr := fun k k0 k1 => hasReason_assign hT f h1 h2 k k0 k1
  refine ⟨TrailInv_assign hT f h0 hr h1 h2, ⟨?_, ?_, ?_⟩, ?_, ?_, VmtfInv_frame hC.vmtf rfl rfl rfl rfl,
    Arena_same hA rfl rfl rfl, Watches_same hC.watches rfl rfl rfl⟩
  · intro i i0 i1
    rcases hmode with ⟨e1, e2⟩ | ⟨e1, e2, -⟩
    · rw [if_pos e1] at i1
      by_cases hi : i = S.assigned
      · rw [hi, hftop, if_pos e1]
        exact ⟨rfl, hasReason_assign_top f hcne⟩
      · rw [hfold i i0 (by omega), hhr i i0 (by omega)]
        exact hC.levels.root i i0 (by omega)
    · rw [if_neg (by rw [e1]; decide)] at i1
      rw [hfold i i0 (by omega), hhr i i0 (by omega)]
      exact hC.levels.root i i0 i1
  · intro i i0 i1
    rw [hasg] at i1
    rcases hmode with ⟨e1, e2⟩ | ⟨e1, e2, -⟩
    · rw [if_pos e1] at i0
      omega
    · rw [if_neg (by rw [e1]; decide)] at i0
      by_cases hi : i = S.assigned
      · rw [hi, hftop, if_neg (by rw [e1]; decide)]
      · rw [hfold i (by omega) (by omega)]
        exact hC.levels.upper i i0 (by omega)
  · intro hb
    rw [hasg] at hb
    rcases hmode with ⟨e1, e2⟩ | ⟨e1, e2, -⟩
    · rw [if_pos e1] at hb
      omega
    · rw [if_neg (by rw [e1]; decide)] at hb ⊢
      rw [hhr b hb0 e2]
      exact hC.levels.first_dec e2
  · intro i i0 i1 hri
    rw [hasg] at i1
    by_cases hi : i = S.assigned
    · subst hi
      rw [hrtop]
      refine ⟨n, hcl, by rw [htop, neg_neg]; rfl, ?_, ?_⟩
      · intro m m0 m1
        obtain ⟨j, j0, j1, j2⟩ := hT.on_fals _ (hoth m m0 m1)
        exact ⟨j, j0, j1, by rw [hfs j j1]; exact j2⟩
      · intro hb
        rcases hmode with ⟨e1, e2⟩ | ⟨e1, e2, m, j, m0, m1, j0, j1, j2, j3⟩
        · rw [if_pos e1] at hb
          omega
        · refine ⟨m, j, m0, m1, j0, j1, by rw [hfs j j1]; exact j2, ?_⟩
          intro k k0 k1
          rw [hhr k (by omega) k1]
          exact j3 k k0 k1
    · have hi1 : i < S.assigned := by omega
      rw [hhr i i0 hi1] at hri
      obtain ⟨n0, r1, r2, r3, r4⟩ := hC.reasons i i0 hi1 hri
      rw [hreas i i0 hi1, hfs i hi1]
      refine ⟨n0, r1, r2, ?_, ?_⟩
      · intro m m0 m1
        obtain ⟨j, j0, j1, j2⟩ := r3 m m0 m1
        exact ⟨j, j0, j1, by rw [hfs j (by omega)]; exact j2⟩
      · intro hb
        have hb' : b ≤ i := by
          rcases hmode with ⟨e1, e2⟩ | ⟨e1, e2, -⟩
          · rw [if_pos e1] at hb
            omega
          · rw [if_neg (by rw [e1]; decide)] at hb
            exact hb
        obtain ⟨m, j, m0, m1, j0, j1, j2, j3⟩ := r4 hb'
        refine ⟨m, j, m0, m1, j0, j1, by rw [hfs j (by omega)]; exact j2, ?_⟩
        intro k k0 k1
        rw [hhr k (by omega) (by omega)]
        exact j3 k k0 k1
  · intro i i0 i1 hri
    rw [hasg] at i1
    by_cases hi : i = S.assigned
    · subst hi
      rw [hrtop]
      exact ⟨n, hc⟩
    · have hi1 : i < S.assigned := by omega
      rw [hhr i i0 hi1] at hri
      rw [hreas i i0 hi1]
      exact hC.rin i i0 hi1 hri

theorem UnitsTrue_assign {S : solver} {cl : List (Int × Int)} {c : Int} (f : Bool)
    (hU : UnitsTrue S cl) (h2 : S.fals (-(S.DB c)) = 0) : UnitsTrue (assign S c f) cl := by
  intro c1 hc1
  have := hU c1 hc1
  show (if -(S.DB c1) = -(S.DB c) then (if f = true then IMPLIED else 1)
    else S.fals (-(S.DB c1))) = IMPLIED
  have hne : -(S.DB c1) ≠ -(S.DB c) := by
    intro e
    rw [e, h2] at this
    exact absurd this (by decide)
  rw [if_neg hne]
  exact this

theorem TwoWatch_assign {S : solver} {cl : List (Int × Int)} {wl : Int → List Int}
    {D : Int → Int → Prop} {c : Int} (f : Bool) (hT : TrailInv S)
    (h1 : S.fals (S.DB c) = 0) (h2 : S.fals (-(S.DB c)) = 0)
    (hD : ∀ p s0, D p s0 → p < S.assigned) (h : TwoWatch S cl wl D) :
    TwoWatch (assign S c f) cl wl D := by
  have hfs : ∀ i, i < S.assigned → (assign S c f).falseStack i = S.falseStack i := by
    intro i hi
    show upd S.falseStack S.assigned (-(S.DB c)) i = _
    rw [upd_other _ _ (by omega)]
  have hasg : (assign S c f).assigned = S.assigned + 1 := rfl
  intro c1 n1 hc1 hn1 s0 s1 a o hs ha ho p p0 p1 hp hd
  have hpa := hD p s0 hd
  rw [hfs p hpa] at hp
  obtain ⟨⟨q, q0, q1, q2, q3⟩, hnw⟩ := h c1 n1 hc1 hn1 s0 s1 a o hs ha ho p p0 hpa hp hd
  refine ⟨⟨q, q0, by rw [hasg]; omega, by rw [hfs q q1]; exact q2,
    levelLE_assign hT f h1 h2 q p q1 q3 p0⟩, ?_⟩
  intro m m0 m1
  obtain ⟨r, r0, r1, r2, r3⟩ := hnw m m0 m1
  exact ⟨r, r0, by rw [hasg]; omega, by rw [hfs r r1]; exact r2,
    levelLE_assign hT f h1 h2 r p r1 r3 p0⟩

/-- The state after a watch was moved, cell by cell.  `cur` is the link cell
the pointer `watch` stands for when it points into `DB`. -/
theorem moveWatch_eq (S : solver) (c lit o j s x : Int) (watch : Watch) (cur : Option Int)
    (hcur : (cur = none ∧ watch = Watch.first lit) ∨
      ∃ sl, cur = some sl ∧ watch = Watch.db sl ∧ sl ≠ c ∧ sl ≠ c + 1 ∧ sl ≠ c + j ∧ sl ≠ s)
    (hrd : rdW S watch = s) (hs : s ≠ c ∧ s ≠ c + 1 ∧ s ≠ c + j) (hj : 2 ≤ j)
    (hv : (S.DB c = lit ∧ S.DB (c + 1) = o) ∨ (S.DB c = o ∧ S.DB (c + 1) = lit))
    (hx : S.DB (c + j) = x) (hxl : x ≠ lit) :
    nonDB (moveWatch (frontOther S c lit) c lit watch j) = nonDB S ∧
    (∀ k, (moveWatch (frontOther S c lit) c lit watch j).DB k =
      if k = s then S.first x else if cur = some k then S.DB s else if k = c + j then lit
      else if k = c + 1 then x else if k = c then o else S.DB k) ∧
    (∀ l, (moveWatch (frontOther S c lit) c lit watch j).first l =
      if l = x then s else if cur = none ∧ l = lit then S.DB s else S.first l) := by
  have hF := frontOther_DB S c lit o hv
  have hnF := nonDB_frontOther S c lit
  have hfF := first_frontOther S c lit
  have hxF : (frontOther S c lit).DB (c + j) = x := by
    rw [hF, if_neg (by omega)]; exact hx
  obtain ⟨s1, s2, s3⟩ := hs
  rcases hcur with ⟨e1, e2⟩ | ⟨sl, e1, e2, n1, n2, n3, n4⟩
  · subst e1 e2
    have hrd' : S.first lit = s := hrd
    have hT : moveWatch (frontOther S c lit) c lit (Watch.first lit) j =
        { frontOther S c lit with
          DB := upd (upd (upd (frontOther S c lit).DB (c + 1) x) (c + j) lit) s
            (upd (frontOther S c lit).first lit
              (upd (upd (frontOther S c lit).DB (c + 1) x) (c + j) lit s) x)
          first := upd (upd (frontOther S c lit).first lit
              (upd (upd (frontOther S c lit).DB (c + 1) x) (c + j) lit s)) x s } := by
      unfold moveWatch
      simp only [rdW, wrW, addWatch]
      rw [hxF, hfF, hrd']
      have : upd (upd (frontOther S c lit).DB (c + 1) x) (c + j) lit (c + 1) = x := by
        rw [upd_other _ _ (by omega), upd_same]
      rw [this]
    rw [hT]
    refine ⟨hnF, ?_, ?_⟩
    · intro k
      show upd (upd (upd (frontOther S c lit).DB (c + 1) x) (c + j) lit) s _ k = _
      have hno : ¬ ((none : Option Int) = some k) := fun h => by cases h
      unfold upd
      rw [if_neg hno]
      by_cases hk : k = s
      · rw [if_pos hk, if_pos hk, if_neg hxl, hfF]
      · rw [if_neg hk, if_neg hk]
        by_cases hk2 : k = c + j
        · rw [if_pos hk2, if_pos hk2]
        · rw [if_neg hk2, if_neg hk2]
          by_cases hk3 : k = c + 1
          · rw [if_pos hk3, if_pos hk3]
          · rw [if_neg hk3, if_neg hk3]
            exact hF k
    · intro l
      show upd (upd (frontOther S c lit).first lit _) x s l = _
      unfold upd
      by_cases hl : l = x
      · rw [if_pos hl, if_pos hl]
      · rw [if_neg hl, if_neg hl]
        by_cases hl2 : l = lit
        · rw [if_pos hl2, if_pos (And.intro rfl hl2), if_neg s3, if_neg s2, hF, if_neg s1]
        · rw [if_neg hl2, if_neg (fun h => hl2 h.2), hfF]
  · subst e1 e2
    have hrd' : S.DB sl = s := hrd
    have hsl : upd (upd (frontOther S c lit).DB (c + 1) x) (c + j) lit sl = s := by
      rw [upd_other _ _ n3, upd_other _ _ n2, hF, if_neg n1]
      exact hrd'
    have hT : moveWatch (frontOther S c lit) c lit (Watch.db sl) j =
        { frontOther S c lit with
          DB := upd (upd (upd (upd (frontOther S c lit).DB (c + 1) x) (c + j) lit) sl
              (upd (upd (frontOther S c lit).DB (c + 1) x) (c + j) lit s)) s
            ((frontOther S c lit).first x)
          first := upd (frontOther S c lit).first x s } := by
      unfold moveWatch
      simp only [rdW, wrW, addWatch]
      rw [hxF, hsl]
      have : upd (upd (upd (frontOther S c lit).DB (c + 1) x) (c + j) lit) sl
          (upd (upd (frontOther S c lit).DB (c + 1) x) (c + j) lit s) (c + 1) = x := by
        rw [upd_other _ _ (Ne.symm n2), upd_other _ _ (by omega), upd_same]
      rw [this]
    rw [hT]
    refine ⟨hnF, ?_, ?_⟩
    · intro k
      show upd (upd (upd (upd (frontOther S c lit).DB (c + 1) x) (c + j) lit) sl _) s _ k = _
      unfold upd
      by_cases hk : k = s
      · rw [if_pos hk, if_pos hk, hfF]
      · rw [if_neg hk, if_neg hk]
        by_cases hk1 : k = sl
        · have hso : some sl = some k := by rw [hk1]
          rw [if_pos hk1, if_pos hso, if_neg s3, if_neg s2, hF, if_neg s1]
        · have hso : ¬ (some sl = some k) := fun h => hk1 (Option.some.inj h).symm
          rw [if_neg hk1, if_neg hso]
          by_cases hk2 : k = c + j
          · rw [if_pos hk2, if_pos hk2]
          · rw [if_neg hk2, if_neg hk2]
            by_cases hk3 : k = c + 1
            · rw [if_pos hk3, if_pos hk3]
            · rw [if_neg hk3, if_neg hk3]
              exact hF k
    · intro l
      show upd (frontOther S c lit).first x s l = _
      have hno : ¬ ((some sl : Option Int) = none ∧ l = lit) := fun h => by cases h.1
      unfold upd
      by_cases hl : l = x
      · rw [if_pos hl, if_pos hl]
      · rw [if_neg hl, if_neg hl, if_neg hno, hfF]

theorem mem_wlMove {S : solver} {cl : List (Int × Int)} {wl : Int → List Int}
    (hW : Watches S cl wl) {lit x s : Int} {pre post : List Int}
    (hsp : wl lit = pre ++ s :: post) (hx : x ≠ lit) (l t : Int) :
    t ∈ wlMove wl lit x s pre post l ↔ (t = s ∧ l = x) ∨ (t ≠ s ∧ t ∈ wl l) := by
  have hs : s ∈ wl lit := by rw [hsp]; simp
  have hnd := hW.nodup lit
  rw [hsp] at hnd
  have hnd2 : s ∉ pre ∧ s ∉ post := by
    rw [List.nodup_append] at hnd
    obtain ⟨a, b, c⟩ := hnd
    constructor
    · intro h
      exact c h (List.mem_cons_self _ _)
    · exact (List.nodup_cons.1 b).1
  unfold wlMove
  by_cases h1 : l = x
  · rw [if_pos h1]
    constructor
    · intro h
      rcases List.mem_cons.1 h with e | e
      · exact Or.inl ⟨e, h1⟩
      · refine Or.inr ⟨?_, by rw [h1]; exact e⟩
        intro e2
        rw [e2] at e
        exact hx (hW.uniq _ _ s e hs)
    · rintro (⟨e, -⟩ | ⟨-, e⟩)
      · rw [e]; exact List.mem_cons_self _ _
      · rw [h1] at e
        exact List.mem_cons_of_mem _ e
  · rw [if_neg h1]
    by_cases h2 : l = lit
    · rw [if_pos h2, h2, hsp]
      constructor
      · intro h
        refine Or.inr ⟨?_, ?_⟩
        · intro e
          rw [e] at h
          rcases List.mem_append.1 h with a | a
          · exact hnd2.1 a
          · exact hnd2.2 a
        · rcases List.mem_append.1 h with a | a
          · exact List.mem_append_left _ a
          · exact List.mem_append_right _ (List.mem_cons_of_mem _ a)
      · rintro (⟨-, e⟩ | ⟨e1, e2⟩)
        · exact absurd (h2 ▸ e) h1
        · rcases List.mem_append.1 e2 with a | a
          · exact List.mem_append_left _ a
          · rcases List.mem_cons.1 a with a | a
            · exact absurd a e1
            · exact List.mem_append_right _ a
    · rw [if_neg h2]
      constructor
      · intro h
        refine Or.inr ⟨?_, h⟩
        intro e
        rw [e] at h
        exact h2 (hW.uniq _ _ s h hs)
      · rintro (⟨-, e⟩ | ⟨-, e⟩)
        · exact absurd e h1
        · exact e

/-- Moving a watch keeps the invariant of the watch loop, for the shortened
rest of the list. -/
theorem move_inv {S : solver} {cl : List (Int × Int)} {wl : Int → List Int} {b : Int}
    {flag : Bool} {lit : Int} {watch : Watch} {pre post : List Int} {s : Int}
    (hI : WLInv S cl wl b flag lit watch pre (s :: post)) {c n s1 o : Int}
    (hc : (c, n) ∈ cl) (hn : 2 ≤ n)
    (hs : (s = c - 2 ∧ s1 = c - 1) ∨ (s = c - 1 ∧ s1 = c - 2)) (hso : s1 ∈ wl o)
    (hv : (S.DB c = lit ∧ S.DB (c + 1) = o) ∨ (S.DB c = o ∧ S.DB (c + 1) = lit))
    (hrd : rdW S watch = s) {j : Int} (hj : 2 ≤ j) (hjn : j < n)
    (hxf : S.fals (S.DB (c + j)) = 0) :
    WLInv (moveWatch (frontOther S c lit) c lit watch j) cl
      (wlMove wl lit (S.DB (c + j)) s pre post) b flag lit watch pre post := by
  have hC := hI.core
  have hT := hC.trail
  have hA := hC.arena
  have hW := hC.watches
  obtain ⟨p1, p2⟩ := hI.proc
  have hsp := hI.split
  have hs_mem : s ∈ wl lit := by rw [hsp]; simp
  have hlf : S.fals lit ≠ 0 := by
    have := hT.fals_on (S.processed - 1) (by omega) (by omega)
    rw [hI.lit_eq] at this
    exact this
  have hxl : S.DB (c + j) ≠ lit := fun e => hlf (by rw [← e]; exact hxf)
  have hx0 : S.DB (c + j) ≠ 0 := (hA.cls c n hc).2.1 j (by omega) hjn
  have hxr : iabs (S.DB (c + j)) ≤ S.nVars := hA.rng c n hc j (by omega) hjn
  obtain ⟨hl0, hl1⟩ := hT.range (S.processed - 1) (by omega) (by omega)
  rw [hI.lit_eq] at hl0 hl1
  obtain ⟨w0, w1, w2, w3⟩ := hA.watched_lits hc hn
  have ho : o ≠ 0 ∧ iabs o ≤ S.nVars := by
    rcases hv with ⟨a, b⟩ | ⟨a, b⟩
    · rw [← b]; exact ⟨w2, w3⟩
    · rw [← a]; exact ⟨w0, w1⟩
  have hnd := hW.nodup lit
  rw [hsp] at hnd
  -- a slot is no literal cell of the visited clause
  have hslot_ne : ∀ l t, t ∈ wl l → t ≠ c ∧ t ≠ c + 1 ∧ t ≠ c + j := by
    intro l t ht
    obtain ⟨c1, n1, hc1, hn1, e⟩ := hW.slot l t ht
    have e0 := hA.lit_ne_slot hc hc1 0 (by omega) (by omega)
    have e1 := hA.lit_ne_slot hc hc1 1 (by omega) (by omega)
    have e2 := hA.lit_ne_slot hc hc1 j (by omega) (by omega)
    omega
  -- the link cell the pointer stands for
  obtain ⟨cur, hcur, hcur2⟩ : ∃ cur : Option Int,
      ((cur = none ∧ watch = Watch.first lit) ∨
        ∃ sl, cur = some sl ∧ watch = Watch.db sl ∧ sl ≠ c ∧ sl ≠ c + 1 ∧ sl ≠ c + j ∧ sl ≠ s) ∧
      ((cur = none ∧ pre = []) ∨ ∃ pre1 sl, cur = some sl ∧ pre = pre1 ++ [sl]) := by
    rcases hI.cursor with ⟨e1, e2⟩ | ⟨pre1, sl, e1, e2⟩
    · exact ⟨none, Or.inl ⟨rfl, e2⟩, Or.inl ⟨rfl, e1⟩⟩
    · have hslm : sl ∈ wl lit := by rw [hsp, e1]; simp
      obtain ⟨z1, z2, z3⟩ := hslot_ne lit sl hslm
      have hne : sl ≠ s := by
        intro e
        rw [e1, e] at hnd
        have := (List.nodup_append.1 hnd).2.2
        exact this (by simp) (List.mem_cons_self _ _)
      exact ⟨some sl, Or.inr ⟨sl, rfl, e2, z1, z2, z3, hne⟩, Or.inr ⟨pre1, sl, rfl, e1⟩⟩
  obtain ⟨sn1, sn2, sn3⟩ := hslot_ne lit s hs_mem
  obtain ⟨hndb, hDB, hfirst⟩ := moveWatch_eq S c lit o j s (S.DB (c + j)) watch cur hcur hrd
    ⟨sn1, sn2, sn3⟩ hj hv rfl hxl
  have hmem := mem_wlMove hW hsp hxl
  generalize moveWatch (frontOther S c lit) c lit watch j = T at hndb hDB hfirst ⊢
  generalize hxdef : S.DB (c + j) = x at *
  obtain ⟨a1, a2, a3, a4, a5, a6, a7, a8, a9, a10⟩ := nonDB_fields hndb
  have hcur_mem : ∀ t, cur = some t → t ∈ wl lit ∧ t ≠ s := by
    intro t ht
    rcases hcur with ⟨e1, -⟩ | ⟨sl, e1, -, -, -, -, e5⟩
    · rw [e1] at ht; cases ht
    · rw [e1] at ht
      have : sl = t := Option.some.inj ht
      subst this
      rcases hcur2 with ⟨e6, -⟩ | ⟨pre1, sl2, e6, e7⟩
      · rw [e1] at e6; cases e6
      · rw [e1] at e6
        have : sl = sl2 := Option.some.inj e6
        subst this
        exact ⟨by rw [hsp, e7]; simp, e5⟩
  -- cells that keep their value
  have hkeep : ∀ k, k ≠ s → cur ≠ some k → k ≠ c + j → k ≠ c + 1 → k ≠ c → T.DB k = S.DB k := by
    intro k k1 k2 k3 k4 k5
    rw [hDB, if_neg k1, if_neg k2, if_neg k3, if_neg k4, if_neg k5]
  have hslotT : ∀ l t, t ∈ wl l → t ≠ s → cur ≠ some t → T.DB t = S.DB t := by
    intro l t ht t1 t2
    obtain ⟨z1, z2, z3⟩ := hslot_ne l t ht
    exact hkeep t t1 t2 z3 z2 z1
  have hotherT : ∀ c1 n1, (c1, n1) ∈ cl → c1 ≠ c → ∀ m, 0 ≤ m → m ≤ n1 →
      T.DB (c1 + m) = S.DB (c1 + m) := by
    intro c1 n1 hc1 hne m m0 m1
    have hlo := hA.lo c n hc
    have e0 := hA.lit_ne_lit hc hc1 (Ne.symm hne) 0 (by omega) (by omega) m (by omega) m1
    have e1 := hA.lit_ne_lit hc hc1 (Ne.symm hne) 1 (by omega) (by omega) m (by omega) m1
    have e2 := hA.lit_ne_lit hc hc1 (Ne.symm hne) j (by omega) (by omega) m (by omega) m1
    have e3 : c1 + m ≠ s := by
      obtain ⟨c2, n2, hc2, hn2, e⟩ := hW.slot lit s hs_mem
      have := hA.lit_ne_slot hc1 hc2 m m0 m1
      omega
    have e4 : cur ≠ some (c1 + m) := by
      intro e
      obtain ⟨c2, n2, hc2, hn2, e5⟩ := hW.slot lit _ (hcur_mem _ e).1
      have := hA.lit_ne_slot hc1 hc2 m m0 m1
      omega
    exact hkeep _ e3 e4 (by omega) (by omega) (by omega)
  have hwl_lit : wlMove wl lit x s pre post lit = pre ++ post := by
    unfold wlMove
    rw [if_neg (Ne.symm hxl), if_pos rfl]
  have hcne : ∀ i, 0 ≤ i → i < S.assigned → hasReason S i →
      S.reason (iabs (S.falseStack i)) ≠ c := by
    intro i i0 i1 hr e
    obtain ⟨n2, r1, r2, r3, r4⟩ := hC.reasons i i0 i1 hr
    rw [e] at r1 r3
    have hnn : n2 = n := clauseAt_size r1 (hA.cls c n hc)
    subst hnn
    obtain ⟨j2, j20, j21, j22⟩ := r3 j (by omega) hjn
    have := hT.fals_on j2 j20 (by omega)
    rw [j22, hxdef] at this
    exact this hxf
  -- the watches
  have hWT : Watches T cl (wlMove wl lit x s pre post) := by
    refine ⟨?_, ?_, ?_, ?_, ?_⟩
    · intro l l0 l1
      rw [a1] at l1
      by_cases h1 : l = x
      · subst h1
        have e1 : wlMove wl lit l s pre post l = s :: wl l := by
          unfold wlMove; rw [if_pos rfl]
        rw [e1]
        refine ⟨by rw [hfirst, if_pos rfl], ?_⟩
        have e2 : T.DB s = S.first l := by rw [hDB, if_pos rfl]
        rw [e2, IsSeg_congr (wl l) _ _ (fun t ht => hslotT l t ht
          (fun e => hxl (hW.uniq _ _ s (by rw [← e]; exact ht) hs_mem))
          (fun e => hxl (hW.uniq _ _ t ht (hcur_mem t e).1)))]
        exact hW.chain l l0 l1
      · by_cases h2 : l = lit
        · subst h2
          rw [hwl_lit]
          have hch := hW.chain l l0 l1
          rw [hsp] at hch
          have hpost : ∀ t, t ∈ post → T.DB t = S.DB t := by
            intro t ht
            have htm : t ∈ wl l := by rw [hsp]; simp [ht]
            have hts : t ≠ s := by
              intro e
              rw [e] at ht
              have := (List.nodup_append.1 hnd).2.1
              exact (List.nodup_cons.1 this).1 ht
            refine hslotT l t htm hts ?_
            intro e
            rcases hcur2 with ⟨e6, -⟩ | ⟨pre1, sl2, e6, e7⟩
            · rw [e6] at e; cases e
            · rw [e6] at e
              have : sl2 = t := Option.some.inj e
              subst this
              rw [e7] at hnd
              have := (List.nodup_append.1 hnd).2.2
              exact this (by simp) (List.mem_cons_of_mem _ ht)
          rcases hcur2 with ⟨e6, e7⟩ | ⟨pre1, sl2, e6, e7⟩
          · subst e6 e7
            rw [List.nil_append] at hch ⊢
            have hno : ((none : Option Int) = none ∧ l = l) := ⟨rfl, rfl⟩
            rw [hfirst, if_neg h1, if_pos hno, IsSeg_congr post _ _ hpost]
            exact hch.2
          · subst e6 e7
            have hno : ¬ ((some sl2 : Option Int) = none ∧ l = l) := fun h => by cases h.1
            rw [hfirst, if_neg h1, if_neg hno]
            obtain ⟨m, b1, b2⟩ := (IsSeg_append _ _ _ _ _).1 hch
            rw [IsSeg_snoc] at b1
            obtain ⟨b3, b4⟩ := b2
            rw [IsSeg_append]
            refine ⟨S.DB s, ?_, ?_⟩
            · rw [IsSeg_snoc]
              constructor
              · rw [IsSeg_congr pre1]
                · exact b1.1
                · intro t ht
                  have htm : t ∈ wl l := by rw [hsp]; simp [ht]
                  refine hslotT l t htm ?_ ?_
                  · intro e
                    rw [e] at ht
                    have := (List.nodup_append.1 hnd).2.2
                    exact this (by simp [ht]) (List.mem_cons_self _ _)
                  · intro e
                    have : sl2 = t := Option.some.inj e
                    subst this
                    have := (List.nodup_append.1 hnd).1
                    have := (List.nodup_append.1 this).2.2
                    exact this ht (by simp)
              · have hsl := hcur_mem sl2 rfl
                rw [hDB, if_neg hsl.2, if_pos rfl]
            · rw [IsSeg_congr post _ _ hpost]
              exact b4
        · have e1 : wlMove wl lit x s pre post l = wl l := by
            unfold wlMove; rw [if_neg h1, if_neg h2]
          have hno : ¬ (cur = none ∧ l = lit) := fun h => h2 h.2
          rw [e1, hfirst, if_neg h1, if_neg hno, IsSeg_congr (wl l) _ _ (fun t ht => hslotT l t ht
            (fun e => h2 (hW.uniq _ _ s (by rw [← e]; exact ht) hs_mem))
            (fun e => h2 (hW.uniq _ _ t ht (hcur_mem t e).1)))]
          exact hW.chain l l0 l1
    · intro l t ht
      rcases (hmem l t).1 ht with ⟨e1, e2⟩ | ⟨e1, e2⟩
      · rw [e1]; exact hW.slot lit s hs_mem
      · exact hW.slot l t e2
    · intro l
      unfold wlMove
      by_cases h1 : l = x
      · rw [if_pos h1]
        refine List.nodup_cons.2 ⟨?_, hW.nodup x⟩
        intro h
        exact hxl (hW.uniq _ _ s h hs_mem)
      · rw [if_neg h1]
        by_cases h2 : l = lit
        · rw [if_pos h2]
          have h3 := List.nodup_append.1 hnd
          refine List.nodup_append.2 ⟨h3.1, (List.nodup_cons.1 h3.2.1).2, ?_⟩
          intro t t1 t2
          exact h3.2.2 t1 (List.mem_cons_of_mem _ t2)
        · rw [if_neg h2]; exact hW.nodup l
    · intro l l2 t h1 h2
      rcases (hmem l t).1 h1 with ⟨e1, e2⟩ | ⟨e1, e2⟩
      · rcases (hmem l2 t).1 h2 with ⟨e3, e4⟩ | ⟨e3, e4⟩
        · rw [e2, e4]
        · exact absurd e1 e3
      · rcases (hmem l2 t).1 h2 with ⟨e3, e4⟩ | ⟨e3, e4⟩
        · exact absurd e3 e1
        · exact hW.uniq l l2 t e2 e4
    · intro c1 n1 hc1 hn1
      by_cases hcc : c1 = c
      · subst hcc
        have hnn := hA.size_eq hc hc1
        have e0 : T.DB c1 = o := by
          rw [hDB, if_neg (Ne.symm sn1), if_neg (fun e => (hslot_ne lit c1 (hcur_mem c1 e).1).1 rfl),
            if_neg (by omega), if_neg (by omega), if_pos rfl]
        have e1 : T.DB (c1 + 1) = x := by
          rw [hDB, if_neg (Ne.symm sn2),
            if_neg (fun e => (hslot_ne lit (c1 + 1) (hcur_mem _ e).1).2.1 rfl),
            if_neg (by omega), if_pos rfl]
        rw [e0, e1]
        rcases hs with ⟨b1, b2⟩ | ⟨b1, b2⟩
        · refine Or.inr ⟨(hmem x _).2 (Or.inl ⟨b1.symm, rfl⟩), (hmem o _).2 (Or.inr ⟨?_, ?_⟩)⟩
          · omega
          · rw [← b2]; exact hso
        · refine Or.inl ⟨(hmem o _).2 (Or.inr ⟨?_, ?_⟩), (hmem x _).2 (Or.inl ⟨b1.symm, rfl⟩)⟩
          · omega
          · rw [← b2]; exact hso
      · have e0 := hotherT c1 n1 hc1 hcc 0 (le_refl _) (by omega)
        have e1 := hotherT c1 n1 hc1 hcc 1 (by omega) (by omega)
        rw [add_zero] at e0
        rw [e0, e1]
        have hne2 : c1 - 2 ≠ s ∧ c1 - 1 ≠ s := by
          have := hA.slot_eq hc1 hc
          rcases hs with ⟨b1, b2⟩ | ⟨b1, b2⟩
          · constructor
            · intro e
              exact hcc (this 2 2 (Or.inr rfl) (Or.inr rfl) (by omega)).1
            · intro e
              exact hcc (this 1 2 (Or.inl rfl) (Or.inr rfl) (by omega)).1
          · constructor
            · intro e
              exact hcc (this 2 1 (Or.inr rfl) (Or.inl rfl) (by omega)).1
            · intro e
              exact hcc (this 1 1 (Or.inl rfl) (Or.inl rfl) (by omega)).1
        rcases hW.own c1 n1 hc1 hn1 with ⟨b1, b2⟩ | ⟨b1, b2⟩
        · exact Or.inl ⟨(hmem _ _).2 (Or.inr ⟨hne2.1, b1⟩), (hmem _ _).2 (Or.inr ⟨hne2.2, b2⟩)⟩
        · exact Or.inr ⟨(hmem _ _).2 (Or.inr ⟨hne2.1, b1⟩), (hmem _ _).2 (Or.inr ⟨hne2.2, b2⟩)⟩
  have hCT : Core T cl (wlMove wl lit x s pre post) b := by
    refine ⟨TrailInv_nonDB hndb hT, Levels_nonDB hndb hC.levels, ?_, ReasonsIn_nonDB hndb hC.rin,
      VmtfInv_nonDB hndb hC.vmtf, ?_, hWT⟩
    · apply ReasonInv_frame hndb hA hC.rin hC.reasons
      intro i i0 i1 hr n1 hn1 m m0 m1
      exact hotherT _ n1 hn1 (hcne i i0 i1 hr) m m0 m1
    · apply Arena_frame hndb hA
      intro k
      by_cases k1 : k = s
      · obtain ⟨c2, n2, hc2, hn2, e⟩ := hW.slot lit s hs_mem
        exact Or.inr (Or.inl ⟨c2, n2, hc2, by rw [k1]; exact e⟩)
      · by_cases k2 : cur = some k
        · obtain ⟨c2, n2, hc2, hn2, e⟩ := hW.slot lit k (hcur_mem k k2).1
          exact Or.inr (Or.inl ⟨c2, n2, hc2, e⟩)
        · by_cases k3 : k = c + j
          · refine Or.inr (Or.inr ⟨c, n, j, hc, by omega, hjn, k3, ?_, ?_⟩)
            · rw [hDB, if_neg k1, if_neg k2, if_pos k3]; exact hl0
            · rw [hDB, if_neg k1, if_neg k2, if_pos k3]; exact hl1
          · by_cases k4 : k = c + 1
            · refine Or.inr (Or.inr ⟨c, n, 1, hc, by omega, by omega, k4, ?_, ?_⟩)
              · rw [hDB, if_neg k1, if_neg k2, if_neg k3, if_pos k4]; exact hx0
              · rw [hDB, if_neg k1, if_neg k2, if_neg k3, if_pos k4]; exact hxr
            · by_cases k5 : k = c
              · refine Or.inr (Or.inr ⟨c, n, 0, hc, by omega, by omega, by omega, ?_, ?_⟩)
                · rw [hDB, if_neg k1, if_neg k2, if_neg k3, if_neg k4, if_pos k5]; exact ho.1
                · rw [hDB, if_neg k1, if_neg k2, if_neg k3, if_neg k4, if_pos k5]; exact ho.2
              · exact Or.inl (hkeep k k1 k2 k3 k4 k5)
  have hUT : UnitsTrue T cl := by
    apply UnitsTrue_frame hndb hI.units
    intro c1 hc1
    have hne : c1 ≠ c := by
      intro e
      subst e
      have := hA.size_eq hc hc1
      omega
    have := hotherT c1 1 hc1 hne 0 (le_refl _) (by omega)
    rw [add_zero] at this
    exact this
  refine ⟨hCT, hUT, by rw [a7, a8]; exact ⟨p1, p2⟩, by rw [a4, a7]; exact hI.lit_eq, hwl_lit,
    hI.cursor, ?_, ?_, ?_⟩
  · -- the two-watched-literal invariant
    intro c1 n1 hc1 hn1 s0 s2 a o2 hss h0 h2 p p0 pa hp hd
    rw [a8] at pa
    rw [a4] at hp
    rw [a7] at hd
    rcases (hmem a s0).1 h0 with ⟨e1, e2⟩ | ⟨e1, e2⟩
    · exfalso
      have := hT.fals_on p p0 pa
      rw [hp, e2] at this
      exact this hxf
    · have hd' : p < S.processed - 1 ∨ (p = S.processed - 1 ∧ s0 ∉ s :: post) := by
        rcases hd with hd | ⟨hd1, hd2⟩
        · exact Or.inl hd
        · refine Or.inr ⟨hd1, ?_⟩
          intro h
          rcases List.mem_cons.1 h with e | e
          · exact e1 e
          · exact hd2 e
      rcases (hmem o2 s2).1 h2 with ⟨e3, e4⟩ | ⟨e3, e4⟩
      · exfalso
        have hs0 : s2 ∈ wl lit := by rw [e3]; exact hs_mem
        obtain ⟨⟨q, q0, q1, q2, -⟩, -⟩ := hI.tw c1 n1 hc1 hn1 s0 s2 a lit hss e2 hs0 p p0 pa hp hd'
        have hpl := hI.lit_eq
        exact hT.no_compl q (S.processed - 1) q0 q1 (by omega) (by omega) (by rw [q2, hpl])
      · obtain ⟨⟨q, q0, q1, q2, q3⟩, hnw⟩ :=
          hI.tw c1 n1 hc1 hn1 s0 s2 a o2 hss e2 e4 p p0 pa hp hd'
        have hcc : c1 ≠ c := by
          intro e
          subst e
          rcases hs with ⟨b1, b2⟩ | ⟨b1, b2⟩ <;> rcases hss with ⟨b3, b4⟩ | ⟨b3, b4⟩ <;> omega
        refine ⟨⟨q, q0, by rw [a8]; exact q1, by rw [a4]; exact q2,
          (levelLE_nonDB hndb q p).2 q3⟩, ?_⟩
        intro m m0 m1
        obtain ⟨r, r0, r1, r2, r3⟩ := hnw m m0 m1
        exact ⟨r, r0, by rw [a8]; exact r1,
          by rw [a4, hotherT c1 n1 hc1 hcc m (by omega) (by omega)]; exact r2,
          (levelLE_nonDB hndb r p).2 r3⟩
  · intro k k0 k1
    rw [a7] at k0
    rw [a8] at k1
    rw [hasReason_nonDB hndb]
    exact hI.allr k k0 k1
  · rw [a8, a6, a7]
    exact hI.mode

theorem levelLE_top {S : solver} {P1 : Int} (hall : ∀ k, P1 < k → k < S.assigned → hasReason S k)
    (r : Int) (hr : r < S.assigned) : levelLE S r P1 := by
  by_cases h : r ≤ P1
  · exact Or.inl h
  · exact Or.inr (fun k k0 k1 => hall k k0 (by omega))

/-- The watch that has just been visited is done. -/
theorem done_tw {X : solver} {cl : List (Int × Int)} {wl : Int → List Int} (hA : Arena X cl)
    (hW : Watches X cl wl) {c n s s1 o P1 : Int} (hc : (c, n) ∈ cl)
    (hs : (s = c - 2 ∧ s1 = c - 1) ∨ (s = c - 1 ∧ s1 = c - 2)) (hso : s1 ∈ wl o)
    (hq : ∃ q, 0 ≤ q ∧ q < X.assigned ∧ X.falseStack q = -o ∧ levelLE X q P1)
    (hnw : ∀ m, 2 ≤ m → m < n →
      ∃ r, 0 ≤ r ∧ r < X.assigned ∧ X.falseStack r = X.DB (c + m) ∧ levelLE X r P1) :
    TwoWatch X cl wl (fun p s0 => p = P1 ∧ s0 = s) := by
  intro c1 n1 hc1 hn1 s0 s2 a o2 hss h0 h2 p p0 pa hp hd
  obtain ⟨hd1, hd2⟩ := hd
  subst hd1 hd2
  have hcc : c1 = c ∧ n1 = n ∧ s2 = s1 := by
    have h := hA.slot_eq hc1 hc
    rcases hs with ⟨b1, b2⟩ | ⟨b1, b2⟩ <;> rcases hss with ⟨b3, b4⟩ | ⟨b3, b4⟩
    · obtain ⟨e1, e2, -⟩ := h 2 2 (Or.inr rfl) (Or.inr rfl) (by omega)
      exact ⟨e1, e2, by omega⟩
    · obtain ⟨e1, e2, e3⟩ := h 1 2 (Or.inl rfl) (Or.inr rfl) (by omega)
      omega
    · obtain ⟨e1, e2, e3⟩ := h 2 1 (Or.inr rfl) (Or.inl rfl) (by omega)
      omega
    · obtain ⟨e1, e2, -⟩ := h 1 1 (Or.inl rfl) (Or.inl rfl) (by omega)
      exact ⟨e1, e2, by omega⟩
  obtain ⟨e1, e2, e3⟩ := hcc
  subst e1 e2 e3
  have ho : o2 = o := hW.uniq _ _ s2 h2 hso
  subst ho
  exact ⟨hq, hnw⟩

/-- The state of the visited clause when the scan found no replacement. -/
theorem unit_setup {S : solver} {cl : List (Int × Int)} {wl : Int → List Int} {b : Int}
    {flag : Bool} {lit : Int} {watch : Watch} {pre post : List Int} {s : Int}
    (hI : WLInv S cl wl b flag lit watch pre (s :: post)) {c n s1 o : Int}
    (hc : (c, n) ∈ cl) (hn : 2 ≤ n)
    (hs : (s = c - 2 ∧ s1 = c - 1) ∨ (s = c - 1 ∧ s1 = c - 2)) (hso : s1 ∈ wl o)
    (hv : (S.DB c = lit ∧ S.DB (c + 1) = o) ∨ (S.DB c = o ∧ S.DB (c + 1) = lit))
    (hrd : rdW S watch = s) :
    Core (unitForm S c lit) cl wl b ∧ UnitsTrue (unitForm S c lit) cl ∧
    nonDB (unitForm S c lit) = nonDB S ∧ (unitForm S c lit).DB c = o ∧
    (unitForm S c lit).DB (c + 1) = lit ∧
    (∀ c1 n1, (c1, n1) ∈ cl → ∀ m, 2 ≤ m → m ≤ n1 →
      (unitForm S c lit).DB (c1 + m) = S.DB (c1 + m)) ∧
    rdW (unitForm S c lit) watch = s ∧
    TwoWatch (unitForm S c lit) cl wl
      (fun p s0 => p < S.processed - 1 ∨ (p = S.processed - 1 ∧ s0 ∉ s :: post)) ∧
    S.fals lit ≠ 0 := by
  have hC := hI.core
  have hT := hC.trail
  have hA := hC.arena
  have hW := hC.watches
  obtain ⟨p1, p2⟩ := hI.proc
  have hsp := hI.split
  have hs_mem : s ∈ wl lit := by rw [hsp]; simp
  have hlf : S.fals lit ≠ 0 := by
    have := hT.fals_on (S.processed - 1) (by omega) (by omega)
    rw [hI.lit_eq] at this
    exact this
  obtain ⟨hl0, hl1⟩ := hT.range (S.processed - 1) (by omega) (by omega)
  rw [hI.lit_eq] at hl0 hl1
  have hDB := unitForm_DB S c lit o hv
  have hrest := unitForm_rest hA hc hv
  refine ⟨unitForm_core hC hc hn ⟨hl0, hl1⟩ hlf hs hs_mem hso hv,
    unitForm_units hA hI.units hc hn hv, nonDB_unitForm S c lit,
    by rw [hDB, if_neg (by omega), if_pos rfl], by rw [hDB, if_pos rfl], hrest, ?_,
    TwoWatch_frame (nonDB_unitForm S c lit) hI.tw
      (fun c1 n1 hc1 m m0 m1 => hrest c1 n1 hc1 m m0 (by omega)), hlf⟩
  rcases hI.cursor with ⟨e1, e2⟩ | ⟨pre1, sl, e1, e2⟩
  · subst e2
    show (unitForm S c lit).first lit = s
    rw [first_unitForm]
    exact hrd
  · subst e2
    show (unitForm S c lit).DB sl = s
    have hslm : sl ∈ wl lit := by rw [hsp, e1]; simp
    obtain ⟨c1, n1, hc1, hn1, e⟩ := hW.slot lit sl hslm
    have e0 := hA.lit_ne_slot hc hc1 0 (by omega) (by omega)
    have e1 := hA.lit_ne_slot hc hc1 1 (by omega) (by omega)
    rw [hDB, if_neg (by omega), if_neg (by omega)]
    exact hrd

/-- The visited clause is satisfied by its other watched literal: the loop goes
on with the next slot. -/
theorem unit_keep_inv {S : solver} {cl : List (Int × Int)} {wl : Int → List Int} {b : Int}
    {flag : Bool} {lit : Int} {watch : Watch} {pre post : List Int} {s : Int}
    (hI : WLInv S cl wl b flag lit watch pre (s :: post)) {c n s1 o : Int}
    (hc : (c, n) ∈ cl) (hn : 2 ≤ n)
    (hs : (s = c - 2 ∧ s1 = c - 1) ∨ (s = c - 1 ∧ s1 = c - 2)) (hso : s1 ∈ wl o)
    (hv : (S.DB c = lit ∧ S.DB (c + 1) = o) ∨ (S.DB c = o ∧ S.DB (c + 1) = lit))
    (hrd : rdW S watch = s)
    (hnw : ∀ m, 2 ≤ m → m < n → S.fals (S.DB (c + m)) ≠ 0) (hot : S.fals (-o) ≠ 0) :
    WLInv (unitForm S c lit) cl wl b flag lit (Watch.db s) (pre ++ [s]) post := by
  obtain ⟨hC3, hU3, hnd, d0, d1, drest, hrd3, htw3, hlf⟩ := unit_setup hI hc hn hs hso hv hrd
  obtain ⟨a1, a2, a3, a4, a5, a6, a7, a8, a9, a10⟩ := nonDB_fields hnd
  have hT := hI.core.trail
  obtain ⟨p1, p2⟩ := hI.proc
  have hall : ∀ k, S.processed - 1 < k → k < (unitForm S c lit).assigned →
      hasReason (unitForm S c lit) k := by
    intro k k0 k1
    rw [hasReason_nonDB hnd]
    exact hI.allr k k0 (by rw [← a8]; exact k1)
  have hnew : TwoWatch (unitForm S c lit) cl wl (fun p s0 => p = S.processed - 1 ∧ s0 = s) := by
    apply done_tw hC3.arena hC3.watches hc hs hso
    · obtain ⟨q, q0, q1, q2⟩ := hT.on_fals _ hot
      exact ⟨q, q0, by rw [a8]; exact q1, by rw [a4]; exact q2,
        levelLE_top hall q (by rw [a8]; exact q1)⟩
    · intro m m0 m1
      obtain ⟨r, r0, r1, r2⟩ := hT.on_fals _ (hnw m m0 m1)
      exact ⟨r, r0, by rw [a8]; exact r1, by rw [a4, drest c n hc m m0 (by omega)]; exact r2,
        levelLE_top hall r (by rw [a8]; exact r1)⟩
  refine ⟨hC3, hU3, by rw [a7, a8]; exact ⟨p1, p2⟩, by rw [a4, a7]; exact hI.lit_eq,
    by rw [hI.split]; simp, Or.inr ⟨pre, s, rfl, rfl⟩, ?_, ?_, ?_⟩
  · refine TwoWatch_mono (TwoWatch_or htw3 hnew) ?_
    intro p s0 hd
    rw [a7] at hd
    rcases hd with hd | ⟨hd1, hd2⟩
    · exact Or.inl (Or.inl hd)
    · by_cases hss : s0 = s
      · exact Or.inr ⟨hd1, hss⟩
      · refine Or.inl (Or.inr ⟨hd1, ?_⟩)
        intro h
        rcases List.mem_cons.1 h with e | e
        · exact hss e
        · exact hd2 e
  · intro k k0 k1
    rw [a7] at k0
    exact hall k k0 k1
  · rw [a8, a6, a7]
    exact hI.mode

/-- The visited clause is unit: its other watched literal is assigned with the
clause as reason, and the loop goes on with the next slot. -/
theorem unit_assign_inv {S : solver} {cl : List (Int × Int)} {wl : Int → List Int} {b : Int}
    {flag : Bool} {lit : Int} {watch : Watch} {pre post : List Int} {s : Int}
    (hI : WLInv S cl wl b flag lit watch pre (s :: post)) {c n s1 o : Int}
    (hc : (c, n) ∈ cl) (hn : 2 ≤ n)
    (hs : (s = c - 2 ∧ s1 = c - 1) ∨ (s = c - 1 ∧ s1 = c - 2)) (hso : s1 ∈ wl o)
    (hv : (S.DB c = lit ∧ S.DB (c + 1) = o) ∨ (S.DB c = o ∧ S.DB (c + 1) = lit))
    (hrd : rdW S watch = s)
    (hnw : ∀ m, 2 ≤ m → m < n → S.fals (S.DB (c + m)) ≠ 0)
    (h1 : S.fals o = 0) (h2 : S.fals (-o) = 0) :
    WLInv (assign (unitForm S c lit) c flag) cl wl (if flag = true then S.assigned + 1 else b)
      flag lit (Watch.db s) (pre ++ [s]) post := by
  obtain ⟨hC3, hU3, hnd, d0, d1, drest, hrd3, htw3, hlf⟩ := unit_setup hI hc hn hs hso hv hrd
  obtain ⟨a1, a2, a3, a4, a5, a6, a7, a8, a9, a10⟩ := nonDB_fields hnd
  have hT := hI.core.trail
  have hT3 := hC3.trail
  obtain ⟨p1, p2⟩ := hI.proc
  have hf0 := hT.forced_nonneg
  have hfl := hT.forced_le
  have h1' : (unitForm S c lit).fals ((unitForm S c lit).DB c) = 0 := by rw [d0, a5]; exact h1
  have h2' : (unitForm S c lit).fals (-((unitForm S c lit).DB c)) = 0 := by
    rw [d0, a5]; exact h2
  have hall3 : ∀ k, S.processed - 1 < k → k < (unitForm S c lit).assigned →
      hasReason (unitForm S c lit) k := by
    intro k k0 k1
    rw [hasReason_nonDB hnd]
    exact hI.allr k k0 (by rw [← a8]; exact k1)
  have hb0 : 0 ≤ b := by
    rcases hI.mode with ⟨-, e⟩ | ⟨-, e, -⟩ <;> omega
  have hoth : ∀ m, 1 ≤ m → m < n →
      (unitForm S c lit).fals ((unitForm S c lit).DB (c + m)) ≠ 0 := by
    intro m m0 m1
    rw [a5]
    by_cases hm : m = 1
    · rw [hm, d1]; exact hlf
    · rw [drest c n hc m (by omega) (by omega)]
      exact hnw m (by omega) m1
  have hmode : (flag = true ∧ b = (unitForm S c lit).assigned) ∨
      (flag = false ∧ b < (unitForm S c lit).assigned ∧ ∃ m j, 1 ≤ m ∧ m < n ∧ 0 ≤ j ∧
        j < (unitForm S c lit).assigned ∧
        (unitForm S c lit).falseStack j = (unitForm S c lit).DB (c + m) ∧
        ∀ k, j < k → k < (unitForm S c lit).assigned → hasReason (unitForm S c lit) k) := by
    rcases hI.mode with ⟨e1, e2⟩ | ⟨e1, e2, e3⟩
    · exact Or.inl ⟨e1, by rw [a8]; exact e2⟩
    · refine Or.inr ⟨e1, by rw [a8]; omega, 1, S.processed - 1, le_refl _, by omega, by omega,
        by rw [a8]; omega, by rw [a4, d1]; exact hI.lit_eq, hall3⟩
  have hC4 := assign_core flag hC3 hc hb0 h1' h2' hoth hmode
  rw [a8] at hC4
  have hfs : ∀ i, i < S.assigned →
      (assign (unitForm S c lit) c flag).falseStack i = S.falseStack i := by
    intro i hi
    show upd (unitForm S c lit).falseStack (unitForm S c lit).assigned _ i = _
    rw [upd_other _ _ (by rw [a8]; omega), a4]
  have htop : (assign (unitForm S c lit) c flag).falseStack S.assigned = -o := by
    show upd (unitForm S c lit).falseStack (unitForm S c lit).assigned _ S.assigned = _
    rw [a8, upd_same, d0]
  have hasg : (assign (unitForm S c lit) c flag).assigned = S.assigned + 1 := by
    show (unitForm S c lit).assigned + 1 = _
    rw [a8]
  have hproc : (assign (unitForm S c lit) c flag).processed = S.processed := a7
  have hcne : c ≠ 0 := by have := hI.core.arena.lo c n hc; have := hT.nvars; omega
  have hall4 : ∀ k, S.processed - 1 < k → k < (assign (unitForm S c lit) c flag).assigned →
      hasReason (assign (unitForm S c lit) c flag) k := by
    intro k k0 k1
    rw [hasg] at k1
    by_cases hk : k = S.assigned
    · rw [hk, ← a8]
      exact hasReason_assign_top flag hcne
    · rw [hasReason_assign hT3 flag h1' h2' k (by omega) (by rw [a8]; omega)]
      exact hall3 k k0 (by rw [a8]; omega)
  have hold : TwoWatch (assign (unitForm S c lit) c flag) cl wl
      (fun p s0 => p < S.processed - 1 ∨ (p = S.processed - 1 ∧ s0 ∉ s :: post)) := by
    apply TwoWatch_assign flag hT3 h1' h2' _ htw3
    intro p s0 hd
    rw [a8]
    rcases hd with hd | ⟨hd, -⟩ <;> omega
  have hnew : TwoWatch (assign (unitForm S c lit) c flag) cl wl
      (fun p s0 => p = S.processed - 1 ∧ s0 = s) := by
    apply done_tw hC4.arena hC4.watches hc hs hso
    · exact ⟨S.assigned, by omega, by rw [hasg]; omega, htop,
        levelLE_top hall4 _ (by rw [hasg]; omega)⟩
    · intro m m0 m1
      obtain ⟨r, r0, r1, r2⟩ := hT.on_fals _ (hnw m m0 m1)
      refine ⟨r, r0, by rw [hasg]; omega, ?_, levelLE_top hall4 r (by rw [hasg]; omega)⟩
      rw [hfs r r1]
      show _ = (unitForm S c lit).DB (c + m)
      rw [drest c n hc m m0 (by omega)]
      exact r2
  refine ⟨hC4, UnitsTrue_assign flag hU3 h2', by rw [hproc, hasg]; exact ⟨p1, by omega⟩,
    by rw [hproc, hfs _ (by omega)]; exact hI.lit_eq,
    by rw [hI.split]; simp, Or.inr ⟨pre, s, rfl, rfl⟩, ?_, ?_, ?_⟩
  · refine TwoWatch_mono (TwoWatch_or hold hnew) ?_
    intro p s0 hd
    rw [hproc] at hd
    rcases hd with hd | ⟨hd1, hd2⟩
    · exact Or.inl (Or.inl hd)
    · by_cases hss : s0 = s
      · exact Or.inr ⟨hd1, hss⟩
      · refine Or.inl (Or.inr ⟨hd1, ?_⟩)
        intro h
        rcases List.mem_cons.1 h with e | e
        · exact hss e
        · exact hd2 e
  · intro k k0 k1
    rw [hproc] at k0
    exact hall4 k k0 k1
  · rw [hasg, hproc]
    show _ ∨ (_ ∧ _ = (unitForm S c lit).forced ∧ (unitForm S c lit).forced ≤ _)
    rw [a6]
    rcases hI.mode with ⟨e1, e2⟩ | ⟨e1, e2, e3⟩
    · exact Or.inl ⟨e1, by rw [if_pos e1]⟩
    · exact Or.inr ⟨e1, by rw [if_neg (by rw [e1]; decide)]; exact e2, e3⟩

theorem mem_wlAdd (wl : Int → List Int) (l0 l1 mu l t : Int) :
    t ∈ wlAdd wl l0 l1 mu l ↔ (t = mu + 1 ∧ l = l1) ∨ (t = mu ∧ l = l0) ∨ t ∈ wl l := by
  unfold wlAdd
  rw [List.mem_append, List.mem_append]
  constructor
  · rintro (h | h | h)
    · by_cases h1 : l = l1
      · rw [if_pos h1] at h; exact Or.inl ⟨List.mem_singleton.1 h, h1⟩
      · rw [if_neg h1] at h; cases h
    · by_cases h0 : l = l0
      · rw [if_pos h0] at h; exact Or.inr (Or.inl ⟨List.mem_singleton.1 h, h0⟩)
      · rw [if_neg h0] at h; cases h
    · exact Or.inr (Or.inr h)
  · rintro (⟨e1, e2⟩ | ⟨e1, e2⟩ | h)
    · left; rw [if_pos e2, e1]; exact List.mem_singleton.2 rfl
    · right; left; rw [if_pos e2, e1]; exact List.mem_singleton.2 rfl
    · right; right; exact h

/-- The clause records and watch lists after `addClause` stored a clause of
`size` literals of the formula at the end of the arena. -/
theorem added_clause {S T : solver} {cl : List (Int × Int)} {wl : Int → List Int} {size : Int}
    (hA : Arena S cl) (hW : Watches S cl wl) (hnv1 : 1 ≤ S.nVars) (hsz : 1 ≤ size)
    (hnv : T.nVars = S.nVars) (hmem : T.mem_used = S.mem_used + (size + 3))
    (hold : ∀ j, j < S.mem_used → T.DB j = S.DB j)
    (hlits : ∀ k, 0 ≤ k → k < size →
      T.DB (S.mem_used + 2 + k) ≠ 0 ∧ iabs (T.DB (S.mem_used + 2 + k)) ≤ S.nVars)
    (hterm : T.DB (S.mem_used + 2 + size) = 0)
    (hmany : 1 < size →
      T.first = upd (upd S.first (T.DB (S.mem_used + 2)) S.mem_used)
        (T.DB (S.mem_used + 2 + 1)) (S.mem_used + 1) ∧
      T.DB S.mem_used = S.first (T.DB (S.mem_used + 2)) ∧
      T.DB (S.mem_used + 1) =
        upd S.first (T.DB (S.mem_used + 2)) S.mem_used (T.DB (S.mem_used + 2 + 1)))
    (hunit : size ≤ 1 → T.first = S.first) :
    Arena T (cl ++ [(S.mem_used + 2, size)]) ∧
    Watches T (cl ++ [(S.mem_used + 2, size)])
      (if 2 ≤ size then wlAdd wl (T.DB (S.mem_used + 2)) (T.DB (S.mem_used + 2 + 1)) S.mem_used
        else wl) := by
  have hmemcl : ∀ c n, (c, n) ∈ cl ++ [(S.mem_used + 2, size)] ↔
      (c, n) ∈ cl ∨ (c = S.mem_used + 2 ∧ n = size) := by
    intro c n
    simp [List.mem_append]
  have holdc : ∀ c n, (c, n) ∈ cl → ∀ m, -3 ≤ m → m ≤ n → T.DB (c + m) = S.DB (c + m) := by
    intro c n hc m m0 m1
    have := hA.lo c n hc
    exact hold _ (by omega)
  have hArena : Arena T (cl ++ [(S.mem_used + 2, size)]) := by
    have hu := hA.used
    refine ⟨by rw [hnv, hmem]; omega, ?_, ?_, ?_, ?_, ?_, ?_, ?_⟩
    · intro c n hc
      rw [hnv, hmem]
      rcases (hmemcl c n).1 hc with h | ⟨e1, e2⟩
      · have := hA.lo c n h; omega
      · omega
    · intro c n c1 n1 hc hc1
      rcases (hmemcl c n).1 hc with h | ⟨e1, e2⟩ <;>
        rcases (hmemcl c1 n1).1 hc1 with h1 | ⟨e3, e4⟩
      · exact hA.sep c n c1 n1 h h1
      · have := hA.lo c n h; omega
      · have := hA.lo c1 n1 h1; omega
      · omega
    · intro j j0 j1
      rw [hnv] at j0
      rw [hmem] at j1
      by_cases hj : j < S.mem_used
      · obtain ⟨c, n, hc, e1, e2⟩ := hA.cover j j0 hj
        exact ⟨c, n, (hmemcl c n).2 (Or.inl hc), e1, e2⟩
      · exact ⟨S.mem_used + 2, size, (hmemcl _ _).2 (Or.inr ⟨rfl, rfl⟩), by omega, by omega⟩
    · intro c n hc
      rcases (hmemcl c n).1 hc with h | ⟨e1, e2⟩
      · obtain ⟨b1, b2, b3⟩ := hA.cls c n h
        refine ⟨b1, ?_, ?_⟩
        · intro m m0 m1
          rw [holdc c n h m (by omega) (by omega)]
          exact b2 m m0 m1
        · rw [holdc c n h n (by omega) (le_refl _)]
          exact b3
      · subst e1 e2
        exact ⟨hsz, fun m m0 m1 => (hlits m m0 m1).1, hterm⟩
    · intro c n hc m m0 m1
      rw [hnv]
      rcases (hmemcl c n).1 hc with h | ⟨e1, e2⟩
      · rw [holdc c n h m (by omega) (by omega)]
        exact hA.rng c n h m m0 m1
      · subst e1 e2
        exact (hlits m m0 m1).2
    · intro c n hc
      rcases (hmemcl c n).1 hc with h | ⟨e1, e2⟩
      · have := holdc c n h (-3) (le_refl _) (by have := hA.lo c n h; omega)
        have e : c + -3 = c - 3 := by omega
        rw [e] at this
        rw [this]
        exact hA.pre0 c n h
      · subst e1
        have e : S.mem_used + 2 - 3 = S.mem_used - 1 := by omega
        rw [e, hold _ (by omega)]
        exact hA.last0
    · rw [hmem]
      have e : S.mem_used + (size + 3) - 1 = S.mem_used + 2 + size := by omega
      rw [e]
      exact hterm
  refine ⟨hArena, ?_⟩
  have hslotlt : ∀ l t, t ∈ wl l → t < S.mem_used ∧ T.DB t = S.DB t := by
    intro l t ht
    have := hW.slot_pos hA hnv1 ht
    exact ⟨this.2, hold t this.2⟩
  by_cases hs2 : 2 ≤ size
  · rw [if_pos hs2]
    obtain ⟨f1, f2, f3⟩ := hmany (by omega)
    have hl0 := hlits 0 (le_refl _) (by omega)
    have hl1 := hlits 1 (by omega) (by omega)
    rw [add_zero] at hl0
    obtain ⟨l0, hl0def⟩ : ∃ l0, T.DB (S.mem_used + 2) = l0 := ⟨_, rfl⟩
    obtain ⟨l1, hl1def⟩ : ∃ l1, T.DB (S.mem_used + 2 + 1) = l1 := ⟨_, rfl⟩
    rw [hl0def] at hl0 f2
    rw [hl1def] at hl1
    rw [hl0def, hl1def] at f1 f3 ⊢
    have hm := mem_wlAdd wl l0 l1 S.mem_used
    refine ⟨?_, ?_, ?_, ?_, ?_⟩
    · intro l hlne hlr
      rw [hnv] at hlr
      have hch := hW.chain l hlne hlr
      have hch' : IsSeg T.DB (S.first l) (wl l) END := by
        rw [IsSeg_congr (wl l) _ _ (fun t ht => (hslotlt l t ht).2)]
        exact hch
      unfold wlAdd
      rw [f1]
      by_cases h1 : l = l1
      · by_cases h0 : l = l0
        · rw [if_pos h1, if_pos h0]
          have e01 : l1 = l0 := by rw [← h1, h0]
          show IsSeg T.DB _ ((S.mem_used + 1) :: S.mem_used :: wl l) END
          refine ⟨by rw [h1, upd_same], ?_, ?_⟩
          · rw [f3, e01, upd_same]
          · rw [f2, ← h0]
            exact hch'
        · rw [if_pos h1, if_neg h0]
          show IsSeg T.DB _ ((S.mem_used + 1) :: wl l) END
          refine ⟨by rw [h1, upd_same], ?_⟩
          rw [f3, upd_other _ _ (by rw [← h1]; exact h0), ← h1]
          exact hch'
      · by_cases h0 : l = l0
        · rw [if_neg h1, if_pos h0]
          show IsSeg T.DB _ (S.mem_used :: wl l) END
          refine ⟨by rw [upd_other _ _ h1, h0, upd_same], ?_⟩
          rw [f2, ← h0]
          exact hch'
        · rw [if_neg h1, if_neg h0]
          show IsSeg T.DB _ (wl l) END
          rw [upd_other _ _ h1, upd_other _ _ h0]
          exact hch'
    · intro l t ht
      rcases (hm l t).1 ht with ⟨e1, e2⟩ | ⟨e1, e2⟩ | h
      · exact ⟨S.mem_used + 2, size, (hmemcl _ _).2 (Or.inr ⟨rfl, rfl⟩), hs2, Or.inr (by omega)⟩
      · exact ⟨S.mem_used + 2, size, (hmemcl _ _).2 (Or.inr ⟨rfl, rfl⟩), hs2, Or.inl (by omega)⟩
      · obtain ⟨c, n, hc, hn, e⟩ := hW.slot l t h
        exact ⟨c, n, (hmemcl _ _).2 (Or.inl hc), hn, e⟩
    · intro l
      have hnd := hW.nodup l
      have hn0 : S.mem_used ∉ wl l := fun h => by have := (hslotlt l _ h).1; omega
      have hn1 : S.mem_used + 1 ∉ wl l := fun h => by have := (hslotlt l _ h).1; omega
      unfold wlAdd
      by_cases h1 : l = l1 <;> by_cases h0 : l = l0
      · rw [if_pos h1, if_pos h0]
        show ((S.mem_used + 1) :: S.mem_used :: wl l).Nodup
        refine List.nodup_cons.2 ⟨?_, List.nodup_cons.2 ⟨hn0, hnd⟩⟩
        intro h
        rcases List.mem_cons.1 h with e | e
        · omega
        · exact hn1 e
      · rw [if_pos h1, if_neg h0]
        exact List.nodup_cons.2 ⟨hn1, hnd⟩
      · rw [if_neg h1, if_pos h0]
        exact List.nodup_cons.2 ⟨hn0, hnd⟩
      · rw [if_neg h1, if_neg h0]
        exact hnd
    · intro l l2 t h1 h2
      rcases (hm l t).1 h1 with ⟨e1, e2⟩ | ⟨e1, e2⟩ | h <;>
        rcases (hm l2 t).1 h2 with ⟨e3, e4⟩ | ⟨e3, e4⟩ | h3
      · rw [e2, e4]
      · omega
      · have := (hslotlt l2 t h3).1; omega
      · omega
      · rw [e2, e4]
      · have := (hslotlt l2 t h3).1; omega
      · have := (hslotlt l t h).1; omega
      · have := (hslotlt l t h).1; omega
      · exact hW.uniq l l2 t h h3
    · intro c n hc hn
      rcases (hmemcl c n).1 hc with h | ⟨e1, e2⟩
      · have e0 := holdc c n h 0 (by omega) (by omega)
        have e1 := holdc c n h 1 (by omega) (by omega)
        rw [add_zero] at e0
        rw [e0, e1]
        rcases hW.own c n h hn with ⟨b1, b2⟩ | ⟨b1, b2⟩
        · exact Or.inl ⟨(hm _ _).2 (Or.inr (Or.inr b1)), (hm _ _).2 (Or.inr (Or.inr b2))⟩
        · exact Or.inr ⟨(hm _ _).2 (Or.inr (Or.inr b1)), (hm _ _).2 (Or.inr (Or.inr b2))⟩
      · subst e1 e2
        rw [hl0def, hl1def]
        exact Or.inl ⟨(hm l0 _).2 (Or.inr (Or.inl ⟨by omega, rfl⟩)),
          (hm l1 _).2 (Or.inl ⟨by omega, rfl⟩)⟩
  · rw [if_neg hs2]
    have hf := hunit (by omega)
    refine ⟨?_, ?_, hW.nodup, hW.uniq, ?_⟩
    · intro l hlne hlr
      rw [hnv] at hlr
      rw [hf, IsSeg_congr (wl l) _ _ (fun t ht => (hslotlt l t ht).2)]
      exact hW.chain l hlne hlr
    · intro l t ht
      obtain ⟨c, n, hc, hn, e⟩ := hW.slot l t ht
      exact ⟨c, n, (hmemcl _ _).2 (Or.inl hc), hn, e⟩
    · intro c n hc hn
      rcases (hmemcl c n).1 hc with h | ⟨e1, e2⟩
      · have e0 := holdc c n h 0 (by omega) (by omega)
        have e1 := holdc c n h 1 (by omega) (by omega)
        rw [add_zero] at e0
        rw [e0, e1]
        exact hW.own c n h hn
      · omega

theorem hasReason_congr {S T : solver} (h1 : T.reason = S.reason)
    (h2 : T.falseStack = S.falseStack) (k : Int) : hasReason T k ↔ hasReason S k := by
  unfold hasReason
  rw [h1, h2]

/-- The state `analyze` returns satisfies the invariant for the clause records
extended by the lemma, except that the first literal of the lemma is not yet
assigned. -/
theorem learn_core {X T : solver} {cl : List (Int × Int)} {wl : Int → List Int}
    {lem size u P : Int} (hC : Core X cl wl X.forced) (hP : AnalyzePost X lem T size u P) :
    Core T (cl ++ [(X.mem_used + 2, size)])
      (if 2 ≤ size then wlAdd wl (T.DB (X.mem_used + 2)) (T.DB (X.mem_used + 2 + 1)) X.mem_used
        else wl) X.forced := by
  have hT := hC.trail
  have hA := hC.arena
  have hf0 := hT.forced_nonneg
  obtain ⟨u1, u2, u3⟩ := hP.up
  obtain ⟨k1, k2, k3, k4, -⟩ := hP.keep
  have hlem := hP.lem_eq
  subst hlem
  have hhr := hasReason_congr k2 k1
  have hlit : ∀ k, 0 ≤ k → k < size → T.DB (X.mem_used + 2 + k) ≠ 0 ∧
      iabs (T.DB (X.mem_used + 2 + k)) ≤ X.nVars := by
    intro k k0 kk
    obtain ⟨i, a1, a2, a3, -⟩ := hP.lits k k0 kk
    rw [a3]
    exact hT.range i (by omega) (by omega)
  obtain ⟨hAT, hWT⟩ := added_clause hA hC.watches hT.nvars hP.size1 k4 hP.mem hP.db_old hlit
    hP.db_term hP.first_many hP.first_unit
  have hfalsT : ∀ i, 0 ≤ i → i < P → T.fals (X.falseStack i) ≠ 0 := by
    intro i i0 i1
    by_cases hi : i < X.forced
    · rw [hP.fals_low i i0 hi]; decide
    · rw [hP.fals_mid i (by omega) i1]; decide
  refine ⟨⟨by rw [k4]; exact hT.nvars, by rw [k3]; exact hf0, by rw [k3, hP.asg]; exact u1,
    ?_, ?_, ?_, ?_, ?_⟩, ⟨?_, ?_, ?_⟩, ?_, ?_, hP.vm, hAT, hWT⟩
  · intro i i0 i1
    rw [hP.asg] at i1
    rw [k1, k4]
    exact hT.range i i0 (by omega)
  · intro i i0 i1
    rw [hP.asg] at i1
    rw [k1]
    exact hfalsT i i0 i1
  · intro l hl
    obtain ⟨i, i0, i1, i2⟩ := hP.fals_seen l hl
    exact ⟨i, i0, by rw [hP.asg]; exact i1, by rw [k1]; exact i2⟩
  · intro l hl
    by_contra hc
    obtain ⟨i, i0, i1, i2⟩ := hP.fals_seen l hl
    obtain ⟨j, j0, j1, j2⟩ := hP.fals_seen (-l) hc
    exact hT.no_compl j i j0 (by omega) i0 (by omega) (by rw [j2, i2])
  · intro i j i0 i1 j0 j1 e
    rw [hP.asg] at i1 j1
    rw [k1] at e
    exact hT.inj i j i0 (by omega) j0 (by omega) e
  · intro i i0 i1
    rw [k1, hhr]
    exact ⟨hP.fals_low i i0 i1, (hC.levels.root i i0 i1).2⟩
  · intro i i0 i1
    rw [hP.asg] at i1
    rw [k1]
    exact hP.fals_mid i i0 i1
  · intro hb
    rw [hhr]
    exact hC.levels.first_dec (by omega)
  · intro i i0 i1 hr
    rw [hP.asg] at i1
    rw [hhr] at hr
    obtain ⟨n, r1, r2, r3, r4⟩ := hC.reasons i i0 (by omega) hr
    obtain ⟨n1, hn1⟩ := hC.rin i i0 (by omega) hr
    have hnn : n = n1 := clauseAt_size r1 (hA.cls _ _ hn1)
    subst hnn
    have hlo := hA.lo _ _ hn1
    have hcell : ∀ m, 0 ≤ m → m ≤ n →
        T.DB (X.reason (iabs (X.falseStack i)) + m) = X.DB (X.reason (iabs (X.falseStack i)) + m) :=
      fun m m0 m1 => hP.db_old _ (by omega)
    rw [k2, k1]
    refine ⟨n, ⟨r1.1, ?_, ?_⟩, ?_, ?_, ?_⟩
    · intro m m0 m1
      rw [hcell m m0 (by omega)]
      exact r1.2.1 m m0 m1
    · rw [hcell n (by omega) (le_refl _)]
      exact r1.2.2
    · have := hcell 0 (le_refl _) (by omega)
      rw [add_zero] at this
      rw [this]; exact r2
    · intro m m0 m1
      rw [hcell m (by omega) (by omega)]
      exact r3 m m0 m1
    · intro hb
      obtain ⟨m, j, m0, m1, j0, j1, e, hk⟩ := r4 hb
      refine ⟨m, j, m0, m1, j0, j1, by rw [hcell m (by omega) (by omega)]; exact e, ?_⟩
      intro k kk0 kk1
      rw [hhr]
      exact hk k kk0 kk1
  · intro i i0 i1 hr
    rw [hP.asg] at i1
    rw [hhr] at hr
    obtain ⟨n1, hn1⟩ := hC.rin i i0 (by omega) hr
    rw [k2, k1]
    exact ⟨n1, List.mem_append_left _ hn1⟩

/-- After a conflict, when the lemma is stored and its first literal assigned,
the invariant of the propagation loop holds again, for the clause records
extended by the lemma. -/
theorem learn_inv {X T : solver} {cl : List (Int × Int)} {wl : Int → List Int}
    {lem size u P P1 : Int} (hC : Core X cl wl X.forced) (hU : UnitsTrue X cl)
    (htw : TwoWatch X cl wl (fun p _ => p < P1)) (hP1 : P1 < X.assigned)
    (hall : ∀ k, P1 < k → k < X.assigned → hasReason X k)
    (hP : AnalyzePost X lem T size u P) :
    PLInv (assign T lem (if T.DB (lem + 1) = 0 then true else false))
      (cl ++ [(X.mem_used + 2, size)])
      (if 2 ≤ size then wlAdd wl (T.DB (X.mem_used + 2)) (T.DB (X.mem_used + 2 + 1)) X.mem_used
        else wl)
      (if (if T.DB (lem + 1) = 0 then true else false) = true then T.assigned + 1 else X.forced)
      (if T.DB (lem + 1) = 0 then true else false) := by
  have hCT := learn_core hC hP
  have hT := hC.trail
  have hTT := hCT.trail
  have hA := hC.arena
  have hf0 := hT.forced_nonneg
  obtain ⟨u1, u2, u3⟩ := hP.up
  obtain ⟨k1, k2, k3, k4, -⟩ := hP.keep
  have hasgT := hP.asg
  have hlem := hP.lem_eq
  subst hlem
  have hhr := hasReason_congr k2 k1
  have hPP1 : P ≤ P1 := by
    by_contra hc
    exact hP.pdec (hall P (by omega) (by omega))
  have hsz := hP.size1
  have hclause := hP.clause hT
  have hunit : T.DB (X.mem_used + 2 + 1) = 0 ↔ size = 1 := by
    constructor
    · intro hz
      by_contra hne
      exact hclause.2.1 1 (by omega) (by omega) hz
    · intro hs
      have := hP.db_term
      rw [hs] at this
      exact this
  obtain ⟨i0', e1, e2, e3, e4, -⟩ := hP.lits 0 (le_refl _) (by omega)
  have hi0 : i0' = u := e4 rfl
  subst hi0
  rw [add_zero] at e3
  have hrem := hP.removed hT i0' u2 u3
  have h1 : T.fals (T.DB (X.mem_used + 2)) = 0 := by rw [e3]; exact hrem.1
  have h2 : T.fals (-(T.DB (X.mem_used + 2))) = 0 := by rw [e3]; exact hrem.2
  have hoth : ∀ m, 1 ≤ m → m < size → T.fals (T.DB (X.mem_used + 2 + m)) ≠ 0 := by
    intro m m0 m1
    obtain ⟨i, a1, a2, a3, a4, a5, -⟩ := hP.lits m (by omega) m1
    rw [a3, hP.fals_mid i a1 (a5 m0)]
    decide
  have hmemnew : (X.mem_used + 2, size) ∈ cl ++ [(X.mem_used + 2, size)] := by simp
  generalize hfl : (if T.DB (X.mem_used + 2 + 1) = 0 then true else false) = fl
  have hflu : fl = true ↔ size = 1 := by
    rw [← hfl, ← hunit]
    by_cases hz : T.DB (X.mem_used + 2 + 1) = 0
    · rw [if_pos hz]; exact ⟨fun _ => hz, fun _ => rfl⟩
    · rw [if_neg hz]; exact ⟨fun h => (by cases h), fun h => absurd h hz⟩
  have hmode : (fl = true ∧ X.forced = T.assigned) ∨
      (fl = false ∧ X.forced < T.assigned ∧ ∃ m j, 1 ≤ m ∧ m < size ∧ 0 ≤ j ∧ j < T.assigned ∧
        T.falseStack j = T.DB (X.mem_used + 2 + m) ∧
        ∀ k, j < k → k < T.assigned → hasReason T k) := by
    by_cases hs : size = 1
    · exact Or.inl ⟨hflu.2 hs, by rw [hasgT, hP.unit hs]⟩
    · have hf : fl = false := by
        cases hfb : fl
        · rfl
        · exact absurd (hflu.1 hfb) hs
      obtain ⟨i1, b1, b2, b3, b4⟩ := hP.lev (by omega)
      refine Or.inr ⟨hf, by rw [hasgT]; omega, 1, i1, le_refl _, by omega, by omega,
        by rw [hasgT]; exact b2, by rw [k1]; exact b3.symm, ?_⟩
      intro k kk0 kk1
      rw [hasgT] at kk1
      rw [hhr]
      exact b4 k kk0 kk1
  have hCU := assign_core fl hCT hmemnew hf0 h1 h2 hoth hmode
  -- the trail of the new state
  have hfs : ∀ i, i < P → (assign T (X.mem_used + 2) fl).falseStack i = X.falseStack i := by
    intro i hi
    show upd T.falseStack T.assigned _ i = _
    rw [upd_other _ _ (by rw [hasgT]; omega), k1]
  have htop : (assign T (X.mem_used + 2) fl).falseStack P = -(T.DB (X.mem_used + 2)) := by
    show upd T.falseStack T.assigned _ P = _
    rw [hasgT, upd_same]
  have hasgU : (assign T (X.mem_used + 2) fl).assigned = P + 1 := by
    show T.assigned + 1 = _
    rw [hasgT]
  have hprocU : (assign T (X.mem_used + 2) fl).processed = P := hP.proc
  have hhrU : ∀ k, 0 ≤ k → k < P →
      (hasReason (assign T (X.mem_used + 2) fl) k ↔ hasReason X k) := by
    intro k kk0 kk1
    rw [hasReason_assign hTT fl h1 h2 k kk0 (by rw [hasgT]; exact kk1), hhr]
  have hhrtop : hasReason (assign T (X.mem_used + 2) fl) P := by
    have := hasReason_assign_top (S := T) (c := X.mem_used + 2) fl
      (by have := hA.used; have := hT.nvars; omega)
    rw [hasgT] at this
    exact this
  have hlev : ∀ q p, 0 ≤ p → q < P → levelLE X q p →
      levelLE (assign T (X.mem_used + 2) fl) q p := by
    intro q p p0 q1 hl
    rcases hl with a | a
    · exact Or.inl a
    · exact Or.inr (fun k kk0 kk1 => (hhrU k (by omega) (by omega)).2 (a k kk0 kk1))
  -- positions that stay are below the cut
  have hbelow : ∀ q p, 0 ≤ p → p < P → q < X.assigned → levelLE X q p → q < P := by
    intro q p p0 p1 q1 hl
    by_contra hc
    rcases hl with a | a
    · omega
    · exact hP.pdec (a P (by omega) (by omega))
  -- units
  have hunitsT : UnitsTrue T cl := by
    intro c1 hc1
    have hu := hU c1 hc1
    have hlo := hA.lo c1 1 hc1
    rw [hP.db_old c1 (by omega)]
    obtain ⟨i, i0, i1, i2⟩ := hT.on_fals _ (by rw [hu]; decide)
    have hif : i < X.forced := by
      by_contra hc
      have := hC.levels.upper i (by omega) i1
      rw [i2, hu] at this
      exact absurd this (by decide)
    rw [← i2]
    exact hP.fals_low i i0 hif
  have hunitsU : UnitsTrue (assign T (X.mem_used + 2) fl) (cl ++ [(X.mem_used + 2, size)]) := by
    intro c1 hc1
    rcases List.mem_append.1 hc1 with h | h
    · exact UnitsTrue_assign fl hunitsT h2 c1 h
    · simp only [List.mem_singleton, Prod.mk.injEq] at h
      obtain ⟨e5, e6⟩ := h
      subst e5
      show upd T.fals (-(T.DB (X.mem_used + 2))) (if fl = true then IMPLIED else 1)
        (-(T.DB (X.mem_used + 2))) = IMPLIED
      rw [upd_same, if_pos (hflu.2 e6.symm)]
  -- two watched literals
  have htwU : TwoWatch (assign T (X.mem_used + 2) fl) (cl ++ [(X.mem_used + 2, size)])
      (if 2 ≤ size then
        wlAdd wl (T.DB (X.mem_used + 2)) (T.DB (X.mem_used + 2 + 1)) X.mem_used else wl)
      (fun p _ => p < P) := by
    intro c1 n1 hc1 hn1 s0 s2 a o hss h0 h2' p p0 pa hp hd
    have hd' : p < P := hd
    rw [hfs p hd'] at hp
    rcases List.mem_append.1 hc1 with h | h
    · -- an old clause
      have hlo := hA.lo c1 n1 h
      have hold : ∀ t l, (t = c1 - 2 ∨ t = c1 - 1) →
          t ∈ (if 2 ≤ size then
            wlAdd wl (T.DB (X.mem_used + 2)) (T.DB (X.mem_used + 2 + 1)) X.mem_used else wl) l →
          t ∈ wl l := by
        intro t l ht hm
        by_cases hs2 : 2 ≤ size
        · rw [if_pos hs2] at hm
          rcases (mem_wlAdd _ _ _ _ _ _).1 hm with ⟨e5, -⟩ | ⟨e5, -⟩ | h5
          · omega
          · omega
          · exact h5
        · rw [if_neg hs2] at hm
          exact hm
      have h0' := hold s0 a (by omega) h0
      have h2'' := hold s2 o (by omega) h2'
      obtain ⟨⟨q, q0, q1, q2, q3⟩, hnw⟩ :=
        htw c1 n1 h hn1 s0 s2 a o hss h0' h2'' p p0 (by omega) hp (by omega)
      have hq := hbelow q p p0 hd' q1 q3
      refine ⟨⟨q, q0, by rw [hasgU]; omega, by rw [hfs q hq]; exact q2, hlev q p p0 hq q3⟩, ?_⟩
      intro m m0 m1
      obtain ⟨r, r0, r1, r2, r3⟩ := hnw m m0 m1
      have hr := hbelow r p p0 hd' r1 r3
      refine ⟨r, r0, by rw [hasgU]; omega, ?_, hlev r p p0 hr r3⟩
      rw [hfs r hr]
      show _ = T.DB (c1 + m)
      rw [hP.db_old _ (by omega)]
      exact r2
    · -- the lemma
      simp only [List.mem_singleton, Prod.mk.injEq] at h
      obtain ⟨e5, e6⟩ := h
      subst e5 e6
      have hWU := hCU.watches
      rw [if_pos hn1] at h0 h2' hWU
      have hm0 : X.mem_used + 2 - 2 ∈
          wlAdd wl (T.DB (X.mem_used + 2)) (T.DB (X.mem_used + 2 + 1)) X.mem_used
            (T.DB (X.mem_used + 2)) :=
        (mem_wlAdd _ _ _ _ _ _).2 (Or.inr (Or.inl ⟨by omega, rfl⟩))
      have hm1 : X.mem_used + 2 - 1 ∈
          wlAdd wl (T.DB (X.mem_used + 2)) (T.DB (X.mem_used + 2 + 1)) X.mem_used
            (T.DB (X.mem_used + 2 + 1)) :=
        (mem_wlAdd _ _ _ _ _ _).2 (Or.inl ⟨by omega, rfl⟩)
      rcases hss with ⟨b1, b2⟩ | ⟨b1, b2⟩
      · -- the slot of the first literal: it is not false
        subst b1 b2
        exfalso
        have ha : a = T.DB (X.mem_used + 2) := hWU.uniq _ _ _ h0 hm0
        rw [ha, e3] at hp
        have := hT.inj p i0' p0 (by omega) (by omega) u3 hp
        omega
      · subst b1 b2
        have ha : a = T.DB (X.mem_used + 2 + 1) := hWU.uniq _ _ _ h0 hm1
        have ho : o = T.DB (X.mem_used + 2) := hWU.uniq _ _ _ h2' hm0
        obtain ⟨i1, c1', c2', c3', c4'⟩ := hP.lev hn1
        have hpi : p = i1 := by
          rw [ha, c3'] at hp
          exact hT.inj p i1 p0 (by omega) (by omega) (by omega) hp
        subst hpi
        refine ⟨⟨P, by omega, by rw [hasgU]; omega, by rw [htop, ho], Or.inr ?_⟩, ?_⟩
        · intro k kk0 kk1
          by_cases hk : k = P
          · rw [hk]; exact hhrtop
          · exact (hhrU k (by omega) (by omega)).2 (c4' k kk0 (by omega))
        · intro m m0 m1
          obtain ⟨i, a1, a2, a3, a4, a5, a6⟩ := hP.lits 1 (by omega) (by omega)
          have hi : i = p := by
            rw [c3'] at a3
            exact hT.inj i p (by omega) (by omega) p0 (by omega) a3.symm
          subst hi
          obtain ⟨i2, d1, d2, d3⟩ := a6 m (by omega) m1
          refine ⟨i2, by omega, by rw [hasgU]; omega, ?_, Or.inl (by omega)⟩
          rw [hfs i2 (by omega)]
          exact d3.symm
  refine ⟨hCU, hunitsU, by rw [hprocU, hasgU]; omega, by rw [hprocU]; exact htwU, ?_, ?_⟩
  · intro k kk0 kk1
    rw [hprocU] at kk0
    rw [hasgU] at kk1
    omega
  · rw [hasgU, hprocU]
    show _ ∨ (_ ∧ _ = T.forced ∧ T.forced ≤ _)
    rw [k3]
    by_cases hf : fl = true
    · exact Or.inl ⟨hf, by rw [if_pos hf, hasgT]⟩
    · have hf' : fl = false := by
        cases hfb : fl
        · rfl
        · exact absurd hfb hf
      exact Or.inr ⟨hf', by rw [if_neg hf], u1⟩

/-- One round of the loop `while (*watch != END)`, case by case. -/
theorem watchLoop_cases (f : Nat) (S : solver) (lit : Int) (w : Watch) (forced : Bool)
    (fl : Flow) (h : watchLoop (f + 1) S lit w forced = Except.ok fl) :
    (rdW S w = END ∧ fl = Flow.go forced S) ∨
    (rdW S w ≠ END ∧ ∃ unit S2,
      scanLoop f (frontOther S (clauseOf S w) lit) (clauseOf S w) lit w 2 = Except.ok (unit, S2) ∧
      ((unit = false ∧ watchLoop f S2 lit w forced = Except.ok fl) ∨
       (unit = true ∧
        ((({ S2 with DB := upd S2.DB (clauseOf S w + 1) lit } : solver).fals
              (-(({ S2 with DB := upd S2.DB (clauseOf S w + 1) lit } : solver).DB (clauseOf S w)))
            ≠ 0 ∧
          watchLoop f { S2 with DB := upd S2.DB (clauseOf S w + 1) lit } lit
            (Watch.db (rdW ({ S2 with DB := upd S2.DB (clauseOf S w + 1) lit } : solver) w))
            forced = Except.ok fl) ∨
         (({ S2 with DB := upd S2.DB (clauseOf S w + 1) lit } : solver).fals
              (-(({ S2 with DB := upd S2.DB (clauseOf S w + 1) lit } : solver).DB (clauseOf S w)))
            = 0 ∧
          ({ S2 with DB := upd S2.DB (clauseOf S w + 1) lit } : solver).fals
              (({ S2 with DB := upd S2.DB (clauseOf S w + 1) lit } : solver).DB (clauseOf S w))
            = 0 ∧
          watchLoop f (assign { S2 with DB := upd S2.DB (clauseOf S w + 1) lit } (clauseOf S w)
              forced) lit
            (Watch.db (rdW ({ S2 with DB := upd S2.DB (clauseOf S w + 1) lit } : solver) w))
            forced = Except.ok fl) ∨
         (({ S2 with DB := upd S2.DB (clauseOf S w + 1) lit } : solver).fals
              (-(({ S2 with DB := upd S2.DB (clauseOf S w + 1) lit } : solver).DB (clauseOf S w)))
            = 0 ∧
          ({ S2 with DB := upd S2.DB (clauseOf S w + 1) lit } : solver).fals
              (({ S2 with DB := upd S2.DB (clauseOf S w + 1) lit } : solver).DB (clauseOf S w))
            ≠ 0 ∧
          ((forced = true ∧ fl = Flow.ret { S2 with DB := upd S2.DB (clauseOf S w + 1) lit }) ∨
           (forced = false ∧ ∃ lem S4,
             analyze f { S2 with DB := upd S2.DB (clauseOf S w + 1) lit } (clauseOf S w)
               = Except.ok (lem, S4) ∧
             fl = Flow.go (if S4.DB (lem + 1) = 0 then true else false)
               (assign S4 lem (if S4.DB (lem + 1) = 0 then true else false))))))))) := by
  rw [watchLoop] at h
  by_cases h1 : rdW S w ≠ END
  · rw [if_pos h1] at h
    simp only at h
    refine Or.inr ⟨h1, ?_⟩
    have hcl : (if S.DB (rdW S w - 1) = 0 then rdW S w + 2 else rdW S w + 1) = clauseOf S w := rfl
    rw [hcl] at h
    generalize clauseOf S w = clause at h ⊢
    have hS1 : (if S.DB clause = lit then
        ({ S with DB := upd S.DB clause (S.DB (clause + 1)) } : solver) else S) =
        frontOther S clause lit := rfl
    rw [hS1] at h
    generalize frontOther S clause lit = S1 at h ⊢
    cases hsc : scanLoop f S1 clause lit w 2 with
    | error e => rw [hsc] at h; cases h
    | ok q =>
      obtain ⟨unit, S2⟩ := q
      rw [hsc] at h
      refine ⟨unit, S2, rfl, ?_⟩
      simp only at h
      cases unit with
      | false =>
        simp only [Bool.false_eq_true, if_false] at h
        exact Or.inl ⟨rfl, h⟩
      | true =>
        simp only [if_true] at h
        refine Or.inr ⟨rfl, ?_⟩
        by_cases h2 : S2.fals (-upd S2.DB (clause + 1) lit clause) ≠ 0
        · rw [if_pos h2] at h
          exact Or.inl ⟨h2, h⟩
        · rw [if_neg h2] at h
          by_cases h3 : S2.fals (upd S2.DB (clause + 1) lit clause) = 0
          · rw [if_pos h3] at h
            exact Or.inr (Or.inl ⟨not_not.1 h2, h3, h⟩)
          · rw [if_neg h3] at h
            refine Or.inr (Or.inr ⟨not_not.1 h2, h3, ?_⟩)
            cases forced with
            | true =>
              simp only [if_true] at h
              simp only [Except.ok.injEq] at h
              exact Or.inl ⟨rfl, h.symm⟩
            | false =>
              simp only [Bool.false_eq_true, if_false] at h
              cases ha : analyze f { S2 with DB := upd S2.DB (clause + 1) lit } clause with
              | error e => rw [ha] at h; cases h
              | ok q =>
                obtain ⟨lem, S4⟩ := q
                rw [ha] at h
                simp only [Except.ok.injEq] at h
                exact Or.inr ⟨rfl, lem, S4, rfl, h.symm⟩
  · rw [if_neg h1] at h
    simp only [Except.ok.injEq] at h
    exact Or.inl ⟨not_not.1 h1, h.symm⟩

/-- One round of the loop `while (S->processed < S->assigned)`, case by case. -/
theorem propLoop_cases (f : Nat) (S : solver) (forced : Bool) (fl : Flow)
    (h : propLoop (f + 1) S forced = Except.ok fl) :
    (¬ S.processed < S.assigned ∧ fl = Flow.go forced S) ∨
    (S.processed < S.assigned ∧ ∃ fl1,
      watchLoop f { S with processed := S.processed + 1 } (S.falseStack S.processed)
        (Watch.first (S.falseStack S.processed)) forced = Except.ok fl1 ∧
      ((∃ S2, fl1 = Flow.ret S2 ∧ fl = Flow.ret S2) ∨
       (∃ forced1 S2, fl1 = Flow.go forced1 S2 ∧ propLoop f S2 forced1 = Except.ok fl))) := by
  rw [propLoop] at h
  by_cases h1 : S.processed < S.assigned
  · rw [if_pos h1] at h
    simp only at h
    refine Or.inr ⟨h1, ?_⟩
    cases hw : watchLoop f { S with processed := S.processed + 1 } (S.falseStack S.processed)
        (Watch.first (S.falseStack S.processed)) forced with
    | error e => rw [hw] at h; cases h
    | ok fl1 =>
      rw [hw] at h
      refine ⟨fl1, rfl, ?_⟩
      cases fl1 with
      | ret S2 =>
        simp only [Except.ok.injEq] at h
        exact Or.inl ⟨S2, rfl, h.symm⟩
      | go b S2 =>
        simp only at h
        exact Or.inr ⟨b, S2, rfl, h⟩
  · rw [if_neg h1] at h
    simp only [Except.ok.injEq] at h
    exact Or.inl ⟨h1, h.symm⟩

/-- At the end of the watch list the pointer reads `END`. -/
theorem visit_end {S : solver} {cl : List (Int × Int)} {wl : Int → List Int} {b : Int}
    {flag : Bool} {lit : Int} {watch : Watch} {pre : List Int}
    (hI : WLInv S cl wl b flag lit watch pre []) : rdW S watch = END := by
  have hT := hI.core.trail
  obtain ⟨p1, p2⟩ := hI.proc
  obtain ⟨hl0, hl1⟩ := hT.range (S.processed - 1) (by omega) (by omega)
  rw [hI.lit_eq] at hl0 hl1
  have hch := hI.core.watches.chain lit hl0 hl1
  rw [hI.split, List.append_nil] at hch
  rcases hI.cursor with ⟨e1, e2⟩ | ⟨pre1, sl, e1, e2⟩
  · subst e1 e2
    exact hch
  · subst e1 e2
    rw [IsSeg_snoc] at hch
    exact hch.2

/-- When the watch list is exhausted the invariant of the outer loop holds. -/
theorem visit_done {S : solver} {cl : List (Int × Int)} {wl : Int → List Int} {b : Int}
    {flag : Bool} {lit : Int} {watch : Watch} {pre : List Int}
    (hI : WLInv S cl wl b flag lit watch pre []) : PLInv S cl wl b flag := by
  obtain ⟨p1, p2⟩ := hI.proc
  refine ⟨hI.core, hI.units, ⟨by omega, p2⟩, ?_, ?_, ?_⟩
  · refine TwoWatch_mono hI.tw ?_
    intro p s0 hp
    by_cases h : p < S.processed - 1
    · exact Or.inl h
    · exact Or.inr ⟨by omega, fun h => by cases h⟩
  · intro k k0 k1
    exact hI.allr k (by omega) k1
  · rcases hI.mode with ⟨e1, e2⟩ | ⟨e1, e2, e3⟩
    · exact Or.inl ⟨e1, e2⟩
    · exact Or.inr ⟨e1, e2, by omega⟩

/-- The visited clause is falsified while a decision is on the trail: the state
in which `analyze` is called. -/
theorem unit_conflict {S : solver} {cl : List (Int × Int)} {wl : Int → List Int} {b : Int}
    {lit : Int} {watch : Watch} {pre post : List Int} {s : Int}
    (hI : WLInv S cl wl b false lit watch pre (s :: post)) {c n s1 o : Int}
    (hc : (c, n) ∈ cl) (hn : 2 ≤ n)
    (hs : (s = c - 2 ∧ s1 = c - 1) ∨ (s = c - 1 ∧ s1 = c - 2)) (hso : s1 ∈ wl o)
    (hv : (S.DB c = lit ∧ S.DB (c + 1) = o) ∨ (S.DB c = o ∧ S.DB (c + 1) = lit))
    (hrd : rdW S watch = s)
    (hnw : ∀ m, 2 ≤ m → m < n → S.fals (S.DB (c + m)) ≠ 0) (hof : S.fals o ≠ 0) :
    Conflict (unitForm S c lit) c ∧ Core (unitForm S c lit) cl wl (unitForm S c lit).forced ∧
    UnitsTrue (unitForm S c lit) cl ∧
    TwoWatch (unitForm S c lit) cl wl (fun p _ => p < S.processed - 1) ∧
    S.processed - 1 < (unitForm S c lit).assigned ∧
    ∀ k, S.processed - 1 < k → k < (unitForm S c lit).assigned →
      hasReason (unitForm S c lit) k := by
  obtain ⟨hC3, hU3, hnd, d0, d1, drest, hrd3, htw3, hlf⟩ := unit_setup hI hc hn hs hso hv hrd
  obtain ⟨a1, a2, a3, a4, a5, a6, a7, a8, a9, a10⟩ := nonDB_fields hnd
  obtain ⟨p1, p2⟩ := hI.proc
  have hb : b = S.forced ∧ S.forced ≤ S.processed - 1 := by
    rcases hI.mode with ⟨e1, -⟩ | ⟨-, e2, e3⟩
    · cases e1
    · exact ⟨e2, e3⟩
  obtain ⟨hb1, hb2⟩ := hb
  subst hb1
  have hall3 : ∀ k, S.processed - 1 < k → k < (unitForm S c lit).assigned →
      hasReason (unitForm S c lit) k := by
    intro k k0 k1
    rw [hasReason_nonDB hnd]
    exact hI.allr k k0 (by rw [← a8]; exact k1)
  have hC3' : Core (unitForm S c lit) cl wl (unitForm S c lit).forced := by
    rw [a6]; exact hC3
  have hcl3 := hC3.arena.cls c n hc
  refine ⟨⟨hC3.trail, hC3'.levels, hC3'.reasons, hC3.vmtf, by rw [a6, a8]; omega, ?_⟩, hC3', hU3,
    TwoWatch_mono htw3 (fun p s0 hp => Or.inl hp), by rw [a8]; omega, hall3⟩
  refine ⟨n, hcl3, ?_, 1, S.processed - 1, by omega, by omega, by omega, by rw [a8]; omega,
    by rw [a4, d1]; exact hI.lit_eq, hall3⟩
  intro m m0 m1
  rw [a5]
  by_cases hm0 : m = 0
  · rw [hm0, add_zero, d0]; exact hof
  · by_cases hm1 : m = 1
    · rw [hm1, d1]; exact hlf
    · rw [drest c n hc m (by omega) (by omega)]
      exact hnw m (by omega) m1

theorem Distinct_frame {S T : solver} {cl : List (Int × Int)} (hD : Distinct S cl)
    (h : ∀ c n, (c, n) ∈ cl → ∀ m, 0 ≤ m → m < n → T.DB (c + m) = S.DB (c + m)) :
    Distinct T cl := by
  intro c n hc m1 m2 a1 a2 b1 b2 e
  rw [h c n hc m1 a1 a2, h c n hc m2 b1 b2] at e
  exact hD c n hc m1 m2 a1 a2 b1 b2 e

/-- Permuting the literals of one clause record keeps the records free of
repeated literals. -/
theorem Distinct_perm {S T : solver} {cl : List (Int × Int)} (hA : Arena S cl)
    (hD : Distinct S cl) {c n : Int} (hc : (c, n) ∈ cl) (σ : Int → Int)
    (hσ : ∀ m, 0 ≤ m → m < n → 0 ≤ σ m ∧ σ m < n ∧ T.DB (c + m) = S.DB (c + σ m))
    (hinj : ∀ m1 m2, 0 ≤ m1 → m1 < n → 0 ≤ m2 → m2 < n → σ m1 = σ m2 → m1 = m2)
    (hoth : ∀ c1 n1, (c1, n1) ∈ cl → c1 ≠ c → ∀ m, 0 ≤ m → m < n1 →
      T.DB (c1 + m) = S.DB (c1 + m)) : Distinct T cl := by
  intro c1 n1 hc1 m1 m2 a1 a2 b1 b2 e
  by_cases hcc : c1 = c
  · subst hcc
    have hn : n1 = n := hA.size_eq hc1 hc
    subst hn
    obtain ⟨x1, x2, x3⟩ := hσ m1 a1 a2
    obtain ⟨y1, y2, y3⟩ := hσ m2 b1 b2
    rw [x3, y3] at e
    exact hinj m1 m2 a1 a2 b1 b2 (hD c1 n1 hc (σ m1) (σ m2) x1 x2 y1 y2 e)
  · rw [hoth c1 n1 hc1 hcc m1 a1 a2, hoth c1 n1 hc1 hcc m2 b1 b2] at e
    exact hD c1 n1 hc1 m1 m2 a1 a2 b1 b2 e

theorem Distinct_assign {S : solver} {cl : List (Int × Int)} (c : Int) (f : Bool)
    (hD : Distinct S cl) : Distinct (assign S c f) cl :=
  fun c1 n1 hc1 m1 m2 a1 a2 b1 b2 e => hD c1 n1 hc1 m1 m2 a1 a2 b1 b2 e

theorem Distinct_unitForm {S : solver} {cl : List (Int × Int)} {lit c n o : Int}
    (hA : Arena S cl) (hD : Distinct S cl) (hc : (c, n) ∈ cl) (hn : 2 ≤ n)
    (hv : (S.DB c = lit ∧ S.DB (c + 1) = o) ∨ (S.DB c = o ∧ S.DB (c + 1) = lit)) :
    Distinct (unitForm S c lit) cl := by
  have hU := unitForm_DB S c lit o hv
  have hoth : ∀ c1 n1, (c1, n1) ∈ cl → c1 ≠ c → ∀ m, 0 ≤ m → m < n1 →
      (unitForm S c lit).DB (c1 + m) = S.DB (c1 + m) := by
    intro c1 n1 hc1 hne m m0 m1
    have e0 := hA.lit_ne_lit hc1 hc hne m m0 (by omega) 0 (by omega) (by omega)
    have e1 := hA.lit_ne_lit hc1 hc hne m m0 (by omega) 1 (by omega) (by omega)
    rw [hU, if_neg e1, if_neg (by omega)]
  rcases hv with ⟨v1, v2⟩ | ⟨v1, v2⟩
  · refine Distinct_perm hA hD hc (fun m => if m = 0 then 1 else if m = 1 then 0 else m)
      ?_ ?_ hoth
    · intro m m0 m1
      refine ⟨by simp only; split_ifs <;> omega, by simp only; split_ifs <;> omega, ?_⟩
      rw [hU]
      by_cases h0 : m = 0
      · subst h0
        rw [if_neg (by omega), if_pos (by omega)]
        simp only [if_true]
        exact v2.symm
      · by_cases h1 : m = 1
        · subst h1
          rw [if_pos rfl]
          simp only [if_neg h0, if_true, add_zero]
          exact v1.symm
        · rw [if_neg (by omega), if_neg (by omega)]
          simp only [if_neg h0, if_neg h1]
    · intro m1 m2 a1 a2 b1 b2 e
      simp only at e
      split_ifs at e <;> omega
  · refine Distinct_frame hD ?_
    intro c1 n1 hc1 m m0 m1
    rw [hU]
    by_cases hcc : c1 = c
    · subst hcc
      by_cases h1 : m = 1
      · subst h1
        rw [if_pos rfl]; exact v2.symm
      · rw [if_neg (by omega)]
        by_cases h0 : m = 0
        · subst h0
          rw [if_pos (by omega), add_zero]; exact v1.symm
        · rw [if_neg (by omega)]
    · have e0 := hA.lit_ne_lit hc1 hc hcc m m0 (by omega) 0 (by omega) (by omega)
      have e1 := hA.lit_ne_lit hc1 hc hcc m m0 (by omega) 1 (by omega) (by omega)
      rw [if_neg e1, if_neg (by omega)]

/-- The literal cells after a watch was moved: the clause visited has the
other watched literal at position 0, the replacement at position 1 and the
false literal at the old position of the replacement. -/
theorem move_cells {S : solver} {cl : List (Int × Int)} {wl : Int → List Int} {b : Int}
    {flag : Bool} {lit : Int} {watch : Watch} {pre post : List Int} {s : Int}
    (hI : WLInv S cl wl b flag lit watch pre (s :: post)) {c n o : Int}
    (hc : (c, n) ∈ cl) (hn : 2 ≤ n)
    (hv : (S.DB c = lit ∧ S.DB (c + 1) = o) ∨ (S.DB c = o ∧ S.DB (c + 1) = lit))
    (hrd : rdW S watch = s) {j : Int} (hj : 2 ≤ j) (hjn : j < n)
    (hxf : S.fals (S.DB (c + j)) = 0) :
    (moveWatch (frontOther S c lit) c lit watch j).DB c = o ∧
    (moveWatch (frontOther S c lit) c lit watch j).DB (c + 1) = S.DB (c + j) ∧
    (moveWatch (frontOther S c lit) c lit watch j).DB (c + j) = lit ∧
    (∀ m, 2 ≤ m → m ≤ n → m ≠ j →
      (moveWatch (frontOther S c lit) c lit watch j).DB (c + m) = S.DB (c + m)) ∧
    (∀ c1 n1, (c1, n1) ∈ cl → c1 ≠ c → ∀ m, 0 ≤ m → m ≤ n1 →
      (moveWatch (frontOther S c lit) c lit watch j).DB (c1 + m) = S.DB (c1 + m)) := by
  have hC := hI.core
  have hT := hC.trail
  have hA := hC.arena
  have hW := hC.watches
  obtain ⟨p1, p2⟩ := hI.proc
  have hsp := hI.split
  have hs_mem : s ∈ wl lit := by rw [hsp]; simp
  have hlf : S.fals lit ≠ 0 := by
    have := hT.fals_on (S.processed - 1) (by omega) (by omega)
    rw [hI.lit_eq] at this
    exact this
  have hxl : S.DB (c + j) ≠ lit := fun e => hlf (by rw [← e]; exact hxf)
  have hx0 : S.DB (c + j) ≠ 0 := (hA.cls c n hc).2.1 j (by omega) hjn
  have hxr : iabs (S.DB (c + j)) ≤ S.nVars := hA.rng c n hc j (by omega) hjn
  obtain ⟨hl0, hl1⟩ := hT.range (S.processed - 1) (by omega) (by omega)
  rw [hI.lit_eq] at hl0 hl1
  obtain ⟨w0, w1, w2, w3⟩ := hA.watched_lits hc hn
  have ho : o ≠ 0 ∧ iabs o ≤ S.nVars := by
    rcases hv with ⟨a, b⟩ | ⟨a, b⟩
    · rw [← b]; exact ⟨w2, w3⟩
    · rw [← a]; exact ⟨w0, w1⟩
  have hnd := hW.nodup lit
  rw [hsp] at hnd
  -- a slot is no literal cell of the visited clause
  have hslot_ne : ∀ l t, t ∈ wl l → t ≠ c ∧ t ≠ c + 1 ∧ t ≠ c + j := by
    intro l t ht
    obtain ⟨c1, n1, hc1, hn1, e⟩ := hW.slot l t ht
    have e0 := hA.lit_ne_slot hc hc1 0 (by omega) (by omega)
    have e1 := hA.lit_ne_slot hc hc1 1 (by omega) (by omega)
    have e2 := hA.lit_ne_slot hc hc1 j (by omega) (by omega)
    omega
  -- the link cell the pointer stands for
  obtain ⟨cur, hcur, hcur2⟩ : ∃ cur : Option Int,
      ((cur = none ∧ watch = Watch.first lit) ∨
        ∃ sl, cur = some sl ∧ watch = Watch.db sl ∧ sl ≠ c ∧ sl ≠ c + 1 ∧ sl ≠ c + j ∧ sl ≠ s) ∧
      ((cur = none ∧ pre = []) ∨ ∃ pre1 sl, cur = some sl ∧ pre = pre1 ++ [sl]) := by
    rcases hI.cursor with ⟨e1, e2⟩ | ⟨pre1, sl, e1, e2⟩
    · exact ⟨none, Or.inl ⟨rfl, e2⟩, Or.inl ⟨rfl, e1⟩⟩
    · have hslm : sl ∈ wl lit := by rw [hsp, e1]; simp
      obtain ⟨z1, z2, z3⟩ := hslot_ne lit sl hslm
      have hne : sl ≠ s := by
        intro e
        rw [e1, e] at hnd
        have := (List.nodup_append.1 hnd).2.2
        exact this (by simp) (List.mem_cons_self _ _)
      exact ⟨some sl, Or.inr ⟨sl, rfl, e2, z1, z2, z3, hne⟩, Or.inr ⟨pre1, sl, rfl, e1⟩⟩
  obtain ⟨sn1, sn2, sn3⟩ := hslot_ne lit s hs_mem
  obtain ⟨hndb, hDB, hfirst⟩ := moveWatch_eq S c lit o j s (S.DB (c + j)) watch cur hcur hrd
    ⟨sn1, sn2, sn3⟩ hj hv rfl hxl
  have hmem := mem_wlMove hW hsp hxl
  generalize moveWatch (frontOther S c lit) c lit watch j = T at hndb hDB hfirst ⊢
  generalize hxdef : S.DB (c + j) = x at *
  obtain ⟨a1, a2, a3, a4, a5, a6, a7, a8, a9, a10⟩ := nonDB_fields hndb
  have hcur_mem : ∀ t, cur = some t → t ∈ wl lit ∧ t ≠ s := by
    intro t ht
    rcases hcur with ⟨e1, -⟩ | ⟨sl, e1, -, -, -, -, e5⟩
    · rw [e1] at ht; cases ht
    · rw [e1] at ht
      have : sl = t := Option.some.inj ht
      subst this
      rcases hcur2 with ⟨e6, -⟩ | ⟨pre1, sl2, e6, e7⟩
      · rw [e1] at e6; cases e6
      · rw [e1] at e6
        have : sl = sl2 := Option.some.inj e6
        subst this
        exact ⟨by rw [hsp, e7]; simp, e5⟩
  -- cells that keep their value
  have hkeep : ∀ k, k ≠ s → cur ≠ some k → k ≠ c + j → k ≠ c + 1 → k ≠ c → T.DB k = S.DB k := by
    intro k k1 k2 k3 k4 k5
    rw [hDB, if_neg k1, if_neg k2, if_neg k3, if_neg k4, if_neg k5]
  have hslotT : ∀ l t, t ∈ wl l → t ≠ s → cur ≠ some t → T.DB t = S.DB t := by
    intro l t ht t1 t2
    obtain ⟨z1, z2, z3⟩ := hslot_ne l t ht
    exact hkeep t t1 t2 z3 z2 z1
  have hotherT : ∀ c1 n1, (c1, n1) ∈ cl → c1 ≠ c → ∀ m, 0 ≤ m → m ≤ n1 →
      T.DB (c1 + m) = S.DB (c1 + m) := by
    intro c1 n1 hc1 hne m m0 m1
    have hlo := hA.lo c n hc
    have e0 := hA.lit_ne_lit hc hc1 (Ne.symm hne) 0 (by omega) (by omega) m (by omega) m1
    have e1 := hA.lit_ne_lit hc hc1 (Ne.symm hne) 1 (by omega) (by omega) m (by omega) m1
    have e2 := hA.lit_ne_lit hc hc1 (Ne.symm hne) j (by omega) (by omega) m (by omega) m1
    have e3 : c1 + m ≠ s := by
      obtain ⟨c2, n2, hc2, hn2, e⟩ := hW.slot lit s hs_mem
      have := hA.lit_ne_slot hc1 hc2 m m0 m1
      omega
    have e4 : cur ≠ some (c1 + m) := by
      intro e
      obtain ⟨c2, n2, hc2, hn2, e5⟩ := hW.slot lit _ (hcur_mem _ e).1
      have := hA.lit_ne_slot hc1 hc2 m m0 m1
      omega
    exact hkeep _ e3 e4 (by omega) (by omega) (by omega)
  have hcs : ∀ m, 0 ≤ m → m ≤ n → c + m ≠ s ∧ cur ≠ some (c + m) := by
    intro m m0 m1
    constructor
    · obtain ⟨c2, n2, hc2, hn2, e⟩ := hW.slot lit s hs_mem
      have := hA.lit_ne_slot hc hc2 m m0 m1
      omega
    · intro e
      obtain ⟨c2, n2, hc2, hn2, e5⟩ := hW.slot lit _ (hcur_mem _ e).1
      have := hA.lit_ne_slot hc hc2 m m0 m1
      omega
  have h0 := hcs 0 (le_refl _) (by omega)
  rw [add_zero] at h0
  have h1 := hcs 1 (by omega) (by omega)
  have hjj := hcs j (by omega) (by omega)
  refine ⟨?_, ?_, ?_, ?_, hotherT⟩
  · rw [hDB, if_neg h0.1, if_neg h0.2, if_neg (by omega), if_neg (by omega), if_pos rfl]
  · rw [hDB, if_neg h1.1, if_neg h1.2, if_neg (by omega), if_pos rfl]
  · rw [hDB, if_neg hjj.1, if_neg hjj.2, if_pos rfl]
  · intro m m0 m1 m2
    have hm := hcs m (by omega) m1
    exact hkeep _ hm.1 hm.2 (by omega) (by omega) (by omega)

theorem Distinct_move {S : solver} {cl : List (Int × Int)} {wl : Int → List Int} {b : Int}
    {flag : Bool} {lit : Int} {watch : Watch} {pre post : List Int} {s : Int}
    (hI : WLInv S cl wl b flag lit watch pre (s :: post)) {c n o : Int}
    (hc : (c, n) ∈ cl) (hn : 2 ≤ n)
    (hv : (S.DB c = lit ∧ S.DB (c + 1) = o) ∨ (S.DB c = o ∧ S.DB (c + 1) = lit))
    (hrd : rdW S watch = s) {j : Int} (hj : 2 ≤ j) (hjn : j < n)
    (hxf : S.fals (S.DB (c + j)) = 0) (hD : Distinct S cl) :
    Distinct (moveWatch (frontOther S c lit) c lit watch j) cl := by
  obtain ⟨d0, d1, d2, d3, d4⟩ := move_cells hI hc hn hv hrd hj hjn hxf
  have hA := hI.core.arena
  generalize moveWatch (frontOther S c lit) c lit watch j = T at d0 d1 d2 d3 d4 ⊢
  have hoth : ∀ c1 n1, (c1, n1) ∈ cl → c1 ≠ c → ∀ m, 0 ≤ m → m < n1 →
      T.DB (c1 + m) = S.DB (c1 + m) :=
    fun c1 n1 hc1 hne m m0 m1 => d4 c1 n1 hc1 hne m m0 (by omega)
  rcases hv with ⟨v1, v2⟩ | ⟨v1, v2⟩
  · refine Distinct_perm hA hD hc
      (fun m => if m = 0 then 1 else if m = 1 then j else if m = j then 0 else m) ?_ ?_ hoth
    · intro m m0 m1
      refine ⟨by simp only; split_ifs <;> omega, by simp only; split_ifs <;> omega, ?_⟩
      by_cases h0 : m = 0
      · subst h0
        simp only [if_true, add_zero]
        rw [d0]; exact v2.symm
      · by_cases h1 : m = 1
        · subst h1
          simp only [if_neg h0, if_true]
          exact d1
        · by_cases h2 : m = j
          · subst h2
            simp only [if_neg h0, if_neg h1, if_true, add_zero]
            rw [d2]; exact v1.symm
          · simp only [if_neg h0, if_neg h1, if_neg h2]
            exact d3 m (by omega) (by omega) h2
    · intro m1 m2 a1 a2 b1 b2 e
      simp only at e
      split_ifs at e <;> omega
  · refine Distinct_perm hA hD hc
      (fun m => if m = 0 then 0 else if m = 1 then j else if m = j then 1 else m) ?_ ?_ hoth
    · intro m m0 m1
      refine ⟨by simp only; split_ifs <;> omega, by simp only; split_ifs <;> omega, ?_⟩
      by_cases h0 : m = 0
      · subst h0
        simp only [if_true, add_zero]
        rw [d0]; exact v1.symm
      · by_cases h1 : m = 1
        · subst h1
          simp only [if_neg h0, if_true]
          exact d1
        · by_cases h2 : m = j
          · subst h2
            simp only [if_neg h0, if_neg h1, if_true]
            rw [d2]; exact v2.symm
          · simp only [if_neg h0, if_neg h1, if_neg h2]
            exact d3 m (by omega) (by omega) h2
    · intro m1 m2 a1 a2 b1 b2 e
      simp only at e
      split_ifs at e <;> omega

theorem moveWatch_nVars (S : solver) (c lit : Int) (watch : Watch) (j : Int) :
    (moveWatch (frontOther S c lit) c lit watch j).nVars = S.nVars := by
  have h : (frontOther S c lit).nVars = S.nVars := by
    unfold frontOther
    split_ifs <;> rfl
  rw [← h]
  cases watch <;> rfl

theorem unitForm_nVars (S : solver) (c lit : Int) : (unitForm S c lit).nVars = S.nVars :=
  (nonDB_fields (nonDB_unitForm S c lit)).1

/-- The lemma `analyze` stores holds no literal twice. -/
theorem Distinct_learn {X T : solver} {cl : List (Int × Int)} {wl : Int → List Int}
    {lem size u P : Int} (hC : Core X cl wl X.forced) (hP : AnalyzePost X lem T size u P)
    (fl : Bool) (hD : Distinct X cl) :
    Distinct (assign T lem fl) (cl ++ [(X.mem_used + 2, size)]) := by
  apply Distinct_assign
  have hT := hC.trail
  have hA := hC.arena
  have hf0 := hT.forced_nonneg
  obtain ⟨u1, u2, u3⟩ := hP.up
  have hlem := hP.lem_eq
  subst hlem
  have key : ∀ k k1, 0 ≤ k → k < k1 → k1 < size →
      T.DB (X.mem_used + 2 + k) ≠ T.DB (X.mem_used + 2 + k1) := by
    intro k k1 k0 kk k2 e
    obtain ⟨i, a1, a2, a3, -, -, a6⟩ := hP.lits k k0 (by omega)
    obtain ⟨i1, b1, b2, b3⟩ := a6 k1 kk k2
    rw [a3, b3] at e
    have := hT.inj i i1 (by omega) (by omega) (by omega) (by omega) e
    omega
  intro c n hc m1 m2 a1 a2 b1 b2 e
  rcases List.mem_append.1 hc with h | h
  · have hlo := hA.lo c n h
    rw [hP.db_old _ (by omega), hP.db_old _ (by omega)] at e
    exact hD c n h m1 m2 a1 a2 b1 b2 e
  · simp only [List.mem_singleton, Prod.mk.injEq] at h
    obtain ⟨e1, e2⟩ := h
    subst e1 e2
    by_contra hne
    rcases lt_or_gt_of_ne hne with hlt | hgt
    · exact key m1 m2 a1 hlt b2 e
    · exact key m2 m1 b1 hgt a2 e.symm

/-- The loop over the watch list of a trail literal keeps the invariant: when
it hands the control back to the outer loop, the invariant of that loop holds
(for the clause records extended by a lemma, if one was learned). -/
theorem watchLoop_inv (f : Nat) : ∀ (S : solver) (cl : List (Int × Int)) (wl : Int → List Int)
    (b : Int) (flag : Bool) (lit : Int) (watch : Watch) (pre post : List Int) (fl2 : Bool)
    (T : solver), WLInv S cl wl b flag lit watch pre post →
    watchLoop f S lit watch flag = Except.ok (Flow.go fl2 T) →
    ∃ cl2 wl2 b2, PLInv T cl2 wl2 b2 fl2 ∧ (Distinct S cl → Distinct T cl2) ∧
      T.nVars = S.nVars := by
  induction f with
  | zero =>
    intro S cl wl b flag lit watch pre post fl2 T hI h
    simp [watchLoop] at h
  | succ f ih =>
    intro S cl wl b flag lit watch pre post fl2 T hI h
    rcases watchLoop_cases f S lit watch flag _ h with ⟨h1, h2⟩ | ⟨h1, unit, S2, hsc, hrest⟩
    · -- the list is exhausted
      cases post with
      | nil =>
        simp only [Flow.go.injEq] at h2
        obtain ⟨e1, e2⟩ := h2
        subst e1 e2
        exact ⟨cl, wl, b, visit_done hI, fun hD => hD, rfl⟩
      | cons s post =>
        obtain ⟨hrd, hne, -⟩ := visit_head hI
        rw [hrd] at h1
        exact absurd h1 hne
    · cases post with
      | nil => exact absurd (visit_end hI) h1
      | cons s post =>
        obtain ⟨hrd, hne, hl0, hl1, c, n, s1, o, hc, hn, hs, hcl, hso, hv⟩ := visit_head hI
        have hco : clauseOf S watch = c := by
          unfold clauseOf
          rw [hrd]
          exact hcl
        rw [hco] at hsc hrest
        have hA := hI.core.arena
        have hclause := hA.cls c n hc
        have hF := frontOther_DB S c lit o hv
        have hnF := nonDB_frontOther S c lit
        obtain ⟨a1, a2, a3, a4, a5, a6, a7, a8, a9, a10⟩ := nonDB_fields hnF
        obtain ⟨j, j0, j1, j2⟩ := scanLoop_spec f _ c lit watch 2 unit S2 hsc
        have hFm : ∀ m, 1 ≤ m → (frontOther S c lit).DB (c + m) = S.DB (c + m) := by
          intro m hm
          rw [hF, if_neg (by omega)]
        have hjn : j ≤ n := by
          by_contra hc2
          have := (j1 n (by omega) (by omega)).1
          rw [hFm n (by omega)] at this
          exact this hclause.2.2
        have hnwj : ∀ m, 2 ≤ m → m < j → S.fals (S.DB (c + m)) ≠ 0 := by
          intro m m0 m1
          have := (j1 m m0 m1).2
          rw [a5, hFm m (by omega)] at this
          exact this
        rcases hrest with ⟨hu, hw⟩ | ⟨hu, hw⟩
        · -- a replacement was found: the watch moves
          subst hu
          rcases j2 with ⟨e1, -⟩ | ⟨-, e2, e3, e4⟩
          · cases e1
          · subst e4
            rw [hFm j (by omega)] at e2 e3
            rw [a5] at e3
            have hjn2 : j < n := by
              by_contra hc2
              have : j = n := by omega
              rw [this] at e2
              exact e2 hclause.2.2
            obtain ⟨cl2, wl2, b2, hI2, hD2, hN2⟩ :=
              ih _ _ _ _ _ _ _ _ _ _ _ (move_inv hI hc hn hs hso hv hrd j0 hjn2 e3) hw
            exact ⟨cl2, wl2, b2, hI2,
              fun hD => hD2 (Distinct_move hI hc hn hv hrd j0 hjn2 e3 hD),
              by rw [hN2, moveWatch_nVars]⟩
        · -- no replacement: the clause is unit or falsified
          subst hu
          rcases j2 with ⟨-, e2, e3⟩ | ⟨e1, -⟩
          · subst e2
            rw [hFm j (by omega)] at e3
            have hjn2 : j = n := by
              by_contra hc2
              exact hclause.2.1 j (by omega) (by omega) e3
            subst hjn2
            have hS3 : ({ frontOther S c lit with
                DB := upd (frontOther S c lit).DB (c + 1) lit } : solver) = unitForm S c lit := rfl
            rw [hS3] at hw
            obtain ⟨hC3, hU3, hnd, d0, d1, drest, hrd3, htw3, hlf⟩ :=
              unit_setup hI hc hn hs hso hv hrd
            obtain ⟨b1, b2, b3, b4, b5, b6, b7, b8, b9, b10⟩ := nonDB_fields hnd
            rw [hrd3, d0, b5] at hw
            rcases hw with ⟨g1, g2⟩ | ⟨g1, g2, g3⟩ | ⟨g1, g2, g3⟩
            · obtain ⟨cl2, wl2, b2, hI2, hD2, hN2⟩ :=
                ih _ _ _ _ _ _ _ _ _ _ _ (unit_keep_inv hI hc hn hs hso hv hrd hnwj g1) g2
              exact ⟨cl2, wl2, b2, hI2, fun hD => hD2 (Distinct_unitForm hA hD hc hn hv),
                by rw [hN2, unitForm_nVars]⟩
            · obtain ⟨cl2, wl2, b2, hI2, hD2, hN2⟩ := ih _ _ _ _ _ _ _ _ _ _ _
                (unit_assign_inv hI hc hn hs hso hv hrd hnwj g2 g1) g3
              exact ⟨cl2, wl2, b2, hI2,
                fun hD => hD2 (Distinct_assign _ _ (Distinct_unitForm hA hD hc hn hv)),
                by rw [hN2]; exact unitForm_nVars S c lit⟩
            · rcases g3 with ⟨-, g4⟩ | ⟨g4, lem, S4, g5, g6⟩
              · cases g4
              · subst g4
                simp only [Flow.go.injEq] at g6
                obtain ⟨e5, e6⟩ := g6
                subst e5 e6
                obtain ⟨hCf, hC3', hU3', htw', hP1, hall⟩ :=
                  unit_conflict hI hc hn hs hso hv hrd hnwj g2
                obtain ⟨size, u, P, hP, -⟩ := analyze_spec (fun _ => False) f _ c lem S4
                  ⟨fun _ _ _ hf => hf, fun _ _ _ _ hf => hf.elim⟩ hCf g5
                exact ⟨_, _, _, learn_inv hC3' hU3' htw' hP1 hall hP,
                  fun hD => Distinct_learn hC3' hP _ (Distinct_unitForm hA hD hc hn hv),
                  by
                    show S4.nVars = S.nVars
                    rw [hP.keep.2.2.2.1, unitForm_nVars]⟩
          · cases e1

theorem Core_set_processed {S : solver} {cl : List (Int × Int)} {wl : Int → List Int} {b : Int}
    (hC : Core S cl wl b) (p : Int) : Core { S with processed := p } cl wl b := by
  obtain ⟨⟨t1, t2, t3, t4, t5, t6, t7, t8⟩, ⟨l1, l2, l3⟩, r, ri, v, a, w⟩ := hC
  exact ⟨⟨t1, t2, t3, t4, t5, t6, t7, t8⟩, ⟨l1, l2, l3⟩, r, ri, VmtfInv_frame v rfl rfl rfl rfl, Arena_same a rfl rfl rfl,
    Watches_same w rfl rfl rfl⟩

theorem Core_set_forced {S : solver} {cl : List (Int × Int)} {wl : Int → List Int} {b : Int}
    (hC : Core S cl wl b) (p : Int) (h0 : 0 ≤ p) (h1 : p ≤ S.assigned) (b1 : Int)
    (hb : b1 = b) : Core { S with forced := p } cl wl b1 := by
  subst hb
  obtain ⟨⟨t1, t2, t3, t4, t5, t6, t7, t8⟩, ⟨l1, l2, l3⟩, r, ri, v, a, w⟩ := hC
  exact ⟨⟨t1, h0, h1, t4, t5, t6, t7, t8⟩, ⟨l1, l2, l3⟩, r, ri, VmtfInv_frame v rfl rfl rfl rfl, Arena_same a rfl rfl rfl,
    Watches_same w rfl rfl rfl⟩

/-- The loop over the unprocessed trail literals keeps its invariant and ends
with an empty frontier. -/
theorem propLoop_inv (f : Nat) : ∀ (S : solver) (cl : List (Int × Int)) (wl : Int → List Int)
    (b : Int) (flag : Bool) (fl2 : Bool) (T : solver), PLInv S cl wl b flag →
    propLoop f S flag = Except.ok (Flow.go fl2 T) →
    ∃ cl2 wl2 b2, PLInv T cl2 wl2 b2 fl2 ∧ T.processed = T.assigned ∧
      (Distinct S cl → Distinct T cl2) ∧ T.nVars = S.nVars := by
  induction f with
  | zero =>
    intro S cl wl b flag fl2 T hI h
    simp [propLoop] at h
  | succ f ih =>
    intro S cl wl b flag fl2 T hI h
    rcases propLoop_cases f S flag _ h with ⟨h1, h2⟩ | ⟨h1, fl1, hw, hrest⟩
    · simp only [Flow.go.injEq] at h2
      obtain ⟨e1, e2⟩ := h2
      subst e1 e2
      exact ⟨cl, wl, b, hI, by have := hI.proc; omega, fun hD => hD, rfl⟩
    · rcases hrest with ⟨S2, e1, e2⟩ | ⟨forced1, S2, e1, e2⟩
      · cases e2
      · subst e1
        obtain ⟨p1, p2⟩ := hI.proc
        have hC := hI.core
        have hT := hC.trail
        have hW : WLInv { S with processed := S.processed + 1 } cl wl b flag
            (S.falseStack S.processed) (Watch.first (S.falseStack S.processed)) []
            (wl (S.falseStack S.processed)) := by
          have e : S.processed + 1 - 1 = S.processed := by omega
          refine ⟨Core_set_processed hC _, hI.units, ⟨?_, ?_⟩, ?_, rfl, Or.inl ⟨rfl, rfl⟩, ?_, ?_,
            ?_⟩
          · show 1 ≤ S.processed + 1
            omega
          · show S.processed + 1 ≤ S.assigned
            omega
          · show S.falseStack (S.processed + 1 - 1) = _
            rw [e]
          · intro c n hc hn s0 s1 a o hs h0 h1' p p0 pa hp hd
            have hd' : p < S.processed + 1 - 1 ∨
                (p = S.processed + 1 - 1 ∧ s0 ∉ wl (S.falseStack S.processed)) := hd
            rw [e] at hd'
            rcases hd' with hd' | ⟨hd1, hd2⟩
            · exact hI.tw c n hc hn s0 s1 a o hs h0 h1' p p0 pa hp hd'
            · exfalso
              have hp' : S.falseStack p = a := hp
              rw [hd1] at hp'
              rw [hp'] at hd2
              exact hd2 h0
          · intro k k0 k1
            have k0' : S.processed + 1 - 1 < k := k0
            exact hI.allr k (by omega) k1
          · show _ ∨ (_ ∧ _ ∧ S.forced ≤ S.processed + 1 - 1)
            rcases hI.mode with ⟨e1, e2⟩ | ⟨e1, e2, e3⟩
            · exact Or.inl ⟨e1, e2⟩
            · exact Or.inr ⟨e1, e2, by omega⟩
        obtain ⟨cl2, wl2, b2, hI2, hD2, hN2⟩ := watchLoop_inv f _ _ _ _ _ _ _ _ _ _ _ hW hw
        obtain ⟨cl3, wl3, b3, hI3, hp3, hD3, hN3⟩ := ih _ _ _ _ _ _ _ hI2 e2
        exact ⟨cl3, wl3, b3, hI3, hp3, fun hD => hD3 (hD2
          (fun c n hc m1 m2 a1 a2 b1 b2 e => hD c n hc m1 m2 a1 a2 b1 b2 e)),
          by rw [hN3, hN2]⟩

/-- The state `propagate` returns with `SAT`. -/
theorem quiet_of_pl {S : solver} {cl : List (Int × Int)} {wl : Int → List Int} {b : Int}
    {fl : Bool} (hI : PLInv S cl wl b fl) (hp : S.processed = S.assigned) :
    Quiet (if fl = true then { S with forced := S.processed } else S) cl wl := by
  have hT := hI.core.trail
  have hf0 := hT.forced_nonneg
  have hfl := hT.forced_le
  rcases hI.mode with ⟨e1, e2⟩ | ⟨e1, e2, e3⟩
  · rw [if_pos e1]
    refine ⟨?_, hI.units, hp, hI.tw⟩
    exact Core_set_forced hI.core _ (by omega) (by omega) _ (by rw [e2]; exact hp)
  · rw [if_neg (by rw [e1]; decide)]
    subst e2
    exact ⟨hI.core, hI.units, hp, hI.tw⟩

/-- The invariant is kept by `propagate`: called in a state in which `solve`
calls it, it returns with `SAT` in a state with complete propagation. -/
theorem propagate_inv (f : Nat) (S : solver) (cl : List (Int × Int)) (wl : Int → List Int)
    (T : solver) (hR : Ready S cl wl) (h : propagate f S = Except.ok (SAT, T)) :
    ∃ cl2 wl2, Quiet T cl2 wl2 ∧ (Distinct S cl → Distinct T cl2) ∧ T.nVars = S.nVars := by
  unfold propagate at h
  simp only at h
  generalize hfv : decide (S.reason (iabs (S.falseStack S.processed)) ≠ 0) = fv at h
  have hPL : ∃ b, PLInv S cl wl b fv := by
    rcases hR with ⟨hI, e1, e2⟩ | ⟨hI, e1, e2⟩
    · by_cases hpa : S.processed < S.assigned
      · have hr := (hI.core.levels.root S.processed (by omega) hpa).2
        have : fv = true := by
          rw [← hfv]
          exact decide_eq_true hr
        subst this
        exact ⟨_, hI⟩
      · have hpz : S.assigned = 0 := by
          have := hI.proc
          omega
        cases fv with
        | true => exact ⟨_, hI⟩
        | false =>
          refine ⟨_, hI.core, hI.units, hI.proc, hI.tw, hI.allr, Or.inr ⟨rfl, ?_, ?_⟩⟩
          · omega
          · omega
    · have : fv = false := by
        rw [← hfv]
        exact decide_eq_false e2
      subst this
      exact ⟨_, hI⟩
  obtain ⟨b, hI⟩ := hPL
  cases hp : propLoop f S fv with
  | error e => rw [hp] at h; cases h
  | ok fl =>
    rw [hp] at h
    cases fl with
    | ret S1 =>
      simp only [Except.ok.injEq, Prod.mk.injEq] at h
      exact absurd h.1 (by decide)
    | go forced1 S1 =>
      simp only [Except.ok.injEq, Prod.mk.injEq] at h
      obtain ⟨-, h2⟩ := h
      subst h2
      obtain ⟨cl2, wl2, b2, hI2, hpa, hD2, hN2⟩ :=
        propLoop_inv f S cl wl b fv forced1 S1 hI hp
      refine ⟨cl2, wl2, quiet_of_pl hI2 hpa, fun hD => ?_, ?_⟩
      · have hD3 := hD2 hD
        cases forced1 with
        | true => exact fun c n hc m1 m2 a1 a2 b1 b2 e => hD3 c n hc m1 m2 a1 a2 b1 b2 e
        | false => exact fun c n hc m1 m2 a1 a2 b1 b2 e => hD3 c n hc m1 m2 a1 a2 b1 b2 e
      · cases forced1 with
        | true => exact hN2
        | false => exact hN2

theorem decisionLit_cases (S : solver) (d : Int) :
    decisionLit S d = d ∨ decisionLit S d = -d := by
  unfold decisionLit
  split_ifs
  · exact Or.inr rfl
  · exact Or.inl (neg_neg d)

/-- A decision on an unassigned variable of the formula, taken in a state with
complete propagation, gives a state in which `solve` calls `propagate`. -/
theorem decision_inv {S : solver} {cl : List (Int × Int)} {wl : Int → List Int} (d : Int)
    (hQ : Quiet S cl wl) (hd1 : 1 ≤ d) (hd2 : d ≤ S.nVars) (hf1 : S.fals d = 0)
    (hf2 : S.fals (-d) = 0) : Ready (pushDecision S d) cl wl := by
  have hC := hQ.core
  have hT := hC.trail
  have hf0 := hT.forced_nonneg
  have hfl := hT.forced_le
  obtain ⟨l, hl⟩ : ∃ l, decisionLit S d = l := ⟨_, rfl⟩
  have hlabs : iabs l = d := by
    rcases decisionLit_cases S d with e | e <;> rw [hl] at e <;> rw [e]
    · unfold iabs; rw [if_neg (by omega)]
    · rw [iabs_neg]; unfold iabs; rw [if_neg (by omega)]
  have hl0 : l ≠ 0 := by
    intro e
    rw [e] at hlabs
    unfold iabs at hlabs
    simp at hlabs
    omega
  have hlf : S.fals l = 0 ∧ S.fals (-l) = 0 := by
    rcases decisionLit_cases S d with e | e <;> rw [hl] at e <;> rw [e]
    · exact ⟨hf1, hf2⟩
    · rw [neg_neg]; exact ⟨hf2, hf1⟩
  have hfals : (pushDecision S d).fals = upd S.fals l 1 := by rw [← hl]; rfl
  have hfstk : (pushDecision S d).falseStack = upd S.falseStack S.assigned l := by
    rw [← hl]; rfl
  have hasg : (pushDecision S d).assigned = S.assigned + 1 := rfl
  have hreason : (pushDecision S d).reason = upd S.reason d 0 := by
    have : (pushDecision S d).reason = upd S.reason (iabs (-decisionLit S d)) 0 := by
      unfold decisionLit
      rw [neg_neg]
      rfl
    rw [this, iabs_neg, hl, hlabs]
  have hforced : (pushDecision S d).forced = S.forced := rfl
  have hproc : (pushDecision S d).processed = S.processed := rfl
  have hvar : ∀ k, 0 ≤ k → k < S.assigned →
      S.falseStack k ≠ l ∧ S.falseStack k ≠ -l ∧ iabs (S.falseStack k) ≠ d := by
    intro k k0 k1
    have := hT.var_ne hlf.1 hlf.2 k k0 k1
    rw [hlabs] at this
    exact this
  have hfs : ∀ i, i < S.assigned → (pushDecision S d).falseStack i = S.falseStack i := by
    intro i hi
    rw [hfstk, upd_other _ _ (by omega)]
  have htop : (pushDecision S d).falseStack S.assigned = l := by
    rw [hfstk, upd_same]
  have hfold : ∀ i, 0 ≤ i → i < S.assigned →
      (pushDecision S d).fals ((pushDecision S d).falseStack i) = S.fals (S.falseStack i) := by
    intro i i0 i1
    rw [hfs i i1, hfals, upd_other _ _ (hvar i i0 i1).1]
  have hhr : ∀ k, 0 ≤ k → k < S.assigned →
      (hasReason (pushDecision S d) k ↔ hasReason S k) := by
    intro k k0 k1
    unfold hasReason
    rw [hreason, hfs k k1, upd_other _ _ (hvar k k0 k1).2.2]
  have hnotop : ¬ hasReason (pushDecision S d) S.assigned := by
    unfold hasReason
    rw [hreason, htop, hlabs, upd_same]
    exact fun h => h rfl
  have hlev : ∀ q p, 0 ≤ p → q < S.assigned → levelLE S q p →
      levelLE (pushDecision S d) q p := by
    intro q p p0 q1 h
    rcases h with a | a
    · exact Or.inl a
    · exact Or.inr (fun k k0 k1 => (hhr k (by omega) (by omega)).2 (a k k0 k1))
  have hTrail : TrailInv (pushDecision S d) := by
    refine ⟨hT.nvars, hf0, ?_, ?_, ?_, ?_, ?_, ?_⟩
    · show S.forced ≤ S.assigned + 1
      omega
    · intro i i0 i1
      rw [hasg] at i1
      by_cases hi : i = S.assigned
      · rw [hi, htop, hlabs]
        exact ⟨hl0, hd2⟩
      · rw [hfs i (by omega)]
        exact hT.range i i0 (by omega)
    · intro i i0 i1
      rw [hasg] at i1
      by_cases hi : i = S.assigned
      · rw [hi, htop, hfals, upd_same]
        decide
      · rw [hfold i i0 (by omega)]
        exact hT.fals_on i i0 (by omega)
    · intro x hx
      rw [hfals] at hx
      by_cases hxl : x = l
      · exact ⟨S.assigned, by omega, by rw [hasg]; omega, by rw [htop, hxl]⟩
      · rw [upd_other _ _ hxl] at hx
        obtain ⟨i, i0, i1, i2⟩ := hT.on_fals x hx
        exact ⟨i, i0, by rw [hasg]; omega, by rw [hfs i i1]; exact i2⟩
    · intro x hx
      rw [hfals] at hx ⊢
      by_cases hxl : x = l
      · rw [hxl, upd_other _ _ (by omega)]
        exact hlf.2
      · rw [upd_other _ _ hxl] at hx
        have hne : -x ≠ l := by
          intro e
          have : x = -l := by omega
          rw [this] at hx
          exact hx hlf.2
        rw [upd_other _ _ hne]
        exact hT.consistent x hx
    · intro i j i0 i1 j0 j1 e
      rw [hasg] at i1 j1
      by_cases hi : i = S.assigned
      · by_cases hj : j = S.assigned
        · omega
        · rw [hi, htop, hfs j (by omega)] at e
          exact absurd e.symm (hvar j j0 (by omega)).1
      · by_cases hj : j = S.assigned
        · rw [hj, htop, hfs i (by omega)] at e
          exact absurd e (hvar i i0 (by omega)).1
        · rw [hfs i (by omega), hfs j (by omega)] at e
          exact hT.inj i j i0 (by omega) j0 (by omega) e
  have hCore : Core (pushDecision S d) cl wl S.forced := by
    refine ⟨hTrail, ⟨?_, ?_, ?_⟩, ?_, ?_, VmtfInv_frame hC.vmtf rfl rfl rfl rfl, Arena_same hC.arena rfl rfl rfl,
      Watches_same hC.watches rfl rfl rfl⟩
    · intro i i0 i1
      rw [hfold i i0 (by omega), hhr i i0 (by omega)]
      exact hC.levels.root i i0 i1
    · intro i i0 i1
      rw [hasg] at i1
      by_cases hi : i = S.assigned
      · rw [hi, htop, hfals, upd_same]
      · rw [hfold i (by omega) (by omega)]
        exact hC.levels.upper i i0 (by omega)
    · intro hb
      rw [hasg] at hb
      by_cases hfa : S.forced = S.assigned
      · rw [hfa]; exact hnotop
      · rw [hhr _ hf0 (by omega)]
        exact hC.levels.first_dec (by omega)
    · intro i i0 i1 hri
      rw [hasg] at i1
      by_cases hi : i = S.assigned
      · rw [hi] at hri
        exact absurd hri hnotop
      · have hi1 : i < S.assigned := by omega
        rw [hhr i i0 hi1] at hri
        obtain ⟨n0, r1, r2, r3, r4⟩ := hC.reasons i i0 hi1 hri
        have hre : (pushDecision S d).reason (iabs ((pushDecision S d).falseStack i)) =
            S.reason (iabs (S.falseStack i)) := by
          rw [hreason, hfs i hi1, upd_other _ _ (hvar i i0 hi1).2.2]
        rw [hre, hfs i hi1]
        refine ⟨n0, r1, r2, ?_, ?_⟩
        · intro m m0 m1
          obtain ⟨j, j0, j1, j2⟩ := r3 m m0 m1
          exact ⟨j, j0, j1, by rw [hfs j (by omega)]; exact j2⟩
        · intro hb
          obtain ⟨m, j, m0, m1, j0, j1, j2, j3⟩ := r4 hb
          refine ⟨m, j, m0, m1, j0, j1, by rw [hfs j (by omega)]; exact j2, ?_⟩
          intro k k0 k1
          rw [hhr k (by omega) (by omega)]
          exact j3 k k0 k1
    · intro i i0 i1 hri
      rw [hasg] at i1
      by_cases hi : i = S.assigned
      · rw [hi] at hri
        exact absurd hri hnotop
      · have hi1 : i < S.assigned := by omega
        rw [hhr i i0 hi1] at hri
        have hre : (pushDecision S d).reason (iabs ((pushDecision S d).falseStack i)) =
            S.reason (iabs (S.falseStack i)) := by
          rw [hreason, hfs i hi1, upd_other _ _ (hvar i i0 hi1).2.2]
        rw [hre]
        exact hC.rin i i0 hi1 hri
  have hUnits : UnitsTrue (pushDecision S d) cl := by
    intro c1 hc1
    have := hQ.units c1 hc1
    show (pushDecision S d).fals (-(S.DB c1)) = IMPLIED
    rw [hfals]
    have hne : -(S.DB c1) ≠ l := by
      intro e
      rw [e, hlf.1] at this
      exact absurd this (by decide)
    rw [upd_other _ _ hne]
    exact this
  have hTW : TwoWatch (pushDecision S d) cl wl (fun p _ => p < (pushDecision S d).processed) := by
    intro c1 n1 hc1 hn1 s0 s1 a o hs ha ho p p0 pa hp hd
    have hd' : p < S.processed := hd
    have hpa : p < S.assigned := by rw [← hQ.proc]; exact hd'
    rw [hfs p hpa] at hp
    obtain ⟨⟨q, q0, q1, q2, q3⟩, hnw⟩ := hQ.tw c1 n1 hc1 hn1 s0 s1 a o hs ha ho p p0 hpa hp hd'
    refine ⟨⟨q, q0, by rw [hasg]; omega, by rw [hfs q q1]; exact q2, hlev q p p0 q1 q3⟩, ?_⟩
    intro m m0 m1
    obtain ⟨r, r0, r1, r2, r3⟩ := hnw m m0 m1
    exact ⟨r, r0, by rw [hasg]; omega, by rw [hfs r r1]; exact r2, hlev r p p0 r1 r3⟩
  refine Or.inr ⟨⟨hCore, hUnits, ?_, hTW, ?_, Or.inr ⟨rfl, rfl, ?_⟩⟩, ?_, ?_⟩
  · rw [hproc, hasg, hQ.proc]
    omega
  · intro k k0 k1
    rw [hproc, hQ.proc] at k0
    rw [hasg] at k1
    omega
  · rw [hforced, hproc, hQ.proc]
    exact hfl
  · rw [hproc, hasg, hQ.proc]
  · rw [hproc, hQ.proc]
    exact hnotop

theorem restartLoop_only (k : Nat) (S : solver) :
    restartLoop k S =
      { S with assigned := (restartLoop k S).assigned, fals := (restartLoop k S).fals } := by
  induction k generalizing S with
  | zero => rfl
  | succ k ih =>
    rw [restartLoop]
    by_cases hgt : S.assigned > S.forced
    · rw [if_pos hgt]
      rw [ih]
      rfl
    · rw [if_neg hgt]

theorem restartLoop_spec (k : Nat) (S : solver) (h1 : S.forced ≤ S.assigned)
    (h2 : S.assigned - S.forced ≤ k) :
    (restartLoop k S).assigned = S.forced ∧
    (∀ i, S.forced ≤ i → i < S.assigned → (restartLoop k S).fals (S.falseStack i) = 0) ∧
    (∀ l, (∀ i, S.forced ≤ i → i < S.assigned → S.falseStack i ≠ l) →
      (restartLoop k S).fals l = S.fals l) := by
  induction k generalizing S with
  | zero =>
    have : S.assigned = S.forced := by omega
    refine ⟨this, ?_, ?_⟩
    · intro i i0 i1; omega
    · intro l _; rfl
  | succ k ih =>
    rw [restartLoop]
    by_cases hgt : S.assigned > S.forced
    · rw [if_pos hgt]
      obtain ⟨a1, a5, a6⟩ :=
        ih (unassign { S with assigned := S.assigned - 1 } (S.falseStack (S.assigned - 1)))
          (by show S.forced ≤ S.assigned - 1; omega)
          (by show S.assigned - 1 - S.forced ≤ k; omega)
      have a5' : ∀ i, S.forced ≤ i → i < S.assigned - 1 →
          (restartLoop k (unassign { S with assigned := S.assigned - 1 }
            (S.falseStack (S.assigned - 1)))).fals (S.falseStack i) = 0 := a5
      have a6' : ∀ l, (∀ i, S.forced ≤ i → i < S.assigned - 1 → S.falseStack i ≠ l) →
          (restartLoop k (unassign { S with assigned := S.assigned - 1 }
            (S.falseStack (S.assigned - 1)))).fals l =
              upd S.fals (S.falseStack (S.assigned - 1)) 0 l := a6
      refine ⟨a1, ?_, ?_⟩
      · intro i i0 i1
        by_cases hi : i = S.assigned - 1
        · rw [hi]
          by_cases hex : ∃ j, S.forced ≤ j ∧ j < S.assigned - 1 ∧
              S.falseStack j = S.falseStack (S.assigned - 1)
          · obtain ⟨j, j0, j1, j2⟩ := hex
            have := a5' j j0 j1
            rw [j2] at this
            exact this
          · rw [a6' _ (fun j j0 j1 e => hex ⟨j, j0, j1, e⟩), upd_same]
        · exact a5' i i0 (by omega)
      · intro l hl
        rw [a6' l (fun j j0 j1 => hl j j0 (by omega))]
        rw [upd_other _ _ (fun e => hl (S.assigned - 1) (by omega) (by omega) e.symm)]
    · rw [if_neg hgt]
      have : S.assigned = S.forced := by omega
      refine ⟨this, ?_, ?_⟩
      · intro i i0 i1; omega
      · intro l _; rfl

/-- The fields of the state after `restart`. -/
theorem restart_next (S : solver) : (restart S).next = S.next := by
  have ho := restartLoop_only (S.assigned - S.forced).toNat S
  unfold restart
  simp only
  rw [ho]

theorem restart_fields (S : solver) (h1 : S.forced ≤ S.assigned) :
    (restart S).assigned = S.forced ∧ (restart S).processed = S.forced ∧
    (restart S).forced = S.forced ∧ (restart S).DB = S.DB ∧ (restart S).first = S.first ∧
    (restart S).falseStack = S.falseStack ∧ (restart S).reason = S.reason ∧
    (restart S).nVars = S.nVars ∧ (restart S).mem_used = S.mem_used ∧
    (restart S).prev = S.prev ∧ (restart S).head = S.head ∧
    (∀ i, S.forced ≤ i → i < S.assigned → (restart S).fals (S.falseStack i) = 0) ∧
    (∀ l, (∀ i, S.forced ≤ i → i < S.assigned → S.falseStack i ≠ l) →
      (restart S).fals l = S.fals l) := by
  obtain ⟨a1, a2, a3⟩ := restartLoop_spec (S.assigned - S.forced).toNat S h1
    (by rw [Int.toNat_of_nonneg (by omega)])
  have ho := restartLoop_only (S.assigned - S.forced).toNat S
  unfold restart
  simp only
  generalize restartLoop (S.assigned - S.forced).toNat S = R at *
  rw [ho]
  exact ⟨a1, rfl, rfl, rfl, rfl, rfl, rfl, rfl, rfl, rfl, rfl, a2, a3⟩

/-- The invariant is kept by `restart`, called in a state with complete
propagation. -/
theorem restart_inv {S : solver} {cl : List (Int × Int)} {wl : Int → List Int}
    (hQ : Quiet S cl wl) : Quiet (restart S) cl wl := by
  have hC := hQ.core
  have hT := hC.trail
  have hf0 := hT.forced_nonneg
  have hfl := hT.forced_le
  obtain ⟨r1, r2, r3, r4, r5, r6, r7, r8, r9, r10, r11, r12, r13⟩ := restart_fields S hfl
  have hhr := hasReason_congr r7 r6
  have hkeep : ∀ i, 0 ≤ i → i < S.forced → (restart S).fals (S.falseStack i) = S.fals (S.falseStack i) := by
    intro i i0 i1
    apply r13
    intro j j0 j1 e
    have := hT.inj j i (by omega) j1 i0 (by omega) e
    omega
  have hbelow : ∀ q p, 0 ≤ p → p < S.forced → q < S.assigned → levelLE S q p → q < S.forced := by
    intro q p p0 p1 q1 hl
    by_contra hc
    rcases hl with a | a
    · omega
    · exact hC.levels.first_dec (by omega) (a S.forced (by omega) (by omega))
  have hfalsT : ∀ l, (restart S).fals l ≠ 0 → ∃ i, 0 ≤ i ∧ i < S.forced ∧ S.falseStack i = l ∧
      (restart S).fals l = S.fals l := by
    intro l hl
    by_cases hex : ∃ j, S.forced ≤ j ∧ j < S.assigned ∧ S.falseStack j = l
    · obtain ⟨j, j0, j1, j2⟩ := hex
      rw [← j2, r12 j j0 j1] at hl
      exact absurd rfl hl
    · have e := r13 l (fun j j0 j1 e => hex ⟨j, j0, j1, e⟩)
      rw [e] at hl
      obtain ⟨i, i0, i1, i2⟩ := hT.on_fals l hl
      refine ⟨i, i0, ?_, i2, e⟩
      by_contra hc
      exact hex ⟨i, by omega, i1, i2⟩
  have hCore : Core (restart S) cl wl (restart S).forced := by
    rw [r3]
    refine ⟨⟨by rw [r8]; exact hT.nvars, by rw [r3]; exact hf0, by rw [r3, r1], ?_, ?_, ?_, ?_,
      ?_⟩, ⟨?_, ?_, ?_⟩, ?_, ?_, ?_, Arena_same hC.arena r4 r9 r8, Watches_same hC.watches r4 r5 r8⟩
    · intro i i0 i1
      rw [r1] at i1
      rw [r6, r8]
      exact hT.range i i0 (by omega)
    · intro i i0 i1
      rw [r1] at i1
      rw [r6, hkeep i i0 i1]
      exact hT.fals_on i i0 (by omega)
    · intro l hl
      obtain ⟨i, i0, i1, i2, -⟩ := hfalsT l hl
      exact ⟨i, i0, by rw [r1]; exact i1, by rw [r6]; exact i2⟩
    · intro l hl
      by_contra hc
      obtain ⟨i, i0, i1, i2, -⟩ := hfalsT l hl
      obtain ⟨j, j0, j1, j2, -⟩ := hfalsT (-l) hc
      exact hT.no_compl j i j0 (by omega) i0 (by omega) (by rw [j2, i2])
    · intro i j i0 i1 j0 j1 e
      rw [r1] at i1 j1
      rw [r6] at e
      exact hT.inj i j i0 (by omega) j0 (by omega) e
    · intro i i0 i1
      rw [r6, hkeep i i0 i1, hhr]
      exact hC.levels.root i i0 i1
    · intro i i0 i1
      rw [r1] at i1
      omega
    · intro hb
      rw [r1] at hb
      omega
    · intro i i0 i1 hr
      rw [r1] at i1
      rw [hhr] at hr
      obtain ⟨n, a1, a2, a3, a4⟩ := hC.reasons i i0 (by omega) hr
      rw [r7, r6]
      refine ⟨n, ?_, by rw [r4]; exact a2, ?_, ?_⟩
      · unfold clauseAt at a1 ⊢
        rw [r4]
        exact a1
      · intro m m0 m1
        rw [r4]
        exact a3 m m0 m1
      · intro hb
        omega
    · intro i i0 i1 hr
      rw [r1] at i1
      rw [hhr] at hr
      rw [r7, r6]
      exact hC.rin i i0 (by omega) hr
    · exact VmtfInv_frame hC.vmtf r10 (restart_next S) r11 r8
  refine ⟨hCore, ?_, by rw [r2, r1], ?_⟩
  · intro c1 hc1
    have hu := hQ.units c1 hc1
    rw [r4]
    obtain ⟨i, i0, i1, i2⟩ := hT.on_fals _ (by rw [hu]; decide)
    have hif : i < S.forced := by
      by_contra hc
      have := hC.levels.upper i (by omega) i1
      rw [i2, hu] at this
      exact absurd this (by decide)
    rw [← i2, hkeep i i0 hif, i2]
    exact hu
  · intro c1 n1 hc1 hn1 s0 s1 a o hs ha ho p p0 pa hp hd
    rw [r2] at hd
    rw [r6] at hp
    obtain ⟨⟨q, q0, q1, q2, q3⟩, hnw⟩ :=
      hQ.tw c1 n1 hc1 hn1 s0 s1 a o hs ha ho p p0 (by omega) hp (by rw [hQ.proc]; omega)
    have hq := hbelow q p p0 hd q1 q3
    have hlev : ∀ q, levelLE S q p → levelLE (restart S) q p := by
      intro q h
      rcases h with a | a
      · exact Or.inl a
      · exact Or.inr (fun k k0 k1 => (hhr k).2 (a k k0 k1))
    refine ⟨⟨q, q0, by rw [r1]; exact hq, by rw [r6]; exact q2, hlev q q3⟩, ?_⟩
    intro m m0 m1
    obtain ⟨r, t0, t1, t2, t3⟩ := hnw m m0 m1
    exact ⟨r, t0, by rw [r1]; exact hbelow r p p0 hd t1 t3, by rw [r6, r4]; exact t2, hlev r t3⟩

theorem initLoop_frame (k : Nat) (i : Int) (S : solver) :
    initLoop k i S =
      { S with
        next := (initLoop k i S).next
        prev := (initLoop k i S).prev
        fals := (initLoop k i S).fals
        model := (initLoop k i S).model
        first := (initLoop k i S).first } := by
  induction k generalizing i S with
  | zero => rfl
  | succ k ih =>
    show initLoop k (i + 1) _ = _
    rw [ih]
    rfl

theorem initLoop_fals (k : Nat) (i : Int) (S : solver) (h : ∀ l, S.fals l = 0) :
    ∀ l, (initLoop k i S).fals l = 0 := by
  induction k generalizing i S with
  | zero => exact h
  | succ k ih =>
    show ∀ l, (initLoop k (i + 1) _).fals l = 0
    apply ih
    intro l
    simp only [upd]
    split_ifs <;> first | rfl | exact h l

theorem initLoop_first (k : Nat) (i : Int) (S : solver) (l : Int)
    (h : S.first l = END ∨ (i ≤ iabs l ∧ iabs l < i + k)) : (initLoop k i S).first l = END := by
  induction k generalizing i S with
  | zero =>
    rcases h with h | h
    · exact h
    · simp only [Nat.cast_zero] at h; omega
  | succ k ih =>
    show (initLoop k (i + 1) _).first l = END
    apply ih
    simp only [upd]
    by_cases h1 : l = i
    · left; rw [if_pos h1]
    · rw [if_neg h1]
      by_cases h2 : l = -i
      · left; rw [if_pos h2]
      · rw [if_neg h2]
        rcases h with h | h
        · exact Or.inl h
        · right
          have : iabs l ≠ i := by
            unfold iabs; split_ifs <;> omega
          push_cast at h
          omega

theorem initLoop_prev (k : Nat) (i N : Int) (S : solver) (hi : 1 ≤ i) (hN : i + k ≤ N + 2)
    (h : ∀ v, 0 ≤ S.prev v ∧ S.prev v ≤ N) : ∀ v, 0 ≤ (initLoop k i S).prev v ∧
      (initLoop k i S).prev v ≤ N := by
  induction k generalizing i S with
  | zero => exact h
  | succ k ih =>
    show ∀ v, 0 ≤ (initLoop k (i + 1) _).prev v ∧ (initLoop k (i + 1) _).prev v ≤ N
    push_cast at hN
    apply ih _ _ (by omega) (by omega)
    intro v
    simp only [upd]
    split_ifs
    · omega
    · exact h v

theorem initLoop_prev_val (k : Nat) (i : Int) (S : solver) :
    (∀ v, v < i → (initLoop k i S).prev v = S.prev v) ∧
    (∀ v, i ≤ v → v < i + k → (initLoop k i S).prev v = v - 1) := by
  induction k generalizing i S with
  | zero =>
    refine ⟨fun v _ => rfl, fun v v0 v1 => ?_⟩
    simp only [Nat.cast_zero] at v1; omega
  | succ k ih =>
    obtain ⟨a, b⟩ := ih (i + 1) { S with
      prev := upd S.prev i (i - 1)
      next := upd S.next (i - 1) i
      fals := upd (upd S.fals i 0) (-i) 0
      model := upd S.model i 0
      first := upd (upd S.first (-i) END) i END }
    constructor
    · intro v hv
      show (initLoop k (i + 1) _).prev v = _
      rw [a v (by omega)]
      exact upd_other _ _ (by omega)
    · intro v v0 v1
      show (initLoop k (i + 1) _).prev v = _
      push_cast at v1
      by_cases hv : v = i
      · rw [a v (by omega), hv]
        exact upd_same _ _ _
      · exact b v (by omega) (by omega)

theorem initLoop_next_val (k : Nat) (i : Int) (S : solver) :
    (∀ v, v < i - 1 → (initLoop k i S).next v = S.next v) ∧
    (∀ v, i ≤ v → v < i + k → (initLoop k i S).next (v - 1) = v) := by
  induction k generalizing i S with
  | zero =>
    refine ⟨fun v _ => rfl, fun v v0 v1 => ?_⟩
    simp only [Nat.cast_zero] at v1; omega
  | succ k ih =>
    obtain ⟨a, b⟩ := ih (i + 1) { S with
      prev := upd S.prev i (i - 1)
      next := upd S.next (i - 1) i
      fals := upd (upd S.fals i 0) (-i) 0
      model := upd S.model i 0
      first := upd (upd S.first (-i) END) i END }
    constructor
    · intro v hv
      show (initLoop k (i + 1) _).next v = _
      rw [a v (by omega)]
      exact upd_other _ _ (by omega)
    · intro v v0 v1
      show (initLoop k (i + 1) _).next (v - 1) = _
      push_cast at v1
      by_cases hv : v = i
      · rw [a (v - 1) (by omega), hv]
        exact upd_same _ _ _
      · exact b v (by omega) (by omega)

theorem initLoop_keep_nVars (k : Nat) (i : Int) (S : solver) :
    (initLoop k i S).nVars = S.nVars := by
  rw [initLoop_frame]

theorem initLoop_keep_nClauses (k : Nat) (i : Int) (S : solver) :
    (initLoop k i S).nClauses = S.nClauses := by
  rw [initLoop_frame]

theorem initLoop_keep_mem_max (k : Nat) (i : Int) (S : solver) :
    (initLoop k i S).mem_max = S.mem_max := by
  rw [initLoop_frame]

theorem initLoop_keep_DB (k : Nat) (i : Int) (S : solver) :
    (initLoop k i S).DB = S.DB := by
  rw [initLoop_frame]

theorem initLoop_keep_forced (k : Nat) (i : Int) (S : solver) :
    (initLoop k i S).forced = S.forced := by
  rw [initLoop_frame]

theorem initLoop_keep_processed (k : Nat) (i : Int) (S : solver) :
    (initLoop k i S).processed = S.processed := by
  rw [initLoop_frame]

theorem initLoop_keep_assigned (k : Nat) (i : Int) (S : solver) :
    (initLoop k i S).assigned = S.assigned := by
  rw [initLoop_frame]

theorem initLoop_keep_mem_used (k : Nat) (i : Int) (S : solver) :
    (initLoop k i S).mem_used = S.mem_used := by
  rw [initLoop_frame]

theorem getMemory_keep (S : solver) (k : Int) (r : Int × solver)
    (h : getMemory S k = Except.ok r) :
    r.2.nVars = S.nVars ∧ r.2.nClauses = S.nClauses ∧ r.2.mem_max = S.mem_max ∧
    r.2.DB = S.DB ∧ r.2.fals = S.fals ∧ r.2.forced = S.forced ∧ r.2.processed = S.processed ∧
    r.2.assigned = S.assigned ∧ r.2.prev = S.prev ∧ r.2.mem_used = S.mem_used + k := by
  unfold getMemory at h
  split_ifs at h
  cases h
  exact ⟨rfl, rfl, rfl, rfl, rfl, rfl, rfl, rfl, rfl, rfl⟩

/-- The state `initCDCL` returns. -/
theorem initCDCL_fields (S : solver) (n0 m : Int) (T : solver)
    (h : initCDCL S n0 m = Except.ok T) :
    T.nVars = (if n0 < 1 then 1 else n0) ∧ T.mem_used = 10 * T.nVars + 8 ∧
    T.DB (T.mem_used - 1) = 0 ∧ (∀ l, T.fals l = 0) ∧ T.forced = 0 ∧ T.processed = 0 ∧
    T.assigned = 0 ∧ T.head = T.nVars ∧ (∀ v, 0 ≤ T.prev v ∧ T.prev v ≤ T.nVars) ∧
    (∀ l, l ≠ 0 → iabs l ≤ T.nVars → T.first l = END) ∧ T.nClauses = m ∧
    T.mem_max = 1073741824 := by
  unfold initCDCL at h
  simp only at h
  obtain ⟨n, hn⟩ : ∃ n, (if n0 < 1 then 1 else n0) = n := ⟨_, rfl⟩
  rw [hn] at h ⊢
  have hn1 : 1 ≤ n := by rw [← hn]; split_ifs <;> omega
  obtain ⟨r1, h1, h⟩ := bind_ok _ _ _ h
  obtain ⟨r2, h2, h⟩ := bind_ok _ _ _ h
  obtain ⟨r3, h3, h⟩ := bind_ok _ _ _ h
  obtain ⟨r4, h4, h⟩ := bind_ok _ _ _ h
  obtain ⟨r5, h5, h⟩ := bind_ok _ _ _ h
  obtain ⟨r6, h6, h⟩ := bind_ok _ _ _ h
  obtain ⟨r7, h7, h⟩ := bind_ok _ _ _ h
  obtain ⟨r8, h8, h⟩ := bind_ok _ _ _ h
  obtain ⟨n1, c1, x1, d1, f1, o1, p1, a1, v1, u1⟩ := getMemory_keep _ _ _ h1
  simp only at n1 c1 x1 d1 f1 o1 p1 a1 v1 u1
  obtain ⟨n2, c2, x2, d2, f2, o2, p2, a2, v2, u2⟩ := getMemory_keep _ _ _ h2
  simp only at n2 c2 x2 d2 f2 o2 p2 a2 v2 u2
  obtain ⟨n3, c3, x3, d3, f3, o3, p3, a3, v3, u3⟩ := getMemory_keep _ _ _ h3
  simp only at n3 c3 x3 d3 f3 o3 p3 a3 v3 u3
  obtain ⟨n4, c4, x4, d4, f4, o4, p4, a4, v4, u4⟩ := getMemory_keep _ _ _ h4
  simp only at n4 c4 x4 d4 f4 o4 p4 a4 v4 u4
  obtain ⟨n5, c5, x5, d5, f5, o5, p5, a5, v5, u5⟩ := getMemory_keep _ _ _ h5
  simp only at n5 c5 x5 d5 f5 o5 p5 a5 v5 u5
  obtain ⟨n6, c6, x6, d6, f6, o6, p6, a6, v6, u6⟩ := getMemory_keep _ _ _ h6
  simp only at n6 c6 x6 d6 f6 o6 p6 a6 v6 u6
  obtain ⟨n7, c7, x7, d7, f7, o7, p7, a7, v7, u7⟩ := getMemory_keep _ _ _ h7
  simp only at n7 c7 x7 d7 f7 o7 p7 a7 v7 u7
  obtain ⟨n8, c8, x8, d8, f8, o8, p8, a8, v8, u8⟩ := getMemory_keep _ _ _ h8
  simp only at n8 c8 x8 d8 f8 o8 p8 a8 v8 u8
  cases h
  have hnv : r8.2.nVars = n := by rw [n8, n7, n6, n5, n4, n3, n2, n1]
  have hmu : r8.2.mem_used = 10 * n + 7 := by
    rw [u8, u7, u6, u5, u4, u3, u2, u1]; omega
  refine ⟨?_, ?_, ?_, ?_, ?_, ?_, ?_, ?_, ?_, ?_, ?_, ?_⟩
  · simp only [initLoop_keep_nVars]
    exact hnv
  · simp only [initLoop_keep_nVars, initLoop_keep_mem_used]
    rw [hnv, hmu]; omega
  · simp only [initLoop_keep_DB, initLoop_keep_mem_used]
    show upd _ _ 0 _ = 0
    simp only [upd]
    rw [if_pos (by omega)]
  · rw [initLoop_frame]
    exact initLoop_fals _ _ _ (fun l => by show r8.2.fals l = 0; rw [f8])
  · simp only [initLoop_keep_forced]
    rw [o8, o7]
  · simp only [initLoop_keep_processed]
    rw [p8, p7]
  · simp only [initLoop_keep_assigned]
    rw [a8, a7]
  · simp only [initLoop_keep_nVars]
    exact hnv.symm
  · simp only [initLoop_keep_nVars]
    rw [hnv]
    rw [initLoop_frame]
    refine initLoop_prev _ _ _ _ (le_refl _) (by rw [Int.toNat_of_nonneg (by omega)]; omega) ?_
    intro v
    show 0 ≤ r8.2.prev v ∧ r8.2.prev v ≤ n
    rw [v8, v7, v6, v5, v4]
    show (0 : Int) ≤ 0 ∧ (0 : Int) ≤ n
    omega
  · intro l hl hr
    simp only [initLoop_keep_nVars] at hr
    rw [hnv] at hr
    rw [initLoop_frame]
    apply initLoop_first
    right
    rw [Int.toNat_of_nonneg (by omega)]
    have := iabs_pos hl
    omega
  · simp only [initLoop_keep_nClauses]
    rw [c8, c7, c6, c5, c4, c3, c2, c1]
  · simp only [initLoop_keep_mem_max]
    rw [x8, x7, x6, x5, x4, x3, x2, x1]

/-- The decision list `initCDCL` builds: `prev[i] = i - 1` and
`next[i - 1] = i` for the variables `1 .. nVars`, and `head = nVars`. -/
theorem initCDCL_list (S : solver) (n0 m : Int) (T : solver)
    (h : initCDCL S n0 m = Except.ok T) :
    T.head = T.nVars ∧ 1 ≤ T.nVars ∧
    ∀ v, 1 ≤ v → v ≤ T.nVars → T.prev v = v - 1 ∧ T.next (v - 1) = v := by
  obtain ⟨a1, a2, a3, a4, a5, a6, a7, a8, a9, a10, -, -⟩ := initCDCL_fields S n0 m T h
  have hn1 : 1 ≤ T.nVars := by rw [a1]; split_ifs <;> omega
  refine ⟨a8, hn1, ?_⟩
  rw [a1]
  unfold initCDCL at h
  simp only at h
  obtain ⟨n, hn⟩ : ∃ n, (if n0 < 1 then 1 else n0) = n := ⟨_, rfl⟩
  rw [hn] at h ⊢
  have hn1 : 1 ≤ n := by rw [← hn]; split_ifs <;> omega
  obtain ⟨r1, h1, h⟩ := bind_ok _ _ _ h
  obtain ⟨r2, h2, h⟩ := bind_ok _ _ _ h
  obtain ⟨r3, h3, h⟩ := bind_ok _ _ _ h
  obtain ⟨r4, h4, h⟩ := bind_ok _ _ _ h
  obtain ⟨r5, h5, h⟩ := bind_ok _ _ _ h
  obtain ⟨r6, h6, h⟩ := bind_ok _ _ _ h
  obtain ⟨r7, h7, h⟩ := bind_ok _ _ _ h
  obtain ⟨r8, h8, h⟩ := bind_ok _ _ _ h
  cases h
  intro v v0 v1
  constructor
  · show (initLoop n.toNat 1 _).prev v = v - 1
    exact (initLoop_prev_val _ _ _).2 v v0 (by rw [Int.toNat_of_nonneg (by omega)]; omega)
  · show (initLoop n.toNat 1 _).next (v - 1) = v
    exact (initLoop_next_val _ _ _).2 v v0 (by rw [Int.toNat_of_nonneg (by omega)]; omega)

/-- The decision list after `initCDCL` holds the variables `nVars, .., 1` in
this order. -/
theorem initCDCL_vmtfList (S : solver) (n0 m : Int) (T : solver)
    (h : initCDCL S n0 m = Except.ok T) : VmtfList T (descList T.nVars.toNat) := by
  obtain ⟨b1, b2, b3⟩ := initCDCL_list S n0 m T h
  have hk : ((T.nVars.toNat : Nat) : Int) = T.nVars := Int.toNat_of_nonneg (by omega)
  refine ⟨?_, nodup_descList _, ?_, ?_⟩
  · rw [b1]
    have := prevChain_desc (p := T.prev) T.nVars.toNat
      (fun i i0 i1 => (b3 i i0 (by omega)).1)
    rw [hk] at this
    exact this
  · intro v
    rw [mem_descList, hk]
  · intro v hv hp
    rw [mem_descList, hk] at hv
    rw [(b3 v hv.1 hv.2).1]
    exact (b3 v hv.1 hv.2).2

/-- The state `initCDCL` returns satisfies the invariant, with no clause
record and empty watch lists. -/
theorem init_fresh (S : solver) (n0 m : Int) (T : solver)
    (h : initCDCL S n0 m = Except.ok T) : Fresh T [] (fun _ => []) := by
  obtain ⟨a1, a2, a3, a4, a5, a6, a7, a8, a9, a10, -, -⟩ := initCDCL_fields S n0 m T h
  have hn1 : 1 ≤ T.nVars := by rw [a1]; split_ifs <;> omega
  refine ⟨⟨⟨⟨hn1, by omega, by omega, ?_, ?_, ?_, ?_, ?_⟩, ⟨?_, ?_, ?_⟩, ?_, ?_,
    ⟨by omega, by omega, a9, _, initCDCL_vmtfList S n0 m T h⟩, ⟨by omega, ?_, ?_, ?_, ?_, ?_, ?_, ?_⟩, ⟨?_, ?_, ?_, ?_, ?_⟩⟩,
    ?_, by omega, ?_, ?_, Or.inl ⟨rfl, rfl⟩⟩, a5, a6⟩
  · intro i i0 i1; omega
  · intro i i0 i1; omega
  · intro l hl; exact absurd (a4 l) hl
  · intro l _; exact a4 _
  · intro i j i0 i1; omega
  · intro i i0 i1; omega
  · intro i i0 i1; omega
  · intro hb; omega
  · intro i i0 i1; omega
  · intro i i0 i1; omega
  · intro c n hc; cases hc
  · intro c n c1 n1 hc; cases hc
  · intro j j0 j1; omega
  · intro c n hc; cases hc
  · intro c n hc; cases hc
  · intro c n hc; cases hc
  · exact a3
  · intro l hl hr
    show T.first l = END
    exact a10 l hl hr
  · intro l s hs; cases hs
  · intro l; exact List.nodup_nil
  · intro l l1 s hs; cases hs
  · intro c n hc; cases hc
  · intro c hc; cases hc
  · intro c n hc; cases hc
  · intro k k0 k1; omega

theorem fillBuffer_low (c : List Int) (base : Int) (S : solver) (j : Int) (hj : j < base) :
    (fillBuffer c base S).buffer j = S.buffer j := by
  induction c generalizing base S with
  | nil => rfl
  | cons l ls ih =>
    show (fillBuffer ls (base + 1) _).buffer j = _
    rw [ih _ _ (by omega)]
    show upd S.buffer base l j = _
    rw [upd_other _ _ (by omega)]

theorem fillBuffer_lits (P : Int → Prop) (c : List Int) (base : Int) (S : solver)
    (h : ∀ l, l ∈ c → P l) (j : Int) (j0 : base ≤ j) (j1 : j < base + c.length) :
    P ((fillBuffer c base S).buffer j) := by
  induction c generalizing base S with
  | nil => simp at j1; omega
  | cons l ls ih =>
    show P ((fillBuffer ls (base + 1) _).buffer j)
    by_cases hj : j = base
    · rw [fillBuffer_low _ _ _ _ (by omega)]
      show P (upd S.buffer base l j)
      rw [hj, upd_same]
      exact h l (List.mem_cons_self _ _)
    · simp only [List.length_cons, Nat.cast_add, Nat.cast_one] at j1
      exact ih _ _ (fun x hx => h x (List.mem_cons_of_mem _ hx)) (by omega) (by omega)

theorem fillBuffer_inj (c : List Int) (base : Int) (S : solver) (hnd : c.Nodup) (j1 j2 : Int)
    (a1 : base ≤ j1) (a2 : j1 < base + c.length) (b1 : base ≤ j2) (b2 : j2 < base + c.length)
    (e : (fillBuffer c base S).buffer j1 = (fillBuffer c base S).buffer j2) : j1 = j2 := by
  induction c generalizing base S with
  | nil => simp at a2; omega
  | cons l ls ih =>
    simp only [List.length_cons, Nat.cast_add, Nat.cast_one] at a2 b2
    obtain ⟨hl, hls⟩ := List.nodup_cons.1 hnd
    have hhead : ∀ j, j = base → (fillBuffer (l :: ls) base S).buffer j = l := by
      intro j hj
      show (fillBuffer ls (base + 1) _).buffer j = l
      rw [fillBuffer_low _ _ _ _ (by omega)]
      show upd S.buffer base l j = l
      rw [hj, upd_same]
    have htail : ∀ j, base + 1 ≤ j → j < base + 1 + ls.length →
        (fillBuffer (l :: ls) base S).buffer j ∈ ls := by
      intro j j0 j1
      show (fillBuffer ls (base + 1) _).buffer j ∈ ls
      exact fillBuffer_lits (fun x => x ∈ ls) ls (base + 1) _ (fun x hx => hx) j j0 j1
    by_cases h1 : j1 = base
    · by_cases h2 : j2 = base
      · omega
      · exfalso
        have := htail j2 (by omega) (by omega)
        rw [← e, hhead j1 h1] at this
        exact hl this
    · by_cases h2 : j2 = base
      · exfalso
        have := htail j1 (by omega) (by omega)
        rw [e, hhead j2 h2] at this
        exact hl this
      · exact ih (base + 1) _ hls (by omega) (by omega) (by omega) (by omega) e

/-- A stored clause without a repeated literal keeps the records free of
repeated literals. -/
theorem Distinct_add {S T : solver} {cl : List (Int × Int)} {size : Int} (hA : Arena S cl)
    (hD : Distinct S cl) (hold : ∀ j, j < S.mem_used → T.DB j = S.DB j)
    (hnew : ∀ m1 m2, 0 ≤ m1 → m1 < size → 0 ≤ m2 → m2 < size →
      T.DB (S.mem_used + 2 + m1) = T.DB (S.mem_used + 2 + m2) → m1 = m2) :
    Distinct T (cl ++ [(S.mem_used + 2, size)]) := by
  intro c n hc m1 m2 a1 a2 b1 b2 e
  rcases List.mem_append.1 hc with h | h
  · have hlo := hA.lo c n h
    rw [hold _ (by omega), hold _ (by omega)] at e
    exact hD c n h m1 m2 a1 a2 b1 b2 e
  · simp only [List.mem_singleton, Prod.mk.injEq] at h
    obtain ⟨e1, e2⟩ := h
    subst e1 e2
    exact hnew m1 m2 a1 a2 b1 b2 e

/-- Storing a clause keeps the invariant, for the clause records extended by
the new clause; the trail is not touched. -/
theorem add_core {S T : solver} {cl : List (Int × Int)} {wl : Int → List Int} {b size : Int}
    (hC : Core S cl wl b) (hsz : 1 ≤ size)
    (hnv : T.nVars = S.nVars) (hfs : T.falseStack = S.falseStack) (hfa : T.fals = S.fals)
    (hfo : T.forced = S.forced) (hasg : T.assigned = S.assigned) (hre : T.reason = S.reason)
    (hpr : T.prev = S.prev) (hhd : T.head = S.head) (hnx : T.next = S.next)
    (hmem : T.mem_used = S.mem_used + (size + 3))
    (hold : ∀ j, j < S.mem_used → T.DB j = S.DB j)
    (hlits : ∀ k, 0 ≤ k → k < size →
      T.DB (S.mem_used + 2 + k) ≠ 0 ∧ iabs (T.DB (S.mem_used + 2 + k)) ≤ S.nVars)
    (hterm : T.DB (S.mem_used + 2 + size) = 0)
    (hmany : 1 < size →
      T.first = upd (upd S.first (T.DB (S.mem_used + 2)) S.mem_used)
        (T.DB (S.mem_used + 2 + 1)) (S.mem_used + 1) ∧
      T.DB S.mem_used = S.first (T.DB (S.mem_used + 2)) ∧
      T.DB (S.mem_used + 1) =
        upd S.first (T.DB (S.mem_used + 2)) S.mem_used (T.DB (S.mem_used + 2 + 1)))
    (hunit : size ≤ 1 → T.first = S.first) :
    Core T (cl ++ [(S.mem_used + 2, size)])
      (if 2 ≤ size then wlAdd wl (T.DB (S.mem_used + 2)) (T.DB (S.mem_used + 2 + 1)) S.mem_used
        else wl) b := by
  have hT := hC.trail
  have hA := hC.arena
  have hhr := hasReason_congr hre hfs
  obtain ⟨hAT, hWT⟩ := added_clause hA hC.watches hT.nvars hsz hnv hmem hold hlits hterm hmany
    hunit
  refine ⟨⟨by rw [hnv]; exact hT.nvars, by rw [hfo]; exact hT.forced_nonneg,
    by rw [hfo, hasg]; exact hT.forced_le, ?_, ?_, ?_, ?_, ?_⟩, ⟨?_, ?_, ?_⟩, ?_, ?_, ?_,
    hAT, hWT⟩
  · intro i i0 i1
    rw [hasg] at i1
    rw [hfs, hnv]
    exact hT.range i i0 i1
  · intro i i0 i1
    rw [hasg] at i1
    rw [hfs, hfa]
    exact hT.fals_on i i0 i1
  · intro l hl
    rw [hfa] at hl
    rw [hasg, hfs]
    exact hT.on_fals l hl
  · intro l hl
    rw [hfa] at hl ⊢
    exact hT.consistent l hl
  · intro i j i0 i1 j0 j1 e
    rw [hasg] at i1 j1
    rw [hfs] at e
    exact hT.inj i j i0 i1 j0 j1 e
  · intro i i0 i1
    rw [hfs, hfa, hhr]
    exact hC.levels.root i i0 i1
  · intro i i0 i1
    rw [hasg] at i1
    rw [hfs, hfa]
    exact hC.levels.upper i i0 i1
  · intro hb
    rw [hasg] at hb
    rw [hhr]
    exact hC.levels.first_dec hb
  · intro i i0 i1 hr
    rw [hasg] at i1
    rw [hhr] at hr
    obtain ⟨n, r1, r2, r3, r4⟩ := hC.reasons i i0 i1 hr
    obtain ⟨n1, hn1⟩ := hC.rin i i0 i1 hr
    have hnn : n = n1 := clauseAt_size r1 (hA.cls _ _ hn1)
    subst hnn
    have hlo := hA.lo _ _ hn1
    have hcell : ∀ m, 0 ≤ m → m ≤ n →
        T.DB (S.reason (iabs (S.falseStack i)) + m) = S.DB (S.reason (iabs (S.falseStack i)) + m) :=
      fun m m0 m1 => hold _ (by omega)
    rw [hre, hfs]
    refine ⟨n, ⟨r1.1, ?_, ?_⟩, ?_, ?_, ?_⟩
    · intro m m0 m1
      rw [hcell m m0 (by omega)]
      exact r1.2.1 m m0 m1
    · rw [hcell n (by omega) (le_refl _)]
      exact r1.2.2
    · have := hcell 0 (le_refl _) (by omega)
      rw [add_zero] at this
      rw [this]; exact r2
    · intro m m0 m1
      rw [hcell m (by omega) (by omega)]
      exact r3 m m0 m1
    · intro hb
      obtain ⟨m, j, m0, m1, j0, j1, e, hk⟩ := r4 hb
      refine ⟨m, j, m0, m1, j0, j1, by rw [hcell m (by omega) (by omega)]; exact e, ?_⟩
      intro k kk0 kk1
      rw [hhr]
      exact hk k kk0 kk1
  · intro i i0 i1 hr
    rw [hasg] at i1
    rw [hhr] at hr
    obtain ⟨n1, hn1⟩ := hC.rin i i0 i1 hr
    rw [hre, hfs]
    exact ⟨n1, List.mem_append_left _ hn1⟩
  · exact VmtfInv_frame hC.vmtf hpr hnx hhd hnv

/-- With nothing processed and the whole trail at the root, the invariant of
the state between two ingested clauses follows from its core. -/
theorem fresh_of_core {T : solver} {cl : List (Int × Int)} {wl : Int → List Int}
    (hC : Core T cl wl T.assigned) (hU : UnitsTrue T cl) (hf : T.forced = 0)
    (hp : T.processed = 0) : Fresh T cl wl := by
  have hT := hC.trail
  have h0 : 0 ≤ T.assigned := by
    have := hT.forced_le
    omega
  refine ⟨⟨hC, hU, by omega, ?_, ?_, Or.inl ⟨rfl, rfl⟩⟩, hf, hp⟩
  · intro c n hc hn s0 s1 a o hs ha ho p p0 p1 hp1 hd
    have hd1 : p < T.processed := hd
    omega
  · intro k k0 k1
    exact (hC.levels.root k (by omega) k1).2

/-- One ingested clause keeps the invariant of the state between two clauses,
when `parse` goes on after it. -/
theorem ingest_step {S T : solver} {cl : List (Int × Int)} {wl : Int → List Int} (c : List Int)
    (hF : Fresh S cl wl) (hwf : wellFormed S.nVars c)
    (h : ingestClause S c = Except.ok (SAT, T)) :
    T.nVars = S.nVars ∧
      ∃ cl2 wl2, Fresh T cl2 wl2 ∧ (c.Nodup → Distinct S cl → Distinct T cl2) := by
  obtain ⟨hPL, hf0, hp0⟩ := hF
  have hC := hPL.core
  have hT := hC.trail
  have hA := hC.arena
  have hl := hwf
  unfold ingestClause at h
  simp only at h
  cases hadd : addClause (fillBuffer c 0 S) Src.buffer c.length 1 with
  | error e => rw [hadd] at h; cases h
  | ok r =>
    obtain ⟨clause, S2⟩ := r
    rw [hadd] at h
    simp only at h
    have hlen : 1 ≤ (c.length : Int) := by
      by_contra hc
      rw [if_pos (Or.inl (by omega))] at h
      simp only [Except.ok.injEq, Prod.mk.injEq] at h
      exact absurd h.1 (by decide)
    have hm := (addClause_mem _ _ _ _ _ hadd).1
    obtain ⟨S3, hret, hused, hlits, hterm, hold, hfm, hd0, hd1, hfu, -, -, -⟩ :=
      addClause_buffer (fillBuffer c 0 S) c.length 1 (by omega) hm
    rw [hadd] at hret
    simp only [Except.ok.injEq, Prod.mk.injEq] at hret
    obtain ⟨hcl, hS2⟩ := hret
    subst hS2
    subst hcl
    obtain ⟨k1, -, -, k4, k5, k6, k7, k8, k9, k10, k11, -⟩ :=
      kept_fields (kept_addClause _ _ _ _ _ hadd)
    simp only [fillBuffer_nVars, fillBuffer_reason, fillBuffer_falseStack, fillBuffer_fals,
      fillBuffer_forced, fillBuffer_processed, fillBuffer_assigned, fillBuffer_prev,
      fillBuffer_head] at k1 k4 k5 k6 k7 k8 k9 k10 k11
    simp only [fillBuffer_mem_used, fillBuffer_DB, fillBuffer_first]
      at hused hlits hterm hold hfm hd0 hd1 hfu h
    have hb : ∀ k, 0 ≤ k → k < (c.length : Int) →
        (fillBuffer c 0 S).buffer k ≠ 0 ∧ iabs ((fillBuffer c 0 S).buffer k) ≤ S.nVars :=
      fun k k0 kk => fillBuffer_lits (fun l => l ≠ 0 ∧ iabs l ≤ S.nVars) c 0 S hl k k0 (by omega)
    have hlit : ∀ k, 0 ≤ k → k < (c.length : Int) →
        S2.DB (S.mem_used + 2 + k) ≠ 0 ∧ iabs (S2.DB (S.mem_used + 2 + k)) ≤ S.nVars := by
      intro k k0 kk
      rw [hlits k k0 kk]
      exact hb k k0 kk
    have hmany : 1 < (c.length : Int) →
        S2.first = upd (upd S.first (S2.DB (S.mem_used + 2)) S.mem_used)
          (S2.DB (S.mem_used + 2 + 1)) (S.mem_used + 1) ∧
        S2.DB S.mem_used = S.first (S2.DB (S.mem_used + 2)) ∧
        S2.DB (S.mem_used + 1) =
          upd S.first (S2.DB (S.mem_used + 2)) S.mem_used (S2.DB (S.mem_used + 2 + 1)) := by
      intro hs
      have e0 := hlits 0 (le_refl _) (by omega)
      rw [add_zero] at e0
      have e1 := hlits 1 (by omega) hs
      rw [e0, e1]
      exact ⟨hfm hs, hd0 hs, hd1 hs⟩
    have knx : S2.next = S.next := by
      rw [kept_next (kept_addClause _ _ _ _ _ hadd), fillBuffer_next]
    have hC2 := add_core hC hlen k1 k5 k6 k7 k9 k4 k10 k11 knx hused hold hlit hterm hmany hfu
    have hmemnew : (S.mem_used + 2, (c.length : Int)) ∈ cl ++ [(S.mem_used + 2, (c.length : Int))] := by
      simp
    have hD2 : c.Nodup → Distinct S cl →
        Distinct S2 (cl ++ [(S.mem_used + 2, (c.length : Int))]) := by
      intro hnd hD
      refine Distinct_add hA hD hold ?_
      intro m1 m2 a1 a2 b1 b2 e
      rw [hlits m1 a1 a2, hlits m2 b1 b2] at e
      exact fillBuffer_inj c 0 S hnd m1 m2 a1 (by omega) b1 (by omega) e
    have hU2 : UnitsTrue S2 cl := by
      intro c1 hc1
      have hlo := hA.lo c1 1 hc1
      rw [k6, hold c1 (by omega)]
      exact hPL.units c1 hc1
    refine ⟨?_, ?_⟩
    · by_cases g1 : (c.length : Int) = 0 ∨
          ((c.length : Int) = 1 ∧ S2.fals (S2.DB (S.mem_used + 2)) ≠ 0)
      · rw [if_pos g1] at h
        simp only [Except.ok.injEq, Prod.mk.injEq] at h
        exact absurd h.1 (by decide)
      · rw [if_neg g1] at h
        by_cases g2 : (c.length : Int) = 1 ∧ S2.fals (-(S2.DB (S.mem_used + 2))) = 0
        · rw [if_pos g2] at h
          simp only [Except.ok.injEq, Prod.mk.injEq] at h
          rw [← h.2]
          exact k1
        · rw [if_neg g2] at h
          simp only [Except.ok.injEq, Prod.mk.injEq] at h
          rw [← h.2]
          exact k1
    · by_cases g1 : (c.length : Int) = 0 ∨
          ((c.length : Int) = 1 ∧ S2.fals (S2.DB (S.mem_used + 2)) ≠ 0)
      · rw [if_pos g1] at h
        simp only [Except.ok.injEq, Prod.mk.injEq] at h
        exact absurd h.1 (by decide)
      · rw [if_neg g1] at h
        by_cases g2 : (c.length : Int) = 1 ∧ S2.fals (-(S2.DB (S.mem_used + 2))) = 0
        · -- a fresh unit clause: its literal is assigned at the root
          rw [if_pos g2] at h
          simp only [Except.ok.injEq, Prod.mk.injEq] at h
          obtain ⟨-, hT2⟩ := h
          obtain ⟨g3, g4⟩ := g2
          have g5 : S2.fals (S2.DB (S.mem_used + 2)) = 0 := by
            by_contra hc
            exact g1 (Or.inr ⟨g3, hc⟩)
          have hC2b : Core S2 (cl ++ [(S.mem_used + 2, (c.length : Int))])
              (if 2 ≤ (c.length : Int) then wlAdd wl (S2.DB (S.mem_used + 2))
                (S2.DB (S.mem_used + 2 + 1)) S.mem_used else wl) S2.assigned := by
            rw [k9]; exact hC2
          have hC3 := assign_core true hC2b hmemnew
            (by rw [k9]; have := hT.forced_le; omega) g5 g4
            (fun m m0 m1 => by omega) (Or.inl ⟨rfl, rfl⟩)
          rw [if_pos rfl] at hC3
          subst hT2
          refine ⟨_, _, fresh_of_core hC3 ?_ (by show S2.forced = 0; rw [k7]; exact hf0)
            (by show S2.processed = 0; rw [k8]; exact hp0),
            fun hnd hD => Distinct_assign _ _ (hD2 hnd hD)⟩
          intro c1 hc1
          rcases List.mem_append.1 hc1 with hh | hh
          · exact UnitsTrue_assign true hU2 g4 c1 hh
          · simp only [List.mem_singleton, Prod.mk.injEq] at hh
            obtain ⟨e5, -⟩ := hh
            subst e5
            show upd S2.fals (-(S2.DB (S.mem_used + 2))) (if true = true then IMPLIED else 1)
              (-(S2.DB (S.mem_used + 2))) = IMPLIED
            rw [upd_same, if_pos rfl]
        · rw [if_neg g2] at h
          simp only [Except.ok.injEq, Prod.mk.injEq] at h
          obtain ⟨-, hT2⟩ := h
          subst hT2
          refine ⟨_, _, fresh_of_core (by rw [k9]; exact hC2) ?_ (by rw [k7]; exact hf0)
            (by rw [k8]; exact hp0), hD2⟩
          intro c1 hc1
          rcases List.mem_append.1 hc1 with hh | hh
          · exact hU2 c1 hh
          · -- a unit clause whose literal is already true
            simp only [List.mem_singleton, Prod.mk.injEq] at hh
            obtain ⟨e5, e6⟩ := hh
            subst e5
            have g4 : S2.fals (-(S2.DB (S.mem_used + 2))) ≠ 0 := fun hc => g2 ⟨e6.symm, hc⟩
            rw [k6] at g4 ⊢
            obtain ⟨i, i0, i1, i2⟩ := hT.on_fals _ g4
            rw [← i2]
            exact (hC.levels.root i i0 i1).1

/-- Ingestion that ends with `SAT` leaves a state that satisfies the
invariant, with nothing processed. -/
theorem ingest_inv (cs : List (List Int)) (nZeros : Int) {S T : solver}
    {cl : List (Int × Int)} {wl : Int → List Int} (hF : Fresh S cl wl)
    (hwf : wellFormedAll S.nVars cs) (h : ingest cs nZeros S = Except.ok (SAT, T)) :
    T.nVars = S.nVars ∧ ∃ cl2 wl2, Fresh T cl2 wl2 ∧
      ((∀ c, c ∈ cs → c.Nodup) → Distinct S cl → Distinct T cl2) := by
  induction cs generalizing nZeros S cl wl with
  | nil =>
    unfold ingest at h
    by_cases h0 : nZeros > 0
    · rw [if_pos h0] at h
      unfold ingestClause at h
      simp only at h
      cases hadd : addClause (fillBuffer [] 0 S) Src.buffer (([] : List Int).length : Int) 1 with
      | error e => rw [hadd] at h; cases h
      | ok r =>
        rw [hadd] at h
        simp only at h
        rw [if_pos (Or.inl (by simp))] at h
        simp only [Except.ok.injEq, Prod.mk.injEq] at h
        exact absurd h.1 (by decide)
    · rw [if_neg h0] at h
      simp only [Except.ok.injEq, Prod.mk.injEq] at h
      rw [← h.2]
      exact ⟨rfl, cl, wl, hF, fun _ hD => hD⟩
  | cons c cs ih =>
    unfold ingest at h
    by_cases h0 : nZeros > 0
    · rw [if_pos h0] at h
      cases hi : ingestClause S c with
      | error e => rw [hi] at h; cases h
      | ok q =>
        obtain ⟨v, S1⟩ := q
        rw [hi] at h
        simp only at h
        by_cases hv : v = UNSAT
        · rw [if_pos hv] at h
          simp only [Except.ok.injEq, Prod.mk.injEq] at h
          exact absurd h.1 (by decide)
        · rw [if_neg hv] at h
          have hv1 : v = SAT := by
            unfold ingestClause at hi
            simp only at hi
            cases hadd : addClause (fillBuffer c 0 S) Src.buffer c.length 1 with
            | error e => rw [hadd] at hi; cases hi
            | ok r =>
              rw [hadd] at hi
              simp only at hi
              split_ifs at hi
              · simp only [Except.ok.injEq, Prod.mk.injEq] at hi
                exact absurd hi.1.symm hv
              · simp only [Except.ok.injEq, Prod.mk.injEq] at hi
                exact hi.1.symm
              · simp only [Except.ok.injEq, Prod.mk.injEq] at hi
                exact hi.1.symm
          subst hv1
          obtain ⟨e1, cl1, wl1, hF1, hD1⟩ :=
            ingest_step c hF (hwf c (List.mem_cons_self _ _)) hi
          have hwf1 : wellFormedAll S1.nVars cs := by
            rw [e1]
            exact fun x hx => hwf x (List.mem_cons_of_mem _ hx)
          obtain ⟨e2, cl2, wl2, hF2, hD2⟩ := ih (nZeros - 1) hF1 hwf1 h
          exact ⟨by rw [e2, e1], cl2, wl2, hF2, fun hnd hD =>
            hD2 (fun x hx => hnd x (List.mem_cons_of_mem _ hx))
              (hD1 (hnd c (List.mem_cons_self _ _)) hD)⟩
    · rw [if_neg h0] at h
      simp only [Except.ok.injEq, Prod.mk.injEq] at h
      rw [← h.2]
      exact ⟨rfl, cl, wl, hF, fun _ hD => hD⟩

/-- The state in which `main` calls `solve`: when `parse` answers `SAT` on a
file whose clauses are well formed, the state satisfies the invariant with
nothing processed. -/
theorem parse_inv (S : solver) (n m : Int) (cs : List (List Int)) (T : solver)
    (hwf : wellFormedAll n cs) (h : parse S n m cs = Except.ok (SAT, T)) :
    ∃ cl wl, Ready T cl wl ∧ ((∀ c, c ∈ cs → c.Nodup) → Distinct T cl) := by
  unfold parse at h
  cases hi : initCDCL S n m with
  | error e => rw [hi] at h; cases h
  | ok S1 =>
    rw [hi] at h
    simp only at h
    obtain ⟨a1, -, -, -, -, -, -, -, -, -, a11, -⟩ := initCDCL_fields S n m S1 hi
    have hF := init_fresh S n m S1 hi
    have hwf1 : wellFormedAll S1.nVars cs := by
      intro c hc l hl
      obtain ⟨w1, w2⟩ := hwf c hc l hl
      refine ⟨w1, ?_⟩
      rw [a1]
      split_ifs <;> omega
    obtain ⟨e, cl, wl, hF2, hD2⟩ := ingest_inv cs S1.nClauses hF hwf1 h
    exact ⟨cl, wl, Or.inl hF2, fun hnd => hD2 hnd (fun c n hc => by cases hc)⟩

/-- The decision walk stays inside the variables and stops at a variable that
is unassigned in both polarities, or at 0. -/
theorem nextDecision_spec (f : Nat) (S : solver) (d0 d : Int) (hV : VmtfInv S)
    (h0 : 0 ≤ d0) (h1 : d0 ≤ S.nVars) (h : nextDecision f S d0 = Except.ok d) :
    0 ≤ d ∧ d ≤ S.nVars ∧ S.fals d = 0 ∧ S.fals (-d) = 0 := by
  induction f generalizing d0 with
  | zero => simp [nextDecision] at h
  | succ f ih =>
    rw [nextDecision] at h
    by_cases hc : S.fals d0 ≠ 0 ∨ S.fals (-d0) ≠ 0
    · rw [if_pos hc] at h
      exact ih _ (hV.2.2.1 d0).1 (hV.2.2.1 d0).2 h
    · rw [if_neg hc] at h
      simp only [Except.ok.injEq] at h
      subst h
      push_neg at hc
      exact ⟨h0, h1, hc.1, hc.2⟩

theorem Quiet_set_fast {S : solver} {cl : List (Int × Int)} {wl : Int → List Int}
    (hQ : Quiet S cl wl) (v : Int) : Quiet { S with fast := v } cl wl := by
  obtain ⟨⟨⟨t1, t2, t3, t4, t5, t6, t7, t8⟩, ⟨l1, l2, l3⟩, r, ri, vm, a, w⟩, u, p, tw⟩ := hQ
  exact ⟨⟨⟨t1, t2, t3, t4, t5, t6, t7, t8⟩, ⟨l1, l2, l3⟩, r, ri, VmtfInv_frame vm rfl rfl rfl rfl,
    Arena_same a rfl rfl rfl, Watches_same w rfl rfl rfl⟩, u, p, tw⟩

/-- Every state of a run satisfies the invariant: with propagation pending it
is a state in which `solve` calls `propagate`, otherwise propagation is
complete; the variable `decision` is a variable of the formula or 0; and no
clause record holds a literal twice when no clause of the file does. -/
theorem reach_inv {cs : List (List Int)} {ph : Bool} {S : solver} {dec : Int}
    (h : Reach cs ph S dec) :
    ∃ cl wl, (ph = true → Ready S cl wl) ∧ (ph = false → Quiet S cl wl) ∧
      0 ≤ dec ∧ dec ≤ S.nVars ∧ ((∀ c, c ∈ cs → c.Nodup) → Distinct S cl) := by
  induction h with
  | parsed S0 n m T hwf h =>
    obtain ⟨cl, wl, hR, hD⟩ := parse_inv S0 n m cs T hwf h
    have hV : VmtfInv T := by
      rcases hR with ⟨hI, -, -⟩ | ⟨hI, -, -⟩
      · exact hI.core.vmtf
      · exact hI.core.vmtf
    exact ⟨cl, wl, fun _ => hR, fun e => absurd e (by decide), (by have := hV.1; omega),
      hV.2.1, hD⟩
  | propagated f S dec T hR h ih =>
    obtain ⟨cl, wl, a, -, d0, d1, hD⟩ := ih
    obtain ⟨cl2, wl2, hQ, hD2, hN⟩ := propagate_inv f S cl wl T (a rfl) h
    have hV := hQ.core.vmtf
    refine ⟨cl2, wl2, fun e => absurd e (by decide), fun _ => hQ, ?_, ?_, fun hnd => hD2 (hD hnd)⟩
    · split_ifs
      · have := hV.1; omega
      · exact d0
    · split_ifs
      · exact hV.2.1
      · rw [hN]; exact d1
  | restarted S hR ih =>
    obtain ⟨cl, wl, -, a, d0, d1, hD⟩ := ih
    have hQ := Quiet_set_fast (a rfl) ((Int.tdiv S.slow 100) * 125)
    have hQ2 := restart_inv hQ
    obtain ⟨r1, r2, r3, r4, r5, r6, r7, r8, -⟩ :=
      restart_fields { S with fast := (Int.tdiv S.slow 100) * 125 } hQ.core.trail.forced_le
    refine ⟨cl, wl, fun e => absurd e (by decide), fun _ => hQ2, d0, (by rw [r8]; exact d1), ?_⟩
    intro hnd
    have hD1 := hD hnd
    intro c n hc m1 m2 a1 a2 b1 b2 e
    rw [r4] at e
    exact hD1 c n hc m1 m2 a1 a2 b1 b2 e
  | decided f S dec d hR h hd ih =>
    obtain ⟨cl, wl, -, a, d0, d1, hD⟩ := ih
    have hQ := a rfl
    obtain ⟨e0, e1, e2, e3⟩ := nextDecision_spec f S dec d hQ.core.vmtf d0 d1 h
    have hd1 : 1 ≤ d := by omega
    have hR2 := decision_inv d hQ hd1 e1 e2 e3
    have habs : iabs (if S.model d ≠ 0 then d else -d) = d := by
      split_ifs
      · unfold iabs; rw [if_neg (by omega)]
      · rw [iabs_neg]; unfold iabs; rw [if_neg (by omega)]
    refine ⟨cl, wl, fun _ => hR2, fun e => absurd e (by decide), (by rw [habs]; omega),
      (by rw [habs]; exact e1), ?_⟩
    intro hnd
    have hD1 := hD hnd
    exact fun c n hc m1 m2 a1 a2 b1 b2 e => hD1 c n hc m1 m2 a1 a2 b1 b2 e

theorem decisionLevel_mono (S : solver) (a b : Nat) (h : a ≤ b) :
    decisionLevel S a ≤ decisionLevel S b := by
  induction b with
  | zero =>
    have : a = 0 := by omega
    rw [this]
  | succ b ih =>
    by_cases hab : a = b + 1
    · rw [hab]
    · have := ih (by omega)
      rw [decisionLevel]
      omega

theorem decisionLevel_same (S : solver) (a b : Nat) (h : a ≤ b)
    (hr : ∀ k : Int, (a : Int) < k → k ≤ b → hasReason S k) :
    decisionLevel S b = decisionLevel S a := by
  induction b with
  | zero =>
    have : a = 0 := by omega
    rw [this]
  | succ b ih =>
    by_cases hab : a = b + 1
    · rw [hab]
    · have h1 := ih (by omega) (fun k k0 k1 => hr k k0 (by push_cast; omega))
      have h2 := hr ((b : Int) + 1) (by omega) (by push_cast; omega)
      unfold hasReason at h2
      rw [decisionLevel, if_neg h2, h1, Nat.add_zero]

/-- In a state with complete propagation, the invariant of the propagation
loop holds with an empty frontier. -/
theorem Quiet.to_plinv {S : solver} {cl : List (Int × Int)} {wl : Int → List Int}
    (hQ : Quiet S cl wl) : PLInv S cl wl S.forced false := by
  have hT := hQ.core.trail
  have h1 := hT.forced_nonneg
  have h2 := hT.forced_le
  have h3 := hQ.proc
  refine ⟨hQ.core, hQ.units, by omega, hQ.tw, ?_, Or.inr ⟨rfl, rfl, by omega⟩⟩
  intro k k0 k1
  omega

theorem Ready.ex_plinv {S : solver} {cl : List (Int × Int)} {wl : Int → List Int}
    (hR : Ready S cl wl) : ∃ b fl, PLInv S cl wl b fl := by
  rcases hR with ⟨h, -, -⟩ | ⟨h, -, -⟩
  · exact ⟨_, _, h⟩
  · exact ⟨_, _, h⟩

/-- The invariant at every state of a run. -/
theorem Reach.inv_plinv {cs : List (List Int)} {ph : Bool} {S : solver} {dec : Int}
    (h : Reach cs ph S dec) :
    ∃ cl wl b fl, PLInv S cl wl b fl ∧ ((∀ c, c ∈ cs → c.Nodup) → Distinct S cl) := by
  obtain ⟨cl, wl, a1, a2, -, -, hD⟩ := reach_inv h
  cases ph with
  | true =>
    obtain ⟨b, fl, hI⟩ := (a1 rfl).ex_plinv
    exact ⟨cl, wl, b, fl, hI, hD⟩
  | false => exact ⟨cl, wl, _, _, (a2 rfl).to_plinv, hD⟩

/-- In a state with complete propagation every clause record has a true
literal or two literals that are not false. -/
theorem Quiet.clause_ok {S : solver} {cl : List (Int × Int)} {wl : Int → List Int}
    (hQ : Quiet S cl wl) {c n : Int} (hc : (c, n) ∈ cl) :
    (∃ m, 0 ≤ m ∧ m < n ∧ S.fals (-(S.DB (c + m))) ≠ 0) ∨
    (∃ m1 m2, 0 ≤ m1 ∧ m1 < m2 ∧ m2 < n ∧ S.fals (S.DB (c + m1)) = 0 ∧
      S.fals (S.DB (c + m2)) = 0) := by
  have hT := hQ.core.trail
  have hA := hQ.core.arena
  have hn1 := (hA.lo c n hc).2.1
  by_cases hn : n = 1
  · subst hn
    left
    refine ⟨0, le_refl _, by omega, ?_⟩
    rw [add_zero, hQ.units c hc]
    decide
  · have hn2 : 2 ≤ n := by omega
    by_cases h0 : S.fals (S.DB c) = 0
    · by_cases h1 : S.fals (S.DB (c + 1)) = 0
      · right
        exact ⟨0, 1, le_refl _, by omega, by omega, by rw [add_zero]; exact h0, h1⟩
      · left
        -- the literal at position 1 is false and processed: position 0 is true
        have key : ∀ s0 s1, ((s0 = c - 2 ∧ s1 = c - 1) ∨ (s0 = c - 1 ∧ s1 = c - 2)) →
            s0 ∈ wl (S.DB (c + 1)) → s1 ∈ wl (S.DB c) → S.fals (-(S.DB c)) ≠ 0 := by
          intro s0 s1 hs ha ho
          obtain ⟨p, p0, p1, p2⟩ := hT.on_fals _ h1
          obtain ⟨⟨q, q0, q1, q2, -⟩, -⟩ := hQ.tw c n hc hn2 s0 s1 _ _ hs ha ho p p0 p1 p2
            (by show p < S.processed; rw [hQ.proc]; exact p1)
          rw [← q2]
          exact hT.fals_on q q0 q1
        refine ⟨0, le_refl _, by omega, ?_⟩
        rw [add_zero]
        rcases hQ.core.watches.own c n hc hn2 with ⟨o1, o2⟩ | ⟨o1, o2⟩
        · exact key (c - 1) (c - 2) (Or.inr ⟨rfl, rfl⟩) o2 o1
        · exact key (c - 2) (c - 1) (Or.inl ⟨rfl, rfl⟩) o1 o2
    · left
      have key : ∀ s0 s1, ((s0 = c - 2 ∧ s1 = c - 1) ∨ (s0 = c - 1 ∧ s1 = c - 2)) →
          s0 ∈ wl (S.DB c) → s1 ∈ wl (S.DB (c + 1)) → S.fals (-(S.DB (c + 1))) ≠ 0 := by
        intro s0 s1 hs ha ho
        obtain ⟨p, p0, p1, p2⟩ := hT.on_fals _ h0
        obtain ⟨⟨q, q0, q1, q2, -⟩, -⟩ := hQ.tw c n hc hn2 s0 s1 _ _ hs ha ho p p0 p1 p2
          (by show p < S.processed; rw [hQ.proc]; exact p1)
        rw [← q2]
        exact hT.fals_on q q0 q1
      refine ⟨1, by omega, by omega, ?_⟩
      rcases hQ.core.watches.own c n hc hn2 with ⟨o1, o2⟩ | ⟨o1, o2⟩
      · exact key (c - 2) (c - 1) (Or.inl ⟨rfl, rfl⟩) o1 o2
      · exact key (c - 1) (c - 2) (Or.inr ⟨rfl, rfl⟩) o2 o1

/-- The watch-list invariant gives the property in the words of the
specification. -/
theorem WatchInv.once {S : solver} {cl : List (Int × Int)} {wl : Int → List Int}
    (h : WatchInv S cl wl) : OnceEach S cl wl := by
  intro c n hc hn
  have hW := h.watches
  have hne : S.DB c ≠ S.DB (c + 1) := by
    intro e
    have := h.distinct c n hc 0 1 (le_refl _) (by omega) (by omega) (by omega)
      (by rw [add_zero]; exact e)
    omega
  have cnt : ∀ s a, s ∈ wl a → ∀ l, (wl l).count s = if l = a then 1 else 0 := by
    intro s a hs l
    by_cases hl : l = a
    · rw [if_pos hl, hl]
      exact List.count_eq_one_of_mem (hW.nodup a) hs
    · rw [if_neg hl]
      exact List.count_eq_zero_of_not_mem (fun hm => hl (hW.uniq l a s hm hs))
  refine ⟨hne, ?_⟩
  rcases hW.own c n hc hn with ⟨o1, o2⟩ | ⟨o1, o2⟩
  · exact ⟨c - 2, c - 1, Or.inl ⟨rfl, rfl⟩, cnt _ _ o1, cnt _ _ o2⟩
  · exact ⟨c - 1, c - 2, Or.inr ⟨rfl, rfl⟩, cnt _ _ o2, cnt _ _ o1⟩

/-- Following the links from `first[l]` yields the watch list. -/
theorem chain_watchChain (S : solver) (ws : List Int) (h : Int)
    (hs : IsSeg S.DB h ws END) (hne : ∀ s, s ∈ ws → s ≠ END) :
    watchChain S (ws.length + 1) h = ws := by
  induction ws generalizing h with
  | nil =>
    have : h = END := hs
    rw [this]
    rfl
  | cons s r ih =>
    obtain ⟨h1, h2⟩ := hs
    subst h1
    show (if h = END then [] else h :: watchChain S (r.length + 1) (S.DB h)) = h :: r
    rw [if_neg (hne h (List.mem_cons_self _ _)),
      ih _ h2 (fun t ht => hne t (List.mem_cons_of_mem _ ht))]

/-- The test `clause[-1] == 0` of `propagate` leads from a header slot in a
watch list to the first literal of the clause record that owns the slot. -/
theorem slot_test {S : solver} {cl : List (Int × Int)} {wl : Int → List Int}
    (hA : Arena S cl) (hW : Watches S cl wl) (hn : 1 ≤ S.nVars) {l s : Int} (hs : s ∈ wl l) :
    ∃ c n, (c, n) ∈ cl ∧ 2 ≤ n ∧ (s = c - 2 ∨ s = c - 1) ∧
      (if S.DB (s - 1) = 0 then s + 2 else s + 1) = c := by
  obtain ⟨c, n, hc, hn2, e⟩ := hW.slot l s hs
  refine ⟨c, n, hc, hn2, e, ?_⟩
  rcases e with e | e
  · have : S.DB (s - 1) = 0 := by
      have := hA.pre0 c n hc
      rw [e]
      have e2 : c - 2 - 1 = c - 3 := by omega
      rw [e2]
      exact this
    rw [if_pos this]
    omega
  · obtain ⟨w0, w1, w2, w3⟩ := hA.watched_lits hc hn2
    have : S.DB (s - 1) ≠ 0 := by
      have e2 : s - 1 = c - 2 := by omega
      rw [e2]
      rcases hW.own c n hc hn2 with ⟨o1, -⟩ | ⟨o1, -⟩
      · exact hW.link_ne_zero hA hn w0 w1 o1
      · exact hW.link_ne_zero hA hn w2 w3 o1
    rw [if_neg this]
    omega

/-- The trail facts of the invariant. -/
theorem TrailInv.ok {S : solver} (hT : TrailInv S) (h1 : S.forced ≤ S.processed)
    (h2 : S.processed ≤ S.assigned) : TrailOK S := by
  have hinj : ∀ i j, 0 ≤ i → i < S.assigned → 0 ≤ j → j < S.assigned →
      iabs (S.falseStack i) = iabs (S.falseStack j) → i = j := by
    intro i j i0 i1 j0 j1 e
    rcases iabs_eq_iff.1 e with e1 | e1
    · exact hT.inj i j i0 i1 j0 j1 e1
    · exact absurd e1 (hT.no_compl i j i0 i1 j0 j1)
  have h0 : 0 ≤ S.assigned := by
    have := hT.forced_nonneg
    have := hT.forced_le
    omega
  have hcard : (assignedVars S).card = S.assigned.toNat := by
    rw [← Finset.card_range S.assigned.toNat]
    symm
    apply Finset.card_bij (fun (i : Nat) _ => iabs (S.falseStack (i : Int)))
    · intro i hi
      have hi1 : (i : Int) < S.assigned := by
        have := Finset.mem_range.1 hi
        omega
      obtain ⟨r1, r2⟩ := hT.range i (by omega) hi1
      have hf := hT.fals_on i (by omega) hi1
      unfold assignedVars
      rw [Finset.mem_filter, Finset.mem_Icc]
      refine ⟨⟨iabs_pos r1, r2⟩, ?_⟩
      unfold iabs
      split_ifs
      · right; rw [neg_neg]; exact hf
      · left; exact hf
    · intro i hi j hj e
      have hi1 : (i : Int) < S.assigned := by
        have := Finset.mem_range.1 hi
        omega
      have hj1 : (j : Int) < S.assigned := by
        have := Finset.mem_range.1 hj
        omega
      have := hinj i j (by omega) hi1 (by omega) hj1 e
      omega
    · intro v hv
      unfold assignedVars at hv
      rw [Finset.mem_filter, Finset.mem_Icc] at hv
      obtain ⟨⟨v1, v2⟩, hf⟩ := hv
      rcases hf with hf | hf
      · obtain ⟨i, i0, i1, i2⟩ := hT.on_fals _ hf
        refine ⟨i.toNat, Finset.mem_range.2 (by omega), ?_⟩
        rw [Int.toNat_of_nonneg i0, i2]
        unfold iabs
        rw [if_neg (by omega)]
      · obtain ⟨i, i0, i1, i2⟩ := hT.on_fals _ hf
        refine ⟨i.toNat, Finset.mem_range.2 (by omega), ?_⟩
        rw [Int.toNat_of_nonneg i0, i2, iabs_neg]
        unfold iabs
        rw [if_neg (by omega)]
  have hle : (assignedVars S).card ≤ S.nVars.toNat := by
    have : (assignedVars S).card ≤ (Finset.Icc 1 S.nVars).card := by
      unfold assignedVars
      exact Finset.card_filter_le _ _
    rw [Int.card_Icc] at this
    have hn := hT.nvars
    omega
  refine ⟨hT.forced_nonneg, h1, h2, ?_, hinj, ?_, ?_⟩
  · intro l
    constructor
    · exact hT.on_fals l
    · rintro ⟨i, i0, i1, i2⟩
      rw [← i2]
      exact hT.fals_on i i0 i1
  · rw [hcard, Int.toNat_of_nonneg h0]
  · have hn := hT.nvars
    omega

theorem PLInv.trail_ok {S : solver} {cl : List (Int × Int)} {wl : Int → List Int} {b : Int}
    {fl : Bool} (hR : PLInv S cl wl b fl) (hf : S.forced ≤ S.processed) : TrailOK S :=
  hR.core.trail.ok hf hR.proc.2

/-- The state `analyze` returns satisfies the trail invariant. -/
theorem analyze_trail (f : Nat) (S : solver) (c lem : Int) (T : solver) (hC : Conflict S c)
    (h : analyze f S c = Except.ok (lem, T)) : TrailOK T := by
  obtain ⟨size, u, P, hP, -⟩ := analyze_spec (fun _ => False) f S c lem T
    ⟨fun _ _ _ hf => hf, fun _ _ _ _ hf => hf.elim⟩ hC h
  have hT := hC.trail
  have hf0 := hT.forced_nonneg
  obtain ⟨u1, u2, u3⟩ := hP.up
  obtain ⟨k1, k2, k3, k4, -⟩ := hP.keep
  have hfalsT : ∀ i, 0 ≤ i → i < P → T.fals (S.falseStack i) ≠ 0 := by
    intro i i0 i1
    by_cases hi : i < S.forced
    · rw [hP.fals_low i i0 hi]; decide
    · rw [hP.fals_mid i (by omega) i1]; decide
  have hTT : TrailInv T := by
    refine ⟨by rw [k4]; exact hT.nvars, by rw [k3]; exact hf0, by rw [k3, hP.asg]; exact u1,
      ?_, ?_, ?_, ?_, ?_⟩
    · intro i i0 i1
      rw [hP.asg] at i1
      rw [k1, k4]
      exact hT.range i i0 (by omega)
    · intro i i0 i1
      rw [hP.asg] at i1
      rw [k1]
      exact hfalsT i i0 i1
    · intro l hl
      obtain ⟨i, i0, i1, i2⟩ := hP.fals_seen l hl
      exact ⟨i, i0, by rw [hP.asg]; exact i1, by rw [k1]; exact i2⟩
    · intro l hl
      by_contra hc
      obtain ⟨i, i0, i1, i2⟩ := hP.fals_seen l hl
      obtain ⟨j, j0, j1, j2⟩ := hP.fals_seen (-l) hc
      exact hT.no_compl j i j0 (by omega) i0 (by omega) (by rw [j2, i2])
    · intro i j i0 i1 j0 j1 e
      rw [hP.asg] at i1 j1
      rw [k1] at e
      exact hT.inj i j i0 (by omega) j0 (by omega) e
  exact hTT.ok (by rw [k3, hP.proc]; exact u1) (by rw [hP.proc, hP.asg])

/-- Storing a non-empty clause of different literals, all of them variables of
the formula, keeps the watch-list invariant. -/
theorem addClause_watchInv {S T : solver} {cl : List (Int × Int)} {wl : Int → List Int}
    {size irr c : Int} (hI : WatchInv S cl wl) (hn : 1 ≤ S.nVars) (hsz : 1 ≤ size)
    (hl : ∀ k, 0 ≤ k → k < size → S.buffer k ≠ 0 ∧ iabs (S.buffer k) ≤ S.nVars)
    (hinj : ∀ k1 k2, 0 ≤ k1 → k1 < size → 0 ≤ k2 → k2 < size →
      S.buffer k1 = S.buffer k2 → k1 = k2)
    (h : addClause S Src.buffer size irr = Except.ok (c, T)) :
    ∃ wl2, WatchInv T (cl ++ [(c, size)]) wl2 := by
  obtain ⟨hm, hc, -, -, -, -, hnv, -⟩ := addClause_mem _ _ _ _ _ h
  obtain ⟨S3, hret, hused, hlits, hterm, hold, hfm, hd0, hd1, hfu, -⟩ :=
    addClause_buffer S size irr (by omega) hm
  rw [h] at hret
  simp only [Except.ok.injEq, Prod.mk.injEq] at hret
  obtain ⟨hcl, hS2⟩ := hret
  subst hS2
  subst hcl
  have hlit : ∀ k, 0 ≤ k → k < size →
      T.DB (S.mem_used + 2 + k) ≠ 0 ∧ iabs (T.DB (S.mem_used + 2 + k)) ≤ S.nVars := by
    intro k k0 kk
    rw [hlits k k0 kk]
    exact hl k k0 kk
  have hmany : 1 < size →
      T.first = upd (upd S.first (T.DB (S.mem_used + 2)) S.mem_used)
        (T.DB (S.mem_used + 2 + 1)) (S.mem_used + 1) ∧
      T.DB S.mem_used = S.first (T.DB (S.mem_used + 2)) ∧
      T.DB (S.mem_used + 1) =
        upd S.first (T.DB (S.mem_used + 2)) S.mem_used (T.DB (S.mem_used + 2 + 1)) := by
    intro hs
    have e0 := hlits 0 (le_refl _) (by omega)
    rw [add_zero] at e0
    have e1 := hlits 1 (by omega) hs
    rw [e0, e1]
    exact ⟨hfm hs, hd0 hs, hd1 hs⟩
  obtain ⟨hAT, hWT⟩ := added_clause hI.arena hI.watches hn hsz hnv hused hold hlit hterm hmany
    hfu
  refine ⟨_, hAT, hWT, Distinct_add hI.arena hI.distinct hold ?_⟩
  intro m1 m2 a1 a2 b1 b2 e
  rw [hlits m1 a1 a2, hlits m2 b1 b2] at e
  exact hinj m1 m2 a1 a2 b1 b2 e

theorem ok_of_toOption {α : Type} (r : Except Fault α) (v : α) (h : r.toOption = some v) :
    r = Except.ok v := by
  cases r with
  | error e => cases h
  | ok a =>
    simp only [Except.toOption, Option.some.injEq] at h
    rw [h]

theorem reach_staleStart : Reach staleClauses true staleStart staleStart.head :=
  Reach.parsed blank 3 2 staleStart (by unfold wellFormedAll wellFormed staleClauses; decide)
    (ok_stateOf _ _ (by decide!))

theorem reach_staleRoot : Reach staleClauses false staleRoot
    (if staleRoot.nLemmas > staleStart.nLemmas then staleRoot.head else staleStart.head) :=
  Reach.propagated 20 staleStart _ staleRoot reach_staleStart (ok_stateOf _ _ (by decide!))

theorem reach_staleDecided : Reach staleClauses true staleDecided
    (iabs (if staleRoot.model 3 ≠ 0 then 3 else -3)) :=
  Reach.decided 20 staleRoot _ 3 reach_staleRoot (ok_of_toOption _ _ (by decide!)) (by decide)

theorem propagate_staleDecided :
    propagate 20 staleDecided = Except.ok (SAT, staleState) :=
  ok_stateOf _ _ (by decide!)

theorem staleClauses_nodup : ∀ c, c ∈ staleClauses → c.Nodup := by
  unfold staleClauses
  decide

/-- The watch lists as long as `reduceDB` has not run: the watch-list
invariant (`WatchInv`: the clause records tile the
arena, every watch list is the linked list of header slots that starts at
`first[l]`, each header slot of a non-unit clause is in exactly one list, and
no clause holds a literal twice) holds in a state in which `solve` calls
`propagate` and in the state `propagate` returns, in a run (`Reach`) on a file
without a repeated literal in a clause; it holds after `initCDCL`; it is preserved by
`addClause` for a non-empty clause of different literals; it gives the
property `OnceEach` (each non-unit clause is exactly once in the list of the
literal at position 0 and exactly once in the list of the literal at position
1, by its two header slots, and in no other list); and the test
`clause[-1] == 0` leads from every header slot in a watch list to the first
literal of the clause that owns it. -/
theorem watch_lists_invariant (cs : List (List Int)) (f : Nat) (S : solver) (dec : Int)
    (T : solver) (hR : Reach cs true S dec) (hnd : ∀ c, c ∈ cs → c.Nodup)
    (hp : propagate f S = Except.ok (SAT, T)) :
    (∃ cl wl, WatchInv S cl wl) ∧ (∃ cl wl, WatchInv T cl wl) ∧
    (∀ S0 n m T0, initCDCL S0 n m = Except.ok T0 → WatchInv T0 [] (fun _ => [])) ∧
    (∀ S1 cl wl size irr c T1, WatchInv S1 cl wl → 1 ≤ S1.nVars → 1 ≤ size →
      (∀ k, 0 ≤ k → k < size → S1.buffer k ≠ 0 ∧ iabs (S1.buffer k) ≤ S1.nVars) →
      (∀ k1 k2, 0 ≤ k1 → k1 < size → 0 ≤ k2 → k2 < size →
        S1.buffer k1 = S1.buffer k2 → k1 = k2) →
      addClause S1 Src.buffer size irr = Except.ok (c, T1) →
      ∃ wl2, WatchInv T1 (cl ++ [(c, size)]) wl2) ∧
    (∀ S1 cl wl, WatchInv S1 cl wl → OnceEach S1 cl wl) ∧
    (∀ S1 cl wl, Arena S1 cl → Watches S1 cl wl → 1 ≤ S1.nVars →
      (∀ l, l ≠ 0 → iabs l ≤ S1.nVars →
        watchChain S1 ((wl l).length + 1) (S1.first l) = wl l) ∧
      ∀ l s, s ∈ wl l → ∃ c n, (c, n) ∈ cl ∧ 2 ≤ n ∧ (s = c - 2 ∨ s = c - 1) ∧
        (if S1.DB (s - 1) = 0 then s + 2 else s + 1) = c) := by
  refine ⟨?_, ?_, ?_, ?_, ?_, ?_⟩
  · obtain ⟨cl, wl, b, fl, hI, hD⟩ := hR.inv_plinv
    exact ⟨cl, wl, hI.core.arena, hI.core.watches, hD hnd⟩
  · obtain ⟨cl, wl, b, fl, hI, hD⟩ := (Reach.propagated f S dec T hR hp).inv_plinv
    exact ⟨cl, wl, hI.core.arena, hI.core.watches, hD hnd⟩
  · intro S0 n m T0 h0
    have hF := (init_fresh S0 n m T0 h0).1
    exact ⟨hF.core.arena, hF.core.watches, fun c n hc => by cases hc⟩
  · intro S1 cl wl size irr c T1 hI hn hsz hl hinj h
    exact addClause_watchInv hI hn hsz hl hinj h
  · intro S1 cl wl hI
    exact hI.once
  · intro S1 cl wl hA hW hn
    constructor
    · intro l hl hl2
      exact chain_watchChain S1 (wl l) _ (hW.chain l hl hl2)
        (fun s hs e => by
          have := (hW.slot_pos hA hn hs).1
          rw [e] at this
          exact absurd this (by decide))
    · intro l s hs
      exact slot_test hA hW hn hs

theorem watch_lists_invariant_witness :
    (∃ cl wl, WatchInv staleDecided cl wl) ∧ (∃ cl wl, WatchInv staleState cl wl) ∧
    (∀ S0 n m T0, initCDCL S0 n m = Except.ok T0 → WatchInv T0 [] (fun _ => [])) ∧
    (∀ S1 cl wl size irr c T1, WatchInv S1 cl wl → 1 ≤ S1.nVars → 1 ≤ size →
      (∀ k, 0 ≤ k → k < size → S1.buffer k ≠ 0 ∧ iabs (S1.buffer k) ≤ S1.nVars) →
      (∀ k1 k2, 0 ≤ k1 → k1 < size → 0 ≤ k2 → k2 < size →
        S1.buffer k1 = S1.buffer k2 → k1 = k2) →
      addClause S1 Src.buffer size irr = Except.ok (c, T1) →
      ∃ wl2, WatchInv T1 (cl ++ [(c, size)]) wl2) ∧
    (∀ S1 cl wl, WatchInv S1 cl wl → OnceEach S1 cl wl) ∧
    (∀ S1 cl wl, Arena S1 cl → Watches S1 cl wl → 1 ≤ S1.nVars →
      (∀ l, l ≠ 0 → iabs l ≤ S1.nVars →
        watchChain S1 ((wl l).length + 1) (S1.first l) = wl l) ∧
      ∀ l s, s ∈ wl l → ∃ c n, (c, n) ∈ cl ∧ 2 ≤ n ∧ (s = c - 2 ∨ s = c - 1) ∧
        (if S1.DB (s - 1) = 0 then s + 2 else s + 1) = c) :=
  watch_lists_invariant staleClauses 20 staleDecided _ staleState reach_staleDecided
    staleClauses_nodup propagate_staleDecided

/-- Propagation leaves no unit clause as long as `reduceDB` has not run: when
a call of `propagate` in a run (in a state of `Reach`, that is
as long as `reduceDB` has not been called) returns `SAT`, the propagation
frontier is empty (`processed = assigned`) and every clause record of the DB
(the records `cl` that tile the arena: original or learned, unit or not) has a
literal that is true (`fals[-l] != 0`) or two literals that are not false
(`fals[l] = 0`). -/
theorem propagate_sat_no_unit_left (cs : List (List Int)) (f : Nat) (S : solver) (dec : Int)
    (T : solver) (hR : Reach cs true S dec) (hp : propagate f S = Except.ok (SAT, T)) :
    T.processed = T.assigned ∧ ∃ cl, Arena T cl ∧ ∀ c n, (c, n) ∈ cl →
      (∃ m, 0 ≤ m ∧ m < n ∧ T.fals (-(T.DB (c + m))) ≠ 0) ∨
      (∃ m1 m2, 0 ≤ m1 ∧ m1 < m2 ∧ m2 < n ∧ T.fals (T.DB (c + m1)) = 0 ∧
        T.fals (T.DB (c + m2)) = 0) := by
  obtain ⟨cl, wl, hRd, -, -, -, -⟩ := reach_inv hR
  obtain ⟨cl2, wl2, hQ, -, -⟩ := propagate_inv f S cl wl T (hRd rfl) hp
  exact ⟨hQ.proc, cl2, hQ.core.arena, fun c n hc => hQ.clause_ok hc⟩

theorem propagate_sat_no_unit_left_witness :
    staleState.processed = staleState.assigned ∧ ∃ cl, Arena staleState cl ∧
      ∀ c n, (c, n) ∈ cl →
        (∃ m, 0 ≤ m ∧ m < n ∧ staleState.fals (-(staleState.DB (c + m))) ≠ 0) ∨
        (∃ m1 m2, 0 ≤ m1 ∧ m1 < m2 ∧ m2 < n ∧ staleState.fals (staleState.DB (c + m1)) = 0 ∧
          staleState.fals (staleState.DB (c + m2)) = 0) :=
  propagate_sat_no_unit_left staleClauses 20 staleDecided _ staleState reach_staleDecided
    propagate_staleDecided

/-- The trail as long as `reduceDB` has not run: in every state of a run
between two operations (`Reach`: after the
unit assignments of ingestion, after a decision, after `propagate`, after a
restart, as long as `reduceDB` has not been called) the trail invariant `TrailOK` holds: `forced <= processed <=
assigned`, the trail holds exactly the literals `l` with `fals[l] != 0`, no
variable is on the trail twice in either polarity, and the trail length is
the number of assigned variables, at most `nVars`; and `analyze`, called by
`propagate` on a falsified clause, returns a state in which it holds. -/
theorem trail_invariant (cs : List (List Int)) (ph : Bool) (S : solver) (dec : Int)
    (f : Nat) (X : solver) (c lem : Int) (T : solver) (hR : Reach cs ph S dec)
    (hC : Conflict X c) (ha : analyze f X c = Except.ok (lem, T)) :
    TrailOK S ∧ TrailOK T := by
  refine ⟨?_, analyze_trail f X c lem T hC ha⟩
  obtain ⟨cl, wl, a1, a2, -, -, -⟩ := reach_inv hR
  cases ph with
  | true =>
    rcases a1 rfl with ⟨hI, e1, e2⟩ | ⟨hI, e1, e2⟩
    · exact hI.trail_ok (by omega)
    · rcases hI.mode with ⟨m1, -⟩ | ⟨-, -, m3⟩
      · cases m1
      · exact hI.trail_ok m3
  | false =>
    have hQ := a2 rfl
    have := hQ.core.trail.forced_le
    exact hQ.to_plinv.trail_ok (by rw [hQ.proc]; exact this)

theorem trail_invariant_witness : TrailOK staleState ∧ TrailOK learnedState :=
  trail_invariant staleClauses false staleState _ 20 conflictState 50 62 learnedState
    (Reach.propagated 20 staleDecided _ staleState reach_staleDecided propagate_staleDecided)
    conflictState_conflict analyze_conflictState

theorem analyze_maxLemmas (f : Nat) (S : solver) (c : Int) (r : Int × solver)
    (h : analyze f S c = Except.ok r) : r.2.maxLemmas = S.maxLemmas := by
  obtain ⟨S1, S2, S4, size, lbd, h1, h2, h3, h4⟩ := analyze_eq f S c r h
  have e1 := (kept_fields (kept_addClause _ _ _ _ _ h4)).2.2.2.2.2.2.2.2.2.2.2
  have e2 := (static_fields (static_preLemma S4 size lbd)).2.2.2.2.2.1
  have e3 := (static_fields (static_buildLoop _ _ _ _ _ _ _ h3)).2.2.2.2.2.1
  have e4 := (static_fields (static_analyzeLoop _ _ _ h2)).2.2.2.2.2.1
  have e5 := (static_fields (static_bumpLits _ _ _ _ h1)).2.2.2.2.2.1
  rw [e1, e2, e3]
  show S2.maxLemmas = S.maxLemmas
  rw [e4, e5]

theorem scanLoop_maxLemmas (f : Nat) (S : solver) (clause lit : Int) (watch : Watch) (i : Int)
    (r : Bool × solver) (h : scanLoop f S clause lit watch i = Except.ok r) :
    r.2.maxLemmas = S.maxLemmas := by
  induction f generalizing i with
  | zero => simp [scanLoop] at h
  | succ f ih =>
    rw [scanLoop] at h
    by_cases h1 : S.DB (clause + i) ≠ 0
    · rw [if_pos h1] at h
      by_cases h2 : S.fals (S.DB (clause + i)) = 0
      · rw [if_pos h2] at h
        simp only [Except.ok.injEq] at h
        rw [← h]
        cases watch <;> rfl
      · rw [if_neg h2] at h
        exact ih _ h
    · rw [if_neg h1] at h
      simp only [Except.ok.injEq] at h
      rw [← h]

theorem frontOther_maxLemmas (S : solver) (c lit : Int) :
    (frontOther S c lit).maxLemmas = S.maxLemmas := by
  unfold frontOther
  split_ifs <;> rfl

theorem watchLoop_maxLemmas (f : Nat) : ∀ (S : solver) (lit : Int) (watch : Watch)
    (forced : Bool) (fl : Flow), watchLoop f S lit watch forced = Except.ok fl →
    fl.state.maxLemmas = S.maxLemmas := by
  induction f with
  | zero =>
    intro S lit watch forced fl h
    simp [watchLoop] at h
  | succ f ih =>
    intro S lit watch forced fl h
    rcases watchLoop_cases f S lit watch forced fl h with ⟨-, h2⟩ | ⟨-, unit, S2, hsc, hrest⟩
    · rw [h2]; rfl
    · have e1 : S2.maxLemmas = S.maxLemmas := by
        rw [scanLoop_maxLemmas _ _ _ _ _ _ _ hsc]
        exact frontOther_maxLemmas S _ lit
      rcases hrest with ⟨-, hw⟩ | ⟨-, hw⟩
      · rw [ih _ _ _ _ _ hw, e1]
      · rcases hw with ⟨-, g2⟩ | ⟨-, -, g3⟩ | ⟨-, -, g3⟩
        · rw [ih _ _ _ _ _ g2]
          exact e1
        · rw [ih _ _ _ _ _ g3]
          exact e1
        · rcases g3 with ⟨-, g4⟩ | ⟨-, lem, S4, g5, g6⟩
          · rw [g4]
            exact e1
          · rw [g6]
            show S4.maxLemmas = S.maxLemmas
            have := analyze_maxLemmas _ _ _ _ g5
            rw [this]
            exact e1

theorem propLoop_maxLemmas (f : Nat) : ∀ (S : solver) (forced : Bool) (fl : Flow),
    propLoop f S forced = Except.ok fl → fl.state.maxLemmas = S.maxLemmas := by
  induction f with
  | zero =>
    intro S forced fl h
    simp [propLoop] at h
  | succ f ih =>
    intro S forced fl h
    rcases propLoop_cases f S forced fl h with ⟨-, h2⟩ | ⟨-, fl1, hw, hrest⟩
    · rw [h2]; rfl
    · have e1 := watchLoop_maxLemmas f _ _ _ _ _ hw
      rcases hrest with ⟨S2, g1, g2⟩ | ⟨forced1, S2, g1, g2⟩
      · rw [g2]
        rw [g1] at e1
        exact e1
      · rw [ih _ _ _ g2]
        rw [g1] at e1
        exact e1

/-- `propagate` answers `UNSAT` or `SAT` and does not change `maxLemmas`. -/
theorem propagate_maxLemmas (f : Nat) (S : solver) (r : Int × solver)
    (h : propagate f S = Except.ok r) :
    r.2.maxLemmas = S.maxLemmas ∧ (r.1 = UNSAT ∨ r.1 = SAT) := by
  unfold propagate at h
  simp only at h
  cases hp : propLoop f S (decide (S.reason (iabs (S.falseStack S.processed)) ≠ 0)) with
  | error e => rw [hp] at h; cases h
  | ok fl =>
    rw [hp] at h
    have e1 := propLoop_maxLemmas f _ _ _ hp
    cases fl with
    | ret S1 =>
      simp only [Except.ok.injEq] at h
      rw [← h]
      exact ⟨e1, Or.inl rfl⟩
    | go forced1 S1 =>
      simp only [Except.ok.injEq] at h
      rw [← h]
      refine ⟨?_, Or.inr rfl⟩
      cases forced1 <;> exact e1

theorem growMaxLemmas_only (k : Nat) (S : solver) :
    growMaxLemmas k S = { S with maxLemmas := (growMaxLemmas k S).maxLemmas } := by
  induction k generalizing S with
  | zero => rfl
  | succ k ih =>
    rw [growMaxLemmas]
    split_ifs
    · rw [ih]
    · rfl

theorem growMaxLemmas_le (k : Nat) (S : solver) : S.maxLemmas ≤ (growMaxLemmas k S).maxLemmas := by
  induction k generalizing S with
  | zero => exact le_refl _
  | succ k ih =>
    rw [growMaxLemmas]
    split_ifs
    · have := ih { S with maxLemmas := S.maxLemmas + 300 }
      have e : ({ S with maxLemmas := S.maxLemmas + 300 } : solver).maxLemmas =
          S.maxLemmas + 300 := rfl
      omega
    · exact le_refl _

theorem growMaxLemmas_lt (k : Nat) (S : solver) (h : S.nLemmas > S.maxLemmas) :
    S.maxLemmas < (growMaxLemmas (k + 1) S).maxLemmas := by
  rw [growMaxLemmas, if_pos h]
  have := growMaxLemmas_le k { S with maxLemmas := S.maxLemmas + 300 }
  have e : ({ S with maxLemmas := S.maxLemmas + 300 } : solver).maxLemmas =
      S.maxLemmas + 300 := rfl
  omega

theorem cutWatch_maxLemmas (f : Nat) (i : Int) (S T : solver)
    (h : cutWatch f i S = Except.ok T) : T.maxLemmas = S.maxLemmas := by
  induction f generalizing S with
  | zero =>
    rw [cutWatch] at h
    split_ifs at h
    simp only [Except.ok.injEq] at h
    rw [← h]
  | succ f ih =>
    rw [cutWatch] at h
    split_ifs at h
    · rw [ih _ h]
    · simp only [Except.ok.injEq] at h
      rw [← h]

theorem cutLoop_maxLemmas (fuel n : Nat) (i : Int) (S T : solver)
    (h : cutLoop fuel n i S = Except.ok T) : T.maxLemmas = S.maxLemmas := by
  induction n generalizing i S with
  | zero =>
    rw [cutLoop] at h
    simp only [Except.ok.injEq] at h
    rw [← h]
  | succ n ih =>
    rw [cutLoop] at h
    by_cases h0 : i = 0
    · rw [if_pos h0] at h
      exact ih _ _ h
    · rw [if_neg h0] at h
      cases hc : cutWatch fuel i S with
      | error e => rw [hc] at h; cases h
      | ok S1 =>
        rw [hc] at h
        rw [ih _ _ h, cutWatch_maxLemmas _ _ _ _ hc]

theorem replay_maxLemmas (fuel : Nat) (k old_used : Int) (n : Nat) (i : Int) (S T : solver)
    (h : replay fuel k old_used n i S = Except.ok T) : T.maxLemmas = S.maxLemmas := by
  induction n generalizing i S with
  | zero =>
    rw [replay] at h
    split_ifs at h
    simp only [Except.ok.injEq] at h
    rw [← h]
  | succ n ih =>
    rw [replay] at h
    by_cases h0 : i < old_used
    · rw [if_pos h0] at h
      simp only at h
      cases hc : countLits fuel S i 0 with
      | error e => rw [hc] at h; cases h
      | ok q =>
        obtain ⟨i1, count⟩ := q
        rw [hc] at h
        simp only at h
        by_cases h1 : count < k
        · rw [if_pos h1] at h
          cases ha : addClause S (Src.db i) (i1 - i) 0 with
          | error e => rw [ha] at h; cases h
          | ok q2 =>
            obtain ⟨c2, S1⟩ := q2
            rw [ha] at h
            simp only at h
            rw [ih _ _ h]
            exact (kept_fields (kept_addClause _ _ _ _ _ ha)).2.2.2.2.2.2.2.2.2.2.2
        · rw [if_neg h1] at h
          exact ih _ _ h
    · rw [if_neg h0] at h
      simp only [Except.ok.injEq] at h
      rw [← h]

/-- A call of `reduceDB` with more lemmas than `maxLemmas` raises `maxLemmas`. -/
theorem reduceDB_maxLemmas (fuel : Nat) (S : solver) (k : Int) (T : solver)
    (h : reduceDB fuel S k = Except.ok T) :
    S.maxLemmas ≤ T.maxLemmas ∧ (S.nLemmas > S.maxLemmas → S.maxLemmas < T.maxLemmas) := by
  unfold reduceDB at h
  simp only at h
  generalize hg : growMaxLemmas (S.nLemmas - S.maxLemmas).toNat S = S1 at h
  cases hc : cutLoop fuel (2 * ({ S1 with nLemmas := 0 } : solver).nVars + 1).toNat
      (-({ S1 with nLemmas := 0 } : solver).nVars) { S1 with nLemmas := 0 } with
  | error e => rw [hc] at h; cases h
  | ok S3 =>
    rw [hc] at h
    simp only at h
    have e1 := replay_maxLemmas _ _ _ _ _ _ _ h
    have e2 := cutLoop_maxLemmas _ _ _ _ _ hc
    have e3 : T.maxLemmas = S1.maxLemmas := by
      rw [e1]
      show S3.maxLemmas = _
      rw [e2]
    rw [e3, ← hg]
    refine ⟨growMaxLemmas_le _ S, ?_⟩
    intro hgt
    obtain ⟨j, hj⟩ : ∃ j, (S.nLemmas - S.maxLemmas).toNat = j + 1 :=
      ⟨(S.nLemmas - S.maxLemmas).toNat - 1, by omega⟩
    rw [hj]
    exact growMaxLemmas_lt j S hgt

theorem restart_maxLemmas (S : solver) : (restart S).maxLemmas = S.maxLemmas := by
  unfold restart
  show (restartLoop _ S).maxLemmas = _
  rw [restartLoop_only]

theorem afterConflict_maxLemmas (f : Nat) (S T : solver) (h : afterConflict f S = Except.ok T) :
    S.maxLemmas ≤ T.maxLemmas := by
  unfold afterConflict at h
  by_cases h1 : S.fast > (Int.tdiv S.slow 100) * 125
  · rw [if_pos h1] at h
    simp only at h
    have e : (restart { S with fast := (Int.tdiv S.slow 100) * 125 }).maxLemmas = S.maxLemmas :=
      restart_maxLemmas _
    split_ifs at h
    · have := (reduceDB_maxLemmas _ _ _ _ h).1
      omega
    · simp only [Except.ok.injEq] at h
      rw [← h, e]
  · rw [if_neg h1] at h
    simp only [Except.ok.injEq] at h
    rw [h]

/-- `maxLemmas` never decreases in `solve`. -/
theorem solveLoop_maxLemmas (f : Nat) : ∀ (S : solver) (d : Int) (r : Int × solver),
    solveLoop f S d = Except.ok r → S.maxLemmas ≤ r.2.maxLemmas := by
  induction f with
  | zero =>
    intro S d r h
    simp [solveLoop] at h
  | succ f ih =>
    intro S d r h
    rw [solveLoop] at h
    simp only at h
    cases hp : propagate f S with
    | error e => rw [hp] at h; cases h
    | ok q =>
      obtain ⟨v, S1⟩ := q
      rw [hp] at h
      simp only at h
      have e1 : S1.maxLemmas = S.maxLemmas := (propagate_maxLemmas f S _ hp).1
      by_cases hv : v = UNSAT
      · rw [if_pos hv] at h
        simp only [Except.ok.injEq] at h
        rw [← h]
        exact le_of_eq e1.symm
      · rw [if_neg hv] at h
        cases ha : (if decide (S1.nLemmas > S.nLemmas) = true then afterConflict f S1
            else Except.ok S1) with
        | error e => rw [ha] at h; cases h
        | ok S2 =>
          rw [ha] at h
          simp only at h
          have e2 : S1.maxLemmas ≤ S2.maxLemmas := by
            split_ifs at ha
            · exact afterConflict_maxLemmas _ _ _ ha
            · simp only [Except.ok.injEq] at ha
              rw [ha]
          cases hn : nextDecision f S2 (if decide (S1.nLemmas > S.nLemmas) = true then S1.head
              else d) with
          | error e => rw [hn] at h; cases h
          | ok d2 =>
            rw [hn] at h
            simp only at h
            by_cases hd : d2 = 0
            · rw [if_pos hd] at h
              simp only [Except.ok.injEq] at h
              rw [← h]
              show S.maxLemmas ≤ S2.maxLemmas
              omega
            · rw [if_neg hd] at h
              have := ih _ _ _ h
              have e3 : S2.maxLemmas ≤ r.2.maxLemmas := this
              omega

/-- The states of `solve` are states of `Reach`: when `solve` is entered in
such a state and returns `SAT` without having raised `maxLemmas` (that is,
without a call of `reduceDB`), the state it returns is one of them. -/
theorem solveLoop_reach (cs : List (List Int)) (f : Nat) : ∀ (S : solver) (dec : Int)
    (T : solver), Reach cs true S dec → solveLoop f S dec = Except.ok (SAT, T) →
    T.maxLemmas = S.maxLemmas → ∃ dec2, Reach cs false T dec2 := by
  induction f with
  | zero =>
    intro S dec T hR h hm
    simp [solveLoop] at h
  | succ f ih =>
    intro S dec T hR h hm
    rw [solveLoop] at h
    simp only at h
    cases hp : propagate f S with
    | error e => rw [hp] at h; cases h
    | ok q =>
      obtain ⟨v, S1⟩ := q
      rw [hp] at h
      simp only at h
      obtain ⟨e1, hv2⟩ := propagate_maxLemmas f S _ hp
      have e1' : S1.maxLemmas = S.maxLemmas := e1
      by_cases hv : v = UNSAT
      · rw [if_pos hv] at h
        simp only [Except.ok.injEq, Prod.mk.injEq] at h
        exact absurd h.1 (by decide)
      · rw [if_neg hv] at h
        have hvs : v = SAT := by
          rcases hv2 with e | e
          · exact absurd e hv
          · exact e
        subst hvs
        have hR1 := Reach.propagated f S dec S1 hR hp
        cases ha : (if decide (S1.nLemmas > S.nLemmas) = true then afterConflict f S1
            else Except.ok S1) with
        | error e => rw [ha] at h; cases h
        | ok S2 =>
          rw [ha] at h
          simp only at h
          cases hn : nextDecision f S2 (if decide (S1.nLemmas > S.nLemmas) = true then S1.head
              else dec) with
          | error e => rw [hn] at h; cases h
          | ok d2 =>
            rw [hn] at h
            simp only at h
            have hmono : S2.maxLemmas ≤ T.maxLemmas := by
              by_cases hd : d2 = 0
              · rw [if_pos hd] at h
                simp only [Except.ok.injEq, Prod.mk.injEq] at h
                rw [← h.2]
              · rw [if_neg hd] at h
                exact solveLoop_maxLemmas f _ _ _ h
            have hptr : (if decide (S1.nLemmas > S.nLemmas) = true then S1.head else dec) =
                (if S1.nLemmas > S.nLemmas then S1.head else dec) := by
              by_cases hL : S1.nLemmas > S.nLemmas
              · rw [if_pos hL, if_pos (decide_eq_true hL)]
              · rw [if_neg hL, if_neg (by simp only [decide_eq_true_eq]; exact hL)]
            rw [hptr] at hn
            have hR2 : Reach cs false S2 (if S1.nLemmas > S.nLemmas then S1.head else dec) ∧
                S2.maxLemmas = S.maxLemmas := by
              by_cases hL : S1.nLemmas > S.nLemmas
              · rw [if_pos (decide_eq_true hL)] at ha
                rw [if_pos hL] at hR1 ⊢
                unfold afterConflict at ha
                by_cases h1 : S1.fast > (Int.tdiv S1.slow 100) * 125
                · rw [if_pos h1] at ha
                  simp only at ha
                  have e : (restart { S1 with fast := (Int.tdiv S1.slow 100) * 125 }).maxLemmas =
                      S1.maxLemmas := restart_maxLemmas _
                  by_cases h2 : (restart { S1 with fast := (Int.tdiv S1.slow 100) * 125 }).nLemmas >
                      (restart { S1 with fast := (Int.tdiv S1.slow 100) * 125 }).maxLemmas
                  · rw [if_pos h2] at ha
                    have := (reduceDB_maxLemmas _ _ _ _ ha).2 h2
                    omega
                  · rw [if_neg h2] at ha
                    simp only [Except.ok.injEq] at ha
                    rw [← ha]
                    exact ⟨Reach.restarted S1 hR1, by rw [e, e1']⟩
                · rw [if_neg h1] at ha
                  simp only [Except.ok.injEq] at ha
                  rw [← ha]
                  exact ⟨hR1, e1'⟩
              · rw [if_neg (by simp only [decide_eq_true_eq]; exact hL)] at ha
                simp only [Except.ok.injEq] at ha
                rw [← ha]
                exact ⟨hR1, e1'⟩
            obtain ⟨hR2a, hR2b⟩ := hR2
            by_cases hd : d2 = 0
            · rw [if_pos hd] at h
              simp only [Except.ok.injEq, Prod.mk.injEq] at h
              rw [← h.2]
              exact ⟨_, hR2a⟩
            · rw [if_neg hd] at h
              change solveLoop f (pushDecision S2 d2)
                (iabs (if S2.model d2 ≠ 0 then d2 else -d2)) = _ at h
              exact ih _ _ _ (Reach.decided f S2 _ d2 hR2a hn hd) h
                (by show T.maxLemmas = S2.maxLemmas; omega)

/-- The states of a run that has not called `reduceDB` are states of `Reach`:
when `main` parses a well-formed file and `solve` answers `SAT` with
`maxLemmas` still at its initial value, the final state is one of them. -/
theorem solve_reach (cs : List (List Int)) (n m : Int) (S0 S : solver) (f : Nat) (T : solver)
    (hwf : wellFormedAll n cs) (hp : parse S0 n m cs = Except.ok (SAT, S))
    (hs : solve f S = Except.ok (SAT, T)) (hm : T.maxLemmas = S.maxLemmas) :
    ∃ dec, Reach cs false T dec :=
  solveLoop_reach cs f S S.head T (Reach.parsed S0 n m S hwf hp) hs hm

/-- C22: the decision list that `initCDCL` builds holds the variables
`nVars, .., 1` in this order (`prev[i] = i - 1`, `head = nVars`); and in
every state whose decision list is in order (`VmtfList S L`: following `prev`
from `head` meets the variables of `L` and then reaches 0, and `L` holds each
variable `1 .. nVars` exactly once), for a literal `lit` of the formula: when
`fals[lit]` is not `IMPLIED`, the list is in order after `bump (lit)`, with
`|lit|` at the head and the other variables in the order they had, and
`fals[lit]` is `MARK`; when `fals[lit]` is `IMPLIED`, the state is unchanged. -/
theorem bump_keeps_decision_list (S : solver) (L : List Int) (lit : Int) (hL : VmtfList S L)
    (h1 : 1 ≤ iabs lit) (h2 : iabs lit ≤ S.nVars) :
    (∀ S0 n m T, initCDCL S0 n m = Except.ok T →
      VmtfList T (descList T.nVars.toNat) ∧ T.head = T.nVars ∧
      ∀ i, 1 ≤ i → i ≤ T.nVars → T.prev i = i - 1) ∧
    vmtfOrder S = L ∧
    (S.fals lit ≠ IMPLIED →
      VmtfList (bump S lit) (iabs lit :: L.erase (iabs lit)) ∧
      vmtfOrder (bump S lit) = iabs lit :: L.erase (iabs lit) ∧
      (bump S lit).fals lit = MARK ∧ (bump S lit).head = iabs lit) ∧
    (S.fals lit = IMPLIED → bump S lit = S) := by
  refine ⟨?_, VmtfList_order_eq hL, ?_, bump_implied S lit⟩
  · intro S0 n m T h
    obtain ⟨b1, b2, b3⟩ := initCDCL_list S0 n m T h
    exact ⟨initCDCL_vmtfList S0 n m T h, b1, fun i i0 i1 => (b3 i i0 i1).1⟩
  · intro hi
    have hM := VmtfList_move_front hL lit h1 h2 hi
    refine ⟨hM, VmtfList_order_eq hM, ?_, ?_⟩
    · rw [bump_fals, if_pos hi, upd_same]
    · by_cases e2 : iabs lit = S.head
      · rw [(bump_same_head S lit e2).2.2.1, e2]
      · exact (bump_next_head S lit hi e2).2.2.1

theorem bump_keeps_decision_list_witness :
    vmtfOrder conflictState = [4, 3, 2, 1] ∧
    VmtfList (bump conflictState 2) [2, 4, 3, 1] ∧
    vmtfOrder (bump conflictState 2) = [2, 4, 3, 1] ∧
    (bump conflictState 2).fals 2 = MARK ∧ (bump conflictState 2).head = 2 := by
  have h := bump_keeps_decision_list conflictState [4, 3, 2, 1] 2 conflictState_vmtfList
    (by decide) (by decide)
  exact ⟨h.2.1, h.2.2.1 (by decide)⟩

/-- The counter does not change what `implied` computes. -/
theorem implied_dropDepth (f : Nat) :
    (∀ S lit, implied f S lit = dropDepth (impliedD f S lit)) ∧
    (∀ S lit p, impliedLoop f S lit p = dropDepth (impliedLoopD f S lit p)) := by
  induction f with
  | zero => exact ⟨fun S lit => rfl, fun S lit p => rfl⟩
  | succ f ih =>
    obtain ⟨ihI, ihL⟩ := ih
    constructor
    · intro S lit
      rw [implied, impliedD]
      by_cases h1 : S.fals lit > MARK
      · rw [if_pos h1, if_pos h1]; rfl
      · rw [if_neg h1, if_neg h1]
        by_cases h2 : S.reason (iabs lit) = 0
        · rw [if_pos h2, if_pos h2]; rfl
        · rw [if_neg h2, if_neg h2, ihL]
          cases impliedLoopD f S lit (S.reason (iabs lit) + 1) with
          | error e => rfl
          | ok q => rfl
    · intro S lit p
      rw [impliedLoop, impliedLoopD]
      by_cases h1 : S.DB p ≠ 0
      · rw [if_pos h1, if_pos h1]
        by_cases h2 : S.fals (S.DB p) ≠ MARK
        · rw [if_pos h2, if_pos h2, ihI]
          cases impliedD f S (S.DB p) with
          | error e => rfl
          | ok q =>
            obtain ⟨b, S1, d⟩ := q
            simp only [dropDepth]
            cases b with
            | false => rfl
            | true =>
              simp only [if_true]
              rw [ihL]
              cases impliedLoopD f S1 lit (p + 1) with
              | error e => rfl
              | ok q2 => rfl
        · rw [if_neg h2, if_neg h2, ihL]
      · rw [if_neg h1, if_neg h1]; rfl

/-- With enough fuel the loop of `implied` returns, when the calls it makes
return: `r` literals of the clause are left. -/
theorem impliedLoopD_total {S : solver} {k : Int} (hk : 0 ≤ k) (F : Nat)
    (hF : ∀ j, 0 ≤ j → j < k → ∀ f, F ≤ f → ∀ S1 : solver, S1.DB = S.DB →
      S1.reason = S.reason → S1.falseStack = S.falseStack →
      ∃ b T d, impliedD f S1 (S.falseStack j) = Except.ok (b, T, d) ∧ (d : Int) ≤ j + 1 ∧
        T.DB = S.DB ∧ T.reason = S.reason ∧ T.falseStack = S.falseStack)
    (lit c n : Int)
    (hz : S.DB (c + n) = 0)
    (ht : ∀ m, 1 ≤ m → m < n → S.DB (c + m) ≠ 0 ∧ ∃ j, 0 ≤ j ∧ j < k ∧
      S.falseStack j = S.DB (c + m)) :
    ∀ (r : Nat) (m : Int), 1 ≤ m → m + r = n → ∀ f, F + r + 1 ≤ f → ∀ S1 : solver,
      S1.DB = S.DB → S1.reason = S.reason → S1.falseStack = S.falseStack →
      ∃ b T d, impliedLoopD f S1 lit (c + m) = Except.ok (b, T, d) ∧ (d : Int) ≤ k ∧
        T.DB = S.DB ∧ T.reason = S.reason ∧ T.falseStack = S.falseStack := by
  intro r
  induction r with
  | zero =>
    intro m m1 hm f hf S1 e1 e2 e3
    obtain ⟨f, rfl⟩ : ∃ g, f = g + 1 := ⟨f - 1, by omega⟩
    have hmn : m = n := by simpa using hm
    have hdb : S1.DB (c + m) = S.DB (c + m) := by rw [e1]
    rw [impliedLoopD, hdb, hmn, if_neg (by rw [hz]; exact fun h => h rfl)]
    exact ⟨true, _, 0, rfl, by simpa using hk, e1, e2, e3⟩
  | succ r ih =>
    intro m m1 hm f hf S1 e1 e2 e3
    obtain ⟨f, rfl⟩ : ∃ g, f = g + 1 := ⟨f - 1, by omega⟩
    push_cast at hm
    obtain ⟨hnz, j, j0, j1, j2⟩ := ht m m1 (by omega)
    have hdb : S1.DB (c + m) = S.DB (c + m) := by rw [e1]
    rw [impliedLoopD, hdb, if_pos hnz]
    have hnext := ih (m + 1) (by omega) (by omega) f (by omega)
    rw [show c + (m + 1) = c + m + 1 by ring] at hnext
    by_cases h2 : S1.fals (S.DB (c + m)) ≠ MARK
    · rw [if_pos h2]
      obtain ⟨b, T, d, hcall, hd, t1, t2, t3⟩ := hF j j0 j1 f (by omega) S1 e1 e2 e3
      rw [← j2, hcall]
      simp only
      cases b with
      | false =>
        simp only [Bool.false_eq_true, if_false]
        exact ⟨false, _, d, rfl, by omega, t1, t2, t3⟩
      | true =>
        simp only [if_true]
        obtain ⟨b2, T2, d2, hcall2, hd2, u1, u2, u3⟩ := hnext T t1 t2 t3
        rw [hcall2]
        refine ⟨b2, T2, max d d2, rfl, ?_, u1, u2, u3⟩
        rcases le_total d d2 with hle | hle
        · rw [max_eq_right hle]; exact hd2
        · rw [max_eq_left hle]; omega
    · rw [if_neg h2]
      exact hnext S1 e1 e2 e3

/-- With enough fuel `implied` returns for the literals at the trail positions
below `k`, with a recursion depth of at most the position plus one. -/
theorem impliedD_total {S : solver} {N : Int} (H : ReasonsEarlier S N) : ∀ k : Nat,
    ∃ F : Nat, ∀ j : Int, 0 ≤ j → j < (k : Int) → j < N → ∀ f, F ≤ f → ∀ S1 : solver,
      S1.DB = S.DB →
      S1.reason = S.reason → S1.falseStack = S.falseStack →
      ∃ b T d, impliedD f S1 (S.falseStack j) = Except.ok (b, T, d) ∧ (d : Int) ≤ j + 1 ∧
        T.DB = S.DB ∧ T.reason = S.reason ∧ T.falseStack = S.falseStack := by
  intro k
  induction k with
  | zero =>
    refine ⟨0, ?_⟩
    intro j j0 j1
    omega
  | succ k ih =>
    obtain ⟨F, hF⟩ := ih
    by_cases hkN : (k : Int) < N
    · obtain ⟨n, hn⟩ : ∃ n : Int, 1 ≤ n ∧ (S.reason (iabs (S.falseStack k)) ≠ 0 →
          S.DB (S.reason (iabs (S.falseStack k)) + n) = 0 ∧
          ∀ m, 1 ≤ m → m < n → S.DB (S.reason (iabs (S.falseStack k)) + m) ≠ 0 ∧
            ∃ j : Int, 0 ≤ j ∧ j < (k : Int) ∧
              S.falseStack j = S.DB (S.reason (iabs (S.falseStack k)) + m)) := by
        by_cases hr : S.reason (iabs (S.falseStack k)) = 0
        · exact ⟨1, le_refl _, fun h => absurd hr h⟩
        · obtain ⟨n, n1, n2, n3⟩ := H k (by omega) hkN hr
          exact ⟨n, n1, fun _ => ⟨n2, n3⟩⟩
      refine ⟨F + n.toNat + 1, ?_⟩
      intro j j0 j1 j2 f hf S1 e1 e2 e3
      by_cases hj : j < k
      · exact hF j j0 hj j2 f (by omega) S1 e1 e2 e3
      · have hjk : j = k := by push_cast at j1; omega
        subst hjk
        obtain ⟨f, rfl⟩ : ∃ g, f = g + 1 := ⟨f - 1, by omega⟩
        rw [impliedD]
        by_cases h1 : S1.fals (S.falseStack k) > MARK
        · rw [if_pos h1]
          exact ⟨_, _, 1, rfl, by push_cast; omega, e1, e2, e3⟩
        · rw [if_neg h1]
          have hre : S1.reason (iabs (S.falseStack k)) = S.reason (iabs (S.falseStack k)) := by
            rw [e2]
          rw [hre]
          by_cases hr : S.reason (iabs (S.falseStack k)) = 0
          · rw [if_pos hr]
            exact ⟨_, _, 1, rfl, by push_cast; omega, e1, e2, e3⟩
          · rw [if_neg hr]
            obtain ⟨hz, ht⟩ := hn.2 hr
            obtain ⟨b, T, d, hcall, hd, t1, t2, t3⟩ :=
              impliedLoopD_total (S := S) (k := k) (by omega) F
                (fun j j0 j1 => hF j j0 j1 (by omega)) (S.falseStack k)
                (S.reason (iabs (S.falseStack k))) n hz ht (n - 1).toNat 1 (le_refl _)
                (by rw [Int.toNat_of_nonneg (by omega)]; ring) f (by omega) S1 e1 e2 e3
            rw [hcall]
            exact ⟨b, T, d + 1, rfl, by push_cast; omega, t1, t2, t3⟩
    · refine ⟨F, ?_⟩
      intro j j0 j1 j2
      exact hF j j0 (by omega) j2

theorem reasonsEarlier_conflictState : ReasonsEarlier conflictState 3 := by
  intro i i0 i1 hr
  interval_cases i
  · exact absurd rfl hr
  · exact absurd rfl hr
  · refine ⟨3, by decide, by decide, ?_⟩
    intro m m0 m1
    interval_cases m
    · exact ⟨by decide, 1, by decide, by decide, by decide⟩
    · exact ⟨by decide, 0, by decide, by decide, by decide⟩

/-- With enough fuel `implied` returns for a literal, of either polarity,
whose variable is on the trail at position `i`, with a recursion depth of at
most `i + 1`. -/
theorem impliedD_var_total {S : solver} {N : Int} (H : ReasonsEarlier S N) (lit i : Int)
    (hi0 : 0 ≤ i) (hiN : i < N) (hv : iabs (S.falseStack i) = iabs lit) :
    ∃ F : Nat, ∀ f, F ≤ f → ∃ b T d,
      impliedD f S lit = Except.ok (b, T, d) ∧ (d : Int) ≤ i + 1 := by
  obtain ⟨F, hF⟩ := impliedD_total H i.toNat
  have hit : ((i.toNat : Nat) : Int) = i := Int.toNat_of_nonneg hi0
  by_cases hr : S.reason (iabs lit) = 0
  · refine ⟨1, ?_⟩
    intro f hf
    obtain ⟨f, rfl⟩ : ∃ g, f = g + 1 := ⟨f - 1, by omega⟩
    rw [impliedD]
    by_cases h1 : S.fals lit > MARK
    · rw [if_pos h1]
      exact ⟨_, _, 1, rfl, by push_cast; omega⟩
    · rw [if_neg h1, if_pos hr]
      exact ⟨_, _, 1, rfl, by push_cast; omega⟩
  · have hr2 : S.reason (iabs (S.falseStack i)) ≠ 0 := by rw [hv]; exact hr
    obtain ⟨n, n1, n2, n3⟩ := H i hi0 hiN hr2
    rw [hv] at n2 n3
    refine ⟨F + n.toNat + 1, ?_⟩
    intro f hf
    obtain ⟨f, rfl⟩ : ∃ g, f = g + 1 := ⟨f - 1, by omega⟩
    rw [impliedD]
    by_cases h1 : S.fals lit > MARK
    · rw [if_pos h1]
      exact ⟨_, _, 1, rfl, by push_cast; omega⟩
    · rw [if_neg h1, if_neg hr]
      obtain ⟨b, T, d, hcall, hd, -⟩ :=
        impliedLoopD_total (S := S) (k := i) hi0 F
          (fun j j0 j1 => hF j j0 (by rw [hit]; exact j1) (by omega)) lit
          (S.reason (iabs lit)) n n2 n3 (n - 1).toNat 1 (le_refl _)
          (by rw [Int.toNat_of_nonneg (by omega)]; ring) f (by omega) S rfl rfl rfl
      rw [hcall]
      exact ⟨b, T, d + 1, rfl, by push_cast; omega⟩

/-- C24: in a state in which each trail literal with a reason has a reason
clause whose tail literals (positions 1 and up) are on the trail at strictly
lower positions (`ReasonsEarlier`, for the trail positions below `N`, the
trail length), `implied (lit)` terminates.  For every literal `lit` whose
variable is on the trail, in either polarity, at position `i`: with enough
fuel the call returns, and its recursion depth, counted by `impliedD` (which
computes the same result), is at most `i + 1`, so at most the trail length
`N`.  For a literal whose variable has no reason the call returns at once
with the state unchanged; and a literal whose answer is cached (`fals` is
`IMPLIED` or `NOT_IMPLIED`) gets its answer at once, at depth 1, with the
state unchanged. -/
theorem implied_terminates (S : solver) (N : Int) (hH : ReasonsEarlier S N) :
    (∀ lit i, 0 ≤ i → i < N → iabs (S.falseStack i) = iabs lit →
      ∃ F : Nat, ∀ f, F ≤ f → ∃ b T d,
        implied f S lit = Except.ok (b, T) ∧
        impliedD f S lit = Except.ok (b, T, d) ∧ (d : Int) ≤ i + 1 ∧ i + 1 ≤ N) ∧
    (∀ lit f, S.reason (iabs lit) = 0 → ∃ b,
      implied (f + 1) S lit = Except.ok (b, S) ∧
      impliedD (f + 1) S lit = Except.ok (b, S, 1)) ∧
    (∀ f l, S.fals l = IMPLIED ∨ S.fals l = NOT_IMPLIED →
      implied (f + 1) S l = Except.ok (decide (S.fals l = IMPLIED), S) ∧
      impliedD (f + 1) S l = Except.ok (decide (S.fals l = IMPLIED), S, 1)) := by
  refine ⟨?_, ?_, ?_⟩
  · intro lit i hi0 hiN hv
    obtain ⟨F, hF⟩ := impliedD_var_total hH lit i hi0 hiN hv
    refine ⟨F, ?_⟩
    intro f hf
    obtain ⟨b, T, d, hcall, hd⟩ := hF f hf
    refine ⟨b, T, d, ?_, hcall, hd, by omega⟩
    rw [(implied_dropDepth f).1, hcall]
    rfl
  · intro lit f hr
    rw [implied, impliedD]
    by_cases h1 : S.fals lit > MARK
    · rw [if_pos h1, if_pos h1]
      exact ⟨_, rfl, rfl⟩
    · rw [if_neg h1, if_neg h1, if_pos hr, if_pos hr]
      exact ⟨_, rfl, rfl⟩
  · intro f l hl
    have hgt : S.fals l > MARK := by
      rcases hl with e | e <;> rw [e] <;> decide
    constructor
    · rw [implied, if_pos hgt]
    · rw [impliedD, if_pos hgt]

theorem implied_terminates_witness :
    ReasonsEarlier conflictState 3 ∧
    ((∀ lit i, 0 ≤ i → i < 3 → iabs (conflictState.falseStack i) = iabs lit →
      ∃ F : Nat, ∀ f, F ≤ f → ∃ b T d,
        implied f conflictState lit = Except.ok (b, T) ∧
        impliedD f conflictState lit = Except.ok (b, T, d) ∧ (d : Int) ≤ i + 1 ∧ i + 1 ≤ 3) ∧
    (∀ lit f, conflictState.reason (iabs lit) = 0 → ∃ b,
      implied (f + 1) conflictState lit = Except.ok (b, conflictState) ∧
      impliedD (f + 1) conflictState lit = Except.ok (b, conflictState, 1)) ∧
    (∀ f l, conflictState.fals l = IMPLIED ∨ conflictState.fals l = NOT_IMPLIED →
      implied (f + 1) conflictState l =
        Except.ok (decide (conflictState.fals l = IMPLIED), conflictState) ∧
      impliedD (f + 1) conflictState l =
        Except.ok (decide (conflictState.fals l = IMPLIED), conflictState, 1))) :=
  ⟨reasonsEarlier_conflictState,
    implied_terminates conflictState 3 reasonsEarlier_conflictState⟩

theorem Still_refl (S : solver) : Still S S :=
  ⟨le_refl _, fun _ => ⟨rfl, rfl, rfl, rfl, rfl, rfl, fun _ h => h⟩⟩

theorem Still_trans {S T U : solver} (h1 : Still S T) (h2 : Still T U) : Still S U := by
  refine ⟨le_trans h1.1 h2.1, ?_⟩
  intro e
  have a := h1.1
  have b := h2.1
  obtain ⟨p1, n1, d1, v1, x1, y1, f1⟩ := h1.2 (by omega)
  obtain ⟨p2, n2, d2, v2, x2, y2, f2⟩ := h2.2 (by omega)
  exact ⟨p2.trans p1, n2.trans n1, d2.trans d1, v2.trans v1, x2.trans x1, y2.trans y1,
    fun l hl => f2 l (f1 l hl)⟩

theorem Still_of_fields {S T : solver} (hl : T.nLemmas = S.nLemmas) (hp : T.prev = S.prev)
    (hn : T.next = S.next) (hh : T.head = S.head) (hv : T.nVars = S.nVars)
    (hx : T.fast = S.fast) (hy : T.slow = S.slow) (hf : T.fals = S.fals) : Still S T :=
  ⟨by omega, fun _ => ⟨hp, hn, hh, hv, hx, hy, fun l h => by rw [hf]; exact h⟩⟩

theorem Still_assign (S : solver) (c : Int) (f : Bool) : Still S (assign S c f) := by
  refine ⟨le_refl _, fun _ => ⟨rfl, rfl, rfl, rfl, rfl, rfl, ?_⟩⟩
  intro l hl
  show upd S.fals (-(S.DB c)) (if f = true then IMPLIED else 1) l ≠ 0
  by_cases e : l = -(S.DB c)
  · rw [e, upd_same]
    cases f <;> decide
  · rw [upd_other _ _ e]
    exact hl

theorem Still_more {S T : solver} (h : S.nLemmas < T.nLemmas) : Still S T :=
  ⟨by omega, fun e => by omega⟩

theorem analyze_nLemmas (f : Nat) (S : solver) (c : Int) (r : Int × solver)
    (h : analyze f S c = Except.ok r) : r.2.nLemmas = S.nLemmas + 1 := by
  obtain ⟨S1, S2, S4, size, lbd, h1, h2, h3, h4⟩ := analyze_eq f S c r h
  have e1 := (addClause_mem _ _ _ _ _ h4).2.2.2.2.2.1
  have e2 := (static_fields (static_preLemma S4 size lbd)).2.2.2.2.2.2.1
  have e3 := (static_fields (static_buildLoop _ _ _ _ _ _ _ h3)).2.2.2.2.2.2.1
  have e4 := (static_fields (static_analyzeLoop _ _ _ h2)).2.2.2.2.2.2.1
  have e5 := (static_fields (static_bumpLits _ _ _ _ h1)).2.2.2.2.2.2.1
  rw [e1, if_neg (by decide), e2, e3]
  show S2.nLemmas + 1 = S.nLemmas + 1
  rw [e4, e5]

theorem scanLoop_still (f : Nat) (S : solver) (clause lit : Int) (watch : Watch) (i : Int)
    (r : Bool × solver) (h : scanLoop f S clause lit watch i = Except.ok r) :
    Still S r.2 := by
  induction f generalizing i with
  | zero => simp [scanLoop] at h
  | succ f ih =>
    rw [scanLoop] at h
    by_cases h1 : S.DB (clause + i) ≠ 0
    · rw [if_pos h1] at h
      by_cases h2 : S.fals (S.DB (clause + i)) = 0
      · rw [if_pos h2] at h
        simp only [Except.ok.injEq] at h
        rw [← h]
        cases watch <;> exact Still_of_fields rfl rfl rfl rfl rfl rfl rfl rfl
      · rw [if_neg h2] at h
        exact ih _ h
    · rw [if_neg h1] at h
      simp only [Except.ok.injEq] at h
      rw [← h]
      exact Still_refl S

theorem frontOther_still (S : solver) (c lit : Int) : Still S (frontOther S c lit) := by
  unfold frontOther
  split_ifs
  · exact Still_of_fields rfl rfl rfl rfl rfl rfl rfl rfl
  · exact Still_refl S

theorem watchLoop_still (f : Nat) : ∀ (S : solver) (lit : Int) (watch : Watch)
    (forced : Bool) (fl : Flow), watchLoop f S lit watch forced = Except.ok fl →
    Still S fl.state := by
  induction f with
  | zero =>
    intro S lit watch forced fl h
    simp [watchLoop] at h
  | succ f ih =>
    intro S lit watch forced fl h
    rcases watchLoop_cases f S lit watch forced fl h with ⟨-, h2⟩ | ⟨-, unit, S2, hsc, hrest⟩
    · rw [h2]; exact Still_refl S
    · have e1 : Still S S2 :=
        Still_trans (frontOther_still S _ lit) (scanLoop_still _ _ _ _ _ _ _ hsc)
      have e2 : ∀ x v, Still S ({ S2 with DB := upd S2.DB x v } : solver) := fun x v =>
        Still_trans e1 (Still_of_fields rfl rfl rfl rfl rfl rfl rfl rfl)
      rcases hrest with ⟨-, hw⟩ | ⟨-, hw⟩
      · exact Still_trans e1 (ih _ _ _ _ _ hw)
      · rcases hw with ⟨-, g2⟩ | ⟨-, -, g3⟩ | ⟨-, -, g3⟩
        · exact Still_trans (e2 _ _) (ih _ _ _ _ _ g2)
        · exact Still_trans (Still_trans (e2 _ _) (Still_assign _ _ _)) (ih _ _ _ _ _ g3)
        · rcases g3 with ⟨-, g4⟩ | ⟨-, lem, S4, g5, g6⟩
          · rw [g4]
            exact e2 _ _
          · rw [g6]
            have hn := analyze_nLemmas _ _ _ _ g5
            have hn2 : S4.nLemmas = S2.nLemmas + 1 := hn
            have a := e1.1
            exact Still_more (by
              show S.nLemmas < S4.nLemmas
              omega)

theorem propLoop_still (f : Nat) : ∀ (S : solver) (forced : Bool) (fl : Flow),
    propLoop f S forced = Except.ok fl → Still S fl.state := by
  induction f with
  | zero =>
    intro S forced fl h
    simp [propLoop] at h
  | succ f ih =>
    intro S forced fl h
    rcases propLoop_cases f S forced fl h with ⟨-, h2⟩ | ⟨-, fl1, hw, hrest⟩
    · rw [h2]; exact Still_refl S
    · have e0 : Still S ({ S with processed := S.processed + 1 } : solver) :=
        Still_of_fields rfl rfl rfl rfl rfl rfl rfl rfl
      have e1 : Still S fl1.state := Still_trans e0 (watchLoop_still f _ _ _ _ _ hw)
      rcases hrest with ⟨S2, g1, g2⟩ | ⟨forced1, S2, g1, g2⟩
      · rw [g2]
        rw [g1] at e1
        exact e1
      · rw [g1] at e1
        exact Still_trans e1 (ih _ _ _ g2)

/-- A call of `propagate` that learns no lemma leaves the decision list and
keeps every false literal false. -/
theorem propagate_still (f : Nat) (S : solver) (r : Int × solver)
    (h : propagate f S = Except.ok r) : Still S r.2 := by
  unfold propagate at h
  simp only at h
  cases hp : propLoop f S (decide (S.reason (iabs (S.falseStack S.processed)) ≠ 0)) with
  | error e => rw [hp] at h; cases h
  | ok fl =>
    rw [hp] at h
    have e1 := propLoop_still f _ _ _ hp
    cases fl with
    | ret S1 =>
      simp only [Except.ok.injEq] at h
      rw [← h]
      exact e1
    | go forced1 S1 =>
      simp only [Except.ok.injEq] at h
      rw [← h]
      cases forced1
      · exact e1
      · exact Still_trans e1 (Still_of_fields rfl rfl rfl rfl rfl rfl rfl rfl)

theorem vmtfOrder_congr {S T : solver} (hp : T.prev = S.prev) (hh : T.head = S.head)
    (hv : T.nVars = S.nVars) : vmtfOrder T = vmtfOrder S := by
  unfold vmtfOrder
  rw [hp, hh, hv]

theorem isFree_false_iff (S : solver) (v : Int) :
    isFree S v = false ↔ (S.fals v ≠ 0 ∨ S.fals (-v) ≠ 0) := by
  unfold isFree
  rw [decide_eq_false_iff_not]
  constructor
  · intro h
    by_contra hc
    push_neg at hc
    exact h hc
  · rintro (h | h) hc
    · exact h hc.1
    · exact h hc.2

theorem isFree_true_iff (S : solver) (v : Int) :
    isFree S v = true ↔ (S.fals v = 0 ∧ S.fals (-v) = 0) := by
  unfold isFree
  rw [decide_eq_true_iff]

theorem isFree_mono {S T : solver} (h : ∀ l, S.fals l ≠ 0 → T.fals l ≠ 0) (v : Int)
    (hv : isFree S v = false) : isFree T v = false := by
  rw [isFree_false_iff] at hv ⊢
  rcases hv with e | e
  · exact Or.inl (h _ e)
  · exact Or.inr (h _ e)

/-- The decision walk from the start of `B` passes the assigned variables at
the front of `B` and stops at the first unassigned one, or at 0 behind the
list. -/
theorem nextDecision_chain (S : solver) (h0 : S.fals 0 = 0) : ∀ (B : List Int) (d0 : Int)
    (f : Nat) (d : Int), prevChain S.prev d0 B → (∀ v, v ∈ B → v ≠ 0) →
    nextDecision f S d0 = Except.ok d →
    ∃ A C, B = A ++ C ∧ (∀ v, v ∈ A → isFree S v = false) ∧ prevChain S.prev d C ∧
      ((d = 0 ∧ C = []) ∨ (d ≠ 0 ∧ isFree S d = true ∧ ∃ C1, C = d :: C1)) := by
  intro B
  induction B with
  | nil =>
    intro d0 f d hc _ h
    have hd0 : d0 = 0 := hc
    subst hd0
    cases f with
    | zero => simp [nextDecision] at h
    | succ f =>
      rw [nextDecision, if_neg (by simp [h0])] at h
      simp only [Except.ok.injEq] at h
      subst h
      exact ⟨[], [], rfl, fun v hv => absurd hv (List.not_mem_nil v), rfl, Or.inl ⟨rfl, rfl⟩⟩
  | cons a B ih =>
    intro d0 f d hc hz h
    have hd0 : d0 = a := hc.1
    subst hd0
    cases f with
    | zero => simp [nextDecision] at h
    | succ f =>
      rw [nextDecision] at h
      by_cases hcnd : S.fals d0 ≠ 0 ∨ S.fals (-d0) ≠ 0
      · rw [if_pos hcnd] at h
        obtain ⟨A, C, e1, e2, e3, e4⟩ := ih _ f d hc.2
          (fun v hv => hz v (List.mem_cons_of_mem _ hv)) h
        refine ⟨d0 :: A, C, by rw [e1]; rfl, ?_, e3, e4⟩
        intro v hv
        rcases List.mem_cons.1 hv with e | e
        · rw [e]; exact (isFree_false_iff S d0).2 hcnd
        · exact e2 v e
      · rw [if_neg hcnd] at h
        simp only [Except.ok.injEq] at h
        subst h
        push_neg at hcnd
        refine ⟨[], d0 :: B, rfl, fun v hv => absurd hv (List.not_mem_nil v), hc, Or.inr ⟨?_, ?_, B, rfl⟩⟩
        · exact hz d0 (List.mem_cons_self _ _)
        · exact (isFree_true_iff S d0).2 hcnd

/-- The decision walk ends: it makes at most one step for each variable left
in the list and one more. -/
theorem nextDecision_total (S : solver) (h0 : S.fals 0 = 0) : ∀ (B : List Int) (d0 : Int)
    (f : Nat), prevChain S.prev d0 B → B.length < f → ∃ d, nextDecision f S d0 = Except.ok d := by
  intro B
  induction B with
  | nil =>
    intro d0 f hc hf
    have hd0 : d0 = 0 := hc
    subst hd0
    obtain ⟨f, rfl⟩ : ∃ g, f = g + 1 := ⟨f - 1, by simp at hf; omega⟩
    rw [nextDecision, if_neg (by simp [h0])]
    exact ⟨0, rfl⟩
  | cons a B ih =>
    intro d0 f hc hf
    obtain ⟨f, rfl⟩ : ∃ g, f = g + 1 := ⟨f - 1, by omega⟩
    have hd0 : d0 = a := hc.1
    subst hd0
    rw [nextDecision]
    by_cases hcnd : S.fals d0 ≠ 0 ∨ S.fals (-d0) ≠ 0
    · rw [if_pos hcnd]
      exact ih _ f hc.2 (by simp only [List.length_cons] at hf; omega)
    · rw [if_neg hcnd]
      exact ⟨d0, rfl⟩

theorem TrailInv.fals_zero {S : solver} (hT : TrailInv S) : S.fals 0 = 0 := by
  by_contra hc
  obtain ⟨i, i0, i1, i2⟩ := hT.on_fals 0 hc
  exact (hT.range i i0 i1).1 i2

theorem Walked_head {S : solver} (hV : VmtfInv S) : Walked S S.head := by
  obtain ⟨-, -, -, L, hL⟩ := hV
  exact ⟨[], L, by rw [VmtfList_order_eq hL]; rfl, fun v hv => absurd hv (List.not_mem_nil v), hL.chain⟩

theorem pushDecision_fals_mono (S : solver) (d : Int) (l : Int) (h : S.fals l ≠ 0) :
    (pushDecision S d).fals l ≠ 0 := by
  show upd S.fals (-(if S.model d ≠ 0 then d else -d)) 1 l ≠ 0
  by_cases e : l = -(if S.model d ≠ 0 then d else -d)
  · rw [e, upd_same]; decide
  · rw [upd_other _ _ e]; exact h

/-- In every state of a run the decision pointer stands behind assigned
variables only. -/
theorem reach_walk {cs : List (List Int)} {ph : Bool} {S : solver} {dec : Int}
    (h : Reach cs ph S dec) : Walked S dec := by
  induction h with
  | parsed S0 n m T hwf h =>
    obtain ⟨cl, wl, b, fl, hI, -⟩ := (Reach.parsed S0 n m T hwf h).inv_plinv
    exact Walked_head hI.core.vmtf
  | propagated f S dec T hR h ih =>
    obtain ⟨cl, wl, b, fl, hI, -⟩ := (Reach.propagated f S dec T hR h).inv_plinv
    have hst := propagate_still f S _ h
    by_cases hL : T.nLemmas > S.nLemmas
    · rw [if_pos hL]
      exact Walked_head hI.core.vmtf
    · rw [if_neg hL]
      have hle : S.nLemmas ≤ T.nLemmas := hst.1
      obtain ⟨e1, e2, e3, e4, -, -, e5⟩ := hst.2 (by
        show T.nLemmas = S.nLemmas
        omega)
      obtain ⟨A, B, a1, a2, a3⟩ := ih
      refine ⟨A, B, ?_, fun v hv => isFree_mono e5 v (a2 v hv), ?_⟩
      · rw [vmtfOrder_congr e1 e3 e4]; exact a1
      · show prevChain T.prev dec B
        have e1' : T.prev = S.prev := e1
        rw [e1']; exact a3
  | restarted S hR ih =>
    obtain ⟨cl, wl, b, fl, hI, -⟩ := (Reach.restarted S hR).inv_plinv
    have hw := Walked_head hI.core.vmtf
    have hh : (restart { S with fast := (Int.tdiv S.slow 100) * 125 }).head = S.head := by
      obtain ⟨cl0, wl0, b0, fl0, hI0, -⟩ := hR.inv_plinv
      exact (restart_fields { S with fast := (Int.tdiv S.slow 100) * 125 }
        hI0.core.trail.forced_le).2.2.2.2.2.2.2.2.2.2.1
    rw [hh] at hw
    exact hw
  | decided f S dec d hR h hd ih =>
    obtain ⟨cl, wl, b, fl, hI, -⟩ := hR.inv_plinv
    obtain ⟨-, -, -, L, hL⟩ := hI.core.vmtf
    obtain ⟨A, B, a1, a2, a3⟩ := ih
    have hLe := VmtfList_order_eq hL
    have hz : ∀ v, v ∈ B → v ≠ 0 := by
      intro v hv e
      have : v ∈ L := by rw [← hLe, a1]; exact List.mem_append_right _ hv
      have := (hL.mem v).1 this
      omega
    obtain ⟨A1, C, c1, c2, c3, c4⟩ := nextDecision_chain S hI.core.trail.fals_zero B dec f d a3 hz h
    rcases c4 with ⟨e, -⟩ | ⟨-, c5, C1, c6⟩
    · exact absurd e hd
    · have hdL : d ∈ L := by
        rw [← hLe, a1, c1, c6]
        simp
      have hd1 := (hL.mem d).1 hdL
      have habs : iabs (if S.model d ≠ 0 then d else -d) = d := by
        split_ifs
        · unfold iabs; rw [if_neg (by omega)]
        · rw [iabs_neg]; unfold iabs; rw [if_neg (by omega)]
      rw [habs]
      refine ⟨A ++ A1, C, ?_, ?_, ?_⟩
      · have e : vmtfOrder (pushDecision S d) = vmtfOrder S := vmtfOrder_congr rfl rfl rfl
        rw [e, a1, c1, List.append_assoc]
      · intro v hv
        apply isFree_mono (pushDecision_fals_mono S d) v
        rcases List.mem_append.1 hv with e | e
        · exact a2 v e
        · exact c2 v e
      · exact c3

theorem find_skip (p : Int → Bool) : ∀ (A B : List Int), (∀ v, v ∈ A → p v = false) →
    (A ++ B).find? p = B.find? p := by
  intro A
  induction A with
  | nil => intro B _; rfl
  | cons a A ih =>
    intro B h
    rw [List.cons_append, List.find?_cons_of_neg _ (by rw [h a (List.mem_cons_self _ _)]; simp)]
    exact ih B (fun v hv => h v (List.mem_cons_of_mem _ hv))

/-- One turn of the loop of `solve`. -/
theorem solveLoop_iter (f : Nat) (S : solver) (dec : Int) (r : Int × solver)
    (h : solveLoop (f + 1) S dec = Except.ok r) :
    ∃ v S1, propagate f S = Except.ok (v, S1) ∧
      ((v = UNSAT ∧ r = (UNSAT, S1)) ∨
       (v ≠ UNSAT ∧ ∃ S2 d,
          (if S1.nLemmas > S.nLemmas then afterConflict f S1 else Except.ok S1) = Except.ok S2 ∧
          nextDecision f S2 (if S1.nLemmas > S.nLemmas then S1.head else dec) = Except.ok d ∧
          ((d = 0 ∧ r = (SAT, S2)) ∨
           (d ≠ 0 ∧ solveLoop f (pushDecision S2 d)
              (iabs (if S2.model d ≠ 0 then d else -d)) = Except.ok r)))) := by
  rw [solveLoop] at h
  simp only at h
  cases hp : propagate f S with
  | error e => rw [hp] at h; cases h
  | ok q =>
    obtain ⟨v, S1⟩ := q
    rw [hp] at h
    simp only at h
    refine ⟨v, S1, rfl, ?_⟩
    by_cases hv : v = UNSAT
    · rw [if_pos hv] at h
      simp only [Except.ok.injEq] at h
      exact Or.inl ⟨hv, by rw [← h]⟩
    · rw [if_neg hv] at h
      refine Or.inr ⟨hv, ?_⟩
      have hptr : ∀ (α : Type) (x y : α), (if decide (S1.nLemmas > S.nLemmas) = true then x
          else y) = (if S1.nLemmas > S.nLemmas then x else y) := by
        intro α x y
        by_cases hL : S1.nLemmas > S.nLemmas
        · rw [if_pos hL, if_pos (decide_eq_true hL)]
        · rw [if_neg hL, if_neg (by simp only [decide_eq_true_eq]; exact hL)]
      rw [hptr, hptr] at h
      cases ha : (if S1.nLemmas > S.nLemmas then afterConflict f S1 else Except.ok S1) with
      | error e => rw [ha] at h; cases h
      | ok S2 =>
        rw [ha] at h
        simp only at h
        cases hn : nextDecision f S2 (if S1.nLemmas > S.nLemmas then S1.head else dec) with
        | error e => rw [hn] at h; cases h
        | ok d =>
          rw [hn] at h
          simp only at h
          refine ⟨S2, d, rfl, hn, ?_⟩
          by_cases hd : d = 0
          · rw [if_pos hd] at h
            simp only [Except.ok.injEq] at h
            exact Or.inl ⟨hd, h.symm⟩
          · rw [if_neg hd] at h
            exact Or.inr ⟨hd, h⟩

/-- The answer of `solve`: `SAT` comes from a turn in which the decision walk
reached 0, `UNSAT` from a call of `propagate` that answered `UNSAT`. -/
theorem solveLoop_answer (f : Nat) : ∀ (S : solver) (dec v : Int) (T : solver),
    solveLoop f S dec = Except.ok (v, T) →
    (v = SAT ∧ ∃ f1 p, nextDecision f1 T p = Except.ok 0) ∨
    (v = UNSAT ∧ ∃ f1 S1, propagate f1 S1 = Except.ok (UNSAT, T)) := by
  induction f with
  | zero => intro S dec v T h; simp [solveLoop] at h
  | succ f ih =>
    intro S dec v T h
    obtain ⟨v1, S1, hp, hc⟩ := solveLoop_iter f S dec _ h
    rcases hc with ⟨e1, e2⟩ | ⟨-, S2, d, -, hn, hc2⟩
    · simp only [Prod.mk.injEq] at e2
      refine Or.inr ⟨e2.1, f, S, ?_⟩
      rw [hp, e1, e2.2]
    · rcases hc2 with ⟨e1, e2⟩ | ⟨-, e2⟩
      · simp only [Prod.mk.injEq] at e2
        refine Or.inl ⟨e2.1, f, (if S1.nLemmas > S.nLemmas then S1.head else dec), ?_⟩
        rw [e2.2, hn, e1]
      · exact ih _ _ _ _ e2

theorem reach_walkStart : Reach walkClauses true walkStart walkStart.head :=
  Reach.parsed blank 4 1 walkStart (by unfold wellFormedAll wellFormed walkClauses; decide)
    (ok_stateOf _ _ (by decide!))

theorem reach_walkRoot : Reach walkClauses false walkRoot 4 := by
  have h := Reach.propagated 20 walkStart _ walkRoot reach_walkStart (ok_stateOf _ _ (by decide!))
  have e : (if walkRoot.nLemmas > walkStart.nLemmas then walkRoot.head else walkStart.head)
      = 4 := by decide!
  rw [e] at h
  exact h

theorem reach_walkOne : Reach walkClauses false walkOne 4 := by
  have h1 := Reach.decided 20 walkRoot 4 4 reach_walkRoot (ok_of_toOption _ _ (by decide!))
    (by decide)
  have h := Reach.propagated 20 _ _ walkOne h1 (ok_stateOf _ _ (by decide!))
  have e : (if walkOne.nLemmas > (pushDecision walkRoot 4).nLemmas then walkOne.head
      else iabs (if walkRoot.model 4 ≠ 0 then 4 else -4)) = 4 := by decide!
  rw [e] at h
  exact h

theorem reach_walkTwo : Reach walkClauses false walkTwo 3 := by
  have h1 := Reach.decided 20 walkOne 4 3 reach_walkOne (ok_of_toOption _ _ (by decide!))
    (by decide)
  have h := Reach.propagated 20 _ _ walkTwo h1 (ok_stateOf _ _ (by decide!))
  have e : (if walkTwo.nLemmas > (pushDecision walkOne 3).nLemmas then walkTwo.head
      else iabs (if walkOne.model 3 ≠ 0 then 3 else -3)) = 3 := by decide!
  rw [e] at h
  exact h

/-- The decision list before the first call of `reduceDB`.  In a state of
`Reach` with the flag `false` (the state after `propagate` and the restart
block, with the value `dec` of the variable `decision`), the decision list is
in order, the walk from `dec` ends, and the variable it stops at is
`firstFree`, the first unassigned variable of the list that starts at `head`
(0 when every variable is assigned); when it is not 0 it is a variable
`1 .. nVars`, and the decision block writes `fals`, the trail and `reason` as
stated. -/
theorem decision_walk_in_order (cs : List (List Int)) (S : solver) (dec : Int)
    (hR : Reach cs false S dec) :
    VmtfList S (vmtfOrder S) ∧
    (∀ f, S.nVars.toNat + 1 ≤ f → ∃ d, nextDecision f S dec = Except.ok d) ∧
    (∀ f d, nextDecision f S dec = Except.ok d →
      d = firstFree S ∧
      (d = 0 → ∀ v, 1 ≤ v → v ≤ S.nVars → S.fals v ≠ 0 ∨ S.fals (-v) ≠ 0) ∧
      (d ≠ 0 → 1 ≤ d ∧ d ≤ S.nVars ∧ S.fals d = 0 ∧ S.fals (-d) = 0 ∧
        (pushDecision S d).fals (-(if S.model d ≠ 0 then d else -d)) = 1 ∧
        (∀ l, l ≠ -(if S.model d ≠ 0 then d else -d) → (pushDecision S d).fals l = S.fals l) ∧
        (pushDecision S d).falseStack S.assigned = -(if S.model d ≠ 0 then d else -d) ∧
        (pushDecision S d).assigned = S.assigned + 1 ∧
        (pushDecision S d).reason d = 0)) ∧
    (∀ f S0 dec0 r, solveLoop (f + 1) S0 dec0 = Except.ok r →
      ∃ v S1, propagate f S0 = Except.ok (v, S1) ∧
        ((v = UNSAT ∧ r = (UNSAT, S1)) ∨
         (v ≠ UNSAT ∧ ∃ S2 d,
            (if S1.nLemmas > S0.nLemmas then afterConflict f S1 else Except.ok S1)
              = Except.ok S2 ∧
            nextDecision f S2 (if S1.nLemmas > S0.nLemmas then S1.head else dec0)
              = Except.ok d ∧
            ((d = 0 ∧ r = (SAT, S2)) ∨
             (d ≠ 0 ∧ solveLoop f (pushDecision S2 d)
                (iabs (if S2.model d ≠ 0 then d else -d)) = Except.ok r))))) ∧
    (∀ f S0 dec0 v T, solveLoop f S0 dec0 = Except.ok (v, T) →
      (v = SAT ∧ ∃ f1 p, nextDecision f1 T p = Except.ok 0) ∨
      (v = UNSAT ∧ ∃ f1 S1, propagate f1 S1 = Except.ok (UNSAT, T))) := by
  obtain ⟨cl, wl, b, fl, hI, -⟩ := hR.inv_plinv
  obtain ⟨-, -, -, L, hL⟩ := hI.core.vmtf
  have hLe := VmtfList_order_eq hL
  have h0 := hI.core.trail.fals_zero
  obtain ⟨A, B, a1, a2, a3⟩ := reach_walk hR
  have hBL : ∀ v, v ∈ B → v ∈ L := by
    intro v hv
    rw [← hLe, a1]
    exact List.mem_append_right _ hv
  have hz : ∀ v, v ∈ B → v ≠ 0 := by
    intro v hv e
    have := (hL.mem v).1 (hBL v hv)
    omega
  refine ⟨by rw [hLe]; exact hL, ?_, ?_, solveLoop_iter, solveLoop_answer⟩
  · intro f hf
    refine nextDecision_total S h0 B dec f a3 ?_
    have h1 : B.length ≤ L.length := by
      rw [← hLe, a1, List.length_append]
      omega
    rcases VmtfList_length_le hL with e | e
    · have := hI.core.trail.nvars
      omega
    · rw [e] at h1
      simp only [List.length_nil] at h1
      omega
  · intro f d h
    obtain ⟨A1, C, c1, c2, c3, c4⟩ := nextDecision_chain S h0 B dec f d a3 hz h
    have hsplit : vmtfOrder S = (A ++ A1) ++ C := by rw [a1, c1, List.append_assoc]
    have hpre : ∀ v, v ∈ A ++ A1 → isFree S v = false := by
      intro v hv
      rcases List.mem_append.1 hv with e | e
      · exact a2 v e
      · exact c2 v e
    have hff : firstFree S = (C.find? (isFree S)).getD 0 := by
      unfold firstFree
      rw [hsplit, find_skip _ _ _ hpre]
    rcases c4 with ⟨e1, e2⟩ | ⟨e1, e2, C1, e3⟩
    · refine ⟨by rw [hff, e2, e1]; rfl, ?_, fun hd => absurd e1 hd⟩
      intro _ v v0 v1
      have hv : v ∈ vmtfOrder S := by rw [hLe]; exact (hL.mem v).2 ⟨v0, v1⟩
      rw [hsplit, e2, List.append_nil] at hv
      exact (isFree_false_iff S v).1 (hpre v hv)
    · have hdL : d ∈ L := by
        rw [← hLe, hsplit, e3]
        simp
      have hd1 := (hL.mem d).1 hdL
      have hfree := (isFree_true_iff S d).1 e2
      refine ⟨?_, fun hd => absurd hd e1, fun _ => ?_⟩
      · rw [hff, e3, List.find?_cons_of_pos _ e2]
        rfl
      · have habs : iabs (if S.model d ≠ 0 then d else -d) = d := by
          split_ifs
          · unfold iabs; rw [if_neg (by omega)]
          · rw [iabs_neg]; unfold iabs; rw [if_neg (by omega)]
        refine ⟨hd1.1, hd1.2, hfree.1, hfree.2, ?_, ?_, ?_, rfl, ?_⟩
        · show upd S.fals (-(if S.model d ≠ 0 then d else -d)) 1 _ = 1
          rw [upd_same]
        · intro l hl
          show upd S.fals (-(if S.model d ≠ 0 then d else -d)) 1 l = _
          rw [upd_other _ _ hl]
        · show upd S.falseStack S.assigned (-(if S.model d ≠ 0 then d else -d)) S.assigned = _
          rw [upd_same]
        · show upd S.reason (iabs (if S.model d ≠ 0 then d else -d)) 0 d = 0
          rw [habs, upd_same]

theorem decision_walk_in_order_witness :
    walkTwo.head = 4 ∧ vmtfOrder walkTwo = [4, 3, 2, 1] ∧
    nextDecision 20 walkTwo 3 = Except.ok 2 ∧ (2 : Int) = firstFree walkTwo ∧
    (pushDecision walkTwo 2).fals 2 = 1 ∧ (pushDecision walkTwo 2).reason 2 = 0 := by
  have h := decision_walk_in_order walkClauses walkTwo 3 reach_walkTwo
  have hn : nextDecision 20 walkTwo 3 = Except.ok 2 := ok_of_toOption _ _ (by decide!)
  obtain ⟨a, -, c⟩ := (h.2.2.1 20 2 hn)
  have c2 := c (by decide)
  refine ⟨by decide!, by decide!, hn, a, ?_, c2.2.2.2.2.2.2.2.2⟩
  have e := c2.2.2.2.2.1
  have hm : (if walkTwo.model 2 ≠ 0 then (2 : Int) else -2) = -2 := by decide!
  rw [hm] at e
  exact e

theorem implied_only (f : Nat) :
    (∀ S lit r, implied f S lit = Except.ok r → r.2 = { S with fals := r.2.fals }) ∧
    (∀ S lit p r, impliedLoop f S lit p = Except.ok r → r.2 = { S with fals := r.2.fals }) := by
  induction f with
  | zero =>
    exact ⟨fun S lit r h => by simp [implied] at h, fun S lit p r h => by simp [impliedLoop] at h⟩
  | succ f ih =>
    obtain ⟨ihI, ihL⟩ := ih
    constructor
    · intro S lit r h
      rw [implied] at h
      by_cases h1 : S.fals lit > MARK
      · rw [if_pos h1] at h
        simp only [Except.ok.injEq] at h
        rw [← h]
      · rw [if_neg h1] at h
        by_cases h2 : S.reason (iabs lit) = 0
        · rw [if_pos h2] at h
          simp only [Except.ok.injEq] at h
          rw [← h]
        · rw [if_neg h2] at h
          exact ihL _ _ _ _ h
    · intro S lit p r h
      rw [impliedLoop] at h
      by_cases h1 : S.DB p ≠ 0
      · rw [if_pos h1] at h
        by_cases h2 : S.fals (S.DB p) ≠ MARK
        · rw [if_pos h2] at h
          cases hc : implied f S (S.DB p) with
          | error e => rw [hc] at h; cases h
          | ok q =>
            obtain ⟨b, S1⟩ := q
            rw [hc] at h
            simp only at h
            have e1 : S1 = { S with fals := S1.fals } := ihI _ _ _ hc
            cases b with
            | true =>
              simp only [if_true] at h
              have e2 := ihL _ _ _ _ h
              rw [e2, e1]
            | false =>
              simp only [Bool.false_eq_true, if_false, Except.ok.injEq] at h
              rw [← h, e1]
        · rw [if_neg h2] at h
          exact ihL _ _ _ _ h
      · rw [if_neg h1] at h
        simp only [Except.ok.injEq] at h
        rw [← h]

/-- One turn of the loop that builds the lemma keeps the invariant of the
count: `kept` tells whether the literal at position `p` goes into the buffer. -/
theorem LbdInv_step {S0 : solver} {u : Int} {S T : solver} {p size lbd flag : Int}
    {C : Finset Int} (hI : LbdInv S0 u S p size lbd flag C)
    (hinj : ∀ i j, 0 ≤ i → i ≤ u → 0 ≤ j → j ≤ u → S0.falseStack i = S0.falseStack j → i = j)
    (hp0 : 0 ≤ p) (hpu : p ≤ u) (kept : Bool)
    (tfs : T.falseStack = S0.falseStack) (tre : T.reason = S0.reason) (tfo : T.forced = S0.forced)
    (tbuf : T.buffer = if kept = true then upd S.buffer size (S0.falseStack p) else S.buffer)
    (hsz : 0 ≤ size) :
    ∃ C1, LbdInv S0 u T (p - 1) (if kept = true then size + 1 else size)
      (if S0.reason (iabs (S0.falseStack p)) = 0 then lbd + (if kept = true then 1 else flag)
        else lbd)
      (if S0.reason (iabs (S0.falseStack p)) = 0 then 0 else (if kept = true then 1 else flag))
      C1 := by
  -- the literals of the new buffer
  have hold : ∀ i, 0 ≤ i → i ≤ u → InBuffer S0 S size i → p < i := by
    rintro i i0 i1 ⟨k, k0, k1, k2⟩
    obtain ⟨j, j0, j1, j2⟩ := hI.buf k k0 k1
    have : i = j := hinj i j i0 i1 (by omega) j1 (by rw [← k2, j2])
    omega
  have hnew : ∀ i, 0 ≤ i → i ≤ u →
      (InBuffer S0 T (if kept = true then size + 1 else size) i ↔
        (InBuffer S0 S size i ∨ (kept = true ∧ i = p))) := by
    intro i i0 i1
    cases kept with
    | false =>
      simp only [Bool.false_eq_true, if_false, false_and, or_false] at tbuf ⊢
      unfold InBuffer
      rw [tbuf]
    | true =>
      simp only [if_true, true_and] at tbuf ⊢
      unfold InBuffer
      rw [tbuf]
      constructor
      · rintro ⟨k, k0, k1, k2⟩
        by_cases hk : k = size
        · rw [hk, upd_same] at k2
          exact Or.inr (hinj i p i0 i1 hp0 hpu k2.symm)
        · rw [upd_other _ _ hk] at k2
          exact Or.inl ⟨k, k0, by omega, k2⟩
      · rintro (⟨k, k0, k1, k2⟩ | e)
        · exact ⟨k, k0, by omega, by rw [upd_other _ _ (by omega)]; exact k2⟩
        · exact ⟨size, hsz, by omega, by rw [upd_same, e]⟩
  have hbuf : ∀ k, 0 ≤ k → k < (if kept = true then size + 1 else size) →
      ∃ i, p - 1 < i ∧ i ≤ u ∧ T.buffer k = S0.falseStack i := by
    intro k k0 k1
    cases kept with
    | false =>
      simp only [Bool.false_eq_true, if_false] at tbuf k1
      obtain ⟨i, a, b, c⟩ := hI.buf k k0 k1
      exact ⟨i, by omega, b, by rw [tbuf]; exact c⟩
    | true =>
      simp only [if_true] at tbuf k1
      by_cases hk : k = size
      · exact ⟨p, by omega, hpu, by rw [tbuf, hk, upd_same]⟩
      · obtain ⟨i, a, b, c⟩ := hI.buf k k0 (by omega)
        exact ⟨i, by omega, b, by rw [tbuf, upd_other _ _ hk]; exact c⟩
  have hflag2 : (if kept = true then (1 : Int) else flag) = 0 ∨
      (if kept = true then (1 : Int) else flag) = 1 := by
    cases kept with
    | false => simpa using hI.flag01
    | true => right; rfl
  -- the flag before the test for a decision: some literal of the new buffer
  -- has no decision from `p + 1` up to itself
  have hopen2 : (if kept = true then (1 : Int) else flag) = 1 ↔
      ∃ i, p ≤ i ∧ i ≤ u ∧ InBuffer S0 T (if kept = true then size + 1 else size) i ∧
        ∀ q, p < q → q ≤ i → hasReason S0 q := by
    cases kept with
    | true =>
      simp only [if_true]
      refine ⟨fun _ => ⟨p, le_refl _, hpu, ?_, fun q a b => by omega⟩, fun _ => trivial⟩
      exact (hnew p hp0 hpu).2 (Or.inr ⟨rfl, rfl⟩)
    | false =>
      simp only [Bool.false_eq_true, if_false]
      constructor
      · intro h
        obtain ⟨i, a, b, c, d⟩ := hI.opn.1 h
        exact ⟨i, by omega, b, (hnew i (by omega) b).2 (Or.inl c), d⟩
      · rintro ⟨i, a, b, c, d⟩
        rcases (hnew i (by omega) b).1 c with e | ⟨e, -⟩
        · exact hI.opn.2 ⟨i, hold i (by omega) b e, b, e, d⟩
        · exact absurd e (by decide)
  by_cases hdec : S0.reason (iabs (S0.falseStack p)) = 0
  · rw [if_pos hdec, if_pos hdec]
    have hnr : ¬ hasReason S0 p := by
      unfold hasReason
      exact fun h => h hdec
    by_cases hf2 : (if kept = true then (1 : Int) else flag) = 1
    · refine ⟨insert p C, tfs, tre, tfo, Or.inl rfl, hbuf, ?_, ?_, ?_⟩
      · constructor
        · intro h; exact absurd h (by decide)
        · rintro ⟨i, a, b, c, d⟩
          exact absurd (d p (by omega) (by omega)) hnr
      · have hpC : p ∉ C := by
          intro hc
          have := ((hI.mem p).1 hc).1
          omega
        rw [Finset.card_insert_of_not_mem hpC, hf2, hI.cnt]
        push_cast
        rfl
      · intro q
        rw [Finset.mem_insert, hI.mem q]
        constructor
        · rintro (e | ⟨a, b, c, i, d, e, g, k⟩)
          · obtain ⟨i, a, b, c, d⟩ := hopen2.1 hf2
            rw [e]
            exact ⟨by omega, hpu, hnr, i, a, b, c, d⟩
          · exact ⟨by omega, b, c, i, d, e, (hnew i (by omega) e).2 (Or.inl g), k⟩
        · rintro ⟨a, b, c, i, d, e, g, k⟩
          by_cases hq : q = p
          · exact Or.inl hq
          · right
            refine ⟨by omega, b, c, i, d, e, ?_, k⟩
            rcases (hnew i (by omega) e).1 g with g1 | ⟨-, g1⟩
            · exact g1
            · omega
    · have hf0 : (if kept = true then (1 : Int) else flag) = 0 := by
        rcases hflag2 with e | e
        · exact e
        · exact absurd e hf2
      refine ⟨C, tfs, tre, tfo, Or.inl rfl, hbuf, ?_, ?_, ?_⟩
      · constructor
        · intro h; exact absurd h (by decide)
        · rintro ⟨i, a, b, c, d⟩
          exact absurd (d p (by omega) (by omega)) hnr
      · rw [hf0, hI.cnt]
        ring
      · intro q
        rw [hI.mem q]
        constructor
        · rintro ⟨a, b, c, i, d, e, g, k⟩
          exact ⟨by omega, b, c, i, d, e, (hnew i (by omega) e).2 (Or.inl g), k⟩
        · rintro ⟨a, b, c, i, d, e, g, k⟩
          by_cases hq : q = p
          · exfalso
            rw [hq] at d k
            exact hf2 (hopen2.2 ⟨i, d, e, g, k⟩)
          · refine ⟨by omega, b, c, i, d, e, ?_, k⟩
            rcases (hnew i (by omega) e).1 g with g1 | ⟨-, g1⟩
            · exact g1
            · omega
  · rw [if_neg hdec, if_neg hdec]
    have hr : hasReason S0 p := hdec
    refine ⟨C, tfs, tre, tfo, hflag2, hbuf, ?_, hI.cnt, ?_⟩
    · rw [hopen2]
      constructor
      · rintro ⟨i, a, b, c, d⟩
        refine ⟨i, by omega, b, c, ?_⟩
        intro q q0 q1
        by_cases hq : q = p
        · rw [hq]; exact hr
        · exact d q (by omega) q1
      · rintro ⟨i, a, b, c, d⟩
        exact ⟨i, by omega, b, c, fun q q0 q1 => d q (by omega) q1⟩
    · intro q
      rw [hI.mem q]
      constructor
      · rintro ⟨a, b, c, i, d, e, g, k⟩
        exact ⟨by omega, b, c, i, d, e, (hnew i (by omega) e).2 (Or.inl g), k⟩
      · rintro ⟨a, b, c, i, d, e, g, k⟩
        have hq : q ≠ p := fun e => c (e ▸ hr)
        refine ⟨by omega, b, c, i, d, e, ?_, k⟩
        rcases (hnew i (by omega) e).1 g with g1 | ⟨-, g1⟩
        · exact g1
        · omega

theorem LbdInv_next {S0 : solver} {u : Int} {S T : solver} {p size lbd flag : Int}
    {C : Finset Int} (hI : LbdInv S0 u S p size lbd flag C)
    (hinj : ∀ i j, 0 ≤ i → i ≤ u → 0 ≤ j → j ≤ u → S0.falseStack i = S0.falseStack j → i = j)
    (hp0 : 0 ≤ p) (hpu : p ≤ u) (hsz : 0 ≤ size) (kept : Bool) (size2 lbd3 flag3 : Int)
    (tfs : T.falseStack = S0.falseStack) (tre : T.reason = S0.reason) (tfo : T.forced = S0.forced)
    (tbuf : T.buffer = if kept = true then upd S.buffer size (S0.falseStack p) else S.buffer)
    (e1 : size2 = if kept = true then size + 1 else size)
    (e2 : lbd3 = if S0.reason (iabs (S0.falseStack p)) = 0
      then lbd + (if kept = true then 1 else flag) else lbd)
    (e3 : flag3 = if S0.reason (iabs (S0.falseStack p)) = 0 then 0
      else (if kept = true then 1 else flag)) :
    ∃ C1, LbdInv S0 u T (p - 1) size2 lbd3 flag3 C1 := by
  rw [e1, e2, e3]
  exact LbdInv_step hI hinj hp0 hpu kept tfs tre tfo tbuf hsz

/-- The loop of `analyze` that builds the lemma keeps the invariant of the
count down to the position below `forced`, and does not touch the averages. -/
theorem buildLoop_lbd {S0 : solver} {u : Int}
    (hinj : ∀ i j, 0 ≤ i → i ≤ u → 0 ≤ j → j ≤ u → S0.falseStack i = S0.falseStack j → i = j)
    (hf0 : 0 ≤ S0.forced) (f : Nat) :
    ∀ S p size lbd flag C T size1 lbd1, LbdInv S0 u S p size lbd flag C → S0.forced - 1 ≤ p →
      p ≤ u → 0 ≤ size → buildLoop f S p size lbd flag = Except.ok (T, size1, lbd1) →
      ∃ flag1 C1, LbdInv S0 u T (S0.forced - 1) size1 lbd1 flag1 C1 ∧ T.fast = S.fast ∧
        T.slow = S.slow ∧ size ≤ size1 := by
  induction f with
  | zero => intro S p size lbd flag C T size1 lbd1 _ _ _ _ h; simp [buildLoop] at h
  | succ f ih =>
    intro S p size lbd flag C T size1 lbd1 hI hp hpu hsz h
    have efs : S.falseStack p = S0.falseStack p := by rw [hI.fs]
    rw [buildLoop, hI.fo] at h
    by_cases hge : p ≥ S0.forced
    · rw [if_pos hge] at h
      simp only at h
      rw [efs] at h
      by_cases hm : S.fals (S0.falseStack p) = MARK
      · simp only [hm, if_true] at h
        cases hcall : implied f S (S0.falseStack p) with
        | error e => rw [hcall] at h; cases h
        | ok q =>
          obtain ⟨b, S1⟩ := q
          rw [hcall] at h
          simp only at h
          have ho : S1 = { S with fals := S1.fals } := (implied_only f).1 _ _ _ hcall
          have ers : S1.reason (iabs (S0.falseStack p)) = S0.reason (iabs (S0.falseStack p)) := by
            rw [ho]; show S.reason _ = _; rw [hI.re]
          have o1 : S1.falseStack = S0.falseStack := by rw [ho]; exact hI.fs
          have o2 : S1.reason = S0.reason := by rw [ho]; exact hI.re
          have o3 : S1.forced = S0.forced := by rw [ho]; exact hI.fo
          have o4 : S1.buffer = S.buffer := by rw [ho]
          have o5 : S1.fast = S.fast := by rw [ho]
          have o6 : S1.slow = S.slow := by rw [ho]
          cases b with
          | true =>
            simp only [if_true] at h
            rw [ers] at h
            obtain ⟨C2, hI2⟩ := LbdInv_next hI hinj (by omega) hpu hsz false size _ _
              (T := { (if S0.reason (iabs (S0.falseStack p)) = 0 ∧ size = 1
                then { S1 with processed := p } else S1) with
                fals := upd (if S0.reason (iabs (S0.falseStack p)) = 0 ∧ size = 1
                  then { S1 with processed := p } else S1).fals (S0.falseStack p) 1 })
              (by split_ifs <;> exact o1) (by split_ifs <;> exact o2)
              (by split_ifs <;> exact o3)
              (by simp only [Bool.false_eq_true, if_false]; split_ifs <;> exact o4) rfl rfl rfl
            obtain ⟨flag1, C1, r1, r2, r3, r4⟩ := ih _ _ _ _ _ _ _ _ _ hI2 (by omega) (by omega) hsz h
            refine ⟨flag1, C1, r1, ?_, ?_, by omega⟩
            · rw [r2, ← o5]; split_ifs <;> rfl
            · rw [r3, ← o6]; split_ifs <;> rfl
          | false =>
            simp only [Bool.false_eq_true, if_false] at h
            rw [ers] at h
            obtain ⟨C2, hI2⟩ := LbdInv_next hI hinj (by omega) hpu hsz true (size + 1) _ _
              (T := { (if S0.reason (iabs (S0.falseStack p)) = 0 ∧ size + 1 = 1
                then { ({ S1 with buffer := upd S1.buffer size (S0.falseStack p) } : solver) with
                  processed := p }
                else { S1 with buffer := upd S1.buffer size (S0.falseStack p) }) with
                fals := upd (if S0.reason (iabs (S0.falseStack p)) = 0 ∧ size + 1 = 1
                  then { ({ S1 with buffer := upd S1.buffer size (S0.falseStack p) } : solver)
                    with processed := p }
                  else { S1 with buffer := upd S1.buffer size (S0.falseStack p) }).fals
                  (S0.falseStack p) 1 })
              (by split_ifs <;> exact o1) (by split_ifs <;> exact o2)
              (by split_ifs <;> exact o3)
              (by simp only [if_true]; split_ifs <;> (show upd S1.buffer _ _ = _; rw [o4]))
              rfl rfl rfl
            obtain ⟨flag1, C1, r1, r2, r3, r4⟩ :=
              ih _ _ _ _ _ _ _ _ _ hI2 (by omega) (by omega) (by omega) h
            refine ⟨flag1, C1, r1, ?_, ?_, by omega⟩
            · rw [r2, ← o5]; split_ifs <;> rfl
            · rw [r3, ← o6]; split_ifs <;> rfl
      · simp only [hm, if_false] at h
        have ers : S.reason (iabs (S0.falseStack p)) = S0.reason (iabs (S0.falseStack p)) := by
          rw [hI.re]
        rw [ers] at h
        obtain ⟨C2, hI2⟩ := LbdInv_next hI hinj (by omega) hpu hsz false size _ _
          (T := { (if S0.reason (iabs (S0.falseStack p)) = 0 ∧ size = 1
            then { S with processed := p } else S) with
            fals := upd (if S0.reason (iabs (S0.falseStack p)) = 0 ∧ size = 1
              then { S with processed := p } else S).fals (S0.falseStack p) 1 })
          (by split_ifs <;> exact hI.fs) (by split_ifs <;> exact hI.re)
          (by split_ifs <;> exact hI.fo)
          (by simp only [Bool.false_eq_true, if_false]; split_ifs <;> rfl) rfl rfl rfl
        obtain ⟨flag1, C1, r1, r2, r3, r4⟩ := ih _ _ _ _ _ _ _ _ _ hI2 (by omega) (by omega) hsz h
        refine ⟨flag1, C1, r1, ?_, ?_, by omega⟩
        · rw [r2]; split_ifs <;> rfl
        · rw [r3]; split_ifs <;> rfl
    · rw [if_neg hge] at h
      simp only [Except.ok.injEq, Prod.mk.injEq] at h
      obtain ⟨rfl, rfl, rfl⟩ := h
      have : p = S0.forced - 1 := by omega
      subst this
      exact ⟨flag, C, hI, rfl, rfl, le_refl _⟩

theorem trailPosBelow_eq {S : solver} (hT : TrailInv S) (i : Nat) (hi : (i : Int) < S.assigned) :
    ∀ k : Nat, i < k → (k : Int) ≤ S.assigned →
      trailPosBelow S (S.falseStack i) k = i := by
  intro k
  induction k with
  | zero => intro h; omega
  | succ k ih =>
    intro h1 h2
    rw [trailPosBelow]
    push_cast at h2
    by_cases e : S.falseStack k = S.falseStack i
    · rw [if_pos e]
      have := hT.inj k i (by omega) (by omega) (by omega) hi e
      omega
    · rw [if_neg e]
      have hne : k ≠ i := fun c => e (by rw [c])
      exact ih (by omega) (by omega)

/-- The trail position of the literal at position `i` is `i`. -/
theorem trailPos_eq {S : solver} (hT : TrailInv S) (i : Int) (i0 : 0 ≤ i) (i1 : i < S.assigned) :
    trailPos S (S.falseStack i) = i.toNat := by
  have h := trailPosBelow_eq hT i.toNat (by rw [Int.toNat_of_nonneg i0]; exact i1)
    S.assigned.toNat (by omega) (by rw [Int.toNat_of_nonneg (by omega)])
  rw [Int.toNat_of_nonneg i0] at h
  exact h

/-- Every position from `b` on lies in the segment of a decision, when `b`
holds a decision. -/
theorem segment_decision (S : solver) (b : Int) (hb : ¬ hasReason S b) :
    ∀ (n : Nat) (i : Int), i = b + n →
      ∃ q, b ≤ q ∧ q ≤ i ∧ ¬ hasReason S q ∧ ∀ r, q < r → r ≤ i → hasReason S r := by
  intro n
  induction n with
  | zero =>
    intro i hi
    simp only [Nat.cast_zero, add_zero] at hi
    subst hi
    exact ⟨i, le_refl _, le_refl _, hb, fun r a c => by omega⟩
  | succ n ih =>
    intro i hi
    push_cast at hi
    by_cases hr : hasReason S i
    · obtain ⟨q, q0, q1, q2, q3⟩ := ih (i - 1) (by omega)
      refine ⟨q, q0, by omega, q2, ?_⟩
      intro r r0 r1
      by_cases e : r = i
      · rw [e]; exact hr
      · exact q3 r r0 (by omega)
    · exact ⟨i, by omega, le_refl _, hr, fun r a c => by omega⟩

/-- A decision has a higher level than every position below it. -/
theorem decisionLevel_lt {S : solver} {a b : Int} (ha : 0 ≤ a) (hab : a < b)
    (hb : ¬ hasReason S b) : decisionLevel S a.toNat < decisionLevel S b.toNat := by
  obtain ⟨m, hm⟩ : ∃ m : Nat, b.toNat = m + 1 := ⟨b.toNat - 1, by omega⟩
  have hmb : ((m : Int) + 1) = b := by omega
  rw [hm, decisionLevel]
  have h1 := decisionLevel_mono S a.toNat m (by omega)
  have h2 : S.reason (iabs (S.falseStack ((m : Int) + 1))) = 0 := by
    rw [hmb]
    unfold hasReason at hb
    exact not_not.mp hb
  rw [if_pos h2]
  omega

theorem wrap32_add (a b : Int) : wrap32 (wrap32 a + wrap32 b) = wrap32 (a + b) := by
  unfold wrap32
  omega

theorem analyzeLoop_avg (f : Nat) (S T : solver) (h : analyzeLoop f S = Except.ok T) :
    T.fast = S.fast ∧ T.slow = S.slow := by
  induction f generalizing S with
  | zero => simp [analyzeLoop] at h
  | succ f ih =>
    rw [analyzeLoop] at h
    simp only at h
    by_cases h1 : S.reason (iabs (S.falseStack (S.assigned - 1))) ≠ 0
    · rw [if_pos h1] at h
      by_cases h2 : S.fals (S.falseStack (S.assigned - 1)) = MARK
      · rw [if_pos h2] at h
        cases hc : checkLoop f { S with assigned := S.assigned - 1 } (S.assigned - 1) with
        | error e => rw [hc] at h; cases h
        | ok check =>
          rw [hc] at h
          simp only at h
          split_ifs at h with h3
          · simp only [Except.ok.injEq] at h
            rw [← h]
            exact ⟨rfl, rfl⟩
          · cases hb : bumpLits f (S.reason (iabs (S.falseStack (S.assigned - 1))) + 1)
                { S with assigned := S.assigned - 1 } with
            | error e => rw [hb] at h; cases h
            | ok S2 =>
              rw [hb] at h
              simp only at h
              have hr := rest_bumpLits _ _ _ _ hb
              simp only [rest, Prod.mk.injEq] at hr
              obtain ⟨a, b⟩ := ih _ h
              exact ⟨a.trans hr.2.2.2.2.1, b.trans hr.2.2.2.2.2⟩
      · rw [if_neg h2] at h
        have := ih _ h
        exact this
    · rw [if_neg h1] at h
      simp only [Except.ok.injEq] at h
      rw [← h]
      exact ⟨rfl, rfl⟩

theorem getMemory_avg (S : solver) (k : Int) (r : Int × solver)
    (h : getMemory S k = Except.ok r) : r.2.fast = S.fast ∧ r.2.slow = S.slow := by
  unfold getMemory at h
  split_ifs at h
  cases h
  exact ⟨rfl, rfl⟩

/-- The averages `initCDCL` sets: `1 << 24` both. -/
theorem initCDCL_avg (S : solver) (n0 m : Int) (T : solver)
    (h : initCDCL S n0 m = Except.ok T) : T.fast = 16777216 ∧ T.slow = 16777216 := by
  unfold initCDCL at h
  simp only at h
  obtain ⟨r1, h1, h⟩ := bind_ok _ _ _ h
  obtain ⟨r2, h2, h⟩ := bind_ok _ _ _ h
  obtain ⟨r3, h3, h⟩ := bind_ok _ _ _ h
  obtain ⟨r4, h4, h⟩ := bind_ok _ _ _ h
  obtain ⟨r5, h5, h⟩ := bind_ok _ _ _ h
  obtain ⟨r6, h6, h⟩ := bind_ok _ _ _ h
  obtain ⟨r7, h7, h⟩ := bind_ok _ _ _ h
  obtain ⟨r8, h8, h⟩ := bind_ok _ _ _ h
  obtain ⟨a1, b1⟩ := getMemory_avg _ _ _ h1
  obtain ⟨a2, b2⟩ := getMemory_avg _ _ _ h2
  obtain ⟨a3, b3⟩ := getMemory_avg _ _ _ h3
  obtain ⟨a4, b4⟩ := getMemory_avg _ _ _ h4
  obtain ⟨a5, b5⟩ := getMemory_avg _ _ _ h5
  obtain ⟨a6, b6⟩ := getMemory_avg _ _ _ h6
  obtain ⟨a7, b7⟩ := getMemory_avg _ _ _ h7
  obtain ⟨a8, b8⟩ := getMemory_avg _ _ _ h8
  simp only at a1 b1 a2 b2 a3 b3 a4 b4 a5 b5 a6 b6 a7 b7 a8 b8
  cases h
  constructor
  · show (initLoop _ 1 _).fast = _
    rw [initLoop_frame]
    show r8.2.fast = _
    rw [a8, a7, a6, a5, a4, a3, a2, a1]
  · show (initLoop _ 1 _).slow = _
    rw [initLoop_frame]
    show r8.2.slow = _
    rw [b8, b7, b6, b5, b4, b3, b2, b1]

theorem kept_avg {S T : solver} (h : kept T = kept S) : T.fast = S.fast ∧ T.slow = S.slow := by
  simp only [kept, Prod.mk.injEq] at h
  exact ⟨h.2.2.2.2.2.2.2.2.2.2.2.2.2.2.2.2.1, h.2.2.2.2.2.2.2.2.2.2.2.2.2.2.2.2.2⟩

/-- The count `lbd` of `analyze`: the number of decision levels of the
literals in the buffer. -/
theorem analyze_lbd (f : Nat) (S : solver) (c lem : Int) (T : solver) (hC : Conflict S c)
    (h : analyze f S c = Except.ok (lem, T)) :
    ∃ (S2 S4 : solver) (size lbd : Int),
      buildLoop f { S2 with processed := S2.assigned } S2.assigned 0 0 0
        = Except.ok (S4, size, lbd) ∧
      0 ≤ size ∧ T.DB (lem + size) = 0 ∧
      (∀ k, 0 ≤ k → k < size → T.DB (lem + k) ≠ 0 ∧
        ∃ i, S.forced ≤ i ∧ i < S.assigned ∧ T.DB (lem + k) = S.falseStack i) ∧
      lbd = ((levelSet S T lem size).card : Int) ∧
      T.fast = wrap32 (S.fast - S.fast / 32 + lbd * 32768) ∧
      T.slow = wrap32 (S.slow - S.slow / 32768 + lbd * 32) := by
  obtain ⟨S1, S2, S4, size, lbd, h1, h2, h3, h4⟩ := analyze_eq f S c _ h
  have hT := hC.trail
  have hf0 := hT.forced_nonneg
  have hW : WClosed S (fun _ => False) := ⟨fun _ _ _ h => h, fun _ _ _ _ h => h.elim⟩
  have hA := ana_init f S c S1 hC h1
  obtain ⟨hU, -⟩ := analyzeLoop_spec (fun _ => False) f S S1 S2 hW hT hC.levels hC.reasons hC.dec
    hA h2
  obtain ⟨d, d1, d2, -⟩ := hU.dec
  have hult := hU.lt
  have hfd : ¬ hasReason S S.forced := hC.levels.first_dec hC.dec
  obtain ⟨s1, s2, s3, s4, s5, s6, s7, s8, s9, s10, s11, s12⟩ := static_fields hU.st
  have hinj : ∀ i j, 0 ≤ i → i ≤ S2.assigned → 0 ≤ j → j ≤ S2.assigned →
      S.falseStack i = S.falseStack j → i = j :=
    fun i j i0 i1 j0 j1 e => hT.inj i j i0 (by omega) j0 (by omega) e
  have hInit : LbdInv S S2.assigned { S2 with processed := S2.assigned } S2.assigned 0 0 0 ∅ := by
    refine ⟨s10, s9, s12, Or.inl rfl, fun k k0 k1 => by omega, ?_, rfl, ?_⟩
    · constructor
      · intro e; exact absurd e (by decide)
      · rintro ⟨i, a, b, -⟩; omega
    · intro q
      constructor
      · intro e; exact absurd e (Finset.not_mem_empty q)
      · rintro ⟨a, b, -⟩; omega
  obtain ⟨flag1, C1, hF, hfast, hslow, hsz⟩ :=
    buildLoop_lbd hinj hf0 f _ _ _ _ _ _ _ _ _ hInit (by omega) (le_refl _) (le_refl _) h3
  have hfast' : S4.fast = S2.fast := hfast
  have hslow' : S4.slow = S2.slow := hslow
  -- the lemma in the arena
  obtain ⟨m1, -⟩ := addClause_mem _ _ _ _ _ h4
  obtain ⟨T1, q0, q1, q2, q3, -⟩ := addClause_buffer (preLemma S4 size lbd) size 0 hsz m1
  have hk := kept_avg (kept_addClause _ _ _ _ _ h4)
  rw [q0] at h4
  simp only [Except.ok.injEq, Prod.mk.injEq] at h4
  obtain ⟨hlem, rfl⟩ := h4
  have hpb : (preLemma S4 size lbd).buffer = upd S4.buffer size 0 := by
    rw [preLemma_eq]
  have hbufk : ∀ k, 0 ≤ k → k < size → T1.DB (lem + k) = S4.buffer k := by
    intro k k0 k1
    rw [← hlem, q2 k k0 k1, hpb, upd_other _ _ (by omega)]
  have hpos : ∀ k, 0 ≤ k → k < size →
      ∃ i, S.forced ≤ i ∧ i ≤ S2.assigned ∧ T1.DB (lem + k) = S.falseStack i := by
    intro k k0 k1
    obtain ⟨i, a, b, e⟩ := hF.buf k k0 k1
    exact ⟨i, by omega, b, by rw [hbufk k k0 k1]; exact e⟩
  have hlev : ∀ q i, 0 ≤ q → q ≤ i → (∀ r, q < r → r ≤ i → hasReason S r) →
      decisionLevel S i.toNat = decisionLevel S q.toNat := by
    intro q i q0 qi hr
    refine decisionLevel_same S q.toNat i.toNat (by omega) ?_
    intro k k0 k1
    exact hr k (by omega) (by omega)
  have hset : levelSet S T1 lem size = C1.image (fun q : Int => decisionLevel S q.toNat) := by
    ext n
    simp only [levelSet, Finset.mem_image, Finset.mem_range]
    constructor
    · rintro ⟨k, hk1, hn⟩
      have hk2 : (k : Int) < size := by omega
      obtain ⟨i, a, b, e⟩ := hF.buf k (by omega) hk2
      obtain ⟨q, q0, q1, q2', q3'⟩ := segment_decision S S.forced hfd (i - S.forced).toNat i
        (by omega)
      refine ⟨q, (hF.mem q).2 ⟨by omega, by omega, q2', i, q1, b,
        ⟨k, by omega, hk2, e⟩, q3'⟩, ?_⟩
      rw [← hn, hbufk k (by omega) hk2, e, trailPos_eq hT i (by omega) (by omega)]
      exact (hlev q i (by omega) q1 q3').symm
    · rintro ⟨q, hq, hn⟩
      obtain ⟨a, b, c1, i, d1', d2', ⟨k, k0, k1, k2⟩, d4⟩ := (hF.mem q).1 hq
      refine ⟨k.toNat, by omega, ?_⟩
      rw [Int.toNat_of_nonneg k0, hbufk k k0 k1, k2, trailPos_eq hT i (by omega) (by omega),
        ← hn]
      exact hlev q i (by omega) d1' d4
  have hcard : (levelSet S T1 lem size).card = C1.card := by
    rw [hset]
    apply Finset.card_image_of_injOn
    intro q1 hq1 q2' hq2 e
    simp only [Finset.mem_coe] at hq1 hq2
    obtain ⟨a1, -, c1, -⟩ := (hF.mem q1).1 hq1
    obtain ⟨a2, -, c2, -⟩ := (hF.mem q2').1 hq2
    simp only at e
    by_contra hne
    rcases lt_or_gt_of_ne hne with hlt | hgt
    · have := decisionLevel_lt (S := S) (by omega) hlt c2
      omega
    · have := decisionLevel_lt (S := S) (by omega) hgt c1
      omega
  have eb := rest_bumpLits _ _ _ _ h1
  simp only [rest, Prod.mk.injEq] at eb
  obtain ⟨ea1, ea2⟩ := analyzeLoop_avg _ _ _ h2
  have hS4f : S4.fast = S.fast := by rw [hfast', ea1, eb.2.2.2.2.1]
  have hS4s : S4.slow = S.slow := by rw [hslow', ea2, eb.2.2.2.2.2]
  refine ⟨S2, S4, size, lbd, h3, hsz, by rw [← hlem]; exact q3, ?_, ?_, ?_, ?_⟩
  · intro k k0 k1
    obtain ⟨i, a, b, e⟩ := hpos k k0 k1
    refine ⟨?_, i, a, by omega, e⟩
    rw [e]
    exact (hT.range i (by omega) (by omega)).1
  · rw [hcard, hF.cnt]
  · rw [hk.1, preLemma_eq]
    show wrap32 (wrap32 (S4.fast - S4.fast / 32) + wrap32 (lbd * 32768)) = _
    rw [wrap32_add, hS4f]
  · rw [hk.2, preLemma_eq]
    show wrap32 (wrap32 (S4.slow - S4.slow / 32768) + wrap32 (lbd * 32)) = _
    rw [wrap32_add, hS4s]

/-- The count `lbd` and the averages as long as `reduceDB` has not run: for
every call of `analyze` in a state in which `propagate` makes it (`Conflict`:
a clause is falsified while a decision is on the trail, and the trail, the
levels and the reasons are in order), the
value `lbd` that the loop building the lemma returns is the number of
different decision levels among the literals of the returned lemma
(`levelSet`: the level of a literal is the number of decisions on the trail
up to its position; the lemma is the clause of `size` literals at `lem`, all
on the trail from `forced` on); the call updates the averages once, to
`fast - (fast >> 5) + (lbd << 15)` and `slow - (slow >> 15) + (lbd << 5)` in
32-bit arithmetic (`wrap32`), and learns one clause; a call of `propagate`
that learns no clause leaves the averages; and `initCDCL` sets both averages
to `1 << 24`. -/
theorem lbd_is_level_count (f : Nat) (S : solver) (c lem : Int) (T : solver)
    (hC : Conflict S c) (h : analyze f S c = Except.ok (lem, T)) :
    (∃ (S2 S4 : solver) (size lbd : Int),
      buildLoop f { S2 with processed := S2.assigned } S2.assigned 0 0 0
        = Except.ok (S4, size, lbd) ∧
      0 ≤ size ∧ T.DB (lem + size) = 0 ∧
      (∀ k, 0 ≤ k → k < size → T.DB (lem + k) ≠ 0 ∧
        ∃ i, S.forced ≤ i ∧ i < S.assigned ∧ T.DB (lem + k) = S.falseStack i) ∧
      lbd = ((levelSet S T lem size).card : Int) ∧
      T.fast = wrap32 (S.fast - S.fast / 32 + lbd * 32768) ∧
      T.slow = wrap32 (S.slow - S.slow / 32768 + lbd * 32)) ∧
    T.nLemmas = S.nLemmas + 1 ∧
    (∀ g S0 r, propagate g S0 = Except.ok r → r.2.nLemmas = S0.nLemmas →
      r.2.fast = S0.fast ∧ r.2.slow = S0.slow) ∧
    (∀ S0 n m T0, initCDCL S0 n m = Except.ok T0 →
      T0.fast = 16777216 ∧ T0.slow = 16777216) :=
  ⟨analyze_lbd f S c lem T hC h, analyze_nLemmas f S c _ h,
    fun g S0 r hp he =>
      ⟨((propagate_still g S0 r hp).2 he).2.2.2.2.1, ((propagate_still g S0 r hp).2 he).2.2.2.2.2.1⟩,
    initCDCL_avg⟩

theorem lbd_is_level_count_witness :
    (∃ (S2 S4 : solver) (size lbd : Int),
      buildLoop 20 { S2 with processed := S2.assigned } S2.assigned 0 0 0
        = Except.ok (S4, size, lbd) ∧
      0 ≤ size ∧ learnedState.DB (62 + size) = 0 ∧
      (∀ k, 0 ≤ k → k < size → learnedState.DB (62 + k) ≠ 0 ∧
        ∃ i, conflictState.forced ≤ i ∧ i < conflictState.assigned ∧
          learnedState.DB (62 + k) = conflictState.falseStack i) ∧
      lbd = ((levelSet conflictState learnedState 62 size).card : Int) ∧
      learnedState.fast = wrap32 (conflictState.fast - conflictState.fast / 32 + lbd * 32768) ∧
      learnedState.slow =
        wrap32 (conflictState.slow - conflictState.slow / 32768 + lbd * 32)) ∧
    (levelSet conflictState learnedState 62 2).card = 2 ∧
    learnedState.DB 62 = 3 ∧ learnedState.DB 63 = 4 ∧ learnedState.DB 64 = 0 ∧
    learnedState.fast = 16318464 ∧ learnedState.slow = 16776768 :=
  ⟨(lbd_is_level_count 20 conflictState 50 62 learnedState conflictState_conflict
      analyze_conflictState).1, by decide!, by decide!, by decide!, by decide!, by decide!,
    by decide!⟩

theorem solveLoop_turn (f : Nat) (S : solver) (d : Int) :
    solveLoop (f + 1) S d =
      match solveTurn f S d with
      | Except.error e => Except.error e
      | Except.ok (Sum.inl r) => Except.ok r
      | Except.ok (Sum.inr (S1, d1)) => solveLoop f S1 d1 := by
  rw [solveLoop, solveTurn]
  cases propagate f S with
  | error e => rfl
  | ok q =>
    obtain ⟨r, S1⟩ := q
    simp only
    by_cases hr : r = UNSAT
    · rw [if_pos hr, if_pos hr]
    · rw [if_neg hr, if_neg hr]
      cases (if decide (S1.nLemmas > S.nLemmas) = true then afterConflict f S1
          else Except.ok S1) with
      | error e => rfl
      | ok S2 =>
        simp only
        cases nextDecision f S2 (if decide (S1.nLemmas > S.nLemmas) = true then S1.head
            else d) with
        | error e => rfl
        | ok d1 =>
          simp only
          by_cases h0 : d1 = 0
          · rw [if_pos h0, if_pos h0]
          · rw [if_neg h0, if_neg h0]
            rfl

/-- The loop of `solve` runs through the states of `solveTurns`: after `k`
turns it has returned the answer of `solveTurns`, or it goes on from the
state and the variable `decision` that `solveTurns` gives. -/
theorem solveLoop_turns : ∀ (k f : Nat) (S : solver) (d : Int),
    solveLoop (f + k) S d =
      match solveTurns k f S d with
      | Except.error e => Except.error e
      | Except.ok (Sum.inl r) => Except.ok r
      | Except.ok (Sum.inr (S1, d1)) => solveLoop f S1 d1 := by
  intro k
  induction k with
  | zero => intro f S d; rfl
  | succ k ih =>
    intro f S d
    rw [show f + (k + 1) = (f + k) + 1 by omega, solveLoop_turn, solveTurns]
    cases solveTurn (f + k) S d with
    | error e => rfl
    | ok q =>
      cases q with
      | inl r => rfl
      | inr p =>
        obtain ⟨S1, d1⟩ := p
        simp only
        exact ih f S1 d1

theorem turnState_ok (r : Except Fault (Sum (Int × solver) (solver × Int))) (d : Int)
    (h : turnDecision r = some d) : r = Except.ok (Sum.inr (turnState r, d)) := by
  cases r with
  | error e => cases h
  | ok q =>
    cases q with
    | inl a => cases h
    | inr p =>
      obtain ⟨S, d1⟩ := p
      simp only [turnDecision, Option.some.injEq] at h
      subst h
      rfl

/-- A call of `analyze` found by `watchLoopC` is the call that `watchLoop`
makes: the loop returns what it makes of the result of that call. -/
theorem watchLoopC_call (f : Nat) : ∀ (S : solver) (lit : Int) (watch : Watch) (forced : Bool)
    (X : solver) (c : Int), watchLoopC f S lit watch forced = Except.ok (Sum.inr (X, c)) →
    ∃ g, watchLoop f S lit watch forced =
      match analyze g X c with
      | Except.error e => Except.error e
      | Except.ok (lem, S4) =>
        Except.ok (Flow.go (unitLemma S4 lem) (assign S4 lem (unitLemma S4 lem))) := by
  induction f with
  | zero => intro S lit watch forced X c h; cases h
  | succ f ih =>
    intro S lit watch forced X c h
    rw [watchLoopC] at h
    rw [watchLoop]
    by_cases hw : rdW S watch ≠ END
    · rw [if_pos hw] at h
      rw [if_pos hw]
      simp only at h ⊢
      have hcl : (if S.DB (rdW S watch - 1) = 0 then rdW S watch + 2 else rdW S watch + 1)
          = clauseOf S watch := rfl
      rw [hcl] at h ⊢
      generalize clauseOf S watch = clause at h ⊢
      have hS1 : (if S.DB clause = lit then
          ({ S with DB := upd S.DB clause (S.DB (clause + 1)) } : solver) else S) =
          frontOther S clause lit := rfl
      rw [hS1] at h ⊢
      generalize frontOther S clause lit = S1 at h ⊢
      cases hsc : scanLoop f S1 clause lit watch 2 with
      | error e => rw [hsc] at h; cases h
      | ok q =>
        obtain ⟨unit, S2⟩ := q
        rw [hsc] at h
        simp only at h ⊢
        cases unit with
        | false =>
          simp only [Bool.false_eq_true, if_false] at h ⊢
          exact ih _ _ _ _ _ _ h
        | true =>
          simp only [if_true] at h ⊢
          by_cases h2 : S2.fals (-upd S2.DB (clause + 1) lit clause) ≠ 0
          · rw [if_pos h2] at h ⊢
            exact ih _ _ _ _ _ _ h
          · rw [if_neg h2] at h ⊢
            by_cases h3 : S2.fals (upd S2.DB (clause + 1) lit clause) = 0
            · rw [if_pos h3] at h ⊢
              exact ih _ _ _ _ _ _ h
            · rw [if_neg h3] at h ⊢
              cases forced with
              | true =>
                simp only [if_true] at h
                cases h
              | false =>
                simp only [Bool.false_eq_true, if_false] at h ⊢
                simp only [Except.ok.injEq, Sum.inr.injEq, Prod.mk.injEq] at h
                obtain ⟨hX, hc⟩ := h
                subst hX
                subst hc
                refine ⟨f, ?_⟩
                cases analyze f { S2 with DB := upd S2.DB (clause + 1) lit } clause with
                | error e => rfl
                | ok q => rfl
    · rw [if_neg hw] at h
      cases h

/-- When `watchLoopC` ends without a call of `analyze`, `watchLoop` ends the
same way. -/
theorem watchLoopC_flow (f : Nat) : ∀ (S : solver) (lit : Int) (watch : Watch) (forced : Bool)
    (fl : Flow), watchLoopC f S lit watch forced = Except.ok (Sum.inl fl) →
    watchLoop f S lit watch forced = Except.ok fl := by
  induction f with
  | zero => intro S lit watch forced fl h; cases h
  | succ f ih =>
    intro S lit watch forced fl h
    rw [watchLoopC] at h
    rw [watchLoop]
    by_cases hw : rdW S watch ≠ END
    · rw [if_pos hw] at h
      rw [if_pos hw]
      simp only at h ⊢
      have hcl : (if S.DB (rdW S watch - 1) = 0 then rdW S watch + 2 else rdW S watch + 1)
          = clauseOf S watch := rfl
      rw [hcl] at h ⊢
      generalize clauseOf S watch = clause at h ⊢
      have hS1 : (if S.DB clause = lit then
          ({ S with DB := upd S.DB clause (S.DB (clause + 1)) } : solver) else S) =
          frontOther S clause lit := rfl
      rw [hS1] at h ⊢
      generalize frontOther S clause lit = S1 at h ⊢
      cases hsc : scanLoop f S1 clause lit watch 2 with
      | error e => rw [hsc] at h; cases h
      | ok q =>
        obtain ⟨unit, S2⟩ := q
        rw [hsc] at h
        simp only at h ⊢
        cases unit with
        | false =>
          simp only [Bool.false_eq_true, if_false] at h ⊢
          exact ih _ _ _ _ _ h
        | true =>
          simp only [if_true] at h ⊢
          by_cases h2 : S2.fals (-upd S2.DB (clause + 1) lit clause) ≠ 0
          · rw [if_pos h2] at h ⊢
            exact ih _ _ _ _ _ h
          · rw [if_neg h2] at h ⊢
            by_cases h3 : S2.fals (upd S2.DB (clause + 1) lit clause) = 0
            · rw [if_pos h3] at h ⊢
              exact ih _ _ _ _ _ h
            · rw [if_neg h3] at h ⊢
              cases forced with
              | true =>
                simp only [if_true] at h ⊢
                simp only [Except.ok.injEq, Sum.inl.injEq] at h
                rw [h]
              | false =>
                simp only [Bool.false_eq_true, if_false] at h
                cases h
    · rw [if_neg hw] at h ⊢
      simp only [Except.ok.injEq, Sum.inl.injEq] at h
      rw [h]

/-- A call of `analyze` found by `propLoopC` is the call that `propLoop`
makes: the loop goes on from the state in which the lemma has been asserted. -/
theorem propLoopC_call (f : Nat) : ∀ (S : solver) (forced : Bool) (X : solver) (c : Int),
    propLoopC f S forced = Except.ok (Sum.inr (X, c)) →
    ∃ g h, propLoop f S forced =
      match analyze g X c with
      | Except.error e => Except.error e
      | Except.ok (lem, S4) => propLoop h (assign S4 lem (unitLemma S4 lem)) (unitLemma S4 lem) := by
  induction f with
  | zero => intro S forced X c h; cases h
  | succ f ih =>
    intro S forced X c h
    rw [propLoopC] at h
    rw [propLoop]
    by_cases hp : S.processed < S.assigned
    · rw [if_pos hp] at h
      rw [if_pos hp]
      simp only at h ⊢
      cases hw : watchLoopC f { S with processed := S.processed + 1 } (S.falseStack S.processed)
          (Watch.first (S.falseStack S.processed)) forced with
      | error e => rw [hw] at h; cases h
      | ok q =>
        rw [hw] at h
        cases q with
        | inr x =>
          obtain ⟨X1, c1⟩ := x
          simp only [Except.ok.injEq, Sum.inr.injEq, Prod.mk.injEq] at h
          obtain ⟨hX, hc⟩ := h
          subst hX
          subst hc
          obtain ⟨g, hg⟩ := watchLoopC_call f _ _ _ _ _ _ hw
          refine ⟨g, f, ?_⟩
          rw [hg]
          cases analyze g X1 c1 with
          | error e => rfl
          | ok q => rfl
        | inl fl =>
          cases fl with
          | ret S2 => cases h
          | go forced1 S2 =>
            simp only at h
            obtain ⟨g, k, hk⟩ := ih _ _ _ _ h
            refine ⟨g, k, ?_⟩
            rw [watchLoopC_flow f _ _ _ _ _ hw]
            exact hk
    · rw [if_neg hp] at h
      cases h

/-- A call of `analyze` found by `conflictOf` is the call that `propagate`
makes: `propagate` asserts the lemma returned by that call, goes on
propagating and ends as it always does. -/
theorem conflictOf_call (f : Nat) (S X : solver) (c : Int)
    (h : conflictOf f S = some (X, c)) :
    ∃ g k, propagate f S =
      match analyze g X c with
      | Except.error e => Except.error e
      | Except.ok (lem, S4) =>
        match propLoop k (assign S4 lem (unitLemma S4 lem)) (unitLemma S4 lem) with
        | Except.error e => Except.error e
        | Except.ok (Flow.ret S1) => Except.ok (UNSAT, S1)
        | Except.ok (Flow.go forced1 S1) =>
          Except.ok (SAT, if forced1 then { S1 with forced := S1.processed } else S1) := by
  unfold conflictOf at h
  cases hp : propLoopC f S (decide (S.reason (iabs (S.falseStack S.processed)) ≠ 0)) with
  | error e => rw [hp] at h; cases h
  | ok q =>
    rw [hp] at h
    cases q with
    | inl fl => cases h
    | inr x =>
      simp only [Option.some.injEq] at h
      subst h
      obtain ⟨g, k, hk⟩ := propLoopC_call f _ _ _ _ hp
      refine ⟨g, k, ?_⟩
      unfold propagate
      simp only
      rw [hk]
      cases analyze g X c with
      | error e => rfl
      | ok q => rfl

theorem order_prev {S T : solver} (h : order T = order S) : T.prev = S.prev := by
  simp only [order, Prod.mk.injEq] at h
  exact h.1

theorem order_head {S T : solver} (h : order T = order S) : T.head = S.head := by
  simp only [order, Prod.mk.injEq] at h
  exact h.2

theorem NonNeg_of_order {S T : solver} (h : order T = order S) (hS : NonNeg S) : NonNeg T := by
  unfold NonNeg
  rw [order_prev h, order_head h]
  exact hS

theorem NonNeg_bump (S : solver) (lit : Int) (hS : NonNeg S) : NonNeg (bump S lit) := by
  obtain ⟨h0, hp⟩ := hS
  unfold bump
  by_cases h1 : S.fals lit ≠ IMPLIED
  · rw [if_pos h1]
    simp only
    by_cases h2 : iabs lit ≠ S.head
    · rw [if_pos h2]
      refine ⟨iabs_nonneg lit, ?_⟩
      intro v
      show upd (upd S.prev (S.next (iabs lit)) (S.prev (iabs lit))) (iabs lit) S.head v ≥ 0
      rw [upd_apply]
      split_ifs
      · exact h0
      · rw [upd_apply]
        split_ifs
        · exact hp _
        · exact hp _
    · rw [if_neg h2]
      exact ⟨h0, hp⟩
  · rw [if_neg h1]
    exact ⟨h0, hp⟩

theorem bumpLits_nonneg (f : Nat) (c : Int) (S T : solver) (hS : NonNeg S)
    (h : bumpLits f c S = Except.ok T) : NonNeg T := by
  induction f generalizing c S with
  | zero => simp [bumpLits] at h
  | succ f ih =>
    rw [bumpLits] at h
    split_ifs at h
    · exact ih _ _ (NonNeg_bump _ _ hS) h
    · cases h; exact hS

theorem analyzeLoop_nonneg (f : Nat) (S T : solver) (hS : NonNeg S)
    (h : analyzeLoop f S = Except.ok T) : NonNeg T := by
  induction f generalizing S with
  | zero => simp [analyzeLoop] at h
  | succ f ih =>
    rw [analyzeLoop] at h
    simp only at h
    split_ifs at h with h1 h2
    · cases hc : checkLoop f { S with assigned := S.assigned - 1 } (S.assigned - 1) with
      | error e => rw [hc] at h; cases h
      | ok check =>
        rw [hc] at h
        simp only at h
        split_ifs at h with h3
        · cases h; exact hS
        · cases hb : bumpLits f (S.reason (iabs (S.falseStack (S.assigned - 1))) + 1)
              { S with assigned := S.assigned - 1 } with
          | error e => rw [hb] at h; cases h
          | ok S2 =>
            rw [hb] at h
            simp only at h
            refine ih _ ?_ h
            have e2 : NonNeg S2 := by
              refine bumpLits_nonneg _ _ _ _ ?_ hb
              exact hS
            exact e2
    · refine ih _ ?_ h
      exact hS
    · cases h; exact hS

theorem implied_order (f : Nat) (S : solver) (lit : Int) (r : Bool × solver)
    (h : implied f S lit = Except.ok r) : order r.2 = order S := by
  have e := (implied_only f).1 S lit r h
  rw [e]
  rfl

theorem buildLoop_order (f : Nat) (S : solver) (p size lbd flag : Int) (r : solver × Int × Int)
    (h : buildLoop f S p size lbd flag = Except.ok r) : order r.1 = order S := by
  induction f generalizing S p size lbd flag with
  | zero => simp [buildLoop] at h
  | succ f ih =>
    rw [buildLoop] at h
    split_ifs at h with h1
    · simp only at h
      by_cases hm : S.fals (S.falseStack p) = MARK
      · simp only [hm, if_true] at h
        cases hi : implied f S (S.falseStack p) with
        | error e => rw [hi] at h; cases h
        | ok q =>
          obtain ⟨b, S1⟩ := q
          have h3 : order S1 = order S := implied_order f _ _ _ hi
          rw [hi] at h
          simp only at h
          cases b with
          | true =>
            simp only [if_true] at h
            rw [ih _ _ _ _ _ h, ← h3]
            split_ifs <;> rfl
          | false =>
            simp only [Bool.false_eq_true, if_false] at h
            rw [ih _ _ _ _ _ h, ← h3]
            split_ifs <;> rfl
      · simp only [hm, if_false] at h
        rw [ih _ _ _ _ _ h]
        split_ifs <;> rfl
    · cases h
      rfl

theorem backjumpLoop_order (k : Nat) (S : solver) : order (backjumpLoop k S) = order S := by
  induction k generalizing S with
  | zero => rfl
  | succ k ih =>
    unfold backjumpLoop
    split_ifs
    · rw [ih]; rfl
    · rfl

theorem restartLoop_order (k : Nat) (S : solver) : order (restartLoop k S) = order S := by
  induction k generalizing S with
  | zero => rfl
  | succ k ih =>
    unfold restartLoop
    split_ifs
    · rw [ih]; rfl
    · rfl

theorem restart_order (S : solver) : order (restart S) = order S := by
  unfold restart
  exact restartLoop_order _ S

theorem preLemma_order (S4 : solver) (size lbd : Int) :
    order (preLemma S4 size lbd) = order S4 := by
  unfold preLemma
  simp only
  show order (backjumpLoop _ _) = _
  rw [backjumpLoop_order]
  rfl

theorem addClause_order (S : solver) (src : Src) (size irr : Int) (r : Int × solver)
    (h : addClause S src size irr = Except.ok r) : order r.2 = order S := by
  have e := kept_fields (kept_addClause _ _ _ _ _ h)
  unfold order
  rw [e.2.2.2.2.2.2.2.2.2.1, e.2.2.2.2.2.2.2.2.2.2.1]

theorem analyze_nonneg (f : Nat) (S : solver) (c : Int) (r : Int × solver) (hS : NonNeg S)
    (h : analyze f S c = Except.ok r) : NonNeg r.2 := by
  obtain ⟨S1, S2, S4, size, lbd, h1, h2, h3, h4⟩ := analyze_eq f S c r h
  have a1 : NonNeg S1 := by
    refine bumpLits_nonneg _ _ _ _ ?_ h1
    exact hS
  have a2 : NonNeg S2 := analyzeLoop_nonneg _ _ _ a1 h2
  have a3 : NonNeg S4 := by
    refine NonNeg_of_order (buildLoop_order _ _ _ _ _ _ _ h3) ?_
    exact a2
  exact NonNeg_of_order (addClause_order _ _ _ _ _ h4)
    (NonNeg_of_order (preLemma_order S4 size lbd) a3)

theorem scanLoop_order (f : Nat) (S : solver) (clause lit : Int) (watch : Watch) (i : Int)
    (r : Bool × solver) (h : scanLoop f S clause lit watch i = Except.ok r) :
    order r.2 = order S := by
  induction f generalizing i with
  | zero => simp [scanLoop] at h
  | succ f ih =>
    rw [scanLoop] at h
    by_cases h1 : S.DB (clause + i) ≠ 0
    · rw [if_pos h1] at h
      by_cases h2 : S.fals (S.DB (clause + i)) = 0
      · rw [if_pos h2] at h
        simp only [Except.ok.injEq] at h
        rw [← h]
        cases watch <;> rfl
      · rw [if_neg h2] at h
        exact ih _ h
    · rw [if_neg h1] at h
      simp only [Except.ok.injEq] at h
      rw [← h]

theorem frontOther_order (S : solver) (c lit : Int) : order (frontOther S c lit) = order S := by
  unfold frontOther
  split_ifs <;> rfl

theorem watchLoop_nonneg (f : Nat) : ∀ (S : solver) (lit : Int) (watch : Watch)
    (forced : Bool) (fl : Flow), NonNeg S → watchLoop f S lit watch forced = Except.ok fl →
    NonNeg fl.state := by
  induction f with
  | zero =>
    intro S lit watch forced fl _ h
    simp [watchLoop] at h
  | succ f ih =>
    intro S lit watch forced fl hS h
    rcases watchLoop_cases f S lit watch forced fl h with ⟨-, h2⟩ | ⟨-, unit, S2, hsc, hrest⟩
    · rw [h2]; exact hS
    · have e1 : NonNeg S2 :=
        NonNeg_of_order (scanLoop_order _ _ _ _ _ _ _ hsc)
          (NonNeg_of_order (frontOther_order S _ lit) hS)
      rcases hrest with ⟨-, hw⟩ | ⟨-, hw⟩
      · exact ih _ _ _ _ _ e1 hw
      · rcases hw with ⟨-, g2⟩ | ⟨-, -, g3⟩ | ⟨-, -, g3⟩
        · refine ih _ _ _ _ _ ?_ g2
          exact e1
        · refine ih _ _ _ _ _ ?_ g3
          exact e1
        · rcases g3 with ⟨-, g4⟩ | ⟨-, lem, S4, g5, g6⟩
          · rw [g4]
            exact e1
          · rw [g6]
            have e3 : NonNeg (lem, S4).2 := by
              refine analyze_nonneg _ _ _ _ ?_ g5
              exact e1
            exact e3

theorem propLoop_nonneg (f : Nat) : ∀ (S : solver) (forced : Bool) (fl : Flow),
    NonNeg S → propLoop f S forced = Except.ok fl → NonNeg fl.state := by
  induction f with
  | zero =>
    intro S forced fl _ h
    simp [propLoop] at h
  | succ f ih =>
    intro S forced fl hS h
    rcases propLoop_cases f S forced fl h with ⟨-, h2⟩ | ⟨-, fl1, hw, hrest⟩
    · rw [h2]; exact hS
    · have e1 : NonNeg fl1.state := by
        refine watchLoop_nonneg f _ _ _ _ _ ?_ hw
        exact hS
      rcases hrest with ⟨S2, g1, g2⟩ | ⟨forced1, S2, g1, g2⟩
      · rw [g2]
        rw [g1] at e1
        exact e1
      · rw [g1] at e1
        exact ih _ _ _ e1 g2

theorem propagate_nonneg (f : Nat) (S : solver) (r : Int × solver) (hS : NonNeg S)
    (h : propagate f S = Except.ok r) : NonNeg r.2 := by
  unfold propagate at h
  simp only at h
  cases hp : propLoop f S (decide (S.reason (iabs (S.falseStack S.processed)) ≠ 0)) with
  | error e => rw [hp] at h; cases h
  | ok fl =>
    rw [hp] at h
    have e := propLoop_nonneg f _ _ _ hS hp
    cases fl with
    | ret S1 =>
      simp only [Except.ok.injEq] at h
      rw [← h]
      exact e
    | go forced1 S1 =>
      simp only [Except.ok.injEq] at h
      rw [← h]
      cases forced1 with
      | true => exact e
      | false => exact e

theorem cutWatch_order (f : Nat) (i : Int) (S T : solver)
    (h : cutWatch f i S = Except.ok T) : order T = order S := by
  induction f generalizing S with
  | zero =>
    rw [cutWatch] at h
    split_ifs at h
    simp only [Except.ok.injEq] at h
    rw [← h]
  | succ f ih =>
    rw [cutWatch] at h
    split_ifs at h
    · rw [ih _ h]; rfl
    · simp only [Except.ok.injEq] at h
      rw [← h]

theorem cutLoop_order (fuel n : Nat) (i : Int) (S T : solver)
    (h : cutLoop fuel n i S = Except.ok T) : order T = order S := by
  induction n generalizing i S with
  | zero =>
    rw [cutLoop] at h
    simp only [Except.ok.injEq] at h
    rw [← h]
  | succ n ih =>
    rw [cutLoop] at h
    by_cases h0 : i = 0
    · rw [if_pos h0] at h
      exact ih _ _ h
    · rw [if_neg h0] at h
      cases hc : cutWatch fuel i S with
      | error e => rw [hc] at h; cases h
      | ok S1 =>
        rw [hc] at h
        rw [ih _ _ h, cutWatch_order _ _ _ _ hc]

theorem replay_order (fuel : Nat) (k old_used : Int) (n : Nat) (i : Int) (S T : solver)
    (h : replay fuel k old_used n i S = Except.ok T) : order T = order S := by
  induction n generalizing i S with
  | zero =>
    rw [replay] at h
    split_ifs at h
    simp only [Except.ok.injEq] at h
    rw [← h]
  | succ n ih =>
    rw [replay] at h
    by_cases h0 : i < old_used
    · rw [if_pos h0] at h
      simp only at h
      cases hc : countLits fuel S i 0 with
      | error e => rw [hc] at h; cases h
      | ok q =>
        obtain ⟨i1, count⟩ := q
        rw [hc] at h
        simp only at h
        by_cases h1 : count < k
        · rw [if_pos h1] at h
          cases ha : addClause S (Src.db i) (i1 - i) 0 with
          | error e => rw [ha] at h; cases h
          | ok q2 =>
            obtain ⟨c2, S1⟩ := q2
            rw [ha] at h
            simp only at h
            rw [ih _ _ h]
            exact addClause_order _ _ _ _ _ ha
        · rw [if_neg h1] at h
          exact ih _ _ h
    · rw [if_neg h0] at h
      simp only [Except.ok.injEq] at h
      rw [← h]

theorem growMaxLemmas_order (k : Nat) (S : solver) : order (growMaxLemmas k S) = order S := by
  induction k generalizing S with
  | zero => rfl
  | succ k ih =>
    rw [growMaxLemmas]
    split_ifs
    · rw [ih]; rfl
    · rfl

theorem reduceDB_order (fuel : Nat) (S : solver) (k : Int) (T : solver)
    (h : reduceDB fuel S k = Except.ok T) : order T = order S := by
  unfold reduceDB at h
  simp only at h
  have hg : order (growMaxLemmas (S.nLemmas - S.maxLemmas).toNat S) = order S :=
    growMaxLemmas_order _ S
  generalize growMaxLemmas (S.nLemmas - S.maxLemmas).toNat S = S1 at h hg
  cases hc : cutLoop fuel (2 * ({ S1 with nLemmas := 0 } : solver).nVars + 1).toNat
      (-({ S1 with nLemmas := 0 } : solver).nVars) { S1 with nLemmas := 0 } with
  | error e => rw [hc] at h; cases h
  | ok S3 =>
    rw [hc] at h
    simp only at h
    have e1 := replay_order _ _ _ _ _ _ _ h
    have e2 := cutLoop_order _ _ _ _ _ hc
    rw [e1]
    show order S3 = _
    rw [e2, ← hg]
    rfl

theorem afterConflict_order (f : Nat) (S T : solver) (h : afterConflict f S = Except.ok T) :
    order T = order S := by
  unfold afterConflict at h
  by_cases h1 : S.fast > (Int.tdiv S.slow 100) * 125
  · rw [if_pos h1] at h
    simp only at h
    split_ifs at h with h2
    · rw [reduceDB_order _ _ _ _ h, restart_order]
      rfl
    · simp only [Except.ok.injEq] at h
      rw [← h, restart_order]
      rfl
  · rw [if_neg h1] at h
    simp only [Except.ok.injEq] at h
    rw [← h]

theorem fillBuffer_order : ∀ (c : List Int) (i : Int) (S : solver),
    order (fillBuffer c i S) = order S := by
  intro c
  induction c with
  | nil => intro i S; rfl
  | cons l ls ih =>
    intro i S
    rw [fillBuffer, ih]
    rfl

theorem ingestClause_order (S : solver) (c : List Int) (r : Int × solver)
    (h : ingestClause S c = Except.ok r) : order r.2 = order S := by
  unfold ingestClause at h
  simp only at h
  cases ha : addClause (fillBuffer c 0 S) Src.buffer (c.length : Int) 1 with
  | error e => rw [ha] at h; cases h
  | ok q =>
    obtain ⟨clause, S2⟩ := q
    rw [ha] at h
    simp only at h
    have e : order S2 = order S := by
      rw [addClause_order _ _ _ _ _ ha, fillBuffer_order]
    split_ifs at h
    · simp only [Except.ok.injEq] at h
      rw [← h]; exact e
    · simp only [Except.ok.injEq] at h
      rw [← h]; exact e
    · simp only [Except.ok.injEq] at h
      rw [← h]; exact e

theorem ingest_order : ∀ (cs : List (List Int)) (nZeros : Int) (S : solver) (r : Int × solver),
    ingest cs nZeros S = Except.ok r → order r.2 = order S := by
  intro cs
  induction cs with
  | nil =>
    intro nZeros S r h
    rw [ingest] at h
    split_ifs at h
    · exact ingestClause_order _ _ _ h
    · simp only [Except.ok.injEq] at h
      rw [← h]
  | cons c cs ih =>
    intro nZeros S r h
    rw [ingest] at h
    split_ifs at h with h1
    · cases hc : ingestClause S c with
      | error e => rw [hc] at h; cases h
      | ok q =>
        obtain ⟨v, S1⟩ := q
        rw [hc] at h
        simp only at h
        have e := ingestClause_order _ _ _ hc
        split_ifs at h
        · simp only [Except.ok.injEq] at h
          rw [← h]; exact e
        · rw [ih _ _ _ h]; exact e
    · simp only [Except.ok.injEq] at h
      rw [← h]

/-- After ingestion the decision list holds no negative entry. -/
theorem parse_nonneg (S : solver) (n m : Int) (cs : List (List Int)) (r : Int × solver)
    (h : parse S n m cs = Except.ok r) : NonNeg r.2 := by
  unfold parse at h
  cases hi : initCDCL S n m with
  | error e => rw [hi] at h; cases h
  | ok S1 =>
    rw [hi] at h
    simp only at h
    have f := initCDCL_fields S n m S1 hi
    have hn : 1 ≤ S1.nVars := by
      rw [f.1]
      split_ifs <;> omega
    have a : NonNeg S1 := ⟨by rw [f.2.2.2.2.2.2.2.1]; omega, fun v => (f.2.2.2.2.2.2.2.2.1 v).1⟩
    exact NonNeg_of_order (ingest_order _ _ _ _ h) a

theorem iterate_nonneg {S : solver} (h : NonNeg S) (j : Nat) : 0 ≤ (S.prev)^[j] S.head := by
  cases j with
  | zero => exact h.1
  | succ j =>
    rw [Function.iterate_succ_apply']
    exact h.2 _

/-- The decision walk returns `d` exactly when `d` is the first variable on
the way along `prev` of which no literal is false. -/
theorem nextDecision_iff (S : solver) : ∀ (f : Nat) (s d : Int),
    nextDecision f S s = Except.ok d ↔
      ∃ j, j < f ∧ (S.prev)^[j] s = d ∧ (∀ i, i < j → taken S ((S.prev)^[i] s)) ∧
        ¬ taken S d := by
  intro f
  induction f with
  | zero =>
    intro s d
    constructor
    · intro h
      simp [nextDecision] at h
    · rintro ⟨j, hj, -⟩
      omega
  | succ f ih =>
    intro s d
    rw [nextDecision]
    by_cases hc : S.fals s ≠ 0 ∨ S.fals (-s) ≠ 0
    · rw [if_pos hc, ih]
      constructor
      · rintro ⟨j, hj, e, ha, hd⟩
        refine ⟨j + 1, by omega, ?_, ?_, hd⟩
        · rw [Function.iterate_succ_apply]
          exact e
        · intro i hi
          cases i with
          | zero => exact hc
          | succ i =>
            rw [Function.iterate_succ_apply]
            exact ha i (by omega)
      · rintro ⟨j, hj, e, ha, hd⟩
        cases j with
        | zero =>
          exfalso
          have e0 : s = d := e
          rw [← e0] at hd
          exact hd hc
        | succ j =>
          refine ⟨j, by omega, ?_, ?_, hd⟩
          · rw [Function.iterate_succ_apply] at e
            exact e
          · intro i hi
            have := ha (i + 1) (by omega)
            rw [Function.iterate_succ_apply] at this
            exact this
    · rw [if_neg hc]
      constructor
      · intro h
        simp only [Except.ok.injEq] at h
        refine ⟨0, by omega, h, ?_, ?_⟩
        · intro i hi
          omega
        · rw [← h]
          exact hc
      · rintro ⟨j, hj, e, ha, hd⟩
        cases j with
        | zero =>
          have e0 : s = d := e
          rw [e0]
        | succ j =>
          exfalso
          exact hc (ha 0 (by omega))

/-- The first unassigned variable on a walk is determined. -/
theorem first_unique (S : solver) (s d1 d2 : Int) (j1 j2 : Nat)
    (e1 : (S.prev)^[j1] s = d1) (a1 : ∀ i, i < j1 → taken S ((S.prev)^[i] s))
    (f1 : ¬ taken S d1)
    (e2 : (S.prev)^[j2] s = d2) (a2 : ∀ i, i < j2 → taken S ((S.prev)^[i] s))
    (f2 : ¬ taken S d2) : d1 = d2 := by
  rcases Nat.lt_trichotomy j1 j2 with h | h | h
  · exfalso
    have := a2 j1 h
    rw [e1] at this
    exact f1 this
  · rw [← e1, ← e2, h]
  · exfalso
    have := a1 j2 h
    rw [e2] at this
    exact f2 this

theorem walkTo_head (S : solver) : walkTo S S.head 0 :=
  ⟨rfl, fun j hj => absurd hj (Nat.not_lt_zero j)⟩

/-- A walk that resumes behind assigned variables is a part of the walk from
`head`. -/
theorem walkTo_extend {S : solver} {s d : Int} {k j : Nat} (h : walkTo S s k)
    (e : (S.prev)^[j] s = d) (ha : ∀ i, i < j → taken S ((S.prev)^[i] s)) :
    walkTo S d (j + k) := by
  obtain ⟨h1, h2⟩ := h
  refine ⟨?_, ?_⟩
  · rw [Function.iterate_add_apply, h1]
    exact e
  · intro i hi
    by_cases hk : i < k
    · exact h2 i hk
    · obtain ⟨m, rfl⟩ : ∃ m, i = m + k := ⟨i - k, by omega⟩
      rw [Function.iterate_add_apply, h1]
      exact ha m (by omega)

theorem walkTo_mono {S T : solver} {d : Int} {k : Nat} (hp : T.prev = S.prev)
    (hh : T.head = S.head) (hf : ∀ l, S.fals l ≠ 0 → T.fals l ≠ 0) (h : walkTo S d k) :
    walkTo T d k := by
  obtain ⟨h1, h2⟩ := h
  unfold walkTo
  rw [hp, hh]
  refine ⟨h1, ?_⟩
  intro j hj
  rcases h2 j hj with e | e
  · exact Or.inl (hf _ e)
  · exact Or.inr (hf _ e)

/-- Where the decision walk of a turn starts: the state after `propagate` and
the restart block keeps what `TurnInv` says, for the variable at which the
walk is taken up. -/
theorem turn_start (g : Nat) (P : solver) (dec : Int) (v : Int) (S1 S2 : solver)
    (hI : TurnInv P dec) (hp : propagate g P = Except.ok (v, S1))
    (hb : (if S1.nLemmas > P.nLemmas then afterConflict g S1 else Except.ok S1)
      = Except.ok S2) :
    TurnInv S2 (if S1.nLemmas > P.nLemmas then S1.head else dec) := by
  obtain ⟨hN, k, hW⟩ := hI
  have n1 : NonNeg S1 := propagate_nonneg g P (v, S1) hN hp
  by_cases hL : S1.nLemmas > P.nLemmas
  · rw [if_pos hL] at hb ⊢
    have e := afterConflict_order _ _ _ hb
    refine ⟨NonNeg_of_order e n1, 0, ?_⟩
    rw [← order_head e]
    exact walkTo_head S2
  · rw [if_neg hL] at hb ⊢
    simp only [Except.ok.injEq] at hb
    subst hb
    refine ⟨n1, k, ?_⟩
    have hst := propagate_still g P (v, S1) hp
    have hle : P.nLemmas ≤ S1.nLemmas := hst.1
    obtain ⟨e1, -, e3, -, -, -, e5⟩ := hst.2 (by
      show S1.nLemmas = P.nLemmas
      omega)
    exact walkTo_mono e1 e3 e5 hW

theorem iabs_choice (S : solver) (d : Int) (h : 0 ≤ d) :
    iabs (if S.model d ≠ 0 then d else -d) = d := by
  split_ifs
  · unfold iabs; rw [if_neg (by omega)]
  · rw [iabs_neg]; unfold iabs; rw [if_neg (by omega)]

/-- A turn of the loop of `solve` keeps `TurnInv`. -/
theorem solveTurn_inv (f : Nat) (S : solver) (dec : Int) (T : solver) (dec1 : Int)
    (hI : TurnInv S dec) (h : solveTurn f S dec = Except.ok (Sum.inr (T, dec1))) :
    TurnInv T dec1 := by
  unfold solveTurn at h
  cases hp : propagate f S with
  | error e => rw [hp] at h; cases h
  | ok q =>
    obtain ⟨v, S1⟩ := q
    rw [hp] at h
    simp only at h
    by_cases hv : v = UNSAT
    · rw [if_pos hv] at h
      cases h
    · rw [if_neg hv] at h
      have hptr : ∀ (α : Type) (x y : α), (if decide (S1.nLemmas > S.nLemmas) = true then x
          else y) = (if S1.nLemmas > S.nLemmas then x else y) := by
        intro α x y
        by_cases hL : S1.nLemmas > S.nLemmas
        · rw [if_pos hL, if_pos (decide_eq_true hL)]
        · rw [if_neg hL, if_neg (by simp only [decide_eq_true_eq]; exact hL)]
      rw [hptr, hptr] at h
      cases ha : (if S1.nLemmas > S.nLemmas then afterConflict f S1 else Except.ok S1) with
      | error e => rw [ha] at h; cases h
      | ok S2 =>
        rw [ha] at h
        simp only at h
        obtain ⟨hN, k, hW⟩ := turn_start f S dec v S1 S2 hI hp ha
        cases hn : nextDecision f S2 (if S1.nLemmas > S.nLemmas then S1.head else dec) with
        | error e => rw [hn] at h; cases h
        | ok d =>
          rw [hn] at h
          simp only at h
          by_cases hd : d = 0
          · rw [if_pos hd] at h
            cases h
          · rw [if_neg hd] at h
            simp only [Except.ok.injEq, Sum.inr.injEq, Prod.mk.injEq] at h
            obtain ⟨hT, hdec⟩ := h
            obtain ⟨j, -, e, ha2, -⟩ := (nextDecision_iff S2 _ _ _).1 hn
            have hW2 : walkTo S2 d (j + k) := walkTo_extend hW e ha2
            have hd0 : 0 ≤ d := by
              rw [← hW2.1]
              exact iterate_nonneg hN _
            rw [← hT, ← hdec, iabs_choice S2 d hd0]
            refine ⟨hN, j + k, ?_⟩
            exact walkTo_mono (S := S2) rfl rfl (pushDecision_fals_mono S2 d) hW2

/-- Every turn of the loop of `solve` starts in a state with `TurnInv`. -/
theorem solveTurns_inv : ∀ (k f : Nat) (S : solver) (dec : Int) (T : solver) (dec1 : Int),
    TurnInv S dec → solveTurns k f S dec = Except.ok (Sum.inr (T, dec1)) → TurnInv T dec1 := by
  intro k
  induction k with
  | zero =>
    intro f S dec T dec1 hI h
    simp only [solveTurns, Except.ok.injEq, Sum.inr.injEq, Prod.mk.injEq] at h
    rw [← h.1, ← h.2]
    exact hI
  | succ k ih =>
    intro f S dec T dec1 hI h
    rw [solveTurns] at h
    cases ht : solveTurn (f + k) S dec with
    | error e => rw [ht] at h; cases h
    | ok q =>
      cases q with
      | inl r => rw [ht] at h; cases h
      | inr p =>
        obtain ⟨S1, d1⟩ := p
        rw [ht] at h
        exact ih f S1 d1 T dec1 (solveTurn_inv _ _ _ _ _ hI ht) h

/-- Following `prev` for `j` steps past variables other than 0 leaves the
rest of the chain. -/
theorem prevChain_drop (p : Int → Int) : ∀ (j : Nat) (h : Int) (L : List Int),
    prevChain p h L → (∀ i, i < j → p^[i] h ≠ 0) → prevChain p (p^[j] h) (L.drop j) := by
  intro j
  induction j with
  | zero => intro h L hc _; exact hc
  | succ j ih =>
    intro h L hc hz
    cases L with
    | nil =>
      exfalso
      have h0 : h = 0 := hc
      exact hz 0 (by omega) h0
    | cons a L =>
      have ha : h = a := hc.1
      rw [Function.iterate_succ_apply, List.drop_succ_cons, ha]
      refine ih _ _ hc.2 ?_
      intro i hi
      have := hz (i + 1) (by omega)
      rw [Function.iterate_succ_apply, ha] at this
      exact this

/-- C21: in every turn of the loop of `solve`, also after `reduceDB` has run.
`S0` is the state after ingestion, `P` and `dec` are the state and the value
of the variable `decision` with which a turn of the loop starts (after any
number `k` of turns: `solve` goes on from there), `S1` is the state after the call of `propagate` of that
turn and `S2` the state after the restart block, which runs when a lemma was
learned.  The decision walk starts at `head` when a lemma was learned and at
the variable decided last otherwise.  When it returns `d`, then `d` is the
first unassigned variable met when following `prev` from the current `head`:
`d` is reached from `head` after some number `j` of steps, every variable met
before it has a false literal, and `fals[d]` and `fals[-d]` are 0; the walk
started at `head` returns the same `d` and no other; the literal made true is
`d` if `model[d]` is not 0 and `-d` otherwise, its negation gets `fals = 1`
and is pushed on the trail, the other entries of `fals` stay, and `reason[d]`
is set to 0.  The walk ends whenever following `prev` from `head` comes to 0
(`prevChain`) and `fals[0]` is 0.  In every turn `solve` returns `SAT` when
the walk reaches 0 and goes on with the decision otherwise, and an answer
`SAT` of `solve` comes from a walk that reached 0. -/
theorem decision_is_first_unassigned (Sb : solver) (n m : Int) (cs : List (List Int))
    (r0 : Int) (S0 : solver) (hparse : parse Sb n m cs = Except.ok (r0, S0))
    (k f : Nat) (P : solver) (dec : Int)
    (hturns : solveTurns k f S0 S0.head = Except.ok (Sum.inr (P, dec)))
    (g : Nat) (v : Int) (S1 S2 : solver) (hprop : propagate g P = Except.ok (v, S1))
    (hblock : (if S1.nLemmas > P.nLemmas then afterConflict g S1 else Except.ok S1)
      = Except.ok S2) :
    solve (f + k) S0 = solveLoop f P dec ∧
    (∀ f1 d, nextDecision f1 S2 (if S1.nLemmas > P.nLemmas then S1.head else dec)
        = Except.ok d →
      (∃ j, (S2.prev)^[j] S2.head = d ∧
        (∀ i, i < j → S2.fals ((S2.prev)^[i] S2.head) ≠ 0 ∨
          S2.fals (-((S2.prev)^[i] S2.head)) ≠ 0) ∧
        nextDecision (j + 1) S2 S2.head = Except.ok d) ∧
      S2.fals d = 0 ∧ S2.fals (-d) = 0 ∧ 0 ≤ d ∧
      (∀ f2 d2, nextDecision f2 S2 S2.head = Except.ok d2 → d2 = d) ∧
      (pushDecision S2 d).fals (-(if S2.model d ≠ 0 then d else -d)) = 1 ∧
      (∀ l, l ≠ -(if S2.model d ≠ 0 then d else -d) → (pushDecision S2 d).fals l = S2.fals l) ∧
      (pushDecision S2 d).falseStack S2.assigned = -(if S2.model d ≠ 0 then d else -d) ∧
      (pushDecision S2 d).assigned = S2.assigned + 1 ∧
      (pushDecision S2 d).reason d = 0) ∧
    (∀ L f1, prevChain S2.prev S2.head L → S2.fals 0 = 0 → L.length < f1 →
      ∃ d, nextDecision f1 S2 (if S1.nLemmas > P.nLemmas then S1.head else dec)
        = Except.ok d) ∧
    (∀ f S0 dec0 r, solveLoop (f + 1) S0 dec0 = Except.ok r →
      ∃ v S1, propagate f S0 = Except.ok (v, S1) ∧
        ((v = UNSAT ∧ r = (UNSAT, S1)) ∨
         (v ≠ UNSAT ∧ ∃ S2 d,
            (if S1.nLemmas > S0.nLemmas then afterConflict f S1 else Except.ok S1)
              = Except.ok S2 ∧
            nextDecision f S2 (if S1.nLemmas > S0.nLemmas then S1.head else dec0)
              = Except.ok d ∧
            ((d = 0 ∧ r = (SAT, S2)) ∨
             (d ≠ 0 ∧ solveLoop f (pushDecision S2 d)
                (iabs (if S2.model d ≠ 0 then d else -d)) = Except.ok r))))) ∧
    (∀ f S0 dec0 v T, solveLoop f S0 dec0 = Except.ok (v, T) →
      (v = SAT ∧ ∃ f1 p, nextDecision f1 T p = Except.ok 0) ∨
      (v = UNSAT ∧ ∃ f1 S1, propagate f1 S1 = Except.ok (UNSAT, T))) := by
  have hI0 : TurnInv S0 S0.head := ⟨parse_nonneg Sb n m cs (r0, S0) hparse, 0, walkTo_head S0⟩
  have hI := solveTurns_inv k f S0 S0.head P dec hI0 hturns
  obtain ⟨hN, k0, hW⟩ := turn_start g P dec v S1 S2 hI hprop hblock
  refine ⟨?_, ?_, ?_, solveLoop_iter, solveLoop_answer⟩
  · unfold solve
    rw [solveLoop_turns k f S0 S0.head, hturns]
  · intro f1 d hn
    obtain ⟨j, -, e, ha, hd⟩ := (nextDecision_iff S2 _ _ _).1 hn
    have hW2 : walkTo S2 d (j + k0) := walkTo_extend hW e ha
    have hd0 : 0 ≤ d := by
      rw [← hW2.1]
      exact iterate_nonneg hN _
    have hfree : S2.fals d = 0 ∧ S2.fals (-d) = 0 := by
      unfold taken at hd
      push_neg at hd
      exact hd
    refine ⟨⟨j + k0, hW2.1, hW2.2, ?_⟩, hfree.1, hfree.2, hd0, ?_, ?_, ?_, ?_, rfl, ?_⟩
    · exact (nextDecision_iff S2 _ _ _).2 ⟨j + k0, by omega, hW2.1, hW2.2, hd⟩
    · intro f2 d2 h2
      obtain ⟨j2, -, e2, a2, b2⟩ := (nextDecision_iff S2 _ _ _).1 h2
      exact first_unique S2 S2.head d2 d j2 (j + k0) e2 a2 b2 hW2.1 hW2.2 hd
    · show upd S2.fals (-(if S2.model d ≠ 0 then d else -d)) 1 _ = 1
      rw [upd_same]
    · intro l hl
      show upd S2.fals (-(if S2.model d ≠ 0 then d else -d)) 1 l = _
      rw [upd_other _ _ hl]
    · show upd S2.falseStack S2.assigned (-(if S2.model d ≠ 0 then d else -d)) S2.assigned = _
      rw [upd_same]
    · show upd S2.reason (iabs (if S2.model d ≠ 0 then d else -d)) 0 d = 0
      rw [iabs_choice S2 d hd0, upd_same]
  · intro L f1 hc h0 hf
    have hz : ∀ i, i < k0 → (S2.prev)^[i] S2.head ≠ 0 := by
      intro i hi e
      have := hW.2 i hi
      rw [e] at this
      rcases this with t | t
      · exact t h0
      · exact t h0
    have hc2 := prevChain_drop S2.prev k0 S2.head L hc hz
    rw [hW.1] at hc2
    refine nextDecision_total S2 h0 (L.drop k0) _ f1 hc2 ?_
    rw [List.length_drop]
    omega

theorem decision_is_first_unassigned_witness :
    parse blank 4 1 walkClauses = Except.ok (SAT, walkStart) ∧
    solveTurns 2 20 walkStart walkStart.head = Except.ok (Sum.inr (walkTurn, 3)) ∧
    propagate 20 walkTurn = Except.ok (SAT, walkNext) ∧
    walkNext.head = 4 ∧
    nextDecision 20 walkNext 3 = Except.ok 2 ∧
    (walkNext.prev)^[2] walkNext.head = 2 ∧
    nextDecision 20 walkNext walkNext.head = Except.ok 2 ∧
    walkNext.fals 2 = 0 ∧ walkNext.fals (-2) = 0 ∧
    (pushDecision walkNext 2).fals 2 = 1 ∧ (pushDecision walkNext 2).reason 2 = 0 ∧
    (∃ d, nextDecision 5 walkNext 3 = Except.ok d) := by
  have hp : parse blank 4 1 walkClauses = Except.ok (SAT, walkStart) :=
    ok_stateOf _ _ (by decide!)
  have ht : solveTurns 2 20 walkStart walkStart.head = Except.ok (Sum.inr (walkTurn, 3)) :=
    turnState_ok _ _ (by decide!)
  have hq : propagate 20 walkTurn = Except.ok (SAT, walkNext) := ok_stateOf _ _ (by decide!)
  have hL : ¬ walkNext.nLemmas > walkTurn.nLemmas := by decide!
  have hb : (if walkNext.nLemmas > walkTurn.nLemmas then afterConflict 20 walkNext
      else Except.ok walkNext) = Except.ok walkNext := if_neg hL
  have h := decision_is_first_unassigned blank 4 1 walkClauses SAT walkStart hp 2 20 walkTurn 3
    ht 20 SAT walkNext walkNext hq hb
  rw [if_neg hL] at h
  have hn : nextDecision 20 walkNext 3 = Except.ok 2 := ok_of_toOption _ _ (by decide!)
  obtain ⟨-, c1, c2, -, -, c3, -, -, -, c4⟩ := h.2.1 20 2 hn
  have hm : (if walkNext.model 2 ≠ 0 then (2 : Int) else -2) = -2 := by decide!
  rw [hm] at c3
  refine ⟨hp, ht, hq, by decide!, hn, by decide!, ok_of_toOption _ _ (by decide!), c1, c2, c3,
    c4, ?_⟩
  exact h.2.2.1 [4, 3, 2, 1] 5 (by decide!) (by decide!) (by decide)

/-! ## Runs that go on after `reduceDB`

`solve` calls `restart` and then `reduceDB (S, 6)` when the fast average is
well above the slow one and more than `maxLemmas` lemmas are held.  The runs
of this section are built as `solvedState` is: a whole run of `main` on a small file,
then `restart` and `reduceDB (S, 6)`, and then the loop of `solve` goes on as
it does after the restart block: the decision walk from `head`, the decision,
`propagate`.  In each of these runs every arena cell that is read or written
lies between the first clause record and `mem_used`; the one exception is the
cell `lemma[1]` that `propagate` reads behind the empty lemma of the last run,
a cell that has never been written. -/

/-- C18: the code departs from the claim.  `unassign` clears `fals[lit]` only
and nothing else resets `reason[]`, although the comment in `implied` takes a
literal with `reason` 0 for `a decision or unassigned`.  In the run on
`p cnf 3 2` with clauses `2 3` and `3 -2`, the first turn of the loop of
`solve` decides variable 3; the call of `propagate` of the second turn makes
`-2` true with the clause at 45 as its reason, finds the other clause
falsified, learns the unit lemma `3` and jumps back to the root.  When it
returns (`SAT`), the trail holds the one literal `-3`, variable 2 is
unassigned and no decision, and `reason[2]` is still 45. -/
theorem unassign_leaves_stale_reason :
    parse blank 3 2 staleClauses = Except.ok (SAT, staleStart) ∧
    solveTurns 1 20 staleStart staleStart.head = Except.ok (Sum.inr (staleTurn, 3)) ∧
    staleTurn.assigned = 1 ∧ staleTurn.falseStack 0 = 3 ∧ staleTurn.reason 3 = 0 ∧
    staleTurn.nLemmas = 0 ∧
    propagate 20 staleTurn = Except.ok (SAT, staleAfter) ∧
    staleAfter.nLemmas = 1 ∧
    staleAfter.assigned = 1 ∧ staleAfter.falseStack 0 = -3 ∧
    staleAfter.fals (-3) = IMPLIED ∧
    staleAfter.fals 2 = 0 ∧ staleAfter.fals (-2) = 0 ∧ staleAfter.reason 2 = 45 ∧
    litsAt staleAfter 45 4 = [-2, 3] ∧
    ¬ (staleAfter.reason 2 = 0 ↔ staleAfter.fals 2 = 0 ∧ staleAfter.fals (-2) = 0) :=
  ⟨ok_stateOf _ _ (by decide!), turnState_ok _ _ (by decide!), by decide!, by decide!,
    by decide!, by decide!, ok_stateOf _ _ (by decide!), by decide!⟩

end Microsat
